import Mathlib

/-!
# FileSystem: a FAT-style file system on a virtual block device

A shallow embedding of `src/libfs/fs.c` and the statements of its specification
that were checked against it.

Conventions of the embedding.

* The module-level variables of `fs.c` (`disk_open`, `root_dir_frees`,
  `is_mounted`, `fat_frees`, `MAX_FAT_READ_SIZE`, `fd_table`, `open_files`,
  `sblock`, `fat_array`, `root_dir`) are the fields of the record `FS`; every API
  function takes the state and returns its C return value with the new state.
* Bytes and array cells are natural numbers.  A C string is the run of bytes
  before the first NUL (`cstr`).
* A function that indexes an array with a value it has read from the state
  returns an `Outcome`: `done` when the call returns, `fault` when the C code
  would access an array outside its bounds (undefined behaviour), `diverge` when
  a `while` loop was cut off by the fuel of the model.
* `size_t` to `int` conversions of the caller's `count` are explicit (`toInt32`).
  The handle's offset is a natural number: its conversions to `int` in
  `offset / BLOCK_SIZE` and in the intra-block offset are the identity below
  `2 ^ 31`, which covers every file a 16-bit FAT can hold.
* The block store, the constants of `fs.h` and `disk.h`, and the layout of the
  packed records are not part of `fs.c`; they are modelled from the
  specification, each under a comment that says so.
-/

namespace FileSystem

/-! ## Constants -/

/-- Modelled from the spec: `BLOCK_SIZE` of the absent `disk.h`; the block size
is 4096 bytes. -/
def BLOCK_SIZE : Nat := 4096

/-- Modelled from the spec: `FS_FILENAME_LEN` of the absent `fs.h`; the filename
buffer has 16 bytes. -/
def FS_FILENAME_LEN : Nat := 16

/-- Modelled from the spec: `FS_FILE_MAX_COUNT` of the absent `fs.h`; the root
directory has 128 slots. -/
def FS_FILE_MAX_COUNT : Nat := 128

/-- Modelled from the spec: `FS_OPEN_MAX_COUNT` of the absent `fs.h`; the handle
table has 32 slots. -/
def FS_OPEN_MAX_COUNT : Nat := 32

/-- End-of-chain marker of the FAT, `#define FAT_EOC 0xFFFF`. -/
def FAT_EOC : Nat := 0xFFFF

/-- Marker of an unused handle slot, `#define UNUSED -1`. -/
def UNUSED : Int := -1

/-- The value `(uint64_t) UNUSED` stored in the offset of an unused handle. -/
def UNUSED_OFFSET : Nat := 2 ^ 64 - 1

/-! ## Data model -/

/-- Handle table entry, `struct FDEntry`: the root directory index (or `UNUSED`)
and the byte offset. -/
structure FDEntry where
  fd_num : Int
  offset : Nat
deriving DecidableEq, Repr

/-- The superblock, `struct Superblock` (padding left out). -/
structure Superblock where
  signature : List Nat
  block_amt : Nat
  rd_start_idx : Nat
  data_start_idx : Nat
  data_block_amt : Nat
  fat_block_amt : Nat
deriving DecidableEq, Repr

/-- Root directory entry, the packed `struct RootDirEntry`: the 16 bytes of the
`name` buffer, the 32-bit `size`, the 16-bit `first_db_idx` and 10 padding
bytes. -/
structure RootDirEntry where
  name : List Nat
  size : Nat
  first_db_idx : Nat
  padding : List Nat
deriving DecidableEq, Repr

/-- Modelled from the spec: the block store of the absent `disk.c`, a backing
store of `block_count` fixed-size blocks that can be read and written by index.
Following the on-disk layout of the specification, a block is kept in the shape
of the region it is accessed as: the superblock, a block of FAT entries, the
directory block, or a data block given by its byte at each position. The
shapes are kept apart, one map per shape from block index to content: writing
a block in one shape leaves the other shapes of that index alone, which is the
behaviour of the store as long as the regions do not overlap (`Mounted`). -/
structure Disk where
  opened : Bool
  block_count : Nat
  super_block : Superblock
  fat_blocks : Nat → List Nat
  dir_blocks : Nat → List RootDirEntry
  data_blocks : Nat → Nat → Nat

/-- The engine state: the module-level variables of `fs.c` and the block store
they mirror. -/
structure FS where
  disk_open : Bool
  root_dir_frees : Int
  is_mounted : Bool
  fat_frees : Nat
  MAX_FAT_READ_SIZE : Int
  fd_table : List FDEntry
  open_files : Int
  sblock : Superblock
  fat_array : List Nat
  root_dir : List RootDirEntry
  disk : Disk

/-- Result of a call that indexes arrays with stored values or loops on the
state. -/
inductive Outcome (α : Type) where
  | done (a : α)
  | fault
  | diverge
deriving DecidableEq, Repr

/-! ## Block store interface -/

/-- Modelled from the spec: `block_read(i, buf)` on a data block; fails when no
store is open or the index is outside the store. -/
def block_read_data (d : Disk) (i : Nat) : Option (Nat → Nat) :=
  if d.opened && decide (i < d.block_count) then some (d.data_blocks i) else none

/-- Modelled from the spec: `block_write(i, buf)` on a data block. -/
def block_write_data (d : Disk) (i : Nat) (buf : Nat → Nat) : Option Disk :=
  if d.opened && decide (i < d.block_count) then
    some { d with data_blocks := fun j => if j = i then buf else d.data_blocks j }
  else none

/-- Modelled from the spec: `block_read(i, root_dir)`. -/
def block_read_dir (d : Disk) (i : Nat) : Option (List RootDirEntry) :=
  if d.opened && decide (i < d.block_count) then some (d.dir_blocks i) else none

/-- Modelled from the spec: `block_write(i, root_dir)`. -/
def block_write_dir (d : Disk) (i : Nat) (dir : List RootDirEntry) : Option Disk :=
  if d.opened && decide (i < d.block_count) then
    some { d with dir_blocks := fun j => if j = i then dir else d.dir_blocks j }
  else none

/-- Modelled from the spec: `block_read(i, FAT_buf)`. -/
def block_read_fat (d : Disk) (i : Nat) : Option (List Nat) :=
  if d.opened && decide (i < d.block_count) then some (d.fat_blocks i) else none

/-- Modelled from the spec: `block_write(i, &fat_array[..])`. -/
def block_write_fat (d : Disk) (i : Nat) (entries : List Nat) : Option Disk :=
  if d.opened && decide (i < d.block_count) then
    some { d with fat_blocks := fun j => if j = i then entries else d.fat_blocks j }
  else none

/-- Modelled from the spec: `block_read(0, &sblock)`. -/
def block_read_super (d : Disk) (i : Nat) : Option Superblock :=
  if d.opened && decide (i < d.block_count) then some d.super_block else none

/-- Modelled from the spec: `block_disk_open(diskname)`, where `image` is the
backing store of that name, if there is one; it fails when a store is open
already. -/
def block_disk_open (d : Disk) (image : Option Disk) : Option Disk :=
  if d.opened then none
  else match image with
    | some img => some { img with opened := true }
    | none => none

/-- Modelled from the spec: `block_disk_count()`. -/
def block_disk_count (d : Disk) : Nat := d.block_count

/-! ## C helpers -/

/-- The C string stored at the start of a byte sequence: the bytes before the
first NUL. -/
def cstr (mem : List Nat) : List Nat := mem.takeWhile (fun c => c != 0)

/-- Little-endian bytes of a 32-bit value. -/
def le32 (n : Nat) : List Nat :=
  [n % 256, n / 256 % 256, n / 65536 % 256, n / 16777216 % 256]

/-- Little-endian bytes of a 16-bit value. -/
def le16 (n : Nat) : List Nat := [n % 256, n / 256 % 256]

/-- The 32 bytes of a packed directory record, read from its `name` field on. -/
def entry_bytes (e : RootDirEntry) : List Nat :=
  e.name ++ le32 e.size ++ le16 e.first_db_idx ++ e.padding

/-- The string `strcmp` sees at `root_dir[i].name`: the bytes of the record up
to the first NUL. -/
def entry_name (e : RootDirEntry) : List Nat := cstr (entry_bytes e)

/-- The test `!strcmp(root_dir[i].name, filename)`. -/
def name_matches (e : RootDirEntry) (filename : List Nat) : Bool :=
  entry_name e == cstr filename

/-- The effect of `strcpy(root_dir[index].name, filename)` for a string of at
most 16 characters: the characters and the terminator are stored from `name[0]`
on; what falls within the 16 bytes of the buffer becomes part of `name`, and the
terminator of a 16-character string lands on the low byte of `size`. -/
def strcpy_name (e : RootDirEntry) (filename : List Nat) : RootDirEntry :=
  let src := cstr filename ++ [0]
  { e with
    name := (src ++ e.name.drop src.length).take FS_FILENAME_LEN
    size := if src.length ≤ FS_FILENAME_LEN then e.size else e.size / 256 * 256 }

/-- Conversion of a `size_t` to `int`: the low 32 bits, read as two's
complement. -/
def toInt32 (n : Nat) : Int :=
  if n % 2 ^ 32 < 2 ^ 31 then ((n % 2 ^ 32 : Nat) : Int) else ((n % 2 ^ 32 : Nat) : Int) - 2 ^ 32

/-- Conversion of an `int` to `uint64_t`. -/
def toUInt64 (i : Int) : Nat := (i % 2 ^ 64).toNat

/-- Source function `min`. -/
def min (n1 n2 : Int) : Int := if n1 < n2 then n1 else n2

/-- Source function `ceiling`, with C's truncating division. -/
def ceiling (a b : Int) : Int := Int.tdiv a b + (if Int.tmod a b ≠ 0 then 1 else 0)

/-- Index of the first element that satisfies `p`: the shape of the source's
`for` loops that stop at the first hit. -/
def first_index {α : Type} (p : α → Bool) : List α → Option Nat
  | [] => none
  | a :: l => if p a then some 0 else (first_index p l).map (fun i => i + 1)

/-! ## File helper functions -/

/-- Source function `file_exists`. -/
def file_exists (s : FS) (filename : List Nat) : Bool :=
  (s.root_dir.take FS_FILE_MAX_COUNT).any (fun e => name_matches e filename)

/-- Source function `valid_fd`. -/
def valid_fd (fd : Int) : Bool :=
  if fd < 0 ∨ fd ≥ (FS_OPEN_MAX_COUNT : Int) then false else true

/-- Source function `valid_filename_len`. -/
def valid_filename_len (filename : List Nat) : Bool :=
  if filename.headD 0 = 0 ∨ (cstr filename).length > FS_FILENAME_LEN then false else true

/-- Source function `is_open`. -/
def is_open (s : FS) (fd : Int) : Bool :=
  if !valid_fd fd then false
  else match s.fd_table[fd.toNat]? with
    | some e => e.fd_num != UNUSED
    | none => false

/-! ## FAT helpers -/

/-- Source function `find_empty_FAT_entry`; `none` stands for `-1`. -/
def find_empty_FAT_entry (s : FS) : Option Nat :=
  first_index (fun v => v == 0) (s.fat_array.take s.sblock.data_block_amt)

/-- The loop that writes the FAT back, shared by `fs_delete` and `fs_write`:
block `i + 1` receives the entries from `i * BLOCK_SIZE / 2` on (up to the end
of `fat_array`; the memory after the array is not modelled); the results of
the writes are ignored. -/
def write_fat_blocks (fat : List Nat) : Nat → Disk → Disk
  | 0, d => d
  | n + 1, d =>
    let d1 := write_fat_blocks fat n d
    match block_write_fat d1 (n + 1) ((fat.drop (n * BLOCK_SIZE / 2)).take (BLOCK_SIZE / 2)) with
    | some d2 => d2
    | none => d1

/-- Source function `read_FAT_entries`: the loop over the `BLOCK_SIZE / 2`
entries of one FAT block, `n` iterations from index `i` on. -/
def read_FAT_entries (FAT_buf : List Nat) (offset : Nat) : Nat → Nat → FS → Int × FS
  | 0, _, s => (0, s)
  | n + 1, i, s =>
    if ((i + offset : Nat) : Int) > s.MAX_FAT_READ_SIZE - 1 then (-1, s)
    else
      let v := FAT_buf.getD i 0
      let s1 : FS :=
        { s with fat_array := s.fat_array.set (i + offset) v
                 fat_frees := if v = FAT_EOC ∨ v ≠ 0 then (s.fat_frees + 65535) % 65536
                              else s.fat_frees }
      read_FAT_entries FAT_buf offset n (i + 1) s1

/-- The `for` loop of the source function `read_blocks`, `n` iterations from
FAT block `j` on. -/
def read_blocks_loop : Nat → Nat → FS → Int × FS
  | 0, _, s => (0, s)
  | n + 1, j, s =>
    match block_read_fat s.disk (j + 1) with
    | none => (-1, s)
    | some FAT_buf =>
      match read_FAT_entries FAT_buf (BLOCK_SIZE / 2 * j) (BLOCK_SIZE / 2) 0 s with
      | (0, s1) => read_blocks_loop n (j + 1) s1
      | (_, s1) => (0, s1)

/-- Source function `read_blocks`; the freshly allocated `fat_array` is taken
to be zero-filled. -/
def read_blocks (s : FS) : Int × FS :=
  read_blocks_loop s.sblock.fat_block_amt 0
    { s with fat_array := List.replicate s.sblock.data_block_amt 0 }

/-! ## API functions: mount -/

/-- The bytes of the signature `"ECS150FS"`. -/
def SIGNATURE : List Nat := [69, 67, 83, 49, 53, 48, 70, 83]

/-- The engine state at program start: the static initialisers of `fs.c`, and
no block store open. -/
def boot : FS :=
  { disk_open := false
    root_dir_frees := FS_FILE_MAX_COUNT
    is_mounted := false
    fat_frees := 0
    MAX_FAT_READ_SIZE := 0
    fd_table := List.replicate FS_OPEN_MAX_COUNT ⟨0, 0⟩
    open_files := 0
    sblock := ⟨List.replicate 8 0, 0, 0, 0, 0, 0⟩
    fat_array := []
    root_dir := List.replicate FS_FILE_MAX_COUNT ⟨List.replicate 16 0, 0, 0, List.replicate 10 0⟩
    disk := ⟨false, 0, ⟨[], 0, 0, 0, 0, 0⟩, fun _ => [], fun _ => [], fun _ _ => 0⟩ }

/-- Source function `fs_mount`; `image` is the backing store that
`block_disk_open(diskname)` finds, `none` when it cannot be opened. -/
def fs_mount (s : FS) (diskname : List Nat) (image : Option Disk) : Int × FS :=
  if (cstr diskname).length = 0 then (-1, s)
  else
    match block_disk_open s.disk image with
    | none => (-1, { s with disk_open := false })
    | some d =>
      let s1 : FS := { s with disk := d }
      match block_read_super s1.disk 0 with
      | none => (-1, { s1 with disk_open := false })
      | some sb =>
        let s2 : FS := { s1 with sblock := sb, disk_open := true }
        if s2.sblock.block_amt ≠ block_disk_count s2.disk then (-1, s2)
        else if s2.sblock.signature.take 8 ≠ SIGNATURE then (-1, s2)
        else
          let s3 : FS := { s2 with fat_frees := s2.sblock.data_block_amt
                                   MAX_FAT_READ_SIZE := s2.sblock.data_block_amt }
          let s4 := (read_blocks s3).2
          match block_read_dir s4.disk s4.sblock.rd_start_idx with
          | none => (-1, s4)
          | some dir =>
            let used := ((dir.take FS_FILE_MAX_COUNT).filter (fun e => e.name.headD 0 != 0)).length
            (0, { s4 with root_dir := dir
                          root_dir_frees := s4.root_dir_frees - used
                          fd_table := List.replicate FS_OPEN_MAX_COUNT ⟨UNUSED, UNUSED_OFFSET⟩
                          is_mounted := true })

/-! ## API functions: directory -/

/-- A directory record of zero bytes. -/
def empty_entry : RootDirEntry := ⟨List.replicate 16 0, 0, 0, List.replicate 10 0⟩

/-- The test of the slot search of `fs_create`:
`!root_dir[i].size && root_dir[i].name[0] == 0`. -/
def slot_is_empty (e : RootDirEntry) : Bool := e.size == 0 && e.name.headD 0 == 0

/-- The record `fs_create` leaves in the slot it claims: the name copied, size 0
and `FAT_EOC` as first block. -/
def created_entry (e : RootDirEntry) (filename : List Nat) : RootDirEntry :=
  { strcpy_name e filename with size := 0, first_db_idx := FAT_EOC }

/-- The directory slot of the first record whose name is `filename`: the search
loop shared by `fs_delete` and `fs_open`. -/
def slot_of (s : FS) (filename : List Nat) : Option Nat :=
  first_index (fun e => name_matches e filename) (s.root_dir.take FS_FILE_MAX_COUNT)

/-- Source function `fs_create`. -/
def fs_create (s : FS) (filename : List Nat) : Int × FS :=
  if !s.is_mounted || !valid_filename_len filename || file_exists s filename then (-1, s)
  else
    match first_index slot_is_empty (s.root_dir.take FS_FILE_MAX_COUNT) with
    | none => (-1, s)
    | some index =>
      let s1 : FS :=
        { s with root_dir := s.root_dir.set index
                   (created_entry (s.root_dir.getD index empty_entry) filename)
                 root_dir_frees := s.root_dir_frees - 1 }
      match block_write_dir s1.disk s1.sblock.rd_start_idx s1.root_dir with
      | none => (-1, s1)
      | some d => (0, { s1 with disk := d })

/-- Source function `fs_ls`: the return value and the lines printed, one
`(name, size, data_blk)` per directory slot whose name is not empty. -/
def fs_ls (s : FS) : Int × List (List Nat × Nat × Nat) :=
  if !s.is_mounted then (-1, [])
  else (0, ((s.root_dir.take FS_FILE_MAX_COUNT).filter (fun e => e.name.headD 0 != 0)).map
    (fun e => (entry_name e, e.size, e.first_db_idx)))

/-- Source function `fs_open`. -/
def fs_open (s : FS) (filename : List Nat) : Int × FS :=
  if !s.is_mounted || !valid_filename_len filename || !file_exists s filename
      || s.open_files == (FS_OPEN_MAX_COUNT : Int) then (-1, s)
  else
    let root_dir_idx : Nat :=
      match slot_of s filename with
      | some i => i
      | none => 0
    match first_index (fun e => e.fd_num == UNUSED) (s.fd_table.take FS_OPEN_MAX_COUNT) with
    | some i =>
      ((i : Int), { s with fd_table := s.fd_table.set i ⟨(root_dir_idx : Int), 0⟩
                           open_files := s.open_files + 1 })
    | none => (0, { s with open_files := s.open_files + 1 })

/-- Source function `fs_close`. -/
def fs_close (s : FS) (fd : Int) : Int × FS :=
  if !s.is_mounted || !valid_fd fd || !is_open s fd then (-1, s)
  else (0, { s with fd_table := s.fd_table.set fd.toNat ⟨UNUSED, UNUSED_OFFSET⟩
                    open_files := s.open_files - 1 })

/-- The cell `root_dir[i]` for an `int` index read from the handle table:
`none` outside the 128 slots of the array. -/
def root_dir_at (s : FS) (i : Int) : Option RootDirEntry :=
  if 0 ≤ i ∧ i < (FS_FILE_MAX_COUNT : Int) then s.root_dir[i.toNat]? else none

/-- Source function `fs_stat`. -/
def fs_stat (s : FS) (fd : Int) : Outcome (Int × FS) :=
  if !s.is_mounted || !valid_fd fd || !is_open s fd then .done (-1, s)
  else
    match block_read_dir s.disk s.sblock.rd_start_idx with
    | none => .done (-1, s)
    | some dir =>
      let s1 := { s with root_dir := dir }
      match s1.fd_table[fd.toNat]? with
      | none => .fault
      | some h =>
        if h.fd_num = -1 then .done (-1, s1)
        else match root_dir_at s1 h.fd_num with
          | none => .fault
          | some e => .done (toInt32 e.size, s1)

/-- The statement `block_read(sblock.rd_start_idx, root_dir)` of `fs_lseek`,
whose result is ignored: the directory mirror is read again from the store
when the read succeeds. -/
def reload_root_dir (s : FS) : FS :=
  match block_read_dir s.disk s.sblock.rd_start_idx with
  | some dir => { s with root_dir := dir }
  | none => s

/-- Source function `fs_lseek`. -/
def fs_lseek (s : FS) (fd : Int) (offset : Nat) : Outcome (Int × FS) :=
  if !s.is_mounted || !valid_fd fd || !is_open s fd then .done (-1, s)
  else
    let s1 : FS := reload_root_dir s
    match s1.fd_table[fd.toNat]? with
    | none => .fault
    | some h =>
      match root_dir_at s1 h.fd_num with
      | none => .fault
      | some e =>
        if offset > e.size then .done (-1, s1)
        else .done (0, { s1 with fd_table := s1.fd_table.set fd.toNat { h with offset := offset } })

/-! ## API functions: delete -/

/-- The first loop of `fs_delete`: the last index below `rd_start_idx` whose
name matches, `-1` when there is none. -/
def delete_fd_scan (dir : List RootDirEntry) (filename : List Nat) : Nat → Outcome Int
  | 0 => .done (-1)
  | n + 1 =>
    match delete_fd_scan dir filename n with
    | .done fd =>
      if n < FS_FILE_MAX_COUNT then
        match dir[n]? with
        | some e => if name_matches e filename then .done (n : Int) else .done fd
        | none => .fault
      else .fault
    | r => r

/-- The `while (next_idx != FAT_EOC)` loop of `fs_delete` on the variables
`fat_array`, `first_db_idx`, `next_idx` and `fat_frees`. -/
def free_chain_loop : Nat → List Nat → Nat → Nat → Nat → Outcome (List Nat × Nat × Nat)
  | 0, fat, first_db_idx, next_idx, fat_frees =>
    if next_idx = FAT_EOC then .done (fat, first_db_idx, fat_frees) else .diverge
  | fuel + 1, fat, first_db_idx, next_idx, fat_frees =>
    if next_idx = FAT_EOC then .done (fat, first_db_idx, fat_frees)
    else
      let fat1 := fat.set first_db_idx 0
      match fat1[next_idx]? with
      | none => .fault
      | some nn => free_chain_loop fuel fat1 next_idx nn ((fat_frees + 1) % 65536)

/-- Source function `fs_delete`. -/
def fs_delete (s : FS) (filename : List Nat) (fuel : Nat) : Outcome (Int × FS) :=
  match delete_fd_scan s.root_dir filename s.sblock.rd_start_idx with
  | .fault => .fault
  | .diverge => .diverge
  | .done fd =>
    if !s.is_mounted || !valid_filename_len filename || !file_exists s filename
        || is_open s fd then .done (-1, s)
    else
      let hit := slot_of s filename
      let first_db_idx : Nat :=
        match hit with
        | some i => (s.root_dir.getD i empty_entry).first_db_idx
        | none => 0
      let s1 : FS :=
        match hit with
        | some i =>
          let e := s.root_dir.getD i empty_entry
          { s with root_dir := s.root_dir.set i { e with name := e.name.set 0 0, size := 0 }
                   root_dir_frees := s.root_dir_frees + 1 }
        | none => s
      match s1.fat_array[first_db_idx]? with
      | none => .fault
      | some next_idx =>
        match free_chain_loop fuel s1.fat_array first_db_idx next_idx s1.fat_frees with
        | .fault => .fault
        | .diverge => .diverge
        | .done (fat, last, frees) =>
          let s2 : FS := { s1 with fat_array := fat.set last 0, fat_frees := (frees + 1) % 65536 }
          let d1 : Disk :=
            match block_write_dir s2.disk s2.sblock.rd_start_idx s2.root_dir with
            | some d => d
            | none => s2.disk
          .done (0, { s2 with disk := write_fat_blocks s2.fat_array s2.sblock.fat_block_amt d1 })

/-! ## API functions: write and read -/

/-- The `for` loop of `fs_write` that walks to the starting block, on the
variables `prev_idx` and `curr_idx`. -/
def write_walk (fat : List Nat) : Nat → Nat → Nat → Outcome (Nat × Nat)
  | 0, prev_idx, curr_idx => .done (prev_idx, curr_idx)
  | n + 1, _, curr_idx =>
    match fat[curr_idx]? with
    | none => .fault
    | some nxt => write_walk fat n curr_idx nxt

/-- The variables of the `while (count > 0)` loop of `fs_write`; the engine
state carries `fat_array` and the block store. -/
structure WriteVars where
  s : FS
  count : Nat
  offset : Nat
  offset_in_block : Nat
  amt_written : Int
  prev_idx : Nat
  curr_idx : Nat

/-- The bounce buffer after `memcpy(&data_written_buf[offset_in_block],
buf + amt_written, n)`: the `n` bytes from position `offset_in_block` on are
the caller's bytes from `amt_written` on. -/
def memcpy_into (blk : Nat → Nat) (offset_in_block : Nat) (buf : List Nat)
    (amt_written n : Nat) : Nat → Nat :=
  fun j =>
    if offset_in_block ≤ j ∧ j < offset_in_block + n then
      buf.getD (amt_written + (j - offset_in_block)) 0
    else blk j

/-- The allocation step at the head of the `while` body of `fs_write`:
`if (curr_idx == FAT_EOC) { ... }`; `none` stands for `break`. -/
def write_alloc (w : WriteVars) : Outcome (Option WriteVars) :=
  if w.curr_idx = FAT_EOC then
    match find_empty_FAT_entry w.s with
    | none => .done none
    | some idx =>
      if w.prev_idx < w.s.fat_array.length then
        .done (some { w with
          s := { w.s with fat_array := (w.s.fat_array.set w.prev_idx idx).set idx FAT_EOC }
          curr_idx := idx })
      else .fault
  else .done (some w)

/-- The rest of the `while` body of `fs_write`, from the `block_read` on;
`none` stands for `break`. -/
def write_block (buf : List Nat) (w : WriteVars) : Outcome (Option WriteVars) :=
  match block_read_data w.s.disk (w.curr_idx + w.s.sblock.data_start_idx) with
  | none => .done none
  | some blk =>
    let bytes_to_write : Int := min (toInt32 w.count) ((BLOCK_SIZE : Int) - w.offset_in_block)
    if bytes_to_write < 0 then .fault
    else
      let n := bytes_to_write.toNat
      let data_written_buf : Nat → Nat :=
        memcpy_into blk w.offset_in_block buf w.amt_written.toNat n
      let d1 : Disk :=
        match block_write_data w.s.disk (w.curr_idx + w.s.sblock.data_start_idx)
            data_written_buf with
        | some d => d
        | none => w.s.disk
      match w.s.fat_array[w.curr_idx]? with
      | none => .fault
      | some nxt =>
        .done (some { s := { w.s with disk := d1 }
                      count := w.count - n
                      offset := w.offset + n
                      offset_in_block := 0
                      amt_written := w.amt_written + bytes_to_write
                      prev_idx := w.curr_idx
                      curr_idx := nxt })

/-- One pass through the body of the `while` loop of `fs_write`: the variables
after it, and whether the loop goes on (`false` after a `break`). -/
def write_iter (buf : List Nat) (w : WriteVars) : Outcome (WriteVars × Bool) :=
  match write_alloc w with
  | .fault => .fault
  | .diverge => .diverge
  | .done none => .done (w, false)
  | .done (some w1) =>
    match write_block buf w1 with
    | .fault => .fault
    | .diverge => .diverge
    | .done none => .done (w1, false)
    | .done (some w2) => .done (w2, true)

/-- The `while (count > 0)` loop of `fs_write`. -/
def write_loop (buf : List Nat) : Nat → WriteVars → Outcome WriteVars
  | 0, w => if w.count = 0 then .done w else .diverge
  | fuel + 1, w =>
    if w.count = 0 then .done w
    else
      match write_iter buf w with
      | .fault => .fault
      | .diverge => .diverge
      | .done (w1, false) => .done w1
      | .done (w1, true) => write_loop buf fuel w1

/-- The expression both `fs_write` and `fs_read` use for `offset_in_block`:
`!(offset % BLOCK_SIZE) ? 0 : offset - (starting_block * BLOCK_SIZE)`, with
`starting_block = offset / BLOCK_SIZE`. -/
def intra_block (offset : Nat) : Nat :=
  if offset % BLOCK_SIZE = 0 then 0 else offset - (offset / BLOCK_SIZE) * BLOCK_SIZE

/-- The first-write step of `fs_write`, `if (first_db_idx == FAT_EOC) { ... }`:
either the call returns at once (left), or it goes on with the state and the
first block of the file (right). -/
def write_head (s : FS) (root_dir_idx : Nat) (e : RootDirEntry) : (Int × FS) ⊕ (FS × Nat) :=
  if e.first_db_idx = FAT_EOC then
    match find_empty_FAT_entry s with
    | none => .inl (0, s)
    | some idx =>
      let s1 : FS :=
        { s with root_dir := s.root_dir.set root_dir_idx { e with first_db_idx := idx }
                 fat_array := s.fat_array.set idx FAT_EOC }
      match block_write_dir s1.disk s1.sblock.rd_start_idx s1.root_dir with
      | none => .inl (0, s1)
      | some d => .inr ({ s1 with disk := d }, idx)
  else .inr (s, e.first_db_idx)

/-- The end of `fs_write`, after the loop: the size and the handle's offset
are updated, the directory and the FAT are written back, and `amt_written` is
returned. -/
def write_finish (w : WriteVars) (fd : Int) (h : FDEntry) (root_dir_idx : Nat)
    (e : RootDirEntry) : Int × FS :=
  let new_size := (if w.offset > e.size then w.offset else e.size) % 2 ^ 32
  let e2 := w.s.root_dir.getD root_dir_idx e
  let s2 : FS :=
    { w.s with
      root_dir := w.s.root_dir.set root_dir_idx { e2 with size := new_size }
      fd_table := w.s.fd_table.set fd.toNat { h with offset := w.offset } }
  let d1 : Disk :=
    match block_write_dir s2.disk s2.sblock.rd_start_idx s2.root_dir with
    | some d => d
    | none => s2.disk
  (w.amt_written, { s2 with disk := write_fat_blocks s2.fat_array s2.sblock.fat_block_amt d1 })

/-- Source function `fs_write`; `buf = none` is the NULL pointer, and the
caller's memory is read as 0 past the end of the list. -/
def fs_write (s : FS) (fd : Int) (buf : Option (List Nat)) (count : Nat) (fuel : Nat) :
    Outcome (Int × FS) :=
  match buf with
  | none => .done (-1, s)
  | some data =>
    if !s.is_mounted || !valid_fd fd || !is_open s fd then .done (-1, s)
    else if count = 0 then .done (0, s)
    else
      match s.fd_table[fd.toNat]? with
      | none => .fault
      | some h =>
        match root_dir_at s h.fd_num with
        | none => .fault
        | some e =>
          match write_head s h.fd_num.toNat e with
          | .inl r => .done r
          | .inr (s1, first_db_idx) =>
            match write_walk s1.fat_array (h.offset / BLOCK_SIZE) first_db_idx first_db_idx with
            | .fault => .fault
            | .diverge => .diverge
            | .done (prev_idx, curr_idx) =>
              match write_loop data fuel
                  ⟨s1, count, h.offset, intra_block h.offset, 0, prev_idx, curr_idx⟩ with
              | .fault => .fault
              | .diverge => .diverge
              | .done w => .done (write_finish w fd h h.fd_num.toNat e)

/-- The `for` loop of `fs_read` that walks to the starting block. -/
def read_walk (fat : List Nat) : Nat → Nat → Outcome Nat
  | 0, curr_idx => .done curr_idx
  | n + 1, curr_idx =>
    match fat[curr_idx]? with
    | none => .fault
    | some nxt => read_walk fat n nxt

/-- The variables of the `while (dbs_read < db_amt)` loop of `fs_read`; `out`
holds the bytes stored so far at `buf[0 .. amt_read)`. -/
structure ReadVars where
  out : List Nat
  count : Nat
  offset : Nat
  offset_in_block : Nat
  amt_read : Int
  curr_idx : Nat

/-- The `while (dbs_read < db_amt)` loop of `fs_read`; the first argument is
the number of iterations left, `db_amt - dbs_read`. -/
def read_loop (s : FS) (file_size : Nat) : Nat → ReadVars → Outcome ReadVars
  | 0, r => .done r
  | k + 1, r =>
    if r.curr_idx = FAT_EOC then .done r
    else
      match block_read_data s.disk (r.curr_idx + s.sblock.data_start_idx) with
      | none => .done r
      | some data_read_buf =>
        let b0 : Nat := toUInt64 (min (toInt32 r.count) ((BLOCK_SIZE : Int) - r.offset_in_block))
        let bytes_to_read : Nat :=
          if (b0 + r.offset) % 2 ^ 64 > file_size then (file_size + 2 ^ 64 - r.offset) % 2 ^ 64
          else b0
        if r.offset_in_block + bytes_to_read > BLOCK_SIZE then .fault
        else
          match s.fat_array[r.curr_idx]? with
          | none => .fault
          | some nxt =>
            read_loop s file_size k
              { out := r.out ++ (List.range bytes_to_read).map
                  (fun j => data_read_buf (r.offset_in_block + j))
                count := (r.count + 2 ^ 64 - bytes_to_read) % 2 ^ 64
                offset := r.offset + bytes_to_read
                offset_in_block := 0
                amt_read := r.amt_read + bytes_to_read
                curr_idx := nxt }

/-- Source function `fs_read`: the return value, the bytes stored at
`buf[0 .. amt_read)` and the new state. -/
def fs_read (s : FS) (fd : Int) (buf_is_null : Bool) (count : Nat) :
    Outcome (Int × List Nat × FS) :=
  if !s.is_mounted || !valid_fd fd || !is_open s fd || buf_is_null then .done (-1, [], s)
  else
    match s.fd_table[fd.toNat]? with
    | none => .fault
    | some h =>
      match root_dir_at s h.fd_num with
      | none => .fault
      | some e =>
        let db_amt := ceiling (toInt32 count) BLOCK_SIZE
        match read_walk s.fat_array (h.offset / BLOCK_SIZE) e.first_db_idx with
        | .fault => .fault
        | .diverge => .diverge
        | .done curr_idx =>
          match read_loop s e.size db_amt.toNat
              ⟨[], count, h.offset, intra_block h.offset, 0, curr_idx⟩ with
          | .fault => .fault
          | .diverge => .diverge
          | .done r =>
            .done (r.amt_read, r.out,
              { s with fd_table :=
                  s.fd_table.set fd.toNat { h with offset := (h.offset + r.offset) % 2 ^ 64 } })

/-! ## A sample volume -/

/-- A freshly formatted image with `n` data blocks (at most 2048): superblock,
one FAT block whose entry 0 is `FAT_EOC`, the directory block, and the data
region. -/
def fresh_image (n : Nat) : Disk :=
  { opened := false
    block_count := n + 3
    super_block := ⟨SIGNATURE, n + 3, 2, 3, n, 1⟩
    fat_blocks := fun _ => FAT_EOC :: List.replicate 2047 0
    dir_blocks := fun _ => List.replicate FS_FILE_MAX_COUNT empty_entry
    data_blocks := fun _ _ => 0 }

/-- The engine after mounting a freshly formatted image with `n` data blocks. -/
def fresh_volume (n : Nat) : FS := (fs_mount boot [100] (some (fresh_image n))).2

/-! ## Observations on states and outcomes -/

/-- Apply a function to the result of a call that returned. -/
def Outcome.map {α β : Type} (f : α → β) : Outcome α → Outcome β
  | .done a => .done (f a)
  | .fault => .fault
  | .diverge => .diverge

/-- The state after a call that returned; the start state `boot` otherwise. -/
def Outcome.state (o : Outcome (Int × FS)) : FS :=
  match o with
  | .done (_, s) => s
  | _ => boot

/-- The offset stored in handle slot `fd`. -/
def offset_of (s : FS) (fd : Nat) : Option Nat := (s.fd_table[fd]?).map (fun h => h.offset)

/-- The directory index stored in handle slot `fd`. -/
def fd_num_of (s : FS) (fd : Nat) : Option Int := (s.fd_table[fd]?).map (fun h => h.fd_num)

/-- The number of FAT entries, among the indices `0 .. data_block_amt - 1`,
whose value is 0. -/
def zero_count (s : FS) : Nat := (s.fat_array.take s.sblock.data_block_amt).count 0

/-- Some open handle refers to directory slot `i`. -/
def referenced (s : FS) (i : Nat) : Bool :=
  (s.fd_table.take FS_OPEN_MAX_COUNT).any (fun h => h.fd_num == (i : Int))

/-! ## Sample states -/

/-- The sample volume with 8 data blocks, a file `"a"` created and opened as
handle 0. -/
def vol_a : FS := (fs_open (fs_create (fresh_volume 8) [97]).2 [97]).2

/-- The volume `vol_a` after the two bytes `1, 2` were written through handle 0
and the handle was moved back to offset 1. -/
def vol_a_seek1 : FS :=
  (fs_lseek (fs_write vol_a 0 (some [1, 2]) 2 2).state 0 1).state

/-- A buffer of 4097 bytes: 4095 times `1`, then `2`, `3`. -/
def bytes_4097 : List Nat := List.replicate 4095 1 ++ [2, 3]

/-- The volume `vol_a` after `bytes_4097` was written through handle 0 and the
handle was moved to offset 4095, one byte before the end of the first block. -/
def vol_a_seek4095 : FS :=
  (fs_lseek (fs_write vol_a 0 (some bytes_4097) 4097 2).state 0 4095).state

/-- The sample volume with files `"a"` (slot 0) and `"b"` (slot 1), where only
`"b"` is open, as handle 0. -/
def vol_ab_open_b : FS :=
  (fs_open (fs_create (fs_create (fresh_volume 8) [97]).2 [98]).2 [98]).2

/-- The sample volume with a one-byte file `"a"` that was opened twice and
whose first handle was closed: handle 1 still refers to it. -/
def vol_a_second_handle : FS :=
  (fs_close (fs_open (fs_write vol_a 0 (some [1]) 1 1).state [97]).2 0).2

/-- A name of 16 characters. -/
def name16 : List Nat := List.replicate 16 97

/-! ## Auxiliary definitions of the directory statements -/

/-- The calls `fs_create(names[0])`, `fs_create(names[1])`, ... made in order:
their return values and the final state. -/
def create_all : FS → List (List Nat) → List Int × FS
  | s, [] => ([], s)
  | s, f :: rest =>
    ((fs_create s f).1 :: (create_all (fs_create s f).2 rest).1,
      (create_all (fs_create s f).2 rest).2)

/-- The directory after the first `k` of the names were created on the
directory `dir0` of empty slots: slots below `k` hold the names in order, the
slots from `k` on are as before. -/
def FilledTo (s0 s : FS) (names : List (List Nat)) (k : Nat) : Prop :=
  s.is_mounted = true ∧ s.disk.opened = true ∧ s.sblock = s0.sblock ∧
  s.disk.block_count = s0.disk.block_count ∧ s.fat_array = s0.fat_array ∧
  s.root_dir.length = s0.root_dir.length ∧
  (∀ j f, j < k → names[j]? = some f →
    ∃ e, s.root_dir[j]? = some e ∧ entry_name e = cstr f ∧ e.size = 0 ∧
      e.first_db_idx = FAT_EOC ∧ e.name.headD 0 ≠ 0) ∧
  s.root_dir.drop k = s0.root_dir.drop k

/-- The 128 one-character names `[1]`, `[2]`, ..., `[128]`. -/
def sample_names : List (List Nat) := (List.range 128).map (fun i => [i + 1])

/-! ## Chains, invariants and sample images -/

/-- `IsChain fat b l`: following the FAT from entry `b` visits exactly the
blocks `l`, every one of them an index of the FAT whose entry is in use (not
0), and then reaches `FAT_EOC`. -/
def IsChain (fat : List Nat) : Nat → List Nat → Prop
  | b, [] => b = FAT_EOC
  | b, c :: l => b = c ∧ c ≠ FAT_EOC ∧ ∃ v, fat[c]? = some v ∧ v ≠ 0 ∧ IsChain fat v l

/-- `IsWalk fat b l`: following the FAT from entry `b` the way the loops of
`fs_read` and `fs_delete` do (`curr = fat_array[curr]` until `FAT_EOC`) visits
exactly the blocks `l`. Unlike `IsChain`, an entry on the way may hold 0, which
is then the link to block 0. -/
def IsWalk (fat : List Nat) : Nat → List Nat → Prop
  | b, [] => b = FAT_EOC
  | b, c :: l => b = c ∧ c ≠ FAT_EOC ∧ ∃ v, fat[c]? = some v ∧ IsWalk fat v l

/-- The invariant of the `while` loop of `fs_write`.  `s0` is the engine state
when the loop is entered, `p0` the handle's offset and `size0` the size of the
file then, `count0` the bytes requested, `first` the first block of the file
and `L0` its chain in `s0`; `w` are the loop variables, `L` the blocks of the
file now and `j` the position among them of the block `curr_idx`. The field
`mode` tells the three ways the loop runs: every FAT entry of the file and FAT
entry 0 are in use, and the entries that hold 0 are counted; or nothing was
allocated yet and at most one more block is needed, FAT entry 0 being free in
case it is; or FAT entry 0 was free and the loop has linked block 0 as the last
block, storing 0 in the entry before it, and needs no further block. -/
structure WInv (s0 : FS) (buf : List Nat) (p0 size0 count0 first : Nat) (L0 : List Nat)
    (w : WriteVars) (L : List Nat) (j : Nat) : Prop where
  geo_open : s0.disk.opened = true
  geo_data : s0.sblock.data_start_idx + s0.fat_array.length ≤ s0.disk.block_count
  geo_len : s0.fat_array.length = s0.sblock.data_block_amt
  geo_16 : s0.fat_array.length ≤ 65535
  rest : w.s = { s0 with fat_array := w.s.fat_array
                         disk := { s0.disk with data_blocks := w.s.disk.data_blocks } }
  len_eq : w.s.fat_array.length = s0.fat_array.length
  chain : IsWalk w.s.fat_array first L
  first_ne : first ≠ FAT_EOC
  pos : j ≤ L.length
  curr : w.curr_idx = L.getD j FAT_EOC
  prev : 0 < j → w.prev_idx = L.getD (j - 1) FAT_EOC
  off : 0 < w.count → w.offset = BLOCK_SIZE * j + w.offset_in_block ∧ w.offset_in_block < BLOCK_SIZE
  len_lo : (max size0 w.offset + (BLOCK_SIZE - 1)) / BLOCK_SIZE ≤ L.length
  len_hi : L.length ≤ (max size0 w.offset + (BLOCK_SIZE - 1)) / BLOCK_SIZE ∨
    (L.length = j + 1 ∧ 0 < w.count)
  pre : L0 <+: L
  fresh : ∀ x ∈ L, x ∉ L0 → s0.fat_array[x]? = some 0
  frame : ∀ x, x ∉ L → w.s.fat_array[x]? = s0.fat_array[x]?
  mode : ((∀ x ∈ L, w.s.fat_array[x]? ≠ some 0) ∧ w.s.fat_array[0]? ≠ some 0 ∧
      s0.fat_array[0]? ≠ some 0 ∧
      w.s.fat_array.count 0 + L.length = s0.fat_array.count 0 + L0.length) ∨
    (L = L0 ∧ w.s.fat_array = s0.fat_array ∧
      p0 + count0 ≤ BLOCK_SIZE * (L0.length + 1) ∧
      (p0 + count0 ≤ BLOCK_SIZE * L0.length ∨ s0.fat_array[0]? = some 0)) ∨
    (L = L0 ++ [0] ∧ s0.fat_array[0]? = some 0 ∧
      BLOCK_SIZE * L0.length < p0 + count0 ∧ p0 + count0 ≤ BLOCK_SIZE * (L0.length + 1))
  small : w.count < 2 ^ 31
  base : p0 ≤ w.offset
  amt : w.amt_written = (w.offset : Int) - (p0 : Int)
  total : w.offset + w.count = p0 + count0
  written : ∀ g, p0 + g < w.offset →
    w.s.disk.data_blocks (L.getD ((p0 + g) / BLOCK_SIZE) 0 + s0.sblock.data_start_idx)
      ((p0 + g) % BLOCK_SIZE) = buf.getD g 0
  untouched : ∀ b t,
    (∀ g, p0 + g < w.offset →
      ¬ (b = L.getD ((p0 + g) / BLOCK_SIZE) 0 + s0.sblock.data_start_idx ∧
          t = (p0 + g) % BLOCK_SIZE)) →
    w.s.disk.data_blocks b t = s0.disk.data_blocks b t

/-- The block store after `block_write` of a data block. -/
def put_data (d : Disk) (i : Nat) (blk : Nat → Nat) : Disk :=
  { d with data_blocks := fun b => if b = i then blk else d.data_blocks b }

/-- The state of the engine on a mounted volume with the layout of the
specification: the store is open; the FAT blocks `1 .. fat_block_amt` come
before the directory block, the directory block before the data region, and
the data region lies inside the store; the FAT mirror has one 16-bit entry per
data block. -/
structure Mounted (s : FS) : Prop where
  mounted : s.is_mounted = true
  opened : s.disk.opened = true
  layout_fat : s.sblock.fat_block_amt < s.sblock.rd_start_idx
  layout_dir : s.sblock.rd_start_idx < s.sblock.data_start_idx
  rd_in : s.sblock.rd_start_idx < s.disk.block_count
  data_in : s.sblock.data_start_idx + s.sblock.data_block_amt ≤ s.disk.block_count
  fat_len : s.fat_array.length = s.sblock.data_block_amt
  fat_16 : s.sblock.data_block_amt ≤ 65535

/-- The state `fs_write` goes on with after it has given the first block
`idx` to an empty file in directory slot `i`. -/
def head_state (s : FS) (i : Nat) (e : RootDirEntry) (idx : Nat) : FS :=
  { s with
    root_dir := s.root_dir.set i { e with first_db_idx := idx }
    fat_array := s.fat_array.set idx FAT_EOC
    disk := { s.disk with dir_blocks := fun b =>
      if b = s.sblock.rd_start_idx then s.root_dir.set i { e with first_db_idx := idx }
      else s.disk.dir_blocks b } }

/-- The chain-length invariant of the directory: every live entry (its name
is not empty) has size 0 exactly when its first block is `FAT_EOC`, and its
FAT chain from the first block to `FAT_EOC` has `ceil(size / BLOCK_SIZE)`
entries. -/
def ChainInv (s : FS) : Prop :=
  ∀ i e, i < FS_FILE_MAX_COUNT → s.root_dir[i]? = some e → e.name.headD 0 ≠ 0 →
    (e.size = 0 ↔ e.first_db_idx = FAT_EOC) ∧
    ∃ L, IsChain s.fat_array e.first_db_idx L ∧
      L.length = (e.size + (BLOCK_SIZE - 1)) / BLOCK_SIZE

/-- The chain of the entry in directory slot `iA` shares no block with the
chain of any other live entry. -/
def ChainsApart (s : FS) (iA : Nat) : Prop :=
  ∀ eA LA i e L, s.root_dir[iA]? = some eA → IsChain s.fat_array eA.first_db_idx LA →
    i < FS_FILE_MAX_COUNT → i ≠ iA → s.root_dir[i]? = some e → e.name.headD 0 ≠ 0 →
    IsChain s.fat_array e.first_db_idx L → ∀ x ∈ L, x ∉ LA

/-- The handle `fd` refers to a live directory entry and its offset is at most
the size of that file. -/
def HandleOK (s : FS) (fd : Int) : Prop :=
  ∃ h e, s.fd_table[fd.toNat]? = some h ∧ root_dir_at s h.fd_num = some e ∧
    e.name.headD 0 ≠ 0 ∧ h.offset ≤ e.size

/-- The bytes of a file whose chain is `R`, from its first block on: position
`g` lies in block `g / BLOCK_SIZE` of the chain at offset `g % BLOCK_SIZE`. -/
def chain_bytes (s : FS) (R : List Nat) (n : Nat) : List Nat :=
  (List.range n).map (fun g =>
    s.disk.data_blocks (R.getD (g / BLOCK_SIZE) 0 + s.sblock.data_start_idx) (g % BLOCK_SIZE))

/-- The block store after `block_write` of the directory block. -/
def put_dir (d : Disk) (i : Nat) (dir : List RootDirEntry) : Disk :=
  { d with dir_blocks := fun j => if j = i then dir else d.dir_blocks j }

/-- The chain from block `b`, computed by following the FAT for at most `fuel`
steps; `none` when the walk leaves the FAT, meets a free entry or does not
reach `FAT_EOC` in time. -/
def chain_of (fat : List Nat) : Nat → Nat → Option (List Nat)
  | 0, b => if b = FAT_EOC then some [] else none
  | fuel + 1, b =>
    if b = FAT_EOC then some []
    else
      match fat[b]? with
      | some v => if v = 0 then none else (chain_of fat fuel v).map (fun l => b :: l)
      | none => none

/-- Decision procedure for `ChainInv`. -/
def chain_inv_check (s : FS) : Bool :=
  (s.root_dir.take FS_FILE_MAX_COUNT).all (fun e =>
    e.name.headD 0 == 0 ||
    (decide (e.size = 0 ↔ e.first_db_idx = FAT_EOC) &&
      (chain_of s.fat_array s.fat_array.length e.first_db_idx).map List.length
        == some ((e.size + (BLOCK_SIZE - 1)) / BLOCK_SIZE)))

/-- Decision procedure for `ChainsApart`. -/
def chains_apart_check (s : FS) (iA : Nat) : Bool :=
  match s.root_dir[iA]? with
  | none => true
  | some eA =>
    match chain_of s.fat_array s.fat_array.length eA.first_db_idx with
    | none => true
    | some LA =>
      (List.range FS_FILE_MAX_COUNT).all (fun i =>
        i == iA ||
        match s.root_dir[i]? with
        | none => true
        | some e =>
          e.name.headD 0 == 0 ||
          match chain_of s.fat_array s.fat_array.length e.first_db_idx with
          | none => true
          | some L => L.all (fun x => !LA.contains x))

/-- A live directory record for the one-character name `c`. -/
def file_entry (c size first : Nat) : RootDirEntry :=
  ⟨c :: List.replicate 15 0, size, first, List.replicate 10 0⟩

/-- An image with 8 data blocks whose files `"a"` and `"b"`, both of 4096
bytes, claim the same block 1. -/
def crossed_image : Disk :=
  { fresh_image 8 with
    fat_blocks := fun _ => [FAT_EOC, FAT_EOC] ++ List.replicate 2046 0
    dir_blocks := fun _ => [file_entry 97 4096 1, file_entry 98 4096 1]
      ++ List.replicate 126 empty_entry }

/-- The engine after mounting `crossed_image`, opening `"a"` as handle 0 and
moving the handle to the end of the file. -/
def vol_crossed : FS :=
  (fs_lseek (fs_open (fs_mount boot [100] (some crossed_image)).2 [97]).2 0 4096).state

/-- An image with 8 data blocks whose FAT entry 0 is free and whose file `"a"`
of 4096 bytes has block 1. -/
def fat0_image : Disk :=
  { fresh_image 8 with
    fat_blocks := fun _ => [0, FAT_EOC] ++ List.replicate 2046 0
    dir_blocks := fun _ => [file_entry 97 4096 1] ++ List.replicate 127 empty_entry }

/-- The engine after mounting `fat0_image`, opening `"a"` as handle 0 and
moving the handle to the end of the file. -/
def vol_fat0 : FS :=
  (fs_lseek (fs_open (fs_mount boot [100] (some fat0_image)).2 [97]).2 0 4096).state

/-- The sample volume with the files `"a"` (5000 bytes, handle 0) and `"b"`
(100 bytes, handle 1). -/
def vol_two : FS :=
  (fs_write
    (fs_write
      (fs_open (fs_open (fs_create (fs_create (fresh_volume 8) [97]).2 [98]).2 [97]).2 [98]).2
      0 (some (List.replicate 5000 7)) 5000 2).state
    1 (some (List.replicate 100 8)) 100 1).state

/-- What a call `fs_write(fd, data, count)` that returned `m` has done, on a
handle `h` whose file had the entry `e` and the chain `L` in the state `s`:
`s2` is the state afterwards, `first` the first block and `L2` the blocks of
the file in it. When no FAT entry of `L` held 0 and FAT entry 0 was in use or
no block was needed, no FAT entry of `L2` holds 0 and every block added took
one of the entries that held 0. -/
structure WriteDone (s : FS) (fd : Int) (data : List Nat) (count : Nat) (h : FDEntry)
    (e : RootDirEntry) (L : List Nat) (m : Nat) (s2 : FS) (first : Nat) (L2 : List Nat) :
    Prop where
  mounted : Mounted s2
  le : m ≤ count
  fd_table : s2.fd_table = s.fd_table.set fd.toNat { h with offset := h.offset + m }
  entry : root_dir_at s2 h.fd_num =
    some { e with first_db_idx := first, size := Max.max e.size (h.offset + m) }
  others : ∀ i, i ≠ h.fd_num.toNat → s2.root_dir[i]? = s.root_dir[i]?
  sblock : s2.sblock = s.sblock
  first_eq : e.first_db_idx ≠ FAT_EOC → first = e.first_db_idx
  chain : IsWalk s2.fat_array first L2
  length : L2.length = (Max.max e.size (h.offset + m) + (BLOCK_SIZE - 1)) / BLOCK_SIZE
  pre : L <+: L2
  inuse : (∀ x ∈ L, s.fat_array[x]? ≠ some 0) →
    (e.first_db_idx ≠ FAT_EOC →
      s.fat_array[0]? ≠ some 0 ∨ h.offset + count ≤ BLOCK_SIZE * L.length) →
    (∀ x ∈ L2, s2.fat_array[x]? ≠ some 0) ∧
    s2.fat_array.count 0 + L2.length = s.fat_array.count 0 + L.length
  short : m = count ∨ (s2.fat_array.count 0 = 0 ∧ h.offset + m = BLOCK_SIZE * L2.length ∧
    s2.fat_array.count 0 + L2.length = s.fat_array.count 0 + L.length)
  frame : ∀ x, x ∉ L2 → s2.fat_array[x]? = s.fat_array[x]?
  written : ∀ g, g < m →
    s2.disk.data_blocks (L2.getD ((h.offset + g) / BLOCK_SIZE) 0 + s.sblock.data_start_idx)
      ((h.offset + g) % BLOCK_SIZE) = data.getD g 0
  untouched : ∀ b t,
    (∀ g, g < m →
      ¬ (b = L2.getD ((h.offset + g) / BLOCK_SIZE) 0 + s.sblock.data_start_idx ∧
          t = (h.offset + g) % BLOCK_SIZE)) →
    s2.disk.data_blocks b t = s.disk.data_blocks b t
  synced : s2 = s ∨ s2.disk.dir_blocks s2.sblock.rd_start_idx = s2.root_dir

/-! ## API functions: unmount and info -/

/-- Modelled from the spec: `block_disk_close()`; it fails when no store is
open. The content of the store stays where it is. -/
def block_disk_close (d : Disk) : Option Disk :=
  if d.opened then some { d with opened := false } else none

/-- Source function `fs_umount`. The two `memset` calls fill the handle table
with the byte `0xFF` (so `fd_num` is `-1` and `offset` is `2 ^ 64 - 1`) and the
directory with zero bytes; the freed `fat_array` is left empty. -/
def fs_umount (s : FS) : Int × FS :=
  if (List.range FS_OPEN_MAX_COUNT).any (fun i => is_open s (i : Int)) then (-1, s)
  else if !s.is_mounted then (-1, s)
  else
    match block_disk_close s.disk with
    | none => (-1, s)
    | some d =>
      (0, { s with disk := d
                   fd_table := List.replicate FS_OPEN_MAX_COUNT ⟨-1, UNUSED_OFFSET⟩
                   root_dir := List.replicate FS_FILE_MAX_COUNT empty_entry
                   root_dir_frees := FS_FILE_MAX_COUNT
                   fat_array := []
                   fat_frees := 0
                   sblock := ⟨List.replicate 8 0, 0, 0, 0, 0, 0⟩
                   is_mounted := false })

/-- Source function `fs_info`: the return value and the numbers printed, in
the order of the `printf` calls. -/
def fs_info (s : FS) : Int × List Int :=
  if !s.disk_open then (-1, [])
  else (0, [(s.sblock.block_amt : Int), s.sblock.fat_block_amt, s.sblock.rd_start_idx,
    s.sblock.data_start_idx, s.sblock.data_block_amt, s.fat_frees, s.sblock.data_block_amt,
    s.root_dir_frees, FS_FILE_MAX_COUNT])

/-- The store holds what the engine mirrors: block 0 holds the superblock
mirror, which `fs_mount` has accepted (signature and total block count) and
whose FAT region has room for one entry per data block; the directory block
holds the directory mirror; and the FAT blocks `1 .. fat_block_amt` hold the
entries `0 .. data_block_amt - 1` of the FAT mirror, `BLOCK_SIZE / 2` entries
per block. -/
structure Persisted (s : FS) : Prop where
  super : s.disk.super_block = s.sblock
  sig : s.sblock.signature.take 8 = SIGNATURE
  total : s.sblock.block_amt = s.disk.block_count
  fat_fits : s.sblock.data_block_amt ≤ s.sblock.fat_block_amt * (BLOCK_SIZE / 2)
  dir : s.disk.dir_blocks s.sblock.rd_start_idx = s.root_dir
  fat : ∀ i, i < s.sblock.data_block_amt →
    (s.disk.fat_blocks (i / (BLOCK_SIZE / 2) + 1))[i % (BLOCK_SIZE / 2)]? = s.fat_array[i]?

/-! ## Images that `fs_mount` rejects -/

/-- The freshly formatted image of 8 data blocks with the last byte of its
signature spoilt: `"ECS150FX"`. -/
def bad_signature_image : Disk :=
  { fresh_image 8 with super_block := ⟨[69, 67, 83, 49, 53, 48, 70, 88], 11, 2, 3, 8, 1⟩ }

/-- The freshly formatted image of 8 data blocks, a store of 11 blocks, whose
superblock announces 12 blocks. -/
def bad_count_image : Disk :=
  { fresh_image 8 with super_block := ⟨SIGNATURE, 12, 2, 3, 8, 1⟩ }

/-! ## States reached by mounting, opening and closing -/

/-- The engine states reached from the start of the program by calls of
`fs_mount` (on any store), `fs_umount`, `fs_open` and `fs_close`, successful or
not. -/
inductive Reached : FS → Prop
  | start : Reached boot
  | mount (s : FS) (name : List Nat) (image : Option Disk) :
      Reached s → Reached (fs_mount s name image).2
  | umount (s : FS) : Reached s → Reached (fs_umount s).2
  | opened (s : FS) (filename : List Nat) : Reached s → Reached (fs_open s filename).2
  | closed (s : FS) (fd : Int) : Reached s → Reached (fs_close s fd).2

/-- The number of handle slots in use. -/
def used_slots (s : FS) : Nat := s.fd_table.countP (fun e => e.fd_num != UNUSED)

/-- The bookkeeping of the handle table: while the engine is mounted the store
is open, the table has its 32 slots and `open_files` counts the slots in use;
while it is not mounted `open_files` is 0. -/
def SlotsCounted (s : FS) : Prop :=
  (s.is_mounted = true →
    s.disk.opened = true ∧ s.fd_table.length = FS_OPEN_MAX_COUNT ∧
    s.open_files = (used_slots s : Int)) ∧
  (s.is_mounted = false → s.open_files = 0)

/-- The freshly formatted image of 8 data blocks with one file `"a"` of 4096
bytes in block 1. -/
def one_file_image : Disk :=
  { fresh_image 8 with
    fat_blocks := fun _ => [FAT_EOC, FAT_EOC] ++ List.replicate 2046 0
    dir_blocks := fun _ => [file_entry 97 4096 1] ++ List.replicate 127 empty_entry }

/-- The engine after mounting `one_file_image` at the start of the program. -/
def vol_one_file : FS := (fs_mount boot [100] (some one_file_image)).2

/-- The volume `vol_a` after the two bytes `1, 2` were written through handle
0: the handle stands at offset 2, the end of the file. -/
def vol_a_two_bytes : FS := (fs_write vol_a 0 (some [1, 2]) 2 2).state

/-- The volume `vol_two` with handle 0 moved to offset 100 of the 5000-byte
file `"a"`. -/
def vol_two_seek100 : FS := (fs_lseek vol_two 0 100).state

/-! ## Walks of the FAT -/

/-- The walks of the FAT from the first blocks of distinct live directory
entries share no block. -/
def WalksDisjoint (s : FS) : Prop :=
  ∀ i j ei ej Wi Wj, i < FS_FILE_MAX_COUNT → j < FS_FILE_MAX_COUNT → i ≠ j →
    s.root_dir[i]? = some ei → s.root_dir[j]? = some ej →
    ei.name.headD 0 ≠ 0 → ej.name.headD 0 ≠ 0 →
    IsWalk s.fat_array ei.first_db_idx Wi → IsWalk s.fat_array ej.first_db_idx Wj →
    ∀ x ∈ Wi, x ∉ Wj

/-! ## Isolation of writes -/

/-- Every live directory entry has a FAT chain: following the FAT from its
first block ends at `FAT_EOC` without visiting a free entry (and so without a
cycle). -/
def HasChains (s : FS) : Prop :=
  ∀ i e, i < FS_FILE_MAX_COUNT → s.root_dir[i]? = some e → e.name.headD 0 ≠ 0 →
    ∃ L, IsChain s.fat_array e.first_db_idx L

/-- The FAT chains of distinct live directory entries share no block. -/
def ChainsDisjoint (s : FS) : Prop :=
  ∀ i j ei ej Li Lj, i < FS_FILE_MAX_COUNT → j < FS_FILE_MAX_COUNT → i ≠ j →
    s.root_dir[i]? = some ei → s.root_dir[j]? = some ej →
    ei.name.headD 0 ≠ 0 → ej.name.headD 0 ≠ 0 →
    IsChain s.fat_array ei.first_db_idx Li → IsChain s.fat_array ej.first_db_idx Lj →
    ∀ x ∈ Li, x ∉ Lj

/-- Every live directory entry other than the one in slot `iA` has a FAT chain
of entries in use. -/
def OthersInUse (s : FS) (iA : Nat) : Prop :=
  ∀ i e, i < FS_FILE_MAX_COUNT → i ≠ iA → s.root_dir[i]? = some e → e.name.headD 0 ≠ 0 →
    ∃ L, IsChain s.fat_array e.first_db_idx L

/-- The blocks a write to the file with the blocks `LA` may use: the blocks of
the file and the blocks whose FAT entry is 0 in the state `s1`. -/
def Usable (s1 : FS) (LA : List Nat) (y : Nat) : Prop :=
  y ∈ LA ∨ s1.fat_array[y]? = some 0

/-- The invariant of the `while` loop of `fs_write` that confines the call to
the usable blocks. `s1` is the state when the loop is entered and `LA` the
walk of the FAT from the first block `first` of the file in it. FAT entries and data blocks are changed
at usable blocks only, and a changed FAT entry holds `FAT_EOC` or a usable
block; `prev_idx` is usable; `curr_idx` is `FAT_EOC`, or a block of the chain
while the FAT is still as it was, or a usable block just allocated. -/
structure Iso (s1 : FS) (first : Nat) (LA : List Nat) (w : WriteVars) : Prop where
  chain : IsWalk s1.fat_array first LA
  geo : s1.fat_array.length = s1.sblock.data_block_amt
  small : s1.fat_array.length ≤ 65535
  rest : w.s = { s1 with fat_array := w.s.fat_array
                         disk := { s1.disk with data_blocks := w.s.disk.data_blocks } }
  len_eq : w.s.fat_array.length = s1.fat_array.length
  fat : ∀ y, w.s.fat_array[y]? = s1.fat_array[y]? ∨
    (Usable s1 LA y ∧ ∃ v, w.s.fat_array[y]? = some v ∧ (v = FAT_EOC ∨ Usable s1 LA v))
  data : ∀ b, w.s.disk.data_blocks b = s1.disk.data_blocks b ∨
    ∃ y, Usable s1 LA y ∧ b = y + s1.sblock.data_start_idx
  prev : Usable s1 LA w.prev_idx
  curr : w.curr_idx = FAT_EOC ∨ (w.s.fat_array = s1.fat_array ∧ w.curr_idx ∈ LA) ∨
    (Usable s1 LA w.curr_idx ∧ w.s.fat_array[w.curr_idx]? = some FAT_EOC)

/-- What a call of `fs_write` that returns leaves alone, for a handle on the
entry whose file has the blocks `L`: the superblock, every other directory
entry, and the FAT entry and data block of every block that is neither on `L`
nor free. -/
def Confined (s : FS) (h : FDEntry) (L : List Nat) (s2 : FS) : Prop :=
  s2.sblock = s.sblock ∧
  (∀ i, i ≠ h.fd_num.toNat → s2.root_dir[i]? = s.root_dir[i]?) ∧
  (∀ x, ¬ Usable s L x → s2.fat_array[x]? = s.fat_array[x]? ∧
    s2.disk.data_blocks (x + s.sblock.data_start_idx)
      = s.disk.data_blocks (x + s.sblock.data_start_idx))

/-- Decision procedure for `ChainsDisjoint`. -/
def chains_disjoint_check (s : FS) : Bool :=
  (List.range FS_FILE_MAX_COUNT).all (fun j => chains_apart_check s j)

/-- An image with 8 data blocks whose FAT entry 0 is free, with the file `"a"`
of 4096 bytes in block 1 and the empty file `"b"`. -/
def fat0_two_image : Disk :=
  { fresh_image 8 with
    fat_blocks := fun _ => [0, FAT_EOC] ++ List.replicate 2046 0
    dir_blocks := fun _ =>
      [file_entry 97 4096 1, file_entry 98 0 FAT_EOC] ++ List.replicate 126 empty_entry }

/-- The engine after mounting `fat0_two_image`, opening `"a"` as handle 0 and
`"b"` as handle 1, and appending 4096 bytes `7` to `"a"`: the file `"a"` has
the blocks 1 and 0, and the FAT entry of block 1 holds 0. -/
def vol_linked0 : FS :=
  (fs_write
    (fs_lseek
      (fs_open (fs_open (fs_mount boot [100] (some fat0_two_image)).2 [97]).2 [98]).2
      0 4096).state
    0 (some (List.replicate 4096 7)) 4096 4096).state

/-- The blocks `A` that the loop of `fs_write` has allocated so far, next to
the blocks `LA` of the file in the state `s1` in which the loop started: they
were usable in `s1`, the FAT entry of every block of the file (on `LA` or in
`A`) holds `FAT_EOC` or a block of the file, and the loop variables stand on
blocks of the file. -/
structure Own (s1 : FS) (LA A : List Nat) (w : WriteVars) : Prop where
  sub : ∀ y ∈ A, Usable s1 LA y
  closed : ∀ y, y ∈ LA ∨ y ∈ A →
    ∃ v, w.s.fat_array[y]? = some v ∧ (v = FAT_EOC ∨ v ∈ LA ∨ v ∈ A)
  prev : w.prev_idx ∈ LA ∨ w.prev_idx ∈ A
  curr : w.curr_idx = FAT_EOC ∨ w.curr_idx ∈ LA ∨ w.curr_idx ∈ A

/-- The blocks of the file written to after a call of `fs_write` on a handle
whose file had the blocks `L`: a set `S` of blocks that were on `L` or free
before the call, closed under following the FAT of the state `s2` after it,
which holds the first block of the entry. -/
def Owned (s : FS) (h : FDEntry) (L : List Nat) (s2 : FS) : Prop :=
  ∃ S : Nat → Prop, (∀ y, S y → Usable s L y) ∧
    (∀ y v, S y → s2.fat_array[y]? = some v → v = FAT_EOC ∨ S v) ∧
    (∀ e2, s2.root_dir[h.fd_num.toNat]? = some e2 →
      e2.first_db_idx = FAT_EOC ∨ S e2.first_db_idx)

/-- Decision procedure for `HasChains`. -/
def has_chains_check (s : FS) : Bool :=
  (s.root_dir.take FS_FILE_MAX_COUNT).all (fun e =>
    e.name.headD 0 == 0 ||
      (chain_of s.fat_array s.fat_array.length e.first_db_idx).isSome)

/-- An image with 8 data blocks in which the file `"a"` has the size 8192 and
the single block 1, and the file `"b"` of 100 bytes has block 2. -/
def short_chain_image : Disk :=
  { fresh_image 8 with
    fat_blocks := fun _ => [FAT_EOC, FAT_EOC, FAT_EOC] ++ List.replicate 2045 0
    dir_blocks := fun _ =>
      [file_entry 97 8192 1, file_entry 98 100 2] ++ List.replicate 126 empty_entry }

/-- The engine after mounting `short_chain_image`, opening `"a"` as handle 0
and moving the handle to offset 8192, the size of the file. -/
def vol_short_chain : FS :=
  (fs_lseek (fs_open (fs_mount boot [100] (some short_chain_image)).2 [97]).2 0 8192).state

/-- The engine after mounting `fat0_two_image`, where FAT entry 0 is free, and
opening the empty file `"b"` as handle 0. -/
def vol_fat0_b : FS := (fs_open (fs_mount boot [100] (some fat0_two_image)).2 [98]).2

/-- The engine after mounting `fat0_image`, where FAT entry 0 is free, opening
`"a"` (4096 bytes in block 1) as handle 0 and moving the handle to offset
100. -/
def vol_fat0_seek100 : FS :=
  (fs_lseek (fs_open (fs_mount boot [100] (some fat0_image)).2 [97]).2 0 100).state

/-! ## The chain-length invariant over walks -/

/-- The chain-length invariant of the directory with the chain of an entry
read as the walk of the FAT from its first block: every live entry has size 0
exactly when its first block is `FAT_EOC`, and the walk from the first block to
`FAT_EOC` visits `ceil(size / BLOCK_SIZE)` blocks. -/
def WalkInv (s : FS) : Prop :=
  ∀ i e, i < FS_FILE_MAX_COUNT → s.root_dir[i]? = some e → e.name.headD 0 ≠ 0 →
    (e.size = 0 ↔ e.first_db_idx = FAT_EOC) ∧
    ∃ L, IsWalk s.fat_array e.first_db_idx L ∧
      L.length = (e.size + (BLOCK_SIZE - 1)) / BLOCK_SIZE

/-- No FAT entry on the walk of a live directory entry holds 0. -/
def WalksInUse (s : FS) : Prop :=
  ∀ i e L, i < FS_FILE_MAX_COUNT → s.root_dir[i]? = some e → e.name.headD 0 ≠ 0 →
    IsWalk s.fat_array e.first_db_idx L → ∀ x ∈ L, s.fat_array[x]? ≠ some 0

/-- The walk of the live entry in directory slot `iA` shares no block with the
walk of any other live entry. -/
def WalksApart (s : FS) (iA : Nat) : Prop :=
  ∀ eA LA i e L, s.root_dir[iA]? = some eA → eA.name.headD 0 ≠ 0 →
    IsWalk s.fat_array eA.first_db_idx LA →
    i < FS_FILE_MAX_COUNT → i ≠ iA → s.root_dir[i]? = some e → e.name.headD 0 ≠ 0 →
    IsWalk s.fat_array e.first_db_idx L → ∀ x ∈ L, x ∉ LA

/-- The walk from block `b`, computed by following the FAT for at most `fuel`
steps; `none` when the walk leaves the FAT or does not reach `FAT_EOC` in
time. -/
def walk_of (fat : List Nat) : Nat → Nat → Option (List Nat)
  | 0, b => if b = FAT_EOC then some [] else none
  | fuel + 1, b =>
    if b = FAT_EOC then some []
    else
      match fat[b]? with
      | some v => (walk_of fat fuel v).map (fun l => b :: l)
      | none => none

/-- Decision procedure for `WalkInv`. -/
def walk_inv_check (s : FS) : Bool :=
  (s.root_dir.take FS_FILE_MAX_COUNT).all (fun e =>
    e.name.headD 0 == 0 ||
    (decide (e.size = 0 ↔ e.first_db_idx = FAT_EOC) &&
      (walk_of s.fat_array s.fat_array.length e.first_db_idx).map List.length
        == some ((e.size + (BLOCK_SIZE - 1)) / BLOCK_SIZE)))

/-- Decision procedure for `WalksApart`. -/
def walks_apart_check (s : FS) (iA : Nat) : Bool :=
  match s.root_dir[iA]? with
  | none => true
  | some eA =>
    eA.name.headD 0 == 0 ||
    match walk_of s.fat_array s.fat_array.length eA.first_db_idx with
    | none => true
    | some LA =>
      (List.range FS_FILE_MAX_COUNT).all (fun i =>
        i == iA ||
        match s.root_dir[i]? with
        | none => true
        | some e =>
          e.name.headD 0 == 0 ||
          match walk_of s.fat_array s.fat_array.length e.first_db_idx with
          | none => true
          | some L => L.all (fun x => !LA.contains x))

/-- The volume `vol_linked0` with handle 0 moved to offset 100 of the file
`"a"`, whose blocks are 1 and 0. -/
def vol_linked0_seek100 : FS := (fs_lseek vol_linked0 0 100).state

/-! ## Walks of the other entries -/

/-- Every live directory entry other than the one in slot `iA` has a walk:
following the FAT from its first block ends at `FAT_EOC`. -/
def OthersWalk (s : FS) (iA : Nat) : Prop :=
  ∀ i e, i < FS_FILE_MAX_COUNT → i ≠ iA → s.root_dir[i]? = some e → e.name.headD 0 ≠ 0 →
    ∃ L, IsWalk s.fat_array e.first_db_idx L

/-- No FAT entry on the walk of a live directory entry other than the one in
slot `iA` holds 0. -/
def OthersNoZero (s : FS) (iA : Nat) : Prop :=
  ∀ i e L, i < FS_FILE_MAX_COUNT → i ≠ iA → s.root_dir[i]? = some e → e.name.headD 0 ≠ 0 →
    IsWalk s.fat_array e.first_db_idx L → ∀ x ∈ L, s.fat_array[x]? ≠ some 0

/-- Decision procedure for `OthersNoZero`. -/
def others_no_zero_check (s : FS) (iA : Nat) : Bool :=
  (List.range FS_FILE_MAX_COUNT).all (fun i =>
    i == iA ||
    match s.root_dir[i]? with
    | none => true
    | some e =>
      e.name.headD 0 == 0 ||
      match walk_of s.fat_array s.fat_array.length e.first_db_idx with
      | none => true
      | some L => L.all (fun x => s.fat_array[x]? != some 0))

/-- Every live directory entry has a walk, decided by following the FAT. -/
def walks_check (s : FS) : Bool :=
  (s.root_dir.take FS_FILE_MAX_COUNT).all (fun e =>
    e.name.headD 0 == 0 ||
      (walk_of s.fat_array s.fat_array.length e.first_db_idx).isSome)

/-- Decision procedure for `WalksDisjoint`. -/
def walks_disjoint_check (s : FS) : Bool :=
  (List.range FS_FILE_MAX_COUNT).all (fun j => walks_apart_check s j)

/-- An image with 8 data blocks whose FAT entry 0 is free, with the file `"a"`
of 4096 bytes in block 1 and the file `"b"` of 100 bytes in block 2. -/
def fat0_ab_image : Disk :=
  { fresh_image 8 with
    fat_blocks := fun _ => [0, FAT_EOC, FAT_EOC] ++ List.replicate 2045 0
    dir_blocks := fun _ =>
      [file_entry 97 4096 1, file_entry 98 100 2] ++ List.replicate 126 empty_entry }

/-- The engine after mounting `fat0_ab_image`, opening `"a"` as handle 0 and
`"b"` as handle 1, and appending 4096 bytes `7` to `"a"`: the file `"a"` has
the blocks 1 and 0, the FAT entry of block 1 holds 0, and handle 1 stands at
offset 0 of the file `"b"`, whose block is 2. -/
def vol_linked0_ab : FS :=
  (fs_write
    (fs_lseek
      (fs_open (fs_open (fs_mount boot [100] (some fat0_ab_image)).2 [97]).2 [98]).2
      0 4096).state
    0 (some (List.replicate 4096 7)) 4096 4096).state

/-! ## Statements: defects of the code -/

set_option maxRecDepth 100000 in
/-- C2 (the code departs from the claim): `fs_read` adds its whole local offset
to the handle's offset. On a two-byte file with the handle at offset 1, reading
one byte returns 1 and the byte `2`, and leaves the handle at offset 3, not at
1 + 1 = 2. -/
theorem fs_read_adds_offset_twice :
    offset_of vol_a_seek1 0 = some 1 ∧
    (fs_read vol_a_seek1 0 false 1).map (fun r => (r.1, r.2.1, offset_of r.2.2 0))
      = .done (1, [2], some 3) := by
  decide

set_option maxRecDepth 100000 in
/-- C3 (the code departs from the claim): `fs_read` bounds its loop by
`ceiling(count, BLOCK_SIZE)` blocks and forgets the offset inside the first
block. On a file of 4097 bytes with the handle at offset 4095, a read of 2 bytes
returns 1 byte (`2`), although 2 bytes (`2, 3`) lie before the end of the
file. -/
theorem fs_read_short_before_eof :
    (fs_stat vol_a_seek4095 0).map (fun r => r.1) = .done 4097 ∧
    offset_of vol_a_seek4095 0 = some 4095 ∧
    (fs_read vol_a_seek4095 0 false 2).map (fun r => (r.1, r.2.1)) = .done (1, [2]) := by
  decide

set_option maxRecDepth 100000 in
/-- C4 (the code departs from the claim): `fs_write` allocates FAT entries and
never decrements `fat_frees`. After mounting the fresh 8-block volume the
counter and the number of zero entries are both 7; after creating `"a"`,
opening it and writing one byte the counter is still 7 while 6 entries are
zero. -/
theorem fat_frees_stale_after_write :
    ((fresh_volume 8).is_mounted, (fresh_volume 8).fat_frees, zero_count (fresh_volume 8))
      = (true, 7, 7) ∧
    (fs_write vol_a 0 (some [1]) 1 1).map (fun r => (r.1, r.2.fat_frees, zero_count r.2))
      = .done (1, 7, 6) := by
  decide

set_option maxRecDepth 100000 in
/-- C6 (the code departs from the claim): `fs_delete` starts its walk with
`fat_array[first_db_idx]` also when the file is empty and `first_db_idx` is
`FAT_EOC`. Deleting the empty, unopened file `"a"` of the 8-entry volume reads
`fat_array[65535]`, outside the array, instead of succeeding. -/
theorem fs_delete_empty_file_out_of_bounds (fuel : Nat) :
    fs_delete (fs_create (fresh_volume 8) [97]).2 [97] fuel = .fault := by
  rfl

set_option maxRecDepth 100000 in
/-- C7 (the code departs from the claim): `fs_delete` tests `is_open` on the
directory index of the file, that is, whether the handle slot of that number
is in use. With `"a"` in slot 0 unopened and `"b"` open as handle 0, deleting
`"a"` is refused although no handle refers to slot 0; with `"a"` referenced
only by handle 1, deleting `"a"` succeeds. -/
theorem fs_delete_tests_wrong_table :
    (slot_of vol_ab_open_b [97] = some 0 ∧ referenced vol_ab_open_b 0 = false ∧
      (fs_delete vol_ab_open_b [97] 8).map (fun r => r.1) = .done (-1)) ∧
    (slot_of vol_a_second_handle [97] = some 0 ∧ referenced vol_a_second_handle 0 = true ∧
      fd_num_of vol_a_second_handle 1 = some 0 ∧
      (fs_delete vol_a_second_handle [97] 8).map (fun r => (r.1, slot_of r.2 [97]))
        = .done (0, none)) := by
  decide

set_option maxRecDepth 100000 in
/-- C9 (the code departs from the claim): `valid_filename_len` rejects only
`strlen(filename) > FS_FILENAME_LEN`. A name of 16 characters, which needs 17
bytes with its terminator, is accepted by `fs_create`: the call returns 0 and
the 16 characters fill the whole `name` buffer of slot 0. -/
theorem fs_create_accepts_16_characters :
    name16.length = 16 ∧
    (fs_create (fresh_volume 8) name16).1 = 0 ∧
    ((fs_create (fresh_volume 8) name16).2.root_dir.head?).map (fun e => e.name) = some name16 := by
  decide

/-! ## The directory: `fs_create` -/

theorem cstr_append_zero (a rest : List Nat) (h : ∀ c ∈ a, c ≠ 0) :
    cstr (a ++ 0 :: rest) = a := by
  induction a with
  | nil => simp [cstr]
  | cons x a ih =>
    have hx : x ≠ 0 := h x (by simp)
    have := ih (fun c hc => h c (by simp [hc]))
    simp [cstr, List.takeWhile_cons, hx] at this ⊢
    exact this

theorem cstr_nonzero (f : List Nat) : ∀ c ∈ cstr f, c ≠ 0 := by
  intro c hc
  have := List.mem_takeWhile_imp hc
  simpa using this

theorem cstr_ne_nil_of_head (l : List Nat) (h : l.headD 0 ≠ 0) : cstr l ≠ [] := by
  cases l with
  | nil => simp at h
  | cons x l => simp at h; simp [cstr, List.takeWhile_cons, h]



theorem entry_name_created (e : RootDirEntry) (f : List Nat)
    (hlen : (cstr f).length ≤ FS_FILENAME_LEN) :
    entry_name (created_entry e f) = cstr f := by
  unfold entry_name entry_bytes created_entry strcpy_name
  simp only [le32, FS_FILENAME_LEN] at *
  rw [List.append_assoc (cstr f), List.take_append_eq_append_take,
    List.take_of_length_le hlen]
  rcases Nat.lt_or_ge (cstr f).length 16 with h | h
  · obtain ⟨m, hm⟩ : ∃ m, 16 - (cstr f).length = m + 1 := ⟨15 - (cstr f).length, by omega⟩
    rw [hm]
    simp only [List.singleton_append, List.take_succ_cons, List.append_assoc, List.cons_append]
    exact cstr_append_zero _ _ (cstr_nonzero f)
  · have h16 : 16 - (cstr f).length = 0 := by omega
    rw [h16]
    simp only [List.take_zero, List.append_nil, List.append_assoc, Nat.zero_mod, List.cons_append]
    exact cstr_append_zero _ _ (cstr_nonzero f)

theorem created_name_head (e : RootDirEntry) (f : List Nat) (hne : f.headD 0 ≠ 0) :
    (created_entry e f).name.headD 0 ≠ 0 := by
  unfold created_entry strcpy_name
  cases f with
  | nil => simp at hne
  | cons x f =>
    simp at hne
    simp [cstr, List.takeWhile_cons, hne, FS_FILENAME_LEN]

theorem first_index_some {α : Type} (p : α → Bool) (l : List α) (k : Nat) :
    first_index p l = some k ↔
      (∃ a, l[k]? = some a ∧ p a = true) ∧ ∀ j < k, ∀ a, l[j]? = some a → p a = false := by
  induction l generalizing k with
  | nil => simp [first_index]
  | cons a l ih =>
    unfold first_index
    by_cases ha : p a = true
    · simp only [ha, if_true, Option.some.injEq]
      constructor
      · rintro rfl
        exact ⟨⟨a, by simp, ha⟩, by intro j hj; omega⟩
      · rintro ⟨_, hall⟩
        rcases Nat.eq_zero_or_pos k with rfl | hpos
        · rfl
        · have := hall 0 hpos a (by simp)
          simp [ha] at this
    · simp only [ha, Bool.false_eq_true, if_false, Option.map_eq_some']
      constructor
      · rintro ⟨i, hi, rfl⟩
        obtain ⟨⟨b, hb, hpb⟩, hall⟩ := (ih i).1 hi
        refine ⟨⟨b, by simpa using hb, hpb⟩, ?_⟩
        intro j hj c hc
        cases j with
        | zero => simp at hc; subst hc; simpa using ha
        | succ j => exact hall j (by omega) c (by simpa using hc)
      · rintro ⟨⟨b, hb, hpb⟩, hall⟩
        cases k with
        | zero => simp at hb; subst hb; exact absurd hpb ha
        | succ k =>
          refine ⟨k, (ih k).2 ⟨⟨b, by simpa using hb, hpb⟩, ?_⟩, rfl⟩
          intro j hj c hc
          exact hall (j + 1) (by omega) c (by simpa using hc)

theorem first_index_none {α : Type} (p : α → Bool) (l : List α) :
    first_index p l = none ↔ ∀ a ∈ l, p a = false := by
  induction l with
  | nil => simp [first_index]
  | cons a l ih =>
    unfold first_index
    by_cases ha : p a = true
    · simp [ha]
    · simp [ha, ih]



theorem valid_filename_len_iff (f : List Nat) :
    valid_filename_len f = true ↔ f.headD 0 ≠ 0 ∧ (cstr f).length ≤ FS_FILENAME_LEN := by
  unfold valid_filename_len
  by_cases h1 : f.headD 0 = 0
  · simp [h1]
  · by_cases h2 : (cstr f).length > FS_FILENAME_LEN
    · simp [h1, h2]
    · simp [h1, h2]; omega

theorem fs_create_ok (s : FS) (f : List Nat) (k : Nat) (d : Disk)
    (hm : s.is_mounted = true) (hv : valid_filename_len f = true)
    (he : file_exists s f = false)
    (hk : first_index slot_is_empty (s.root_dir.take FS_FILE_MAX_COUNT) = some k)
    (hd : block_write_dir s.disk s.sblock.rd_start_idx
      (s.root_dir.set k (created_entry (s.root_dir.getD k empty_entry) f)) = some d) :
    fs_create s f =
      (0, { s with root_dir := s.root_dir.set k (created_entry (s.root_dir.getD k empty_entry) f)
                   root_dir_frees := s.root_dir_frees - 1
                   disk := d }) := by
  unfold fs_create
  simp only [hm, hv, he, hk, Bool.not_true, Bool.or_self, Bool.false_eq_true, if_false]
  rw [hd]

theorem fs_create_success (s : FS) (f : List Nat) (h : (fs_create s f).1 = 0) :
    s.is_mounted = true ∧ valid_filename_len f = true ∧ file_exists s f = false ∧
    ∃ k d,
      first_index slot_is_empty (s.root_dir.take FS_FILE_MAX_COUNT) = some k ∧
      block_write_dir s.disk s.sblock.rd_start_idx
        (s.root_dir.set k (created_entry (s.root_dir.getD k empty_entry) f)) = some d := by
  unfold fs_create at h
  cases hm : s.is_mounted with
  | false => simp [hm] at h
  | true =>
    cases hv : valid_filename_len f with
    | false => simp [hm, hv] at h
    | true =>
      cases he : file_exists s f with
      | true => simp [hm, hv, he] at h
      | false =>
        simp only [hm, hv, he, Bool.not_true, Bool.or_self, Bool.false_eq_true, if_false] at h
        refine ⟨rfl, rfl, rfl, ?_⟩
        cases hk : first_index slot_is_empty (s.root_dir.take FS_FILE_MAX_COUNT) with
        | none => rw [hk] at h; simp at h
        | some k =>
          rw [hk] at h
          cases hd : block_write_dir s.disk s.sblock.rd_start_idx
              (s.root_dir.set k (created_entry (s.root_dir.getD k empty_entry) f)) with
          | none => simp only [hd] at h; simp at h
          | some d => exact ⟨k, d, rfl, hd⟩

theorem file_exists_iff (s : FS) (f : List Nat) :
    file_exists s f = true ↔
      ∃ i e, i < FS_FILE_MAX_COUNT ∧ s.root_dir[i]? = some e ∧ entry_name e = cstr f := by
  unfold file_exists name_matches
  rw [List.any_eq_true]
  constructor
  · rintro ⟨e, he, hn⟩
    obtain ⟨i, hi, hie⟩ := List.getElem_of_mem he
    have hi2 : i < FS_FILE_MAX_COUNT ∧ i < s.root_dir.length := by
      simpa [List.length_take] using hi
    refine ⟨i, e, hi2.1, ?_, by simpa using hn⟩
    rw [List.getElem_take] at hie
    rw [List.getElem?_eq_getElem hi2.2, hie]
  · rintro ⟨i, e, hi, hie, hn⟩
    refine ⟨e, ?_, by simpa using hn⟩
    have : (s.root_dir.take FS_FILE_MAX_COUNT)[i]? = some e := by
      rw [List.getElem?_take_of_lt hi]; exact hie
    exact List.mem_iff_getElem?.2 ⟨i, this⟩

theorem fs_create_exists (s : FS) (f : List Nat) (hex : file_exists s f = true) :
    fs_create s f = (-1, s) := by
  unfold fs_create
  simp only [hex, Bool.or_true, if_true]

theorem fs_create_twice_aux (s : FS) (f : List Nat) (h : (fs_create s f).1 = 0) :
    fs_create (fs_create s f).2 f = (-1, (fs_create s f).2) := by
  obtain ⟨hm, hv, he, k, d, hk, hd⟩ := fs_create_success s f h
  have hlen := ((valid_filename_len_iff f).1 hv).2
  rw [fs_create_ok s f k d hm hv he hk hd]
  obtain ⟨⟨a, ha, _⟩, _⟩ := (first_index_some _ _ _).1 hk
  have hk128 : k < FS_FILE_MAX_COUNT ∧ k < s.root_dir.length := by
    have := (List.getElem?_eq_some_iff.1 ha).1
    simpa [List.length_take] using this
  apply fs_create_exists
  rw [file_exists_iff]
  refine ⟨k, created_entry (s.root_dir.getD k empty_entry) f, hk128.1, ?_,
    entry_name_created _ f hlen⟩
  simp [List.getElem?_set, hk128.2]



theorem create_all_append (s : FS) (a b : List (List Nat)) :
    create_all s (a ++ b) =
      ((create_all s a).1 ++ (create_all (create_all s a).2 b).1,
        (create_all (create_all s a).2 b).2) := by
  induction a generalizing s with
  | nil => simp [create_all]
  | cons f a ih => simp [create_all, ih]

theorem entry_name_of_empty (e : RootDirEntry) (h : slot_is_empty e = true) :
    entry_name e = [] := by
  unfold slot_is_empty at h
  simp only [Bool.and_eq_true, beq_iff_eq] at h
  unfold entry_name entry_bytes
  cases hn : e.name with
  | nil => simp [le32, h.1, cstr]
  | cons x l =>
    rw [hn] at h
    simp at h
    simp [cstr, List.takeWhile_cons, h.2]

theorem block_write_dir_ok (d : Disk) (i : Nat) (dir : List RootDirEntry)
    (ho : d.opened = true) (hi : i < d.block_count) :
    block_write_dir d i dir =
      some { d with dir_blocks := fun j => if j = i then dir else d.dir_blocks j } := by
  unfold block_write_dir
  simp [ho, hi]

theorem fs_create_step (s0 s : FS) (names : List (List Nat)) (k : Nat) (f : List Nat)
    (hrd : s0.sblock.rd_start_idx < s0.disk.block_count)
    (hlen : s0.root_dir.length = FS_FILE_MAX_COUNT)
    (hempty : ∀ e ∈ s0.root_dir, slot_is_empty e = true)
    (hvalid : valid_filename_len f = true)
    (hdist : (names.map cstr).Nodup)
    (hk : k < FS_FILE_MAX_COUNT) (hf : names[k]? = some f)
    (hs : FilledTo s0 s names k) :
    (fs_create s f).1 = 0 ∧ FilledTo s0 (fs_create s f).2 names (k + 1) := by
  obtain ⟨hm, hop, hsb, hbc, hfat, hl, hfill, hdrop⟩ := hs
  obtain ⟨hhead, hflen⟩ := (valid_filename_len_iff f).1 hvalid
  have hkl : k < s.root_dir.length := by rw [hl, hlen]; exact hk
  -- the slot `k` is still the empty one of the start directory
  have hslot : ∀ i e, k ≤ i → s.root_dir[i]? = some e → slot_is_empty e = true := by
    intro i e hi hie
    have h1 : (s.root_dir.drop k)[i - k]? = some e := by
      rw [List.getElem?_drop]; rw [show k + (i - k) = i by omega]; exact hie
    rw [hdrop] at h1
    exact hempty e (List.mem_of_mem_drop (List.getElem?_mem h1))
  have hne : file_exists s f = false := by
    rw [Bool.eq_false_iff]
    intro hex
    obtain ⟨i, e, hi, hie, hn⟩ := (file_exists_iff s f).1 hex
    rcases Nat.lt_or_ge i k with hik | hik
    · have hil : i < names.length := by
        have := (List.getElem?_eq_some_iff.1 hf).1; omega
      obtain ⟨e2, he2, hn2, _⟩ := hfill i names[i] hik (List.getElem?_eq_getElem hil)
      rw [hie] at he2
      cases he2
      have hkl2 : k < (names.map cstr).length := by
        simpa using (List.getElem?_eq_some_iff.1 hf).1
      have := (List.nodup_iff_getElem?_ne_getElem?.1 hdist) i k hik hkl2
      apply this
      rw [List.getElem?_map, List.getElem?_map, hf, List.getElem?_eq_getElem hil]
      simp only [Option.map_some']
      rw [← hn2, hn]
    · have := entry_name_of_empty e (hslot i e hik hie)
      rw [this] at hn
      exact cstr_ne_nil_of_head f hhead hn.symm
  have hidx : first_index slot_is_empty (s.root_dir.take FS_FILE_MAX_COUNT) = some k := by
    rw [first_index_some]
    constructor
    · refine ⟨s.root_dir[k], ?_, hslot k _ (Nat.le_refl k) (List.getElem?_eq_getElem hkl)⟩
      rw [List.getElem?_take_of_lt hk]; exact List.getElem?_eq_getElem hkl
    · intro j hj a ha
      rw [List.getElem?_take_of_lt (by omega)] at ha
      have hjl : j < names.length := by
        have := (List.getElem?_eq_some_iff.1 hf).1; omega
      obtain ⟨e2, he2, _, hsz, _, hnh⟩ := hfill j names[j] hj (List.getElem?_eq_getElem hjl)
      rw [ha] at he2
      cases he2
      unfold slot_is_empty
      have : (a.name.headD 0 == 0) = false := by simpa using hnh
      rw [this, Bool.and_false]
  have hw := block_write_dir_ok s.disk s.sblock.rd_start_idx
    (s.root_dir.set k (created_entry (s.root_dir.getD k empty_entry) f)) hop
    (by rw [hsb, hbc]; exact hrd)
  rw [fs_create_ok s f k _ hm hvalid hne hidx hw]
  refine ⟨rfl, hm, hop, hsb, hbc, hfat, by simpa using hl, ?_, ?_⟩
  · intro j g hj hg
    rcases Nat.lt_or_ge j k with hjk | hjk
    · obtain ⟨e, he, hrest⟩ := hfill j g hjk hg
      refine ⟨e, ?_, hrest⟩
      simp only [List.getElem?_set]
      rw [if_neg (by omega)]
      exact he
    · have hjk2 : j = k := by omega
      subst hjk2
      rw [hf] at hg
      cases hg
      refine ⟨created_entry (s.root_dir.getD j empty_entry) f, ?_,
        entry_name_created _ f hflen, rfl, rfl, created_name_head _ f hhead⟩
      simp [List.getElem?_set, hkl]
  · simp only
    rw [List.drop_set_of_lt _ _ (Nat.lt_succ_self k)]
    have h1 : s.root_dir.drop (k + 1) = (s.root_dir.drop k).drop 1 := by simp [Nat.add_comm]
    have h2 : s0.root_dir.drop (k + 1) = (s0.root_dir.drop k).drop 1 := by simp [Nat.add_comm]
    rw [h1, h2, hdrop]



theorem fs_create_no_slot (s : FS) (f : List Nat)
    (hfull : first_index slot_is_empty (s.root_dir.take FS_FILE_MAX_COUNT) = none) :
    fs_create s f = (-1, s) := by
  unfold fs_create
  by_cases hc : (!s.is_mounted || !valid_filename_len f || file_exists s f) = true
  · rw [if_pos hc]
  · rw [if_neg hc, hfull]

theorem filled_prefix (s : FS) (names : List (List Nat))
    (hm : s.is_mounted = true) (hopen : s.disk.opened = true)
    (hrd : s.sblock.rd_start_idx < s.disk.block_count)
    (hlen : s.root_dir.length = FS_FILE_MAX_COUNT)
    (hempty : ∀ e ∈ s.root_dir, slot_is_empty e = true)
    (hn : names.length = FS_FILE_MAX_COUNT)
    (hvalid : ∀ f ∈ names, valid_filename_len f = true)
    (hdist : (names.map cstr).Nodup) (k : Nat) (hk : k ≤ FS_FILE_MAX_COUNT) :
    (create_all s (names.take k)).1 = List.replicate k 0 ∧
      FilledTo s (create_all s (names.take k)).2 names k := by
  induction k with
  | zero =>
    refine ⟨rfl, hm, hopen, rfl, rfl, rfl, rfl, ?_, rfl⟩
    intro j f hj
    omega
  | succ k ih =>
    obtain ⟨ih1, ih2⟩ := ih (by omega)
    have hkn : k < names.length := by omega
    have hf : names[k]? = some names[k] := List.getElem?_eq_getElem hkn
    have hstep := fs_create_step s (create_all s (names.take k)).2 names k names[k] hrd hlen
      hempty (hvalid _ (List.getElem_mem hkn)) hdist (by omega) hf ih2
    rw [List.take_succ, hf, Option.toList_some, create_all_append]
    simp only [create_all]
    rw [ih1, hstep.1]
    refine ⟨?_, hstep.2⟩
    rw [List.replicate_succ']



/-- C8: when `fs_create(name)` has succeeded, a second `fs_create(name)` returns
-1 and leaves the whole engine state, hence the directory mirror, its free
count, the FAT and the block store, as the first call left it. -/
theorem fs_create_twice (s : FS) (filename : List Nat) (h : (fs_create s filename).1 = 0) :
    fs_create (fs_create s filename).2 filename = (-1, (fs_create s filename).2) :=
  fs_create_twice_aux s filename h

set_option maxRecDepth 100000 in
/-- The statement of `fs_create_twice` at the fresh 8-block volume and the
name `"a"`. -/
theorem fs_create_twice_witness :
    (fs_create (fresh_volume 8) [97]).1 = 0 ∧
    fs_create (fs_create (fresh_volume 8) [97]).2 [97]
      = (-1, (fs_create (fresh_volume 8) [97]).2) :=
  ⟨by decide, fs_create_twice (fresh_volume 8) [97] (by decide)⟩

/-- C10: on a mounted volume whose 128 directory slots are all empty, creating
128 names that are valid and pairwise distinct succeeds every time: after the
first `k` calls all `k` return values are 0, slot `j < k` holds the `j`-th name
with size 0 and first block `FAT_EOC`, and the slots from `k` on are untouched,
so each call claimed the lowest empty slot. After all 128, `fs_create` of any
name returns -1 and leaves the state unchanged. -/
theorem directory_capacity (s : FS) (names : List (List Nat))
    (hm : s.is_mounted = true) (hopen : s.disk.opened = true)
    (hrd : s.sblock.rd_start_idx < s.disk.block_count)
    (hlen : s.root_dir.length = FS_FILE_MAX_COUNT)
    (hempty : ∀ e ∈ s.root_dir, slot_is_empty e = true)
    (hn : names.length = FS_FILE_MAX_COUNT)
    (hvalid : ∀ f ∈ names, valid_filename_len f = true)
    (hdist : (names.map cstr).Nodup) :
    (∀ k, k ≤ FS_FILE_MAX_COUNT →
      (create_all s (names.take k)).1 = List.replicate k 0 ∧
      (∀ j f, j < k → names[j]? = some f →
        ∃ e, (create_all s (names.take k)).2.root_dir[j]? = some e ∧
          entry_name e = cstr f ∧ e.size = 0 ∧ e.first_db_idx = FAT_EOC) ∧
      (create_all s (names.take k)).2.root_dir.drop k = s.root_dir.drop k) ∧
    ∀ f, fs_create (create_all s names).2 f = (-1, (create_all s names).2) := by
  constructor
  · intro k hk
    obtain ⟨h1, _, _, _, _, _, _, hfill, hdrop⟩ :=
      filled_prefix s names hm hopen hrd hlen hempty hn hvalid hdist k hk
    refine ⟨h1, ?_, hdrop⟩
    intro j f hj hf
    obtain ⟨e, he, hname, hsz, hfirst, _⟩ := hfill j f hj hf
    exact ⟨e, he, hname, hsz, hfirst⟩
  · intro f
    obtain ⟨_, _, _, _, _, _, hl, hfill, _⟩ :=
      filled_prefix s names hm hopen hrd hlen hempty hn hvalid hdist FS_FILE_MAX_COUNT
        (Nat.le_refl _)
    rw [List.take_of_length_le (Nat.le_of_eq hn)] at hl hfill
    apply fs_create_no_slot
    rw [first_index_none]
    intro a ha
    obtain ⟨j, hj⟩ := List.mem_iff_getElem?.1 ha
    have hj128 : j < FS_FILE_MAX_COUNT := by
      have := (List.getElem?_eq_some_iff.1 hj).1
      simp only [List.length_take] at this
      omega
    rw [List.getElem?_take_of_lt hj128] at hj
    obtain ⟨e, he, _, _, _, hhead⟩ :=
      hfill j names[j] hj128 (List.getElem?_eq_getElem (by omega))
    rw [hj] at he
    cases he
    unfold slot_is_empty
    have : (a.name.headD 0 == 0) = false := by simpa using hhead
    rw [this, Bool.and_false]

set_option maxRecDepth 1000000 in
/-- The statement of `directory_capacity` at the fresh 8-block volume and the
128 names `sample_names`. -/
theorem directory_capacity_witness :
    (create_all (fresh_volume 8) (sample_names.take 128)).1 = List.replicate 128 0 ∧
    fs_create (create_all (fresh_volume 8) sample_names).2 [200]
      = (-1, (create_all (fresh_volume 8) sample_names).2) :=
  have h := directory_capacity (fresh_volume 8) sample_names (by decide) (by decide)
    (by decide) (by decide) (by decide) (by decide) (by decide) (by decide)
  ⟨(h.1 128 (by decide)).1, h.2 [200]⟩

/-! ## FAT chains, `fs_write` and `fs_read` -/

theorem isChain_nil (fat : List Nat) (b : Nat) : IsChain fat b [] ↔ b = FAT_EOC := Iff.rfl

theorem isChain_cons (fat : List Nat) (b c : Nat) (l : List Nat) :
    IsChain fat b (c :: l) ↔
      b = c ∧ c ≠ FAT_EOC ∧ ∃ v, fat[c]? = some v ∧ v ≠ 0 ∧ IsChain fat v l := Iff.rfl

/-- The chain from a block is unique. -/
theorem isChain_unique (fat : List Nat) (b : Nat) (l1 l2 : List Nat)
    (h1 : IsChain fat b l1) (h2 : IsChain fat b l2) : l1 = l2 := by
  induction l1 generalizing b l2 with
  | nil =>
    cases l2 with
    | nil => rfl
    | cons c l2 =>
      rw [isChain_nil] at h1
      rw [isChain_cons] at h2
      exact absurd (h2.1 ▸ h1) h2.2.1
  | cons c l1 ih =>
    cases l2 with
    | nil =>
      rw [isChain_nil] at h2
      rw [isChain_cons] at h1
      exact absurd (h1.1 ▸ h2) h1.2.1
    | cons c2 l2 =>
      rw [isChain_cons] at h1 h2
      obtain ⟨hb1, _, v1, hv1, _, hr1⟩ := h1
      obtain ⟨hb2, _, v2, hv2, _, hr2⟩ := h2
      have hc : c = c2 := by rw [← hb1, hb2]
      subst hc
      rw [hv1] at hv2
      cases hv2
      rw [ih v1 l2 hr1 hr2]

/-- The part of a chain from position `i` on is the chain from the block
there. -/
theorem isChain_drop (fat : List Nat) (b : Nat) (l : List Nat) (h : IsChain fat b l) (i : Nat) :
    IsChain fat ((l.drop i).headD FAT_EOC) (l.drop i) := by
  induction l generalizing b i with
  | nil => simp [IsChain]
  | cons c l ih =>
    cases i with
    | zero =>
      rw [isChain_cons] at h
      simp only [List.drop_zero, List.headD_cons]
      rw [isChain_cons]
      exact ⟨rfl, h.2⟩
    | succ i =>
      rw [isChain_cons] at h
      obtain ⟨_, _, v, _, _, hr⟩ := h
      simpa using ih v hr i

theorem isChain_head (fat : List Nat) (b : Nat) (l : List Nat) (h : IsChain fat b l) :
    l.headD FAT_EOC = b := by
  cases l with
  | nil => exact h.symm
  | cons c l => exact h.1.symm

theorem isChain_mem (fat : List Nat) (b : Nat) (l : List Nat) (h : IsChain fat b l) :
    ∀ x ∈ l, x ≠ FAT_EOC ∧ ∃ v, fat[x]? = some v ∧ v ≠ 0 := by
  induction l generalizing b with
  | nil => intro x hx; cases hx
  | cons c l ih =>
    rw [isChain_cons] at h
    obtain ⟨_, hc, v, hv, hv0, hr⟩ := h
    intro x hx
    rcases List.mem_cons.1 hx with rfl | hx
    · exact ⟨hc, v, hv, hv0⟩
    · exact ih v hr x hx

/-- A chain visits no block twice. -/
theorem isChain_nodup (fat : List Nat) (b : Nat) (l : List Nat) (h : IsChain fat b l) :
    l.Nodup := by
  induction l generalizing b with
  | nil => exact List.nodup_nil
  | cons c l ih =>
    have h0 := h
    rw [isChain_cons] at h
    obtain ⟨hb, hc, v, hv, hv0, hr⟩ := h
    refine List.nodup_cons.2 ⟨?_, ih v hr⟩
    intro hmem
    obtain ⟨i, hi⟩ := List.mem_iff_getElem?.1 hmem
    have hil : i < l.length := (List.getElem?_eq_some_iff.1 hi).1
    have hd := isChain_drop fat v l hr i
    have hhead : (l.drop i).headD FAT_EOC = c := by
      rw [List.headD_eq_head?_getD, List.head?_drop, hi]; rfl
    rw [hhead] at hd
    have := isChain_unique fat c _ _ hd (hb ▸ h0)
    have hlen := congrArg List.length this
    simp at hlen
    omega

/-- A chain only depends on the FAT entries of its own blocks. -/
theorem isChain_congr (fat fat2 : List Nat) (b : Nat) (l : List Nat) (h : IsChain fat b l)
    (hsame : ∀ x ∈ l, fat2[x]? = fat[x]?) : IsChain fat2 b l := by
  induction l generalizing b with
  | nil => exact h
  | cons c l ih =>
    rw [isChain_cons] at h ⊢
    obtain ⟨hb, hc, v, hv, hv0, hr⟩ := h
    refine ⟨hb, hc, v, ?_, hv0, ih v hr (fun x hx => hsame x (List.mem_cons_of_mem _ hx))⟩
    rw [hsame c (List.mem_cons_self _ _)]
    exact hv

theorem find_empty_some (s : FS) (idx : Nat)
    (hlen : s.fat_array.length = s.sblock.data_block_amt)
    (h : find_empty_FAT_entry s = some idx) :
    s.fat_array[idx]? = some 0 ∧ ∀ j < idx, s.fat_array[j]? ≠ some 0 := by
  unfold find_empty_FAT_entry at h
  rw [← hlen, List.take_length] at h
  obtain ⟨⟨a, ha, hpa⟩, hall⟩ := (first_index_some _ _ _).1 h
  have : a = 0 := by simpa using hpa
  subst this
  refine ⟨ha, ?_⟩
  intro j hj hj0
  have := hall j hj 0 hj0
  simp at this

theorem find_empty_none (s : FS)
    (hlen : s.fat_array.length = s.sblock.data_block_amt) :
    find_empty_FAT_entry s = none ↔ s.fat_array.count 0 = 0 := by
  unfold find_empty_FAT_entry
  rw [← hlen, List.take_length, first_index_none, List.count_eq_zero]
  constructor
  · intro h hm
    have := h 0 hm
    simp at this
  · intro h a ha
    by_cases h0 : a = 0
    · subst h0; exact absurd ha h
    · simpa using h0

theorem zero_count_eq (s : FS) (hlen : s.fat_array.length = s.sblock.data_block_amt) :
    zero_count s = s.fat_array.count 0 := by
  unfold zero_count
  rw [← hlen, List.take_length]

theorem count_zero_set (fat : List Nat) (i v : Nat) (hi : i < fat.length) :
    (fat.set i v).count 0 + (if fat[i]? = some 0 then 1 else 0)
      = fat.count 0 + (if v = 0 then 1 else 0) := by
  rw [List.count_set _ _ _ _ hi]
  have hle : (if (fat[i] == 0) = true then 1 else 0) ≤ fat.count 0 := by
    by_cases h0 : fat[i] = 0
    · simp only [h0, beq_self_eq_true, if_true]
      exact List.count_pos_iff.2 (h0 ▸ List.getElem_mem hi)
    · simp [h0]
  rw [List.getElem?_eq_getElem hi]
  by_cases h0 : fat[i] = 0
  · simp only [h0, beq_self_eq_true, if_true] at hle ⊢
    by_cases hv : v = 0 <;> simp [hv] <;> omega
  · simp only [Option.some.injEq, h0, if_false]
    have : (fat[i] == 0) = false := by simpa using h0
    simp only [this, Bool.false_eq_true, if_false]
    by_cases hv : v = 0 <;> simp [hv]

theorem isChain_ne_nil (fat : List Nat) (b : Nat) (l : List Nat) (h : IsChain fat b l)
    (hb : b ≠ FAT_EOC) : l ≠ [] := by
  intro e
  subst e
  exact hb h

theorem getD_ne_eoc (fat : List Nat) (b : Nat) (l : List Nat) (h : IsChain fat b l) (j : Nat) :
    l.getD j FAT_EOC ≠ FAT_EOC ↔ j < l.length := by
  constructor
  · intro hne
    by_contra hj
    exact hne (List.getD_eq_default _ _ (by omega))
  · intro hj
    rw [List.getD_eq_getElem _ _ hj]
    exact (isChain_mem fat b l h _ (List.getElem_mem hj)).1

/-! ## Walks -/

theorem isWalk_cons (fat : List Nat) (b c : Nat) (l : List Nat) :
    IsWalk fat b (c :: l) ↔ b = c ∧ c ≠ FAT_EOC ∧ ∃ v, fat[c]? = some v ∧ IsWalk fat v l :=
  Iff.rfl

theorem isChain_isWalk (fat : List Nat) (l : List Nat) :
    ∀ b, IsChain fat b l → IsWalk fat b l := by
  induction l with
  | nil => intro b h; exact h
  | cons c l ih =>
    intro b h
    obtain ⟨hb, hc, v, hv, _, hr⟩ := h
    exact ⟨hb, hc, v, hv, ih v hr⟩

/-- A walk whose FAT entries are all in use is a chain. -/
theorem isChain_of_walk (fat : List Nat) (l : List Nat) :
    ∀ b, IsWalk fat b l → (∀ x ∈ l, fat[x]? ≠ some 0) → IsChain fat b l := by
  induction l with
  | nil => intro b h _; exact h
  | cons c l ih =>
    intro b h hin
    obtain ⟨hb, hc, v, hv, hr⟩ := h
    refine ⟨hb, hc, v, hv, ?_, ih v hr (fun x hx => hin x (List.mem_cons_of_mem _ hx))⟩
    intro hv0
    rw [hv0] at hv
    exact hin c (List.mem_cons_self _ _) hv

theorem isWalk_unique (fat : List Nat) (l1 : List Nat) :
    ∀ (b : Nat) (l2 : List Nat), IsWalk fat b l1 → IsWalk fat b l2 → l1 = l2 := by
  induction l1 with
  | nil =>
    intro b l2 h1 h2
    cases l2 with
    | nil => rfl
    | cons c l2 =>
      obtain ⟨hb, hc, _⟩ := h2
      exact absurd (hb ▸ h1) hc
  | cons c l1 ih =>
    intro b l2 h1 h2
    obtain ⟨hb1, hc1, v1, hv1, hr1⟩ := h1
    cases l2 with
    | nil => exact absurd (hb1 ▸ h2) hc1
    | cons d l2 =>
      obtain ⟨hb2, _, v2, hv2, hr2⟩ := h2
      have hcd : c = d := hb1.symm.trans hb2
      subst hcd
      rw [hv1] at hv2
      cases hv2
      rw [ih v1 l2 hr1 hr2]

theorem isWalk_drop (fat : List Nat) (b : Nat) (l : List Nat) (h : IsWalk fat b l) (i : Nat) :
    IsWalk fat ((l.drop i).headD FAT_EOC) (l.drop i) := by
  induction l generalizing b i with
  | nil => simp [IsWalk]
  | cons c l ih =>
    cases i with
    | zero =>
      rw [isWalk_cons] at h
      simp only [List.drop_zero, List.headD_cons]
      rw [isWalk_cons]
      exact ⟨rfl, h.2⟩
    | succ i =>
      rw [isWalk_cons] at h
      obtain ⟨_, _, v, _, hr⟩ := h
      simpa using ih v hr i

theorem isWalk_head (fat : List Nat) (b : Nat) (l : List Nat) (h : IsWalk fat b l) :
    l.headD FAT_EOC = b := by
  cases l with
  | nil => exact h.symm
  | cons c l => exact h.1.symm

theorem isWalk_mem (fat : List Nat) (l : List Nat) :
    ∀ b, IsWalk fat b l → ∀ x ∈ l, x ≠ FAT_EOC ∧ ∃ v, fat[x]? = some v := by
  induction l with
  | nil => intro b _ x hx; cases hx
  | cons c l ih =>
    intro b h x hx
    obtain ⟨_, hc, v, hv, hr⟩ := h
    rcases List.mem_cons.1 hx with hxc | hxl
    · rw [hxc]; exact ⟨hc, v, hv⟩
    · exact ih v hr x hxl

/-- A walk visits no block twice. -/
theorem isWalk_nodup (fat : List Nat) (b : Nat) (l : List Nat) (h : IsWalk fat b l) :
    l.Nodup := by
  induction l generalizing b with
  | nil => exact List.nodup_nil
  | cons c l ih =>
    have h0 := h
    rw [isWalk_cons] at h
    obtain ⟨hb, hc, v, hv, hr⟩ := h
    refine List.nodup_cons.2 ⟨?_, ih v hr⟩
    intro hmem
    obtain ⟨i, hi⟩ := List.mem_iff_getElem?.1 hmem
    have hil : i < l.length := (List.getElem?_eq_some_iff.1 hi).1
    have hd := isWalk_drop fat v l hr i
    have hhead : (l.drop i).headD FAT_EOC = c := by
      rw [List.headD_eq_head?_getD, List.head?_drop, hi]; rfl
    rw [hhead] at hd
    have := isWalk_unique fat _ c _ hd (hb ▸ h0)
    have hlen := congrArg List.length this
    simp at hlen
    omega

/-- The FAT entry of the block at position `i` of a walk is the block at
position `i + 1`, or `FAT_EOC` after the last one. -/
theorem isWalk_next (fat : List Nat) (b : Nat) (l : List Nat) (h : IsWalk fat b l)
    (i : Nat) (hi : i < l.length) :
    fat[l.getD i FAT_EOC]? = some (l.getD (i + 1) FAT_EOC) := by
  induction l generalizing b i with
  | nil => simp at hi
  | cons c l ih =>
    rw [isWalk_cons] at h
    obtain ⟨hb, hc, v, hv, hr⟩ := h
    cases i with
    | zero =>
      simp only [List.getD_cons_zero, List.getD_cons_succ]
      rw [hv]
      have := isWalk_head fat v l hr
      rw [← this]
      cases l <;> rfl
    | succ i =>
      simp only [List.getD_cons_succ]
      exact ih v hr i (by simpa using hi)

/-- The FAT entry of a block of a walk holds `FAT_EOC` or the next block of
the walk. -/
theorem isWalk_step (fat : List Nat) (l : List Nat) :
    ∀ b, IsWalk fat b l → ∀ y ∈ l, ∃ v, fat[y]? = some v ∧ (v = FAT_EOC ∨ v ∈ l) := by
  induction l with
  | nil => intro b _ y hy; cases hy
  | cons c l ih =>
    intro b h y hy
    obtain ⟨_, _, v, hv, hr⟩ := h
    rcases List.mem_cons.1 hy with hyc | hyl
    · rw [hyc]
      refine ⟨v, hv, ?_⟩
      cases l with
      | nil => exact Or.inl hr
      | cons d l2 =>
        right
        rw [hr.1]
        exact List.mem_cons_of_mem _ (List.mem_cons_self _ _)
    · obtain ⟨v2, hv2, hcase⟩ := ih v hr y hyl
      refine ⟨v2, hv2, ?_⟩
      rcases hcase with hc | hc
      · exact Or.inl hc
      · exact Or.inr (List.mem_cons_of_mem _ hc)

theorem isWalk_ne_nil (fat : List Nat) (b : Nat) (l : List Nat) (h : IsWalk fat b l)
    (hb : b ≠ FAT_EOC) : l ≠ [] := by
  intro e
  subst e
  exact hb h

theorem isWalk_first_mem (fat : List Nat) (b : Nat) (l : List Nat) (h : IsWalk fat b l)
    (hb : b ≠ FAT_EOC) : b ∈ l := by
  cases l with
  | nil => exact absurd h hb
  | cons c l =>
    rw [h.1]
    exact List.mem_cons_self _ _

theorem isWalk_eoc (fat : List Nat) (l : List Nat) (h : IsWalk fat FAT_EOC l) : l = [] := by
  cases l with
  | nil => rfl
  | cons c l => exact absurd h.1.symm h.2.1

theorem isWalk_getD_ne_eoc (fat : List Nat) (b : Nat) (l : List Nat) (h : IsWalk fat b l)
    (j : Nat) : l.getD j FAT_EOC ≠ FAT_EOC ↔ j < l.length := by
  constructor
  · intro hne
    by_contra hj
    exact hne (List.getD_eq_default _ _ (by omega))
  · intro hj
    rw [List.getD_eq_getElem _ _ hj]
    exact (isWalk_mem fat l b h _ (List.getElem_mem hj)).1

/-- A walk only depends on the FAT entries of its own blocks. -/
theorem isWalk_congr (fat fat2 : List Nat) (b : Nat) (l : List Nat) (h : IsWalk fat b l)
    (hsame : ∀ x ∈ l, fat2[x]? = fat[x]?) : IsWalk fat2 b l := by
  induction l generalizing b with
  | nil => exact h
  | cons c l ih =>
    rw [isWalk_cons] at h ⊢
    obtain ⟨hb, hc, v, hv, hr⟩ := h
    refine ⟨hb, hc, v, ?_, ih v hr (fun x hx => hsame x (List.mem_cons_of_mem _ hx))⟩
    rw [hsame c (List.mem_cons_self _ _)]
    exact hv

/-- Linking the block `idx`, which is not on the walk, after the last block
`prev` of a walk gives the walk extended by `idx`. -/
theorem isWalk_extend (fat : List Nat) (b : Nat) (l : List Nat) (prev idx : Nat)
    (h : IsWalk fat b l) (hlast : l.getLast? = some prev) (hnot : idx ∉ l)
    (hlt : idx < fat.length) (heoc : idx ≠ FAT_EOC) :
    IsWalk ((fat.set prev idx).set idx FAT_EOC) b (l ++ [idx]) := by
  induction l generalizing b with
  | nil => simp at hlast
  | cons c l ih =>
    have hnd := isWalk_nodup fat b _ h
    rw [isWalk_cons] at h
    obtain ⟨hb, hc, v, hv, hr⟩ := h
    have hcl : c < fat.length := (List.getElem?_eq_some_iff.1 hv).1
    have hci : c ≠ idx := fun e => hnot (e ▸ List.mem_cons_self _ _)
    cases l with
    | nil =>
      simp only [List.getLast?_singleton, Option.some.injEq] at hlast
      subst hlast
      simp only [List.nil_append, List.singleton_append]
      rw [isWalk_cons]
      refine ⟨hb, hc, idx, ?_, ?_⟩
      · simp [List.getElem?_set, hcl, hci.symm]
      · rw [isWalk_cons]
        refine ⟨rfl, heoc, FAT_EOC, ?_, rfl⟩
        simp [List.getElem?_set, hlt]
    | cons c2 l2 =>
      have hlast2 : (c2 :: l2).getLast? = some prev := by
        simpa [List.getLast?_cons_cons] using hlast
      have hprev : prev ∈ c2 :: l2 := List.mem_of_getLast?_eq_some hlast2
      have hcp : c ≠ prev := by
        intro e
        exact (List.nodup_cons.1 hnd).1 (e ▸ hprev)
      have := ih v hr hlast2 (fun hm => hnot (List.mem_cons_of_mem _ hm))
      simp only [List.cons_append]
      rw [isWalk_cons]
      refine ⟨hb, hc, v, ?_, by simpa using this⟩
      simp only [List.getElem?_set, List.length_set]
      rw [if_neg hci.symm, if_neg hcp.symm]
      exact hv

/-- A block whose FAT entry points to itself is on no walk. -/
theorem isWalk_not_self (fat : List Nat) (l : List Nat) :
    ∀ b, IsWalk fat b l → ∀ x, fat[x]? = some x → x ∉ l := by
  induction l with
  | nil => intro b _ x _ hx; cases hx
  | cons c l ih =>
    intro b h x hx hm
    have h0 := h
    obtain ⟨hb, hc, v, hv, hr⟩ := h
    rcases List.mem_cons.1 hm with hxc | hxl
    · rw [← hxc, hx] at hv
      have hvx : x = v := Option.some.inj hv
      rw [← hvx] at hr
      rw [hb, ← hxc] at h0
      have := congrArg List.length (isWalk_unique fat l x (x :: l) hr h0)
      simp at this
    · exact ih v hr x hx hxl

theorem walk_length_le (fat : List Nat) (b : Nat) (l : List Nat) (h : IsWalk fat b l) :
    l.length ≤ fat.length := by
  have hnd := isWalk_nodup fat b l h
  have hsub : l ⊆ List.range fat.length := by
    intro x hx
    obtain ⟨_, v, hv⟩ := isWalk_mem fat l b h x hx
    exact List.mem_range.2 (List.getElem?_eq_some_iff.1 hv).1
  have := (List.subperm_of_subset hnd hsub).length_le
  simpa using this

theorem WInv.sblock_eq {s0 : FS} {buf : List Nat} {p0 size0 count0 first : Nat} {L0 : List Nat}
    {w : WriteVars} {L : List Nat} {j : Nat}
    (h : WInv s0 buf p0 size0 count0 first L0 w L j) : w.s.sblock = s0.sblock := by
  rw [h.rest]

theorem WInv.disk_geo {s0 : FS} {buf : List Nat} {p0 size0 count0 first : Nat} {L0 : List Nat}
    {w : WriteVars} {L : List Nat} {j : Nat}
    (h : WInv s0 buf p0 size0 count0 first L0 w L j) :
    w.s.disk.opened = true ∧ w.s.disk.block_count = s0.disk.block_count := by
  rw [h.rest]
  exact ⟨h.geo_open, rfl⟩

theorem getLast?_eq_getD (l : List Nat) (hl : l ≠ []) :
    l.getLast? = some (l.getD (l.length - 1) FAT_EOC) := by
  have hpos : 0 < l.length := List.length_pos.2 hl
  rw [List.getLast?_eq_getElem?, List.getD_eq_getElem _ _ (by omega),
    List.getElem?_eq_getElem (by omega)]

theorem write_alloc_inv {s0 : FS} {buf : List Nat} {p0 size0 count0 first : Nat}
    {L0 : List Nat} {w : WriteVars} {L : List Nat} {j : Nat}
    (h : WInv s0 buf p0 size0 count0 first L0 w L j) (hc : 0 < w.count) :
    (write_alloc w = .done none ∧ find_empty_FAT_entry w.s = none ∧ w.curr_idx = FAT_EOC) ∨
    ∃ w1 L1, write_alloc w = .done (some w1) ∧
      WInv s0 buf p0 size0 count0 first L0 w1 L1 j ∧ j < L1.length ∧ w1.count = w.count := by
  by_cases hcur : w.curr_idx = FAT_EOC
  · have hj : j = L.length := by
      have h1 : ¬ j < L.length := by
        intro hlt
        exact (isWalk_getD_ne_eoc _ _ _ h.chain j).2 hlt (h.curr ▸ hcur)
      have := h.pos
      omega
    have hLne : L ≠ [] := isWalk_ne_nil _ _ _ h.chain h.first_ne
    have hLpos : 0 < L.length := List.length_pos.2 hLne
    have hprev : w.prev_idx = L.getD (L.length - 1) FAT_EOC := by
      have := h.prev (by omega)
      rw [hj] at this
      exact this
    have hlast : L.getLast? = some w.prev_idx := by
      rw [getLast?_eq_getD L hLne, hprev]
    have hprev_mem : w.prev_idx ∈ L := List.mem_of_getLast?_eq_some hlast
    have hlen : w.s.fat_array.length = w.s.sblock.data_block_amt := by
      rw [h.sblock_eq, h.len_eq, h.geo_len]
    cases hfe : find_empty_FAT_entry w.s with
    | none =>
      left
      refine ⟨?_, rfl, hcur⟩
      unfold write_alloc
      rw [if_pos hcur, hfe]
    | some idx =>
      right
      obtain ⟨hidx0, hmin⟩ := find_empty_some w.s idx hlen hfe
      have hidx_lt : idx < w.s.fat_array.length := (List.getElem?_eq_some_iff.1 hidx0).1
      obtain ⟨_, pv, hpv⟩ := isWalk_mem _ _ _ h.chain _ hprev_mem
      have hprev_lt : w.prev_idx < w.s.fat_array.length := (List.getElem?_eq_some_iff.1 hpv).1
      have hidx_eoc : idx ≠ FAT_EOC := by
        have := h.len_eq
        have := h.geo_16
        unfold FAT_EOC
        omega
      -- the offset is block aligned here
      have hoff := h.off hc
      have hlo := h.len_lo
      have hoib : w.offset_in_block = 0 ∧ w.offset = BLOCK_SIZE * L.length := by
        have h1 : w.offset ≤ max size0 w.offset := Nat.le_max_right _ _
        rw [hj] at hoff
        unfold BLOCK_SIZE at *
        omega
      have hneed : BLOCK_SIZE * L.length < p0 + count0 := by
        have := h.total
        omega
      -- the block taken is not a block of the file, in each way the loop runs
      have hmode : idx ∉ L ∧
          (((∀ x ∈ L ++ [idx],
                ((w.s.fat_array.set w.prev_idx idx).set idx FAT_EOC)[x]? ≠ some 0) ∧
              ((w.s.fat_array.set w.prev_idx idx).set idx FAT_EOC)[0]? ≠ some 0 ∧
              s0.fat_array[0]? ≠ some 0 ∧
              ((w.s.fat_array.set w.prev_idx idx).set idx FAT_EOC).count 0 + (L ++ [idx]).length
                = s0.fat_array.count 0 + L0.length) ∨
            (L ++ [idx] = L0 ∧
              (w.s.fat_array.set w.prev_idx idx).set idx FAT_EOC = s0.fat_array ∧
              p0 + count0 ≤ BLOCK_SIZE * (L0.length + 1) ∧
              (p0 + count0 ≤ BLOCK_SIZE * L0.length ∨ s0.fat_array[0]? = some 0)) ∨
            (L ++ [idx] = L0 ++ [0] ∧ s0.fat_array[0]? = some 0 ∧
              BLOCK_SIZE * L0.length < p0 + count0 ∧
              p0 + count0 ≤ BLOCK_SIZE * (L0.length + 1))) := by
        rcases h.mode with ⟨hin, hw0, hs0, hzeros⟩ | ⟨hLL, hfeq, hone, hor⟩ |
          ⟨hLL, hs00, hlt, hle⟩
        · have hidx_notin : idx ∉ L := fun hm => hin idx hm hidx0
          have hidx_ne0 : idx ≠ 0 := by
            intro e
            rw [e] at hidx0
            exact hw0 hidx0
          have hpi : w.prev_idx ≠ idx := fun e => hidx_notin (e ▸ hprev_mem)
          refine ⟨hidx_notin, Or.inl ⟨?_, ?_, hs0, ?_⟩⟩
          · intro x hx
            simp only [List.getElem?_set, List.length_set]
            by_cases hxi : idx = x
            · rw [if_pos hxi, if_pos (hxi ▸ hidx_lt)]
              intro e
              have := Option.some.inj e
              revert this
              decide
            · rw [if_neg hxi]
              by_cases hxp : w.prev_idx = x
              · rw [if_pos hxp, if_pos (hxp ▸ hprev_lt)]
                intro e
                exact hidx_ne0 (Option.some.inj e)
              · rw [if_neg hxp]
                rcases List.mem_append.1 hx with hxl | hxs
                · exact hin x hxl
                · exact absurd (by simpa using hxs : x = idx).symm hxi
          · simp only [List.getElem?_set, List.length_set]
            rw [if_neg hidx_ne0]
            by_cases hp0 : w.prev_idx = 0
            · rw [if_pos hp0, if_pos (hp0 ▸ hprev_lt)]
              intro e
              exact hidx_ne0 (Option.some.inj e)
            · rw [if_neg hp0]
              exact hw0
          · have c1 := count_zero_set w.s.fat_array w.prev_idx idx hprev_lt
            have c2 := count_zero_set (w.s.fat_array.set w.prev_idx idx) idx FAT_EOC
              (by simpa using hidx_lt)
            have e1 : w.s.fat_array[w.prev_idx]? ≠ some 0 := hin _ hprev_mem
            have e2 : (w.s.fat_array.set w.prev_idx idx)[idx]? = some 0 := by
              simp only [List.getElem?_set]
              rw [if_neg hpi]
              exact hidx0
            rw [if_neg e1, if_neg hidx_ne0] at c1
            rw [if_pos e2, if_neg (by decide)] at c2
            simp only [List.length_append, List.length_singleton]
            omega
        · have h00 : w.s.fat_array[0]? = some 0 := by
            rw [hfeq]
            rcases hor with hh | hh
            · rw [hLL] at hneed
              omega
            · exact hh
          have hidx : idx = 0 := by
            by_contra hne
            exact hmin 0 (Nat.pos_of_ne_zero hne) h00
          have hnot : idx ∉ L := by
            rw [hidx]
            exact isWalk_not_self _ _ _ h.chain 0 h00
          refine ⟨hnot, Or.inr (Or.inr ⟨by rw [hLL, hidx], by rw [← hfeq]; exact h00, ?_, hone⟩)⟩
          rw [← hLL]
          exact hneed
        · exfalso
          have hl : L.length = L0.length + 1 := by rw [hLL]; simp
          rw [hl] at hneed
          omega
      obtain ⟨hidx_notin, hmode2⟩ := hmode
      have hget : ∀ i, i < L.length → (L ++ [idx]).getD i 0 = L.getD i 0 := by
        intro i hi
        rw [List.getD_eq_getElem?_getD, List.getD_eq_getElem?_getD,
          List.getElem?_append_left hi]
      have hblk : ∀ g, p0 + g < w.offset → (p0 + g) / BLOCK_SIZE < L.length := by
        intro g hg
        rw [hoib.2] at hg
        exact Nat.div_lt_of_lt_mul hg
      refine ⟨{ w with
          s := { w.s with fat_array := (w.s.fat_array.set w.prev_idx idx).set idx FAT_EOC }
          curr_idx := idx }, L ++ [idx], ?_, ?_, by simp; omega, rfl⟩
      · unfold write_alloc
        rw [if_pos hcur, hfe]
        simp only [hprev_lt, if_true]
      · constructor
        · exact h.geo_open
        · exact h.geo_data
        · exact h.geo_len
        · exact h.geo_16
        · have hr := h.rest
          simp only
          rw [hr]
        · simp [h.len_eq]
        · exact isWalk_extend _ _ _ _ _ h.chain hlast hidx_notin hidx_lt hidx_eoc
        · exact h.first_ne
        · simp; omega
        · simp only
          rw [hj, List.getD_eq_getElem?_getD, List.getElem?_append_right (Nat.le_refl _)]
          simp
        · intro hjp
          simp only
          rw [h.prev hjp, List.getD_eq_getElem?_getD, List.getD_eq_getElem?_getD,
            List.getElem?_append_left (by omega)]
        · exact h.off
        · have := h.len_lo
          simp only [List.length_append, List.length_singleton]
          omega
        · right
          exact ⟨by simp [hj], hc⟩
        · exact List.IsPrefix.trans h.pre (List.prefix_append _ _)
        · intro x hx hx0
          rcases List.mem_append.1 hx with hxl | hxi
          · exact h.fresh x hxl hx0
          · have : x = idx := by simpa using hxi
            subst this
            rw [← h.frame x hidx_notin]
            exact hidx0
        · intro x hx
          have hxl : x ∉ L := fun hm => hx (List.mem_append_left _ hm)
          have hxi : x ≠ idx := fun e => hx (by simp [e])
          have hxp : x ≠ w.prev_idx := fun e => hxl (e ▸ hprev_mem)
          simp only [List.getElem?_set, List.length_set]
          rw [if_neg (Ne.symm hxi), if_neg (Ne.symm hxp)]
          exact h.frame x hxl
        · exact hmode2
        · exact h.small
        · exact h.base
        · exact h.amt
        · exact h.total
        · intro g hg
          simp only
          rw [hget _ (hblk g hg)]
          exact h.written g hg
        · intro b t hbt
          simp only
          apply h.untouched b t
          intro g hg
          have := hbt g hg
          simp only at this
          rw [hget _ (hblk g hg)] at this
          exact this
  · right
    refine ⟨w, L, ?_, h, ?_, rfl⟩
    · unfold write_alloc
      rw [if_neg hcur]
    · exact (isWalk_getD_ne_eoc _ _ _ h.chain j).1 (h.curr ▸ hcur)

theorem toInt32_of_lt (n : Nat) (h : n < 2 ^ 31) : toInt32 n = (n : Int) := by
  unfold toInt32
  have h1 : n % 2 ^ 32 = n := Nat.mod_eq_of_lt (by omega)
  rw [h1, if_pos h]

theorem min_cast (a b : Nat) : min (a : Int) (b : Int) = ((Min.min a b : Nat) : Int) := by
  unfold min
  by_cases h : a < b
  · rw [if_pos (by exact_mod_cast h), Nat.min_eq_left (Nat.le_of_lt h)]
  · rw [if_neg (by exact_mod_cast h), Nat.min_eq_right (by omega)]

theorem block_read_data_ok (d : Disk) (i : Nat) (ho : d.opened = true)
    (hi : i < d.block_count) : block_read_data d i = some (d.data_blocks i) := by
  unfold block_read_data
  simp [ho, hi]

theorem block_write_data_ok (d : Disk) (i : Nat) (buf : Nat → Nat) (ho : d.opened = true)
    (hi : i < d.block_count) :
    block_write_data d i buf =
      some { d with data_blocks := fun j => if j = i then buf else d.data_blocks j } := by
  unfold block_write_data
  simp [ho, hi]

theorem block_write_data_put (d : Disk) (i : Nat) (buf : Nat → Nat) (ho : d.opened = true)
    (hi : i < d.block_count) : block_write_data d i buf = some (put_data d i buf) :=
  block_write_data_ok d i buf ho hi

/-- The bytes `write_block` copies: the minimum of what is left and what fits
into the block. -/
theorem write_block_eq (buf : List Nat) (w : WriteVars) (nxt : Nat)
    (hopen : w.s.disk.opened = true)
    (hin : w.curr_idx + w.s.sblock.data_start_idx < w.s.disk.block_count)
    (hsmall : w.count < 2 ^ 31) (hoib : w.offset_in_block < BLOCK_SIZE)
    (hnxt : w.s.fat_array[w.curr_idx]? = some nxt) :
    write_block buf w = .done (some
      { s := { w.s with
          disk := put_data w.s.disk (w.curr_idx + w.s.sblock.data_start_idx)
            (memcpy_into (w.s.disk.data_blocks (w.curr_idx + w.s.sblock.data_start_idx))
              w.offset_in_block buf w.amt_written.toNat
              (Min.min w.count (BLOCK_SIZE - w.offset_in_block))) }
        count := w.count - Min.min w.count (BLOCK_SIZE - w.offset_in_block)
        offset := w.offset + Min.min w.count (BLOCK_SIZE - w.offset_in_block)
        offset_in_block := 0
        amt_written := w.amt_written + ((Min.min w.count (BLOCK_SIZE - w.offset_in_block) : Nat) : Int)
        prev_idx := w.curr_idx
        curr_idx := nxt }) := by
  unfold write_block
  rw [block_read_data_ok _ _ hopen hin]
  have hcast : ((BLOCK_SIZE : Nat) : Int) - (w.offset_in_block : Int)
      = ((BLOCK_SIZE - w.offset_in_block : Nat) : Int) := by
    rw [Nat.cast_sub (Nat.le_of_lt hoib)]
  simp only [toInt32_of_lt _ hsmall, hcast, min_cast]
  rw [if_neg (by exact_mod_cast Nat.not_lt_zero _)]
  simp only [Int.toNat_ofNat, block_write_data_put _ _ _ hopen hin, hnxt]

theorem memcpy_into_apply (blk : Nat → Nat) (oib : Nat) (buf : List Nat) (amt n t : Nat) :
    memcpy_into blk oib buf amt n t =
      if oib ≤ t ∧ t < oib + n then buf.getD (amt + (t - oib)) 0 else blk t := rfl

theorem nodup_getD_inj (l : List Nat) (hnd : l.Nodup) (i j : Nat) (hi : i < l.length)
    (hj : j < l.length) (d1 d2 : Nat) (h : l.getD i d1 = l.getD j d2) : i = j := by
  rw [List.getD_eq_getElem _ _ hi, List.getD_eq_getElem _ _ hj] at h
  exact (List.Nodup.getElem_inj_iff hnd).1 h

theorem write_block_inv {s0 : FS} {buf : List Nat} {p0 size0 count0 first : Nat}
    {L0 : List Nat} {w : WriteVars} {L : List Nat} {j : Nat}
    (h : WInv s0 buf p0 size0 count0 first L0 w L j) (hj : j < L.length) (hc : 0 < w.count) :
    ∃ w2, write_block buf w = .done (some w2) ∧
      WInv s0 buf p0 size0 count0 first L0 w2 L (j + 1) ∧ w2.count < w.count := by
  have hcurr : w.curr_idx = L.getD j 0 := by
    rw [h.curr, List.getD_eq_getElem _ _ hj, List.getD_eq_getElem _ _ hj]
  have hmem : w.curr_idx ∈ L := by
    rw [hcurr, List.getD_eq_getElem _ _ hj]
    exact List.getElem_mem hj
  obtain ⟨_, v, hv⟩ := isWalk_mem _ _ _ h.chain _ hmem
  have hlt : w.curr_idx < w.s.fat_array.length := (List.getElem?_eq_some_iff.1 hv).1
  obtain ⟨hopen, hbc⟩ := h.disk_geo
  have hds : w.s.sblock.data_start_idx = s0.sblock.data_start_idx := by rw [h.sblock_eq]
  have hin : w.curr_idx + w.s.sblock.data_start_idx < w.s.disk.block_count := by
    have := h.geo_data
    have := h.len_eq
    rw [hbc, hds]
    omega
  obtain ⟨hoff, hoib⟩ := h.off hc
  have hnxt : w.s.fat_array[w.curr_idx]? = some (L.getD (j + 1) FAT_EOC) := by
    rw [h.curr]
    exact isWalk_next _ _ _ h.chain j hj
  have hnd := isWalk_nodup _ _ _ h.chain
  have hsmall := h.small
  have hbase := h.base
  have hamt : w.amt_written.toNat = w.offset - p0 := by
    rw [h.amt]
    omega
  refine ⟨_, write_block_eq buf w _ hopen hin h.small hoib hnxt, ?_, ?_⟩
  · generalize hn : Min.min w.count (BLOCK_SIZE - w.offset_in_block) = n
    have hn1 : 1 ≤ n := by rw [← hn]; unfold BLOCK_SIZE at *; omega
    have hn2 : n ≤ w.count := by rw [← hn]; omega
    have hn3 : n ≤ BLOCK_SIZE - w.offset_in_block := by rw [← hn]; omega
    have hn4 : n < w.count → n = BLOCK_SIZE - w.offset_in_block := by
      intro hlt; rw [← hn] at hlt ⊢; omega
    constructor
    · exact h.geo_open
    · exact h.geo_data
    · exact h.geo_len
    · exact h.geo_16
    · have hr := h.rest
      simp only [put_data]
      rw [hr]
    · exact h.len_eq
    · exact h.chain
    · exact h.first_ne
    · omega
    · rfl
    · intro _
      simp only [Nat.add_sub_cancel]
      exact h.curr
    · intro hpos
      simp only at hpos ⊢
      have := hn4 (by omega)
      unfold BLOCK_SIZE at *
      omega
    · have := h.len_lo
      simp only
      unfold BLOCK_SIZE at *
      omega
    · left
      simp only
      rcases h.len_hi with hh | ⟨hh, _⟩
      · unfold BLOCK_SIZE at *
        omega
      · unfold BLOCK_SIZE at *
        omega
    · exact h.pre
    · exact h.fresh
    · exact h.frame
    · exact h.mode
    · simp only; omega
    · simp only; omega
    · simp only
      rw [h.amt]
      push_cast
      omega
    · have := h.total
      simp only
      omega
    · intro g hg
      simp only [put_data, memcpy_into] at hg ⊢
      rw [hds]
      by_cases hold : p0 + g < w.offset
      · have hval := h.written g hold
        have hi_le : (p0 + g) / BLOCK_SIZE ≤ j := by
          unfold BLOCK_SIZE at *
          omega
        by_cases hb : L.getD ((p0 + g) / BLOCK_SIZE) 0 + s0.sblock.data_start_idx
            = w.curr_idx + s0.sblock.data_start_idx
        · rw [if_pos hb]
          have hb2 : L.getD ((p0 + g) / BLOCK_SIZE) 0 = L.getD j 0 := by
            rw [← hcurr]; omega
          have hij := nodup_getD_inj L hnd _ _ (by omega) hj 0 0 hb2
          have hnot : ¬ (w.offset_in_block ≤ (p0 + g) % BLOCK_SIZE ∧
              (p0 + g) % BLOCK_SIZE < w.offset_in_block + n) := by
            unfold BLOCK_SIZE at *
            omega
          rw [memcpy_into_apply, if_neg hnot, ← hb]
          exact hval
        · rw [if_neg hb]
          exact hval
      · have hi_eq : (p0 + g) / BLOCK_SIZE = j := by
          unfold BLOCK_SIZE at *
          omega
        have ht : (p0 + g) % BLOCK_SIZE = w.offset_in_block + (p0 + g - w.offset) := by
          unfold BLOCK_SIZE at *
          omega
        rw [hi_eq, ← hcurr, if_pos rfl, memcpy_into_apply, ht, if_pos (by omega), hamt]
        congr 1
        omega
    · intro b t hbt
      simp only [put_data, memcpy_into] at hbt ⊢
      rw [hds]
      have hold : w.s.disk.data_blocks b t = s0.disk.data_blocks b t := by
        apply h.untouched b t
        intro g hg
        exact hbt g (by omega)
      by_cases hb : b = w.curr_idx + s0.sblock.data_start_idx
      · rw [if_pos hb]
        by_cases hr : w.offset_in_block ≤ t ∧ t < w.offset_in_block + n
        · exfalso
          apply hbt (w.offset - p0 + (t - w.offset_in_block)) (by omega)
          have hi_eq : (p0 + (w.offset - p0 + (t - w.offset_in_block))) / BLOCK_SIZE = j := by
            unfold BLOCK_SIZE at *
            omega
          have ht : (p0 + (w.offset - p0 + (t - w.offset_in_block))) % BLOCK_SIZE = t := by
            unfold BLOCK_SIZE at *
            omega
          rw [hi_eq, ht, ← hcurr]
          exact ⟨hb, rfl⟩
        · rw [memcpy_into_apply, if_neg hr, ← hb]
          exact hold
      · rw [if_neg hb]
        exact hold
  · simp only
    have : 1 ≤ Min.min w.count (BLOCK_SIZE - w.offset_in_block) := by
      unfold BLOCK_SIZE at *
      omega
    omega

theorem write_iter_inv {s0 : FS} {buf : List Nat} {p0 size0 count0 first : Nat}
    {L0 : List Nat} {w : WriteVars} {L : List Nat} {j : Nat}
    (h : WInv s0 buf p0 size0 count0 first L0 w L j) (hc : 0 < w.count) :
    (write_iter buf w = .done (w, false) ∧ find_empty_FAT_entry w.s = none ∧
        w.curr_idx = FAT_EOC) ∨
    ∃ w2 L2, write_iter buf w = .done (w2, true) ∧
      WInv s0 buf p0 size0 count0 first L0 w2 L2 (j + 1) ∧ w2.count < w.count := by
  rcases write_alloc_inv h hc with ⟨ha, hfe, hcur⟩ | ⟨w1, L1, ha, h1, hj1, hc1⟩
  · left
    refine ⟨?_, hfe, hcur⟩
    unfold write_iter
    rw [ha]
  · right
    obtain ⟨w2, hb, h2, hlt⟩ := write_block_inv h1 hj1 (hc1 ▸ hc)
    refine ⟨w2, L1, ?_, h2, hc1 ▸ hlt⟩
    unfold write_iter
    rw [ha]
    simp only
    rw [hb]

/-- The `while` loop of `fs_write` returns and keeps the invariant; it stops
with nothing left to write, or at the end of the chain with no free FAT
entry. -/
theorem write_loop_inv {s0 : FS} {buf : List Nat} {p0 size0 count0 first : Nat}
    {L0 : List Nat} (fuel : Nat) :
    ∀ (w : WriteVars) (L : List Nat) (j : Nat),
      WInv s0 buf p0 size0 count0 first L0 w L j → w.count ≤ fuel →
      ∃ w2 L2 j2, write_loop buf fuel w = .done w2 ∧
        WInv s0 buf p0 size0 count0 first L0 w2 L2 j2 ∧
        (w2.count = 0 ∨ (find_empty_FAT_entry w2.s = none ∧ w2.curr_idx = FAT_EOC)) := by
  induction fuel with
  | zero =>
    intro w L j h hf
    have hc : w.count = 0 := by omega
    refine ⟨w, L, j, ?_, h, Or.inl hc⟩
    unfold write_loop
    rw [if_pos hc]
  | succ fuel ih =>
    intro w L j h hf
    by_cases hc : w.count = 0
    · refine ⟨w, L, j, ?_, h, Or.inl hc⟩
      unfold write_loop
      rw [if_pos hc]
    · rcases write_iter_inv h (Nat.pos_of_ne_zero hc) with ⟨hi, hfe, hcur⟩ | ⟨w2, L2, hi, h2, hlt⟩
      · refine ⟨w, L, j, ?_, h, Or.inr ⟨hfe, hcur⟩⟩
        unfold write_loop
        rw [if_neg hc, hi]
      · obtain ⟨w3, L3, j3, hl, h3, hex⟩ := ih w2 L2 (j + 1) h2 (by omega)
        refine ⟨w3, L3, j3, ?_, h3, hex⟩
        unfold write_loop
        rw [if_neg hc, hi]
        exact hl

theorem write_walk_chain (fat : List Nat) (b : Nat) (l : List Nat) (h : IsWalk fat b l)
    (k : Nat) : ∀ (i prev : Nat), i + k ≤ l.length →
      write_walk fat k prev (l.getD i FAT_EOC) =
        .done (if k = 0 then prev else l.getD (i + k - 1) FAT_EOC, l.getD (i + k) FAT_EOC) := by
  induction k with
  | zero => intro i prev _; rfl
  | succ k ih =>
    intro i prev hik
    unfold write_walk
    rw [isWalk_next fat b l h i (by omega)]
    simp only
    rw [ih (i + 1) _ (by omega)]
    have e1 : i + 1 + k = i + (k + 1) := by omega
    rw [e1]
    by_cases hk : k = 0
    · subst hk; simp
    · simp [hk]

theorem intra_block_eq (offset : Nat) : intra_block offset = offset % BLOCK_SIZE := by
  unfold intra_block BLOCK_SIZE
  by_cases h : offset % 4096 = 0
  · rw [if_pos h, h]
  · rw [if_neg h]; omega

/-- The invariant holds when the `while` loop of `fs_write` is entered. -/
theorem winv_init (s1 : FS) (buf : List Nat) (offset size0 count first : Nat) (L1 : List Nat)
    (hM : Mounted s1) (hchain : IsWalk s1.fat_array first L1) (hfirst : first ≠ FAT_EOC)
    (hz : ((∀ x ∈ L1, s1.fat_array[x]? ≠ some 0) ∧ s1.fat_array[0]? ≠ some 0) ∨
      (offset + count ≤ BLOCK_SIZE * (L1.length + 1) ∧
        (offset + count ≤ BLOCK_SIZE * L1.length ∨ s1.fat_array[0]? = some 0)))
    (hoff : offset ≤ size0)
    (hlo : (size0 + (BLOCK_SIZE - 1)) / BLOCK_SIZE ≤ L1.length)
    (hhi : L1.length ≤ (size0 + (BLOCK_SIZE - 1)) / BLOCK_SIZE ∨
      L1.length = offset / BLOCK_SIZE + 1)
    (hc : 0 < count) (hsmall : count < 2 ^ 31) :
    ∃ prev curr,
      write_walk s1.fat_array (offset / BLOCK_SIZE) first first = .done (prev, curr) ∧
      WInv s1 buf offset size0 count first L1
        ⟨s1, count, offset, intra_block offset, 0, prev, curr⟩ L1 (offset / BLOCK_SIZE) := by
  have hpos : offset / BLOCK_SIZE ≤ L1.length := by
    unfold BLOCK_SIZE at *
    omega
  have hL : L1 ≠ [] := isWalk_ne_nil _ _ _ hchain hfirst
  have hhead : L1.getD 0 FAT_EOC = first := by
    have := isWalk_head _ _ _ hchain
    cases L1 with
    | nil => exact absurd rfl hL
    | cons c l => simpa using this
  have hwalk := write_walk_chain _ _ _ hchain (offset / BLOCK_SIZE) 0 first (by omega)
  rw [hhead] at hwalk
  refine ⟨_, _, hwalk, ?_⟩
  have hmax : Max.max size0 offset = size0 := Nat.max_eq_left hoff
  constructor
  · exact hM.opened
  · rw [hM.fat_len]; exact hM.data_in
  · exact hM.fat_len
  · rw [hM.fat_len]; exact hM.fat_16
  · rfl
  · rfl
  · exact hchain
  · exact hfirst
  · exact hpos
  · simp
  · intro hj
    simp only [Nat.zero_add]
    rw [if_neg (by omega)]
  · intro _
    simp only
    rw [intra_block_eq]
    unfold BLOCK_SIZE
    omega
  · simp only
    rw [hmax]
    exact hlo
  · simp only
    rw [hmax]
    rcases hhi with h | h
    · exact Or.inl h
    · exact Or.inr ⟨h, hc⟩
  · exact List.prefix_refl _
  · intro x hx hx0
    exact absurd hx hx0
  · intro x _
    rfl
  · rcases hz with ⟨hin, h0⟩ | ⟨h1, h2⟩
    · exact Or.inl ⟨hin, h0, h0, rfl⟩
    · exact Or.inr (Or.inl ⟨rfl, rfl, h1, h2⟩)
  · exact hsmall
  · exact Nat.le_refl _
  · simp
  · rfl
  · intro g hg
    simp only at hg
    omega
  · intro b t _
    rfl

theorem write_head_old (s : FS) (i : Nat) (e : RootDirEntry) (h : e.first_db_idx ≠ FAT_EOC) :
    write_head s i e = .inr (s, e.first_db_idx) := by
  unfold write_head
  rw [if_neg h]

theorem write_head_full (s : FS) (i : Nat) (e : RootDirEntry) (h : e.first_db_idx = FAT_EOC)
    (hfe : find_empty_FAT_entry s = none) : write_head s i e = .inl (0, s) := by
  unfold write_head
  rw [if_pos h, hfe]

theorem write_head_fresh (s : FS) (i : Nat) (e : RootDirEntry) (idx : Nat) (hM : Mounted s)
    (h : e.first_db_idx = FAT_EOC) (hfe : find_empty_FAT_entry s = some idx) :
    write_head s i e = .inr (head_state s i e idx, idx) := by
  unfold write_head
  rw [if_pos h, hfe]
  simp only
  rw [block_write_dir_ok _ _ _ hM.opened hM.rd_in]
  rfl

theorem head_state_facts (s : FS) (i : Nat) (e : RootDirEntry) (idx : Nat) (hM : Mounted s)
    (hfe : find_empty_FAT_entry s = some idx) :
    Mounted (head_state s i e idx) ∧ idx ≠ FAT_EOC ∧
    IsChain (head_state s i e idx).fat_array idx [idx] ∧
    (head_state s i e idx).fat_array[0]? ≠ some 0 ∧
    (head_state s i e idx).fat_array.count 0 + 1 = s.fat_array.count 0 := by
  obtain ⟨hidx0, hmin⟩ := find_empty_some s idx hM.fat_len hfe
  have hlt : idx < s.fat_array.length := (List.getElem?_eq_some_iff.1 hidx0).1
  have heoc : idx ≠ FAT_EOC := by
    have := hM.fat_len
    have := hM.fat_16
    unfold FAT_EOC
    omega
  refine ⟨?_, heoc, ?_, ?_, ?_⟩
  · constructor
    · exact hM.mounted
    · exact hM.opened
    · exact hM.layout_fat
    · exact hM.layout_dir
    · exact hM.rd_in
    · exact hM.data_in
    · simp only [head_state, List.length_set]
      exact hM.fat_len
    · exact hM.fat_16
  · rw [isChain_cons]
    refine ⟨rfl, heoc, FAT_EOC, ?_, by decide, rfl⟩
    simp [head_state, List.getElem?_set, hlt]
  · simp only [head_state, List.getElem?_set]
    by_cases h0 : idx = 0
    · rw [if_pos h0, if_pos hlt]
      intro e
      have := Option.some.inj e
      revert this
      decide
    · rw [if_neg h0]
      exact hmin 0 (Nat.pos_of_ne_zero h0)
  · have c := count_zero_set s.fat_array idx FAT_EOC hlt
    rw [if_pos hidx0, if_neg (by decide)] at c
    simp only [head_state]
    omega

theorem is_open_valid (s : FS) (fd : Int) (h : is_open s fd = true) : valid_fd fd = true := by
  unfold is_open at h
  by_cases hv : valid_fd fd = true
  · exact hv
  · simp [hv] at h

theorem ceil_zero (n : Nat) (h : (n + (BLOCK_SIZE - 1)) / BLOCK_SIZE = 0) : n = 0 := by
  unfold BLOCK_SIZE at h
  omega

/-- What a call of `fs_write` with a sound handle does: it returns 0 at once
when the file is empty and the FAT is full; otherwise it runs the loop from a
state where the loop invariant holds, the loop returns with the invariant, and
the call returns what `write_finish` makes of the loop variables. The loop does
not read the size of the file: `size0` is any size that fits the blocks `L` and
the offset. -/
theorem fs_write_run_sized (s : FS) (fd : Int) (data : List Nat) (count fuel : Nat)
    (h : FDEntry) (e : RootDirEntry) (L : List Nat) (size0 : Nat) (hM : Mounted s)
    (hopen : is_open s fd = true)
    (hh : s.fd_table[fd.toNat]? = some h) (he : root_dir_at s h.fd_num = some e)
    (hchain : IsWalk s.fat_array e.first_db_idx L)
    (hlen : L.length = (size0 + (BLOCK_SIZE - 1)) / BLOCK_SIZE)
    (hoff : h.offset ≤ size0)
    (hz : e.first_db_idx ≠ FAT_EOC →
      ((∀ x ∈ L, s.fat_array[x]? ≠ some 0) ∧ s.fat_array[0]? ≠ some 0) ∨
      (h.offset + count ≤ BLOCK_SIZE * (L.length + 1) ∧
        (h.offset + count ≤ BLOCK_SIZE * L.length ∨ s.fat_array[0]? = some 0)))
    (hc : 0 < count) (hsmall : count < 2 ^ 31) (hfuel : count ≤ fuel) :
    (e.first_db_idx = FAT_EOC ∧ find_empty_FAT_entry s = none ∧
      fs_write s fd (some data) count fuel = .done (0, s)) ∨
    ∃ s1 first L1 w L2 j2,
      ((e.first_db_idx ≠ FAT_EOC ∧ s1 = s ∧ first = e.first_db_idx ∧ L1 = L) ∨
        (e.first_db_idx = FAT_EOC ∧ find_empty_FAT_entry s = some first ∧ L1 = [first] ∧
          s1 = head_state s h.fd_num.toNat e first)) ∧
      Mounted s1 ∧
      WInv s1 data h.offset size0 count first L1 w L2 j2 ∧
      (w.count = 0 ∨ (find_empty_FAT_entry w.s = none ∧ w.curr_idx = FAT_EOC)) ∧
      fs_write s fd (some data) count fuel = .done (write_finish w fd h h.fd_num.toNat e) := by
  have hv := is_open_valid s fd hopen
  have hpre : fs_write s fd (some data) count fuel =
      match write_head s h.fd_num.toNat e with
      | .inl r => .done r
      | .inr (s1, first_db_idx) =>
        match write_walk s1.fat_array (h.offset / BLOCK_SIZE) first_db_idx first_db_idx with
        | .fault => .fault
        | .diverge => .diverge
        | .done (prev_idx, curr_idx) =>
          match write_loop data fuel
              ⟨s1, count, h.offset, intra_block h.offset, 0, prev_idx, curr_idx⟩ with
          | .fault => .fault
          | .diverge => .diverge
          | .done w => .done (write_finish w fd h h.fd_num.toNat e) := by
    unfold fs_write
    simp only [hM.mounted, hv, hopen, Bool.not_true, Bool.or_self, Bool.false_eq_true, if_false]
    rw [if_neg (by omega), hh]
    simp only
    rw [he]
    try rfl
  -- the loop, from a state `s1` with first block `first` and chain `L1`
  have hloop : ∀ (s1 : FS) (first : Nat) (L1 : List Nat),
      write_head s h.fd_num.toNat e = .inr (s1, first) → Mounted s1 →
      IsWalk s1.fat_array first L1 → first ≠ FAT_EOC →
      (((∀ x ∈ L1, s1.fat_array[x]? ≠ some 0) ∧ s1.fat_array[0]? ≠ some 0) ∨
        (h.offset + count ≤ BLOCK_SIZE * (L1.length + 1) ∧
          (h.offset + count ≤ BLOCK_SIZE * L1.length ∨ s1.fat_array[0]? = some 0))) →
      (size0 + (BLOCK_SIZE - 1)) / BLOCK_SIZE ≤ L1.length →
      (L1.length ≤ (size0 + (BLOCK_SIZE - 1)) / BLOCK_SIZE ∨
        L1.length = h.offset / BLOCK_SIZE + 1) →
      ∃ w L2 j2, WInv s1 data h.offset size0 count first L1 w L2 j2 ∧
        (w.count = 0 ∨ (find_empty_FAT_entry w.s = none ∧ w.curr_idx = FAT_EOC)) ∧
        fs_write s fd (some data) count fuel
          = .done (write_finish w fd h h.fd_num.toNat e) := by
    intro s1 first L1 hhead hM1 hch1 hf1 hz1 hlo hhi
    obtain ⟨prev, curr, hwalk, hinv⟩ :=
      winv_init s1 data h.offset size0 count first L1 hM1 hch1 hf1 hz1 hoff hlo hhi hc hsmall
    obtain ⟨w, L2, j2, hl, hinv2, hex⟩ := write_loop_inv fuel _ _ _ hinv hfuel
    refine ⟨w, L2, j2, hinv2, hex, ?_⟩
    rw [hpre, hhead]
    simp only
    rw [hwalk]
    simp only
    rw [hl]
  by_cases hfirst : e.first_db_idx = FAT_EOC
  · cases hfe : find_empty_FAT_entry s with
    | none =>
      left
      refine ⟨hfirst, rfl, ?_⟩
      rw [hpre, write_head_full s _ e hfirst hfe]
    | some idx =>
      right
      obtain ⟨hM1, heoc, hch1, hz1, _⟩ := head_state_facts s h.fd_num.toNat e idx hM hfe
      have hL : L = [] := by
        cases L with
        | nil => rfl
        | cons c l =>
          rw [isWalk_cons] at hchain
          exact absurd (hchain.1 ▸ hfirst) hchain.2.1
      have hsize : size0 = 0 := by
        rw [hL] at hlen
        exact ceil_zero _ hlen.symm
      have hoff0 : h.offset = 0 := by omega
      have hin1 : ∀ x ∈ [idx], (head_state s h.fd_num.toNat e idx).fat_array[x]? ≠ some 0 := by
        intro x hx
        obtain ⟨_, v, hv, hv0⟩ := isChain_mem _ _ _ hch1 x hx
        rw [hv]
        intro e1
        exact hv0 (Option.some.inj e1)
      obtain ⟨w, L2, j2, hinv2, hex, hres⟩ := hloop _ idx [idx]
        (write_head_fresh s _ e idx hM hfirst hfe) hM1 (isChain_isWalk _ _ _ hch1) heoc
        (Or.inl ⟨hin1, hz1⟩)
        (by rw [hsize]; unfold BLOCK_SIZE; simp)
        (Or.inr (by rw [hoff0]; unfold BLOCK_SIZE; simp))
      exact ⟨_, idx, [idx], w, L2, j2, Or.inr ⟨hfirst, rfl, rfl, rfl⟩, hM1, hinv2, hex, hres⟩
  · right
    obtain ⟨w, L2, j2, hinv2, hex, hres⟩ := hloop s e.first_db_idx L
      (write_head_old s _ e hfirst) hM hchain hfirst (hz hfirst)
      (by rw [hlen]) (Or.inl (by rw [hlen]))
    exact ⟨s, e.first_db_idx, L, w, L2, j2, Or.inl ⟨hfirst, rfl, rfl, rfl⟩, hM, hinv2, hex, hres⟩

/-- The statement of `fs_write_run_sized` for the size of the file. -/
theorem fs_write_run (s : FS) (fd : Int) (data : List Nat) (count fuel : Nat) (h : FDEntry)
    (e : RootDirEntry) (L : List Nat) (hM : Mounted s) (hopen : is_open s fd = true)
    (hh : s.fd_table[fd.toNat]? = some h) (he : root_dir_at s h.fd_num = some e)
    (hchain : IsWalk s.fat_array e.first_db_idx L)
    (hlen : L.length = (e.size + (BLOCK_SIZE - 1)) / BLOCK_SIZE)
    (hoff : h.offset ≤ e.size)
    (hz : e.first_db_idx ≠ FAT_EOC →
      ((∀ x ∈ L, s.fat_array[x]? ≠ some 0) ∧ s.fat_array[0]? ≠ some 0) ∨
      (h.offset + count ≤ BLOCK_SIZE * (L.length + 1) ∧
        (h.offset + count ≤ BLOCK_SIZE * L.length ∨ s.fat_array[0]? = some 0)))
    (hc : 0 < count) (hsmall : count < 2 ^ 31) (hfuel : count ≤ fuel) :
    (e.first_db_idx = FAT_EOC ∧ find_empty_FAT_entry s = none ∧
      fs_write s fd (some data) count fuel = .done (0, s)) ∨
    ∃ s1 first L1 w L2 j2,
      ((e.first_db_idx ≠ FAT_EOC ∧ s1 = s ∧ first = e.first_db_idx ∧ L1 = L) ∨
        (e.first_db_idx = FAT_EOC ∧ find_empty_FAT_entry s = some first ∧ L1 = [first] ∧
          s1 = head_state s h.fd_num.toNat e first)) ∧
      Mounted s1 ∧
      WInv s1 data h.offset e.size count first L1 w L2 j2 ∧
      (w.count = 0 ∨ (find_empty_FAT_entry w.s = none ∧ w.curr_idx = FAT_EOC)) ∧
      fs_write s fd (some data) count fuel = .done (write_finish w fd h h.fd_num.toNat e) :=
  fs_write_run_sized s fd data count fuel h e L e.size hM hopen hh he hchain hlen hoff hz hc
    hsmall hfuel

theorem chain_length_le (fat : List Nat) (b : Nat) (l : List Nat) (h : IsChain fat b l) :
    l.length ≤ fat.length := by
  have hnd := isChain_nodup fat b l h
  have hsub : l ⊆ List.range fat.length := by
    intro x hx
    obtain ⟨_, v, hv, _⟩ := isChain_mem fat b l h x hx
    exact List.mem_range.2 (List.getElem?_eq_some_iff.1 hv).1
  have := (List.subperm_of_subset hnd hsub).length_le
  simpa using this

theorem winv_exit {s0 : FS} {buf : List Nat} {p0 size0 count0 first : Nat}
    {L0 : List Nat} {w : WriteVars} {L : List Nat} {j : Nat}
    (h : WInv s0 buf p0 size0 count0 first L0 w L j)
    (hex : w.count = 0 ∨ (find_empty_FAT_entry w.s = none ∧ w.curr_idx = FAT_EOC)) :
    L.length = (Max.max size0 w.offset + (BLOCK_SIZE - 1)) / BLOCK_SIZE ∧
    Max.max size0 w.offset < 2 ^ 32 := by
  have hlo := h.len_lo
  have hlen : L.length = (Max.max size0 w.offset + (BLOCK_SIZE - 1)) / BLOCK_SIZE := by
    rcases h.len_hi with hh | ⟨hh, hpos⟩
    · omega
    · rcases hex with hc | ⟨_, hcur⟩
      · omega
      · exfalso
        have : ¬ j < L.length := by
          intro hlt
          exact (isWalk_getD_ne_eoc _ _ _ h.chain j).2 hlt (h.curr ▸ hcur)
        omega
  refine ⟨hlen, ?_⟩
  have h1 := walk_length_le _ _ _ h.chain
  have h2 := h.len_eq
  have h3 := h.geo_16
  unfold BLOCK_SIZE at *
  omega

/-- When no FAT entry of the file held 0 before the loop, and FAT entry 0 was
in use or no block was needed, the loop leaves a chain of entries in use and
every block added took one of the entries that held 0. -/
theorem WInv.to_chain {s0 : FS} {buf : List Nat} {p0 size0 count0 first : Nat}
    {L0 : List Nat} {w : WriteVars} {L : List Nat} {j : Nat}
    (h : WInv s0 buf p0 size0 count0 first L0 w L j)
    (hin : ∀ x ∈ L0, s0.fat_array[x]? ≠ some 0)
    (hz : s0.fat_array[0]? ≠ some 0 ∨ p0 + count0 ≤ BLOCK_SIZE * L0.length) :
    (∀ x ∈ L, w.s.fat_array[x]? ≠ some 0) ∧ IsChain w.s.fat_array first L ∧
    w.s.fat_array.count 0 + L.length = s0.fat_array.count 0 + L0.length := by
  have hkey : (∀ x ∈ L, w.s.fat_array[x]? ≠ some 0) ∧
      w.s.fat_array.count 0 + L.length = s0.fat_array.count 0 + L0.length := by
    rcases h.mode with ⟨hin2, _, _, hzeros⟩ | ⟨hLL, hfeq, _, _⟩ | ⟨_, hs00, hlt, _⟩
    · exact ⟨hin2, hzeros⟩
    · rw [hLL, hfeq]
      exact ⟨hin, rfl⟩
    · exfalso
      rcases hz with h1 | h1
      · exact h1 hs00
      · omega
  exact ⟨hkey.1, isChain_of_walk _ _ _ h.chain hkey.1, hkey.2⟩

/-- The loop stops short of the request only when every FAT entry of the file
and FAT entry 0 are in use; the entries that held 0 are then all taken. -/
theorem WInv.short {s0 : FS} {buf : List Nat} {p0 size0 count0 first : Nat}
    {L0 : List Nat} {w : WriteVars} {L : List Nat} {j : Nat}
    (h : WInv s0 buf p0 size0 count0 first L0 w L j) (hc : 0 < w.count)
    (hfull : find_empty_FAT_entry w.s = none) (hcur : w.curr_idx = FAT_EOC) :
    w.s.fat_array.count 0 = 0 ∧ w.offset = BLOCK_SIZE * L.length ∧
    w.s.fat_array.count 0 + L.length = s0.fat_array.count 0 + L0.length := by
  have hlenw : w.s.fat_array.length = w.s.sblock.data_block_amt := by
    rw [h.sblock_eq, h.len_eq, h.geo_len]
  have hzero := (find_empty_none w.s hlenw).1 hfull
  have hj : ¬ j < L.length := by
    intro hlt
    exact (isWalk_getD_ne_eoc _ _ _ h.chain j).2 hlt (h.curr ▸ hcur)
  have hoff2 := h.off hc
  have hp := h.pos
  have hlo := h.len_lo
  have htot := h.total
  have hoffeq : w.offset = BLOCK_SIZE * L.length := by
    have h1 : w.offset ≤ max size0 w.offset := Nat.le_max_right _ _
    unfold BLOCK_SIZE at *
    omega
  have hno0 : w.s.fat_array[0]? ≠ some 0 := by
    intro h0
    have hmem : (0 : Nat) ∈ w.s.fat_array := by
      have hlt := (List.getElem?_eq_some_iff.1 h0).1
      have := List.getElem_mem hlt
      rw [(List.getElem?_eq_some_iff.1 h0).2] at this
      exact this
    have := List.count_pos_iff.2 hmem
    omega
  refine ⟨hzero, hoffeq, ?_⟩
  rcases h.mode with ⟨_, _, _, hzeros⟩ | ⟨hLL, hfeq, _, hor⟩ | ⟨hLL, _, _, hle⟩
  · exact hzeros
  · rw [hLL, hfeq]
  · exfalso
    have hl : L.length = L0.length + 1 := by rw [hLL]; simp
    rw [hl] at hoffeq
    omega

/-- The loop of `fs_write` on a file none of whose FAT entries held 0, where
FAT entry 0 was in use or no block was needed: the blocks of the file are a
chain of entries in use afterwards, and every block the loop added took one of
the entries that held 0. -/
theorem run_to_chain (s : FS) (data : List Nat) (count : Nat) (h : FDEntry)
    (e : RootDirEntry) (L : List Nat) (hM : Mounted s)
    (hin : ∀ x ∈ L, s.fat_array[x]? ≠ some 0)
    (hz : e.first_db_idx ≠ FAT_EOC →
      s.fat_array[0]? ≠ some 0 ∨ h.offset + count ≤ BLOCK_SIZE * L.length)
    (s1 : FS) (first : Nat) (L1 : List Nat) (w : WriteVars) (L2 : List Nat) (j2 : Nat)
    (hcase : (e.first_db_idx ≠ FAT_EOC ∧ s1 = s ∧ first = e.first_db_idx ∧ L1 = L) ∨
      (e.first_db_idx = FAT_EOC ∧ find_empty_FAT_entry s = some first ∧ L1 = [first] ∧
        s1 = head_state s h.fd_num.toNat e first))
    (hw : WInv s1 data h.offset e.size count first L1 w L2 j2) :
    (∀ x ∈ L2, w.s.fat_array[x]? ≠ some 0) ∧ IsChain w.s.fat_array first L2 ∧
    w.s.fat_array.count 0 + L2.length = s1.fat_array.count 0 + L1.length := by
  rcases hcase with ⟨hne, h1, _, h3⟩ | ⟨_, hfe, h3, h1⟩
  · subst h1 h3
    exact hw.to_chain hin (hz hne)
  · subst h1 h3
    obtain ⟨_, _, hch1, hz1, _⟩ := head_state_facts s h.fd_num.toNat e first hM hfe
    refine hw.to_chain ?_ (Or.inl hz1)
    intro x hx
    obtain ⟨_, v, hv, hv0⟩ := isChain_mem _ _ _ hch1 x hx
    rw [hv]
    intro e1
    exact hv0 (Option.some.inj e1)

theorem isChain_inuse (fat : List Nat) (b : Nat) (l : List Nat) (h : IsChain fat b l) :
    ∀ x ∈ l, fat[x]? ≠ some 0 := by
  intro x hx
  obtain ⟨_, v, hv, hv0⟩ := isChain_mem _ _ _ h x hx
  rw [hv]
  intro e1
  exact hv0 (Option.some.inj e1)

/-- The statement of `fs_write_run` for a file with a chain of entries in use,
where FAT entry 0 is in use or no block is needed: the loop leaves a chain of
entries in use. -/
theorem fs_write_run_chain (s : FS) (fd : Int) (data : List Nat) (count fuel : Nat)
    (h : FDEntry) (e : RootDirEntry) (L : List Nat) (hM : Mounted s)
    (hopen : is_open s fd = true)
    (hh : s.fd_table[fd.toNat]? = some h) (he : root_dir_at s h.fd_num = some e)
    (hchain : IsChain s.fat_array e.first_db_idx L)
    (hlen : L.length = (e.size + (BLOCK_SIZE - 1)) / BLOCK_SIZE)
    (hoff : h.offset ≤ e.size)
    (hz : e.first_db_idx ≠ FAT_EOC →
      s.fat_array[0]? ≠ some 0 ∨ h.offset + count ≤ BLOCK_SIZE * L.length)
    (hc : 0 < count) (hsmall : count < 2 ^ 31) (hfuel : count ≤ fuel) :
    (e.first_db_idx = FAT_EOC ∧ find_empty_FAT_entry s = none ∧
      fs_write s fd (some data) count fuel = .done (0, s)) ∨
    ∃ s1 first L1 w L2 j2,
      ((e.first_db_idx ≠ FAT_EOC ∧ s1 = s ∧ first = e.first_db_idx ∧ L1 = L) ∨
        (e.first_db_idx = FAT_EOC ∧ find_empty_FAT_entry s = some first ∧ L1 = [first] ∧
          s1 = head_state s h.fd_num.toNat e first)) ∧
      Mounted s1 ∧
      WInv s1 data h.offset e.size count first L1 w L2 j2 ∧
      (w.count = 0 ∨ (find_empty_FAT_entry w.s = none ∧ w.curr_idx = FAT_EOC)) ∧
      fs_write s fd (some data) count fuel = .done (write_finish w fd h h.fd_num.toNat e) ∧
      IsChain w.s.fat_array first L2 ∧
      w.s.fat_array.count 0 + L2.length = s1.fat_array.count 0 + L1.length := by
  have hin := isChain_inuse _ _ _ hchain
  have hz2 : e.first_db_idx ≠ FAT_EOC →
      ((∀ x ∈ L, s.fat_array[x]? ≠ some 0) ∧ s.fat_array[0]? ≠ some 0) ∨
      (h.offset + count ≤ BLOCK_SIZE * (L.length + 1) ∧
        (h.offset + count ≤ BLOCK_SIZE * L.length ∨ s.fat_array[0]? = some 0)) := by
    intro hne
    rcases hz hne with h1 | h1
    · exact Or.inl ⟨hin, h1⟩
    · exact Or.inr ⟨by unfold BLOCK_SIZE at *; omega, Or.inl h1⟩
  rcases fs_write_run s fd data count fuel h e L hM hopen hh he (isChain_isWalk _ _ _ hchain)
      hlen hoff hz2 hc hsmall hfuel with
    h1 | ⟨s1, first, L1, w, L2, j2, hcase, hM1, hw, hex, hres⟩
  · exact Or.inl h1
  · obtain ⟨_, hwch, hwz⟩ := run_to_chain s data count h e L hM hin hz s1 first L1 w L2 j2
      hcase hw
    exact Or.inr ⟨s1, first, L1, w, L2, j2, hcase, hM1, hw, hex, hres, hwch, hwz⟩

theorem root_dir_at_some (s : FS) (i : Int) (e : RootDirEntry) (h : root_dir_at s i = some e) :
    i.toNat < FS_FILE_MAX_COUNT ∧ s.root_dir[i.toNat]? = some e ∧ 0 ≤ i := by
  unfold root_dir_at at h
  by_cases hc : 0 ≤ i ∧ i < (FS_FILE_MAX_COUNT : Int)
  · rw [if_pos hc] at h
    refine ⟨?_, h, hc.1⟩
    have := hc.2
    omega
  · rw [if_neg hc] at h
    cases h

theorem WInv.root_dir_eq {s0 : FS} {buf : List Nat} {p0 size0 count0 first : Nat}
    {L0 : List Nat} {w : WriteVars} {L : List Nat} {j : Nat}
    (h : WInv s0 buf p0 size0 count0 first L0 w L j) :
    w.s.root_dir = s0.root_dir ∧ w.s.fd_table = s0.fd_table := by
  rw [h.rest]
  exact ⟨rfl, rfl⟩

theorem write_finish_root_dir (w : WriteVars) (fd : Int) (h : FDEntry) (i : Nat)
    (e : RootDirEntry) :
    (write_finish w fd h i e).2.root_dir =
      w.s.root_dir.set i { w.s.root_dir.getD i e with
        size := (if w.offset > e.size then w.offset else e.size) % 2 ^ 32 } ∧
    (write_finish w fd h i e).2.fat_array = w.s.fat_array ∧
    (write_finish w fd h i e).2.fd_table = w.s.fd_table.set fd.toNat { h with offset := w.offset } ∧
    (write_finish w fd h i e).1 = w.amt_written :=
  ⟨rfl, rfl, rfl, rfl⟩

/-- The state after the loop of `fs_write` satisfies the chain-length
invariant when the state before the call did and the chain written to is
apart from the chains of the other live entries. -/
theorem chain_inv_finish (s : FS) (fd : Int) (data : List Nat) (count : Nat) (h : FDEntry)
    (e : RootDirEntry) (L : List Nat) (hM : Mounted s) (hinv : ChainInv s)
    (he : root_dir_at s h.fd_num = some e)
    (hchain : IsChain s.fat_array e.first_db_idx L)
    (hap : ChainsApart s h.fd_num.toNat)
    (s1 : FS) (first : Nat) (L1 : List Nat) (w : WriteVars) (L2 : List Nat) (j2 : Nat)
    (hcase : (e.first_db_idx ≠ FAT_EOC ∧ s1 = s ∧ first = e.first_db_idx ∧ L1 = L) ∨
      (e.first_db_idx = FAT_EOC ∧ find_empty_FAT_entry s = some first ∧ L1 = [first] ∧
        s1 = head_state s h.fd_num.toNat e first))
    (hw : WInv s1 data h.offset e.size count first L1 w L2 j2)
    (hwch : IsChain w.s.fat_array first L2)
    (hex : w.count = 0 ∨ (find_empty_FAT_entry w.s = none ∧ w.curr_idx = FAT_EOC)) :
    ChainInv (write_finish w fd h h.fd_num.toNat e).2 := by
  obtain ⟨hiA, hgetA, _⟩ := root_dir_at_some s h.fd_num e he
  obtain ⟨hrd, hfat, _, _⟩ := write_finish_root_dir w fd h h.fd_num.toNat e
  obtain ⟨hlenL2, hbound⟩ := winv_exit hw hex
  have hiAlen : h.fd_num.toNat < s.root_dir.length := (List.getElem?_eq_some_iff.1 hgetA).1
  -- the directory the loop ran on
  have hs1rd : s1.root_dir = s.root_dir ∨
      s1.root_dir = s.root_dir.set h.fd_num.toNat { e with first_db_idx := first } := by
    rcases hcase with ⟨_, rfl, _, _⟩ | ⟨_, _, _, rfl⟩
    · exact Or.inl rfl
    · exact Or.inr rfl
  have hs1len : s1.root_dir.length = s.root_dir.length := by
    rcases hs1rd with h1 | h1
    · rw [h1]
    · rw [h1]; simp
  have hs1other : ∀ i, i ≠ h.fd_num.toNat → s1.root_dir[i]? = s.root_dir[i]? := by
    intro i hi
    rcases hs1rd with h1 | h1
    · rw [h1]
    · rw [h1, List.getElem?_set, if_neg (Ne.symm hi)]
  have hs1A : ∃ eA, s1.root_dir[h.fd_num.toNat]? = some eA ∧ eA.first_db_idx = first ∧
      eA.name = e.name := by
    rcases hcase with ⟨_, rfl, rfl, _⟩ | ⟨_, _, _, rfl⟩
    · exact ⟨e, hgetA, rfl, rfl⟩
    · refine ⟨{ e with first_db_idx := first }, ?_, rfl, rfl⟩
      simp [head_state, List.getElem?_set, hiAlen]
  -- FAT entries of blocks in use outside the written chain are unchanged
  have hfatsame : ∀ x v, s.fat_array[x]? = some v → v ≠ 0 → x ∉ L →
      w.s.fat_array[x]? = s.fat_array[x]? := by
    intro x v hxv hv0 hxL
    have hs1x : s1.fat_array[x]? = s.fat_array[x]? ∧ x ∉ L1 := by
      rcases hcase with ⟨_, rfl, _, rfl⟩ | ⟨_, hfe, rfl, rfl⟩
      · exact ⟨rfl, hxL⟩
      · obtain ⟨hidx0, _⟩ := find_empty_some s first hM.fat_len hfe
        have hne : first ≠ x := by
          intro e1
          rw [e1, hxv] at hidx0
          exact hv0 (Option.some.inj hidx0)
        refine ⟨?_, by simpa using Ne.symm hne⟩
        simp [head_state, List.getElem?_set, hne]
    have hxL2 : x ∉ L2 := by
      intro hm
      by_cases hx1 : x ∈ L1
      · exact hs1x.2 hx1
      · have := hw.fresh x hm hx1
        rw [hs1x.1, hxv] at this
        exact hv0 (Option.some.inj this)
    rw [hw.frame x hxL2, hs1x.1]
  intro i e2 hi hget hlive2
  rw [hrd, hw.root_dir_eq.1] at hget
  rw [hfat]
  by_cases hiA2 : i = h.fd_num.toNat
  · subst hiA2
    obtain ⟨eA, hgA, hfA, hnA⟩ := hs1A
    rw [List.getElem?_set, if_pos rfl, if_pos (by rw [hs1len]; exact hiAlen)] at hget
    have hgetD : s1.root_dir.getD h.fd_num.toNat e = eA := by
      rw [List.getD_eq_getElem?_getD, hgA]; rfl
    rw [hgetD] at hget
    have he2 := Option.some.inj hget
    subst he2
    simp only
    have hns : (if w.offset > e.size then w.offset else e.size) % 2 ^ 32
        = Max.max e.size w.offset := by
      have : (if w.offset > e.size then w.offset else e.size) = Max.max e.size w.offset := by
        by_cases hc : w.offset > e.size
        · rw [if_pos hc]; omega
        · rw [if_neg hc]; omega
      rw [this]
      exact Nat.mod_eq_of_lt hbound
    rw [hns, hfA]
    have hL2pos : 0 < L2.length :=
      List.length_pos.2 (isChain_ne_nil _ _ _ hwch hw.first_ne)
    refine ⟨?_, L2, hwch, hlenL2⟩
    constructor
    · intro h0
      exfalso
      rw [h0] at hlenL2
      unfold BLOCK_SIZE at hlenL2
      omega
    · intro h0
      exact absurd h0 hw.first_ne
  · rw [List.getElem?_set, if_neg (Ne.symm hiA2), hs1other i hiA2] at hget
    obtain ⟨hiff, LB, hchB, hlenB⟩ := hinv i e2 hi hget hlive2
    refine ⟨hiff, LB, ?_, hlenB⟩
    apply isChain_congr _ _ _ _ hchB
    intro x hx
    obtain ⟨_, v, hv, hv0⟩ := isChain_mem _ _ _ hchB x hx
    exact hfatsame x v hv hv0 (hap e L i e2 LB hgetA hchain hi hiA2 hget hlive2 hchB x hx)

theorem toUInt64_cast (n : Nat) (h : n < 2 ^ 64) : toUInt64 (n : Int) = n := by
  unfold toUInt64
  have : ((n : Int) % 2 ^ 64) = (n : Int) := by
    apply Int.emod_eq_of_lt
    · omega
    · exact_mod_cast h
  rw [this]
  simp

/-- At the end of the chain the loop of `fs_read` stops. -/
theorem read_loop_eoc (s : FS) (fs : Nat) (k : Nat) (r : ReadVars)
    (h : r.curr_idx = FAT_EOC) : read_loop s fs k r = .done r := by
  cases k with
  | zero => rfl
  | succ k =>
    unfold read_loop
    rw [if_pos h]

/-- One pass of the loop of `fs_read` on a block of the chain, from a
block-aligned position: it copies the minimum of the bytes asked for, the
block size and the bytes left in the file. -/
theorem read_loop_step (s : FS) (fs : Nat) (k : Nat) (r : ReadVars) (nxt : Nat)
    (hopen : s.disk.opened = true)
    (hin : r.curr_idx + s.sblock.data_start_idx < s.disk.block_count)
    (hcur : r.curr_idx ≠ FAT_EOC)
    (hnxt : s.fat_array[r.curr_idx]? = some nxt)
    (hoib : r.offset_in_block = 0) (hoff : r.offset ≤ fs) (hfs : fs < 2 ^ 32)
    (hsmall : r.count < 2 ^ 31) :
    read_loop s fs (k + 1) r =
      read_loop s fs k
        { out := r.out ++ (List.range (Min.min (Min.min r.count BLOCK_SIZE) (fs - r.offset))).map
            (fun t => s.disk.data_blocks (r.curr_idx + s.sblock.data_start_idx) t)
          count := r.count - Min.min (Min.min r.count BLOCK_SIZE) (fs - r.offset)
          offset := r.offset + Min.min (Min.min r.count BLOCK_SIZE) (fs - r.offset)
          offset_in_block := 0
          amt_read := r.amt_read + ((Min.min (Min.min r.count BLOCK_SIZE) (fs - r.offset) : Nat) : Int)
          curr_idx := nxt } := by
  have hb0 : toUInt64 (min (toInt32 r.count) ((BLOCK_SIZE : Int) - (r.offset_in_block : Nat)))
      = Min.min r.count BLOCK_SIZE := by
    rw [hoib, toInt32_of_lt _ hsmall]
    have : ((BLOCK_SIZE : Nat) : Int) - ((0 : Nat) : Int) = ((BLOCK_SIZE : Nat) : Int) := by simp
    rw [this, min_cast, toUInt64_cast]
    have : Min.min r.count BLOCK_SIZE ≤ r.count := Nat.min_le_left _ _
    omega
  have hbytes : (if (Min.min r.count BLOCK_SIZE + r.offset) % 2 ^ 64 > fs
      then (fs + 2 ^ 64 - r.offset) % 2 ^ 64 else Min.min r.count BLOCK_SIZE)
      = Min.min (Min.min r.count BLOCK_SIZE) (fs - r.offset) := by
    have h1 : Min.min r.count BLOCK_SIZE ≤ BLOCK_SIZE := Nat.min_le_right _ _
    unfold BLOCK_SIZE at *
    by_cases hc : (Min.min r.count 4096 + r.offset) % 2 ^ 64 > fs
    · rw [if_pos hc]
      omega
    · rw [if_neg hc]
      omega
  conv_lhs => unfold read_loop
  rw [if_neg hcur, block_read_data_ok _ _ hopen hin]
  simp only [hb0, hbytes]
  have hle : Min.min (Min.min r.count BLOCK_SIZE) (fs - r.offset) ≤ BLOCK_SIZE :=
    Nat.le_trans (Nat.min_le_left _ _) (Nat.min_le_right _ _)
  rw [if_neg (by rw [hoib]; omega), hnxt]
  simp only [hoib, Nat.zero_add]
  have hcount : (r.count + 2 ^ 64 - Min.min (Min.min r.count BLOCK_SIZE) (fs - r.offset)) % 2 ^ 64
      = r.count - Min.min (Min.min r.count BLOCK_SIZE) (fs - r.offset) := by
    have : Min.min (Min.min r.count BLOCK_SIZE) (fs - r.offset) ≤ r.count :=
      Nat.le_trans (Nat.min_le_left _ _) (Nat.min_le_left _ _)
    omega
  rw [hcount]

/-- With nothing left to read the loop of `fs_read` walks on without copying. -/
theorem read_loop_zero (s : FS) (fs : Nat) (hopen : s.disk.opened = true) (hfs : fs < 2 ^ 32)
    (k : Nat) : ∀ (R : List Nat) (r : ReadVars),
      IsChain s.fat_array r.curr_idx R →
      (∀ x ∈ R, x + s.sblock.data_start_idx < s.disk.block_count) →
      r.offset_in_block = 0 → r.offset ≤ fs → r.count = 0 →
      ∃ r2, read_loop s fs k r = .done r2 ∧ r2.out = r.out ∧ r2.amt_read = r.amt_read ∧
        r2.offset = r.offset := by
  induction k with
  | zero =>
    intro R r _ _ _ _ _
    exact ⟨r, rfl, rfl, rfl, rfl⟩
  | succ k ih =>
    intro R r hch hin hoib hoff hc
    cases R with
    | nil => exact ⟨r, read_loop_eoc s fs _ r hch, rfl, rfl, rfl⟩
    | cons c R2 =>
      rw [isChain_cons] at hch
      obtain ⟨hb, hcne, v, hv, _, hr⟩ := hch
      rw [read_loop_step s fs k r v hopen (hb ▸ hin c (List.mem_cons_self _ _)) (hb ▸ hcne)
        (hb ▸ hv) hoib hoff hfs (by omega)]
      have hm : Min.min (Min.min r.count BLOCK_SIZE) (fs - r.offset) = 0 := by omega
      rw [hm]
      obtain ⟨r2, h1, h2, h3, h4⟩ := ih R2
        ⟨r.out ++ (List.range 0).map
            (fun t => s.disk.data_blocks (r.curr_idx + s.sblock.data_start_idx) t),
          r.count - 0, r.offset + 0, 0, r.amt_read + ((0 : Nat) : Int), v⟩ hr
        (fun x hx => hin x (List.mem_cons_of_mem _ hx)) rfl (by simp only; omega)
        (by simp only; omega)
      refine ⟨r2, h1, ?_, ?_, ?_⟩
      · rw [h2]; simp
      · rw [h3]; simp
      · rw [h4]; simp

theorem chain_bytes_cons (s : FS) (c : Nat) (R : List Nat) (m n : Nat) (hm : m ≤ BLOCK_SIZE)
    (hn : m < BLOCK_SIZE → n = 0) :
    chain_bytes s (c :: R) (m + n) =
      (List.range m).map (fun t => s.disk.data_blocks (c + s.sblock.data_start_idx) t)
        ++ chain_bytes s R n := by
  unfold chain_bytes
  rw [List.range_add, List.map_append, List.map_map]
  congr 1
  · apply List.map_congr_left
    intro g hg
    have hg2 : g < m := List.mem_range.1 hg
    have h1 : g / BLOCK_SIZE = 0 := Nat.div_eq_of_lt (by omega)
    have h2 : g % BLOCK_SIZE = g := Nat.mod_eq_of_lt (by omega)
    rw [h1, h2]
    rfl
  · apply List.map_congr_left
    intro g hg
    have hg2 : g < n := List.mem_range.1 hg
    have hm2 : m = BLOCK_SIZE := by
      by_contra hne
      have := hn (by omega)
      omega
    simp only [Function.comp]
    have h1 : (m + g) / BLOCK_SIZE = g / BLOCK_SIZE + 1 := by
      rw [hm2]; unfold BLOCK_SIZE; omega
    have h2 : (m + g) % BLOCK_SIZE = g % BLOCK_SIZE := by
      rw [hm2]; unfold BLOCK_SIZE; omega
    rw [h1, h2]
    rfl

/-- The loop of `fs_read` from a block-aligned position of a file whose
remaining chain `R` has `ceil(rest / BLOCK_SIZE)` blocks: it copies the first
`min(count, rest)` bytes of the rest of the file. -/
theorem read_loop_chain (s : FS) (fs : Nat) (hopen : s.disk.opened = true) (hfs : fs < 2 ^ 32)
    (k : Nat) : ∀ (R : List Nat) (r : ReadVars),
      IsChain s.fat_array r.curr_idx R →
      (∀ x ∈ R, x + s.sblock.data_start_idx < s.disk.block_count) →
      r.offset_in_block = 0 → r.offset ≤ fs →
      R.length = (fs - r.offset + (BLOCK_SIZE - 1)) / BLOCK_SIZE →
      r.count < 2 ^ 31 → (r.count + (BLOCK_SIZE - 1)) / BLOCK_SIZE ≤ k →
      ∃ r2, read_loop s fs k r = .done r2 ∧
        r2.out = r.out ++ chain_bytes s R (Min.min r.count (fs - r.offset)) ∧
        r2.amt_read = r.amt_read + ((Min.min r.count (fs - r.offset) : Nat) : Int) ∧
        r2.offset = r.offset + Min.min r.count (fs - r.offset) := by
  induction k with
  | zero =>
    intro R r _ _ _ _ _ _ hk
    have hc : r.count = 0 := by unfold BLOCK_SIZE at hk; omega
    refine ⟨r, rfl, ?_, ?_, ?_⟩ <;> simp [hc, chain_bytes]
  | succ k ih =>
    intro R r hch hin hoib hoff hlen hsmall hk
    cases R with
    | nil =>
      have hrem : fs - r.offset = 0 := by
        simp only [List.length_nil] at hlen
        unfold BLOCK_SIZE at hlen
        omega
      refine ⟨r, read_loop_eoc s fs _ r hch, ?_, ?_, ?_⟩ <;> simp [hrem, chain_bytes]
    | cons c R2 =>
      have hch0 := hch
      rw [isChain_cons] at hch
      obtain ⟨hb, hcne, v, hv, _, hr⟩ := hch
      rw [read_loop_step s fs k r v hopen (hb ▸ hin c (List.mem_cons_self _ _)) (hb ▸ hcne)
        (hb ▸ hv) hoib hoff hfs hsmall]
      generalize hm : Min.min (Min.min r.count BLOCK_SIZE) (fs - r.offset) = m
      have hin2 : ∀ x ∈ R2, x + s.sblock.data_start_idx < s.disk.block_count :=
        fun x hx => hin x (List.mem_cons_of_mem _ hx)
      simp only [List.length_cons] at hlen
      by_cases hfull : m = BLOCK_SIZE
      · -- a whole block was copied
        obtain ⟨r2, h1, h2, h3, h4⟩ := ih R2
          ⟨r.out ++ (List.range m).map
              (fun t => s.disk.data_blocks (r.curr_idx + s.sblock.data_start_idx) t),
            r.count - m, r.offset + m, 0, r.amt_read + ((m : Nat) : Int), v⟩ hr hin2 rfl
          (by simp only; unfold BLOCK_SIZE at *; omega)
          (by simp only; unfold BLOCK_SIZE at *; omega)
          (by simp only; omega)
          (by simp only; unfold BLOCK_SIZE at *; omega)
        simp only at h2 h3 h4
        have hsplit : Min.min r.count (fs - r.offset)
            = m + Min.min (r.count - m) (fs - (r.offset + m)) := by
          unfold BLOCK_SIZE at *
          omega
        refine ⟨r2, h1, ?_, ?_, ?_⟩
        · rw [h2, hsplit, chain_bytes_cons s c R2 m _ (by omega) (by omega),
            List.append_assoc, hb]
        · rw [h3, hsplit]
          push_cast
          omega
        · rw [h4, hsplit]
          omega
      · -- the last, partial copy
        have hmlt : m < BLOCK_SIZE := by
          have : m ≤ BLOCK_SIZE := by rw [← hm]; omega
          omega
        have hmeq : Min.min r.count (fs - r.offset) = m := by
          unfold BLOCK_SIZE at *
          omega
        have hrest : ∃ r2, read_loop s fs k
            { out := r.out ++ (List.range m).map
                (fun t => s.disk.data_blocks (r.curr_idx + s.sblock.data_start_idx) t)
              count := r.count - m
              offset := r.offset + m
              offset_in_block := 0
              amt_read := r.amt_read + ((m : Nat) : Int)
              curr_idx := v } = .done r2 ∧
            r2.out = r.out ++ (List.range m).map
                (fun t => s.disk.data_blocks (r.curr_idx + s.sblock.data_start_idx) t) ∧
            r2.amt_read = r.amt_read + ((m : Nat) : Int) ∧ r2.offset = r.offset + m := by
          by_cases hc0 : r.count - m = 0
          · obtain ⟨r2, h1, h2, h3, h4⟩ := read_loop_zero s fs hopen hfs k R2
              ⟨r.out ++ (List.range m).map
                  (fun t => s.disk.data_blocks (r.curr_idx + s.sblock.data_start_idx) t),
                r.count - m, r.offset + m, 0, r.amt_read + ((m : Nat) : Int), v⟩
              hr hin2 rfl (by simp only; omega) hc0
            exact ⟨r2, h1, h2, h3, h4⟩
          · -- the file ends in this block
            have hR2 : R2 = [] := by
              have : R2.length = 0 := by
                unfold BLOCK_SIZE at *
                omega
              exact List.length_eq_zero.1 this
            subst hR2
            exact ⟨_, read_loop_eoc s fs k _ hr, rfl, rfl, rfl⟩
        obtain ⟨r2, h1, h2, h3, h4⟩ := hrest
        refine ⟨r2, h1, ?_, ?_, ?_⟩
        · rw [h2, hmeq]
          have := chain_bytes_cons s c R2 m 0 (by omega) (fun _ => rfl)
          simp only [Nat.add_zero] at this
          rw [this, hb]
          simp [chain_bytes]
        · rw [h3, hmeq]
        · rw [h4, hmeq]

theorem write_fat_blocks_frame (fat : List Nat) (n : Nat) (d : Disk) :
    (write_fat_blocks fat n d).opened = d.opened ∧
    (write_fat_blocks fat n d).block_count = d.block_count ∧
    (write_fat_blocks fat n d).super_block = d.super_block ∧
    (write_fat_blocks fat n d).dir_blocks = d.dir_blocks ∧
    (write_fat_blocks fat n d).data_blocks = d.data_blocks := by
  induction n with
  | zero => exact ⟨rfl, rfl, rfl, rfl, rfl⟩
  | succ n ih =>
    unfold write_fat_blocks
    simp only
    unfold block_write_fat
    by_cases hc : ((write_fat_blocks fat n d).opened &&
        decide (n + 1 < (write_fat_blocks fat n d).block_count)) = true
    · rw [if_pos hc]
      exact ih
    · rw [if_neg hc]
      exact ih

theorem write_finish_disk (w : WriteVars) (fd : Int) (h : FDEntry) (i : Nat) (e : RootDirEntry)
    (hopen : w.s.disk.opened = true) (hrd : w.s.sblock.rd_start_idx < w.s.disk.block_count) :
    (write_finish w fd h i e).2.disk =
      write_fat_blocks w.s.fat_array w.s.sblock.fat_block_amt
        (put_dir w.s.disk w.s.sblock.rd_start_idx (write_finish w fd h i e).2.root_dir) := by
  unfold write_finish
  simp only
  rw [block_write_dir_ok _ _ _ hopen hrd]
  rfl

/-- The parts of the state that the end of `fs_write` leaves as the loop left
them, and the directory block it writes. -/
theorem write_finish_state (w : WriteVars) (fd : Int) (h : FDEntry) (i : Nat) (e : RootDirEntry)
    (hopen : w.s.disk.opened = true) (hrd : w.s.sblock.rd_start_idx < w.s.disk.block_count) :
    (write_finish w fd h i e).2.is_mounted = w.s.is_mounted ∧
    (write_finish w fd h i e).2.sblock = w.s.sblock ∧
    (write_finish w fd h i e).2.disk.opened = true ∧
    (write_finish w fd h i e).2.disk.block_count = w.s.disk.block_count ∧
    (write_finish w fd h i e).2.disk.data_blocks = w.s.disk.data_blocks ∧
    (write_finish w fd h i e).2.disk.dir_blocks w.s.sblock.rd_start_idx
      = (write_finish w fd h i e).2.root_dir := by
  obtain ⟨h1, h2, _, h4, h5⟩ := write_fat_blocks_frame
    (w.s.fat_array) (w.s.sblock.fat_block_amt)
    (put_dir w.s.disk w.s.sblock.rd_start_idx (write_finish w fd h i e).2.root_dir)
  refine ⟨rfl, rfl, ?_, ?_, ?_, ?_⟩
  · rw [write_finish_disk w fd h i e hopen hrd, h1]; exact hopen
  · rw [write_finish_disk w fd h i e hopen hrd, h2]; rfl
  · rw [write_finish_disk w fd h i e hopen hrd, h5]; rfl
  · rw [write_finish_disk w fd h i e hopen hrd, h4]
    simp [put_dir]

theorem is_open_iff (s : FS) (fd : Int) :
    is_open s fd = true ↔
      valid_fd fd = true ∧ ∃ h, s.fd_table[fd.toNat]? = some h ∧ h.fd_num ≠ UNUSED := by
  unfold is_open
  by_cases hv : valid_fd fd = true
  · simp only [hv, Bool.not_true, Bool.false_eq_true, if_false, true_and]
    cases hg : s.fd_table[fd.toNat]? with
    | none => simp
    | some h => simp
  · simp [hv]

theorem guard_open (s : FS) (fd : Int) (hm : s.is_mounted = true)
    (hopen : is_open s fd = true) :
    (!s.is_mounted || !valid_fd fd || !is_open s fd) = false := by
  rw [hm, is_open_valid s fd hopen, hopen]
  rfl

theorem fs_lseek_ok (s : FS) (fd : Int) (off : Nat) (h : FDEntry) (e : RootDirEntry)
    (hm : s.is_mounted = true) (hopen : is_open s fd = true)
    (hh : s.fd_table[fd.toNat]? = some h)
    (hdisk : block_read_dir s.disk s.sblock.rd_start_idx = some s.root_dir ∨
      block_read_dir s.disk s.sblock.rd_start_idx = none)
    (he : root_dir_at s h.fd_num = some e) (hoff : off ≤ e.size) :
    fs_lseek s fd off =
      .done (0, { s with fd_table := s.fd_table.set fd.toNat { h with offset := off } }) := by
  have hs1 : reload_root_dir s = s := by
    unfold reload_root_dir
    rcases hdisk with hd | hd <;> rw [hd]
  unfold fs_lseek
  rw [guard_open s fd hm hopen]
  simp only [Bool.false_eq_true, if_false]
  rw [hs1, hh]
  simp only
  rw [he]
  simp only
  rw [if_neg (by omega)]

theorem ceiling_cast (n : Nat) :
    (ceiling (n : Int) (BLOCK_SIZE : Nat)).toNat = (n + (BLOCK_SIZE - 1)) / BLOCK_SIZE := by
  unfold ceiling BLOCK_SIZE
  rw [Int.tdiv_eq_ediv (by omega) (by omega), Int.tmod_eq_emod (by omega) (by omega)]
  by_cases h : (n : Int) % ((4096 : Nat) : Int) ≠ 0
  · rw [if_pos h]
    omega
  · rw [if_neg h]
    omega

/-- What `fs_read` returns through a handle at offset 0 of a file whose chain
`L` has `ceil(size / BLOCK_SIZE)` blocks: the first `min(count, size)` bytes of
the file. -/
theorem fs_read_from_start (s : FS) (fd : Int) (n : Nat) (h : FDEntry) (e : RootDirEntry)
    (L : List Nat) (hM : Mounted s) (hopen : is_open s fd = true)
    (hh : s.fd_table[fd.toNat]? = some h) (h0 : h.offset = 0)
    (he : root_dir_at s h.fd_num = some e)
    (hch : IsChain s.fat_array e.first_db_idx L)
    (hlen : L.length = (e.size + (BLOCK_SIZE - 1)) / BLOCK_SIZE)
    (hn : n < 2 ^ 31) (hsz : e.size < 2 ^ 32) :
    fs_read s fd false n =
      .done (((Min.min n e.size : Nat) : Int), chain_bytes s L (Min.min n e.size),
        { s with fd_table := s.fd_table.set fd.toNat { h with offset := Min.min n e.size } }) := by
  have hv := is_open_valid s fd hopen
  have hin : ∀ x ∈ L, x + s.sblock.data_start_idx < s.disk.block_count := by
    intro x hx
    obtain ⟨_, v, hv, _⟩ := isChain_mem _ _ _ hch x hx
    have := (List.getElem?_eq_some_iff.1 hv).1
    have := hM.fat_len
    have := hM.data_in
    omega
  obtain ⟨r2, h1, h2, h3, h4⟩ := read_loop_chain s e.size hM.opened hsz
    ((n + (BLOCK_SIZE - 1)) / BLOCK_SIZE) L ⟨[], n, 0, 0, 0, e.first_db_idx⟩ hch hin rfl
    (Nat.zero_le _) (by simpa using hlen) hn (Nat.le_refl _)
  simp only [Nat.sub_zero, List.nil_append, Nat.zero_add, Int.zero_add] at h2 h3 h4
  unfold fs_read
  rw [guard_open s fd hM.mounted hopen]
  simp only [Bool.false_eq_true, Bool.or_false, if_false]
  rw [hh]
  simp only
  rw [he]
  simp only
  rw [h0, toInt32_of_lt _ hn, ceiling_cast]
  have hw : read_walk s.fat_array (0 / BLOCK_SIZE) e.first_db_idx = .done e.first_db_idx := rfl
  rw [hw]
  simp only
  have hib : intra_block 0 = 0 := rfl
  rw [hib, h1]
  simp only
  rw [h2, h3, h4]
  have : (0 + Min.min n e.size) % 2 ^ 64 = Min.min n e.size := by omega
  rw [this]

theorem count_zero_le (fat : List Nat) : fat.count 0 ≤ fat.length := List.count_le_length 0 fat

theorem block_read_dir_ok (d : Disk) (i : Nat) (ho : d.opened = true) (hi : i < d.block_count) :
    block_read_dir d i = some (d.dir_blocks i) := by
  unfold block_read_dir
  simp [ho, hi]

theorem map_getD_range (data : List Nat) :
    (List.range data.length).map (fun g => data.getD g 0) = data := by
  apply List.ext_getElem
  · simp
  · intro i h1 h2
    simp [List.getElem?_eq_getElem h2]

/-- Writing `n > 0` bytes through a handle at offset 0 of an empty file, on a
volume with at least `ceil(n / BLOCK_SIZE)` free FAT entries: all `n` bytes are
written, the file gets a chain of `ceil(n / BLOCK_SIZE)` blocks taken from the
free entries, its size becomes `n`, and the blocks of the chain hold the
bytes. -/
theorem fs_write_fresh (s : FS) (fd : Int) (data : List Nat) (n fuel : Nat) (h : FDEntry)
    (e : RootDirEntry) (hM : Mounted s) (hopen : is_open s fd = true)
    (hh : s.fd_table[fd.toNat]? = some h) (h0 : h.offset = 0)
    (he : root_dir_at s h.fd_num = some e) (hsize : e.size = 0)
    (hfirst : e.first_db_idx = FAT_EOC) (hn : 0 < n)
    (hfree : (n + (BLOCK_SIZE - 1)) / BLOCK_SIZE ≤ s.fat_array.count 0) (hfuel : n ≤ fuel) :
    ∃ s2 L first, fs_write s fd (some data) n fuel = .done ((n : Int), s2) ∧ Mounted s2 ∧
      s2.fd_table = s.fd_table.set fd.toNat { h with offset := n } ∧
      root_dir_at s2 h.fd_num = some { e with first_db_idx := first, size := n } ∧
      (∀ i, i ≠ h.fd_num.toNat → s2.root_dir[i]? = s.root_dir[i]?) ∧
      IsChain s2.fat_array first L ∧ L.length = (n + (BLOCK_SIZE - 1)) / BLOCK_SIZE ∧
      s2.fat_array.count 0 + L.length = s.fat_array.count 0 ∧
      chain_bytes s2 L n = (List.range n).map (fun g => data.getD g 0) ∧
      s2.disk.dir_blocks s2.sblock.rd_start_idx = s2.root_dir := by
  have hsmall : n < 2 ^ 31 := by
    have h1 := count_zero_le s.fat_array
    have h2 := hM.fat_len
    have h3 := hM.fat_16
    unfold BLOCK_SIZE at hfree
    omega
  obtain ⟨hiA, hgetA, hnonneg⟩ := root_dir_at_some s h.fd_num e he
  have hiAlen : h.fd_num.toNat < s.root_dir.length := (List.getElem?_eq_some_iff.1 hgetA).1
  have hrun := fs_write_run_chain s fd data n fuel h e [] hM hopen hh he
    (by rw [hfirst]; rfl) (by rw [hsize]; rfl) (by omega)
    (fun hne => absurd hfirst hne) hn hsmall hfuel
  rcases hrun with ⟨_, hfe, _⟩ | ⟨s1, first, L1, w, L2, j2, hcase, hM1, hw, hex, hres, hwch, hwz⟩
  · exfalso
    have := (find_empty_none s hM.fat_len).1 hfe
    unfold BLOCK_SIZE at hfree
    omega
  · rcases hcase with ⟨hne, _⟩ | ⟨_, hfe, hL1, hs1⟩
    · exact absurd hfirst hne
    · subst hL1
      rw [h0, hsize] at hw
      obtain ⟨_, _, _, _, hz1⟩ := head_state_facts s h.fd_num.toNat e first hM hfe
      rw [← hs1] at hz1
      -- the loop has written everything
      have hcount : w.count = 0 := by
        rcases hex with hc | ⟨hfull, hcur⟩
        · exact hc
        · by_contra hc
          have hlenw : w.s.fat_array.length = w.s.sblock.data_block_amt := by
            rw [hw.sblock_eq, hw.len_eq, hw.geo_len]
          have hzero := (find_empty_none w.s hlenw).1 hfull
          have hj : ¬ j2 < L2.length := by
            intro hlt
            exact (getD_ne_eoc _ _ _ hwch j2).2 hlt (hw.curr ▸ hcur)
          have hoff := (hw.off (Nat.pos_of_ne_zero hc)).1
          have hz := hwz
          have ht := hw.total
          have hp := hw.pos
          simp only [List.length_singleton] at hz
          unfold BLOCK_SIZE at *
          omega
      have hoffn : w.offset = n := by
        have := hw.total
        omega
      obtain ⟨hlenL2, hbound⟩ := winv_exit hw (Or.inl hcount)
      have hmax : Max.max 0 w.offset = n := by omega
      rw [hmax] at hlenL2
      obtain ⟨wopen, wbc⟩ := hw.disk_geo
      have wsb := hw.sblock_eq
      have wrd : w.s.sblock.rd_start_idx < w.s.disk.block_count := by
        rw [wsb, wbc]; exact hM1.rd_in
      obtain ⟨f1, f2, f3, f4, f5, f6⟩ :=
        write_finish_state w fd h h.fd_num.toNat e wopen wrd
      obtain ⟨g1, g2, g3, g4⟩ := write_finish_root_dir w fd h h.fd_num.toNat e
      have hs1rd : s1.root_dir = s.root_dir.set h.fd_num.toNat { e with first_db_idx := first } := by
        rw [hs1]; rfl
      have hs1fd : s1.fd_table = s.fd_table := by rw [hs1]; rfl
      have hs1sb : s1.sblock = s.sblock := by rw [hs1]; rfl
      have hgetD : w.s.root_dir.getD h.fd_num.toNat e = { e with first_db_idx := first } := by
        rw [hw.root_dir_eq.1, hs1rd, List.getD_eq_getElem?_getD, List.getElem?_set,
          if_pos rfl, if_pos hiAlen]
        rfl
      have hns : (if w.offset > e.size then w.offset else e.size) % 2 ^ 32 = n := by
        rw [hsize, hoffn, if_pos hn]
        exact Nat.mod_eq_of_lt (by omega)
      refine ⟨(write_finish w fd h h.fd_num.toNat e).2, L2, first, ?_, ?_, ?_, ?_, ?_, ?_,
        hlenL2, ?_, ?_, ?_⟩
      · rw [hres]
        have : (write_finish w fd h h.fd_num.toNat e).1 = (n : Int) := by
          rw [g4, hw.amt, hoffn]
          simp
        rw [← this]
      · constructor
        · rw [f1, hw.rest]; exact hM1.mounted
        · exact f3
        · rw [f2, wsb]; exact hM1.layout_fat
        · rw [f2, wsb]; exact hM1.layout_dir
        · rw [f2, f4, wsb, wbc]; exact hM1.rd_in
        · rw [f2, f4, wsb, wbc]; exact hM1.data_in
        · rw [g2, f2, wsb, hw.len_eq]; exact hM1.fat_len
        · rw [f2, wsb]; exact hM1.fat_16
      · rw [g3, hw.root_dir_eq.2, hs1fd, hoffn]
      · unfold root_dir_at
        rw [if_pos ⟨hnonneg, by unfold FS_FILE_MAX_COUNT at *; omega⟩, g1, hgetD, hns,
          hw.root_dir_eq.1, hs1rd, List.getElem?_set, if_pos rfl]
        simp [hiAlen]
      · intro i hi
        rw [g1, hw.root_dir_eq.1, hs1rd, List.getElem?_set, if_neg (Ne.symm hi),
          List.getElem?_set, if_neg (Ne.symm hi)]
      · rw [g2]; exact hwch
      · rw [g2]
        have := hwz
        simp only [List.length_singleton] at this
        omega
      · unfold chain_bytes
        apply List.map_congr_left
        intro g hg
        have hg2 : g < n := List.mem_range.1 hg
        have := hw.written g (by omega)
        simp only [Nat.zero_add] at this
        rw [f5, f2, wsb]
        exact this
      · rw [f2]
        exact f6

theorem is_open_of_entry (s : FS) (fd : Int) (h : FDEntry) (hv : valid_fd fd = true)
    (hh : s.fd_table[fd.toNat]? = some h) (hne : h.fd_num ≠ UNUSED) : is_open s fd = true :=
  (is_open_iff s fd).2 ⟨hv, h, hh, hne⟩

theorem is_open_entry (s : FS) (fd : Int) (h : FDEntry) (hopen : is_open s fd = true)
    (hh : s.fd_table[fd.toNat]? = some h) : h.fd_num ≠ UNUSED := by
  obtain ⟨_, h2, hh2, hne⟩ := (is_open_iff s fd).1 hopen
  rw [hh] at hh2
  cases hh2
  exact hne

/-- Moving a handle to offset 0 and reading `n` bytes from a file of size `n`
whose chain `L` has `ceil(n / BLOCK_SIZE)` blocks and whose directory block is
in step with the mirror: the read returns the `n` bytes of the chain. -/
theorem seek_read_all (s : FS) (fd : Int) (n : Nat) (h : FDEntry) (e : RootDirEntry)
    (L : List Nat) (hM : Mounted s) (hopen : is_open s fd = true)
    (hh : s.fd_table[fd.toNat]? = some h) (he : root_dir_at s h.fd_num = some e)
    (hsize : e.size = n) (hch : IsChain s.fat_array e.first_db_idx L)
    (hlen : L.length = (n + (BLOCK_SIZE - 1)) / BLOCK_SIZE)
    (hsync : s.disk.dir_blocks s.sblock.rd_start_idx = s.root_dir) (hn : n < 2 ^ 31) :
    ∃ s2 s3, fs_lseek s fd 0 = .done (0, s2) ∧
      fs_read s2 fd false n = .done ((n : Int), chain_bytes s L n, s3) := by
  have hv := is_open_valid s fd hopen
  have hne := is_open_entry s fd h hopen hh
  have hfdlen : fd.toNat < s.fd_table.length := (List.getElem?_eq_some_iff.1 hh).1
  have hseek := fs_lseek_ok s fd 0 h e hM.mounted hopen hh
    (Or.inl (by rw [block_read_dir_ok _ _ hM.opened hM.rd_in, hsync])) he (Nat.zero_le _)
  have hh2 : ({ s with fd_table := s.fd_table.set fd.toNat { h with offset := 0 } } : FS).fd_table[
      fd.toNat]? = some { h with offset := 0 } := by
    simp [List.getElem?_set, hfdlen]
  have hM2 : Mounted { s with fd_table := s.fd_table.set fd.toNat { h with offset := 0 } } :=
    ⟨hM.mounted, hM.opened, hM.layout_fat, hM.layout_dir, hM.rd_in, hM.data_in, hM.fat_len,
      hM.fat_16⟩
  have hread := fs_read_from_start
    { s with fd_table := s.fd_table.set fd.toNat { h with offset := 0 } } fd n
    { h with offset := 0 } e L hM2 (is_open_of_entry _ fd _ hv hh2 hne) hh2 rfl he hch
    (by rw [hsize]; exact hlen) hn (by rw [hsize]; omega)
  rw [hsize, Nat.min_self] at hread
  exact ⟨_, _, hseek, hread⟩

theorem fs_write_zero (s : FS) (fd : Int) (data : List Nat) (fuel : Nat)
    (hm : s.is_mounted = true) (hopen : is_open s fd = true) :
    fs_write s fd (some data) 0 fuel = .done (0, s) := by
  unfold fs_write
  simp only
  rw [guard_open s fd hm hopen]
  simp only [Bool.false_eq_true, if_false, if_true]

theorem round_trip_aux (s : FS) (fd : Int) (data : List Nat) (fuel : Nat) (h : FDEntry)
    (e : RootDirEntry) (hM : Mounted s)
    (hsync : s.disk.dir_blocks s.sblock.rd_start_idx = s.root_dir)
    (hopen : is_open s fd = true) (hh : s.fd_table[fd.toNat]? = some h) (h0 : h.offset = 0)
    (he : root_dir_at s h.fd_num = some e) (hsize : e.size = 0)
    (hfirst : e.first_db_idx = FAT_EOC)
    (hfree : (data.length + (BLOCK_SIZE - 1)) / BLOCK_SIZE ≤ zero_count s)
    (hfuel : data.length ≤ fuel) :
    ∃ s1 s2 s3,
      fs_write s fd (some data) data.length fuel = .done ((data.length : Int), s1) ∧
      fs_lseek s1 fd 0 = .done (0, s2) ∧
      fs_read s2 fd false data.length = .done ((data.length : Int), data, s3) := by
  rw [zero_count_eq s hM.fat_len] at hfree
  by_cases hn : data.length = 0
  · have hd : data = [] := List.length_eq_zero.1 hn
    subst hd
    obtain ⟨s2, s3, hseek, hread⟩ := seek_read_all s fd 0 h e [] hM hopen hh he hsize
      (by rw [hfirst]; rfl) rfl hsync (by decide)
    exact ⟨s, s2, s3, fs_write_zero s fd [] fuel hM.mounted hopen, hseek, hread⟩
  · have hpos : 0 < data.length := Nat.pos_of_ne_zero hn
    obtain ⟨s1, L, first, hwr, hM1, hfd1, hrd1, _, hch1, hlen1, _, hbytes, hsync1⟩ :=
      fs_write_fresh s fd data data.length fuel h e hM hopen hh h0 he hsize hfirst hpos hfree
        hfuel
    have hv := is_open_valid s fd hopen
    have hne := is_open_entry s fd h hopen hh
    have hfdlen : fd.toNat < s.fd_table.length := (List.getElem?_eq_some_iff.1 hh).1
    have hh1 : s1.fd_table[fd.toNat]? = some { h with offset := data.length } := by
      rw [hfd1]
      simp [List.getElem?_set, hfdlen]
    have hsmall : data.length < 2 ^ 31 := by
      have h1 := count_zero_le s.fat_array
      have h2 := hM.fat_len
      have h3 := hM.fat_16
      unfold BLOCK_SIZE at hfree
      omega
    obtain ⟨s2, s3, hseek, hread⟩ := seek_read_all s1 fd data.length
      { h with offset := data.length } { e with first_db_idx := first, size := data.length } L
      hM1 (is_open_of_entry s1 fd _ hv hh1 hne) hh1 hrd1 rfl hch1 hlen1 hsync1 hsmall
    rw [hbytes, map_getD_range] at hread
    exact ⟨s1, s2, s3, hwr, hseek, hread⟩

theorem fs_create_state (s : FS) (f : List Nat) :
    (fs_create s f).2.fat_array = s.fat_array ∧
    ((fs_create s f).2.root_dir = s.root_dir ∨
      ∃ k, (fs_create s f).2.root_dir
        = s.root_dir.set k (created_entry (s.root_dir.getD k empty_entry) f)) := by
  unfold fs_create
  by_cases hc : (!s.is_mounted || !valid_filename_len f || file_exists s f) = true
  · rw [if_pos hc]
    exact ⟨rfl, Or.inl rfl⟩
  · rw [if_neg hc]
    cases hk : first_index slot_is_empty (s.root_dir.take FS_FILE_MAX_COUNT) with
    | none => exact ⟨rfl, Or.inl rfl⟩
    | some k =>
      simp only
      cases hd : block_write_dir s.disk s.sblock.rd_start_idx
          (s.root_dir.set k (created_entry (s.root_dir.getD k empty_entry) f)) with
      | none => exact ⟨rfl, Or.inr ⟨k, rfl⟩⟩
      | some d => exact ⟨rfl, Or.inr ⟨k, rfl⟩⟩

/-- `fs_create` keeps the chain-length invariant: the record it stores has
size 0 and first block `FAT_EOC`, and nothing else changes in the directory
or the FAT. -/
theorem fs_create_chain_inv (s : FS) (f : List Nat) (hinv : ChainInv s) :
    ChainInv (fs_create s f).2 := by
  obtain ⟨hfat, hrd⟩ := fs_create_state s f
  intro i e hi hget hlive
  rw [hfat]
  rcases hrd with h1 | ⟨k, h1⟩
  · rw [h1] at hget
    exact hinv i e hi hget hlive
  · rw [h1, List.getElem?_set] at hget
    by_cases hk : k = i
    · rw [if_pos hk] at hget
      by_cases hl : k < s.root_dir.length
      · rw [if_pos hl] at hget
        have := Option.some.inj hget
        subst this
        refine ⟨⟨fun _ => rfl, fun _ => rfl⟩, [], rfl, ?_⟩
        show 0 = (0 + (BLOCK_SIZE - 1)) / BLOCK_SIZE
        unfold BLOCK_SIZE
        rfl
      · rw [if_neg hl] at hget
        cases hget
    · rw [if_neg hk] at hget
      exact hinv i e hi hget hlive

theorem fs_write_closed (s : FS) (fd : Int) (buf : Option (List Nat)) (n fuel : Nat)
    (hclosed : is_open s fd = false) : fs_write s fd buf n fuel = .done (-1, s) := by
  unfold fs_write
  cases buf with
  | none => rfl
  | some data =>
    simp only
    rw [hclosed]
    simp only [Bool.not_false, Bool.or_true, if_true]

/-- `fs_write` keeps the chain-length invariant on a mounted volume, when the
handle is sound, the chain of its file is apart from the chains of the other
live entries, FAT entry 0 is not free in case the write extends a file that is
not empty past its last block, and fewer than `2 ^ 31` bytes are asked for. -/
theorem fs_write_chain_inv (s : FS) (fd : Int) (buf : Option (List Nat)) (n fuel : Nat)
    (hM : Mounted s) (hinv : ChainInv s) (hh : HandleOK s fd)
    (hfat0 : ∀ h e, s.fd_table[fd.toNat]? = some h → root_dir_at s h.fd_num = some e →
      e.size ≠ 0 → BLOCK_SIZE * ((e.size + (BLOCK_SIZE - 1)) / BLOCK_SIZE) < h.offset + n →
      s.fat_array[0]? ≠ some 0)
    (hap : ∀ h, s.fd_table[fd.toNat]? = some h → ChainsApart s h.fd_num.toNat)
    (hn : n < 2 ^ 31) (hfuel : n ≤ fuel) :
    ∃ r s2, fs_write s fd buf n fuel = .done (r, s2) ∧ ChainInv s2 := by
  cases buf with
  | none => exact ⟨-1, s, rfl, hinv⟩
  | some data =>
    by_cases hopen : is_open s fd = true
    · by_cases hn0 : n = 0
      · subst hn0
        exact ⟨0, s, fs_write_zero s fd data fuel hM.mounted hopen, hinv⟩
      · obtain ⟨h, e, hhh, he, hlive, hoff⟩ := hh
        obtain ⟨hiA, hgetA, _⟩ := root_dir_at_some s h.fd_num e he
        obtain ⟨hiff, L, hch, hlen⟩ := hinv _ e hiA hgetA hlive
        have hz : e.first_db_idx ≠ FAT_EOC →
            s.fat_array[0]? ≠ some 0 ∨ h.offset + n ≤ BLOCK_SIZE * L.length := by
          intro hne
          rcases Nat.lt_or_ge (BLOCK_SIZE * L.length) (h.offset + n) with hext | hin
          · left
            rw [hlen] at hext
            exact hfat0 h e hhh he (fun h0 => hne (hiff.1 h0)) hext
          · exact Or.inr hin
        rcases fs_write_run_chain s fd data n fuel h e L hM hopen hhh he hch hlen hoff
            hz (Nat.pos_of_ne_zero hn0) hn hfuel with
          ⟨_, _, hres⟩ | ⟨s1, first, L1, w, L2, j2, hcase, _, hw, hex, hres, hwch, _⟩
        · exact ⟨0, s, hres, hinv⟩
        · refine ⟨_, _, hres, ?_⟩
          exact chain_inv_finish s fd data n h e L hM hinv he hch (hap h hhh)
            s1 first L1 w L2 j2 hcase hw hwch hex
    · refine ⟨-1, s, fs_write_closed s fd _ n fuel ?_, hinv⟩
      simpa using hopen

theorem chain_of_sound (fat : List Nat) (fuel : Nat) : ∀ (b : Nat) (l : List Nat),
    chain_of fat fuel b = some l → IsChain fat b l := by
  induction fuel with
  | zero =>
    intro b l h
    unfold chain_of at h
    by_cases hb : b = FAT_EOC
    · rw [if_pos hb] at h
      cases h
      exact hb
    · rw [if_neg hb] at h
      cases h
  | succ fuel ih =>
    intro b l h
    unfold chain_of at h
    by_cases hb : b = FAT_EOC
    · rw [if_pos hb] at h
      cases h
      exact hb
    · rw [if_neg hb] at h
      cases hv : fat[b]? with
      | none => rw [hv] at h; cases h
      | some v =>
        rw [hv] at h
        simp only at h
        by_cases hv0 : v = 0
        · rw [if_pos hv0] at h
          cases h
        · rw [if_neg hv0] at h
          obtain ⟨l2, hl2, rfl⟩ := Option.map_eq_some'.1 h
          rw [isChain_cons]
          exact ⟨rfl, hb, v, hv, hv0, ih v l2 hl2⟩

theorem chain_of_complete (fat : List Nat) (fuel : Nat) : ∀ (b : Nat) (l : List Nat),
    IsChain fat b l → l.length ≤ fuel → chain_of fat fuel b = some l := by
  induction fuel with
  | zero =>
    intro b l h hl
    have : l = [] := List.length_eq_zero.1 (by omega)
    subst this
    unfold chain_of
    rw [if_pos ((isChain_nil fat b).1 h)]
  | succ fuel ih =>
    intro b l h hl
    cases l with
    | nil =>
      unfold chain_of
      rw [if_pos ((isChain_nil fat b).1 h)]
    | cons c l =>
      rw [isChain_cons] at h
      obtain ⟨hb, hc, v, hv, hv0, hr⟩ := h
      subst hb
      unfold chain_of
      rw [if_neg hc, hv]
      simp only
      rw [if_neg hv0, ih v l hr (by simpa using hl)]
      rfl

theorem chain_of_iff (fat : List Nat) (b n : Nat) :
    (chain_of fat fat.length b).map List.length = some n ↔
      ∃ l, IsChain fat b l ∧ l.length = n := by
  constructor
  · intro h
    obtain ⟨l, hl, hn⟩ := Option.map_eq_some'.1 h
    exact ⟨l, chain_of_sound fat _ b l hl, hn⟩
  · rintro ⟨l, hl, hn⟩
    rw [chain_of_complete fat _ b l hl (chain_length_le fat b l hl), Option.map_some', hn]

theorem chain_inv_check_iff (s : FS) : chain_inv_check s = true ↔ ChainInv s := by
  unfold chain_inv_check ChainInv
  rw [List.all_eq_true]
  constructor
  · intro h i e hi hget hlive
    have hmem : e ∈ s.root_dir.take FS_FILE_MAX_COUNT := by
      apply List.mem_iff_getElem?.2
      exact ⟨i, by rw [List.getElem?_take_of_lt hi]; exact hget⟩
    have := h e hmem
    simp only [Bool.or_eq_true, beq_iff_eq, Bool.and_eq_true, decide_eq_true_eq] at this
    rcases this with h0 | ⟨h1, h2⟩
    · exact absurd h0 hlive
    · exact ⟨h1, (chain_of_iff _ _ _).1 h2⟩
  · intro h e hmem
    obtain ⟨i, hi⟩ := List.mem_iff_getElem?.1 hmem
    have hi128 : i < FS_FILE_MAX_COUNT := by
      have := (List.getElem?_eq_some_iff.1 hi).1
      simp only [List.length_take] at this
      omega
    rw [List.getElem?_take_of_lt hi128] at hi
    simp only [Bool.or_eq_true, beq_iff_eq, Bool.and_eq_true, decide_eq_true_eq]
    by_cases hlive : e.name.headD 0 = 0
    · exact Or.inl hlive
    · obtain ⟨h1, h2⟩ := h i e hi128 hi hlive
      exact Or.inr ⟨h1, (chain_of_iff _ _ _).2 h2⟩

theorem chains_apart_of_check (s : FS) (iA : Nat) (h : chains_apart_check s iA = true) :
    ChainsApart s iA := by
  intro eA LA i e L hgA hchA hi hne hg hlive hch x hx hxA
  unfold chains_apart_check at h
  rw [hgA] at h
  simp only at h
  rw [chain_of_complete _ _ _ LA hchA (chain_length_le _ _ _ hchA)] at h
  simp only at h
  rw [List.all_eq_true] at h
  have := h i (List.mem_range.2 hi)
  rw [hg] at this
  simp only at this
  rw [chain_of_complete _ _ _ L hch (chain_length_le _ _ _ hch)] at this
  simp only [Bool.or_eq_true, beq_iff_eq, List.all_eq_true, Bool.not_eq_true',
    List.contains_eq_any_beq, List.any_eq_false, Bool.not_eq_true] at this
  rcases this with h1 | h1 | h1
  · exact hne h1
  · exact hlive h1
  · have := h1 x hx x hxA
    simp at this

theorem handle_ok_unique (s : FS) (fd : Int) (h : FDEntry) (e : RootDirEntry)
    (hh : HandleOK s fd) (hfd : s.fd_table[fd.toNat]? = some h)
    (he : root_dir_at s h.fd_num = some e) : e.name.headD 0 ≠ 0 ∧ h.offset ≤ e.size := by
  obtain ⟨h2, e2, hfd2, he2, hlive, hoff⟩ := hh
  rw [hfd] at hfd2
  cases hfd2
  rw [he] at he2
  cases he2
  exact ⟨hlive, hoff⟩

theorem walk_of_sound (fat : List Nat) (fuel : Nat) : ∀ (b : Nat) (l : List Nat),
    walk_of fat fuel b = some l → IsWalk fat b l := by
  induction fuel with
  | zero =>
    intro b l h
    unfold walk_of at h
    by_cases hb : b = FAT_EOC
    · rw [if_pos hb] at h
      cases h
      exact hb
    · rw [if_neg hb] at h
      cases h
  | succ fuel ih =>
    intro b l h
    unfold walk_of at h
    by_cases hb : b = FAT_EOC
    · rw [if_pos hb] at h
      cases h
      exact hb
    · rw [if_neg hb] at h
      cases hv : fat[b]? with
      | none => rw [hv] at h; cases h
      | some v =>
        rw [hv] at h
        simp only at h
        obtain ⟨l2, hl2, rfl⟩ := Option.map_eq_some'.1 h
        rw [isWalk_cons]
        exact ⟨rfl, hb, v, hv, ih v l2 hl2⟩

theorem walk_of_complete (fat : List Nat) (fuel : Nat) : ∀ (b : Nat) (l : List Nat),
    IsWalk fat b l → l.length ≤ fuel → walk_of fat fuel b = some l := by
  induction fuel with
  | zero =>
    intro b l h hl
    have : l = [] := List.length_eq_zero.1 (by omega)
    subst this
    unfold walk_of
    rw [if_pos (show b = FAT_EOC from h)]
  | succ fuel ih =>
    intro b l h hl
    cases l with
    | nil =>
      unfold walk_of
      rw [if_pos (show b = FAT_EOC from h)]
    | cons c l =>
      rw [isWalk_cons] at h
      obtain ⟨hb, hc, v, hv, hr⟩ := h
      subst hb
      unfold walk_of
      rw [if_neg hc, hv]
      simp only
      rw [ih v l hr (by simpa using hl)]
      rfl

theorem walk_of_iff (fat : List Nat) (b n : Nat) :
    (walk_of fat fat.length b).map List.length = some n ↔
      ∃ l, IsWalk fat b l ∧ l.length = n := by
  constructor
  · intro h
    obtain ⟨l, hl, hn⟩ := Option.map_eq_some'.1 h
    exact ⟨l, walk_of_sound fat _ b l hl, hn⟩
  · rintro ⟨l, hl, hn⟩
    rw [walk_of_complete fat _ b l hl (walk_length_le fat b l hl), Option.map_some', hn]

theorem walk_inv_check_iff (s : FS) : walk_inv_check s = true ↔ WalkInv s := by
  unfold walk_inv_check WalkInv
  rw [List.all_eq_true]
  constructor
  · intro h i e hi hget hlive
    have hmem : e ∈ s.root_dir.take FS_FILE_MAX_COUNT := by
      apply List.mem_iff_getElem?.2
      exact ⟨i, by rw [List.getElem?_take_of_lt hi]; exact hget⟩
    have := h e hmem
    simp only [Bool.or_eq_true, beq_iff_eq, Bool.and_eq_true, decide_eq_true_eq] at this
    rcases this with h0 | ⟨h1, h2⟩
    · exact absurd h0 hlive
    · exact ⟨h1, (walk_of_iff _ _ _).1 h2⟩
  · intro h e hmem
    obtain ⟨i, hi⟩ := List.mem_iff_getElem?.1 hmem
    have hi128 : i < FS_FILE_MAX_COUNT := by
      have := (List.getElem?_eq_some_iff.1 hi).1
      simp only [List.length_take] at this
      omega
    rw [List.getElem?_take_of_lt hi128] at hi
    simp only [Bool.or_eq_true, beq_iff_eq, Bool.and_eq_true, decide_eq_true_eq]
    by_cases hlive : e.name.headD 0 = 0
    · exact Or.inl hlive
    · obtain ⟨h1, h2⟩ := h i e hi128 hi hlive
      exact Or.inr ⟨h1, (walk_of_iff _ _ _).2 h2⟩

theorem walks_apart_of_check (s : FS) (iA : Nat) (h : walks_apart_check s iA = true) :
    WalksApart s iA := by
  intro eA LA i e L hgA hliveA hchA hi hne hg hlive hch x hx hxA
  unfold walks_apart_check at h
  rw [hgA] at h
  simp only at h
  rw [walk_of_complete _ _ _ LA hchA (walk_length_le _ _ _ hchA)] at h
  simp only [Bool.or_eq_true, beq_iff_eq] at h
  rcases h with h | h
  · exact hliveA h
  rw [List.all_eq_true] at h
  have := h i (List.mem_range.2 hi)
  rw [hg] at this
  simp only at this
  rw [walk_of_complete _ _ _ L hch (walk_length_le _ _ _ hch)] at this
  simp only [Bool.or_eq_true, beq_iff_eq, List.all_eq_true, Bool.not_eq_true',
    List.contains_eq_any_beq, List.any_eq_false, Bool.not_eq_true] at this
  rcases this with h1 | h1 | h1
  · exact hne h1
  · exact hlive h1
  · have := h1 x hx x hxA
    simp at this

/-- The chain-length invariant over chains of entries in use is the invariant
over walks together with the statement that no FAT entry of a walk holds 0. -/
theorem chainInv_iff (s : FS) : ChainInv s ↔ WalkInv s ∧ WalksInUse s := by
  constructor
  · intro h
    constructor
    · intro i e hi hget hlive
      obtain ⟨hiff, L, hch, hlen⟩ := h i e hi hget hlive
      exact ⟨hiff, L, isChain_isWalk _ _ _ hch, hlen⟩
    · intro i e L hi hget hlive hw
      obtain ⟨_, L2, hch, _⟩ := h i e hi hget hlive
      rw [isWalk_unique _ _ _ _ hw (isChain_isWalk _ _ _ hch)]
      exact isChain_inuse _ _ _ hch
  · rintro ⟨h1, h2⟩ i e hi hget hlive
    obtain ⟨hiff, L, hw, hlen⟩ := h1 i e hi hget hlive
    exact ⟨hiff, L, isChain_of_walk _ _ _ hw (h2 i e L hi hget hlive hw), hlen⟩

theorem chainsApart_of_walks (s : FS) (iA : Nat) (eA : RootDirEntry)
    (hgA : s.root_dir[iA]? = some eA) (hlive : eA.name.headD 0 ≠ 0) (h : WalksApart s iA) :
    ChainsApart s iA := by
  intro eA2 LA i e L hgA2 hchA hi hne hg hl hch
  rw [hgA] at hgA2
  cases hgA2
  exact h eA LA i e L hgA hlive (isChain_isWalk _ _ _ hchA) hi hne hg hl
    (isChain_isWalk _ _ _ hch)

/-- `fs_create` keeps the chain-length invariant over walks. -/
theorem fs_create_walk_inv (s : FS) (f : List Nat) (hinv : WalkInv s) :
    WalkInv (fs_create s f).2 := by
  obtain ⟨hfat, hrd⟩ := fs_create_state s f
  intro i e hi hget hlive
  rw [hfat]
  rcases hrd with h1 | ⟨k, h1⟩
  · rw [h1] at hget
    exact hinv i e hi hget hlive
  · rw [h1, List.getElem?_set] at hget
    by_cases hk : k = i
    · rw [if_pos hk] at hget
      by_cases hl : k < s.root_dir.length
      · rw [if_pos hl] at hget
        have := Option.some.inj hget
        subst this
        refine ⟨⟨fun _ => rfl, fun _ => rfl⟩, [], rfl, ?_⟩
        show 0 = (0 + (BLOCK_SIZE - 1)) / BLOCK_SIZE
        unfold BLOCK_SIZE
        rfl
      · rw [if_neg hl] at hget
        cases hget
    · rw [if_neg hk] at hget
      exact hinv i e hi hget hlive

theorem prefix_eq_of_length_le (L1 L2 : List Nat) (hpre : L1 <+: L2)
    (hlen : L2.length ≤ L1.length) : L2 = L1 := by
  obtain ⟨t, ht⟩ := hpre
  have : t = [] := by
    have := congrArg List.length ht
    simp only [List.length_append] at this
    exact List.length_eq_zero.1 (by omega)
  rw [← ht, this, List.append_nil]

/-- The loop of `fs_write` leaves the blocks of a walk `LB` alone that shares
no block with the file written to, when no block is needed, or FAT entry 0 is
free and one block is enough, or no FAT entry of `LB` holds 0: their FAT
entries and their contents are as before, and none of them is a block of the
file afterwards. -/
theorem write_keeps_others (s : FS) (data : List Nat) (count : Nat) (h : FDEntry)
    (e : RootDirEntry) (L : List Nat) (size0 : Nat) (hM : Mounted s)
    (hchain : IsWalk s.fat_array e.first_db_idx L)
    (hlen : L.length = (size0 + (BLOCK_SIZE - 1)) / BLOCK_SIZE) (hc : 0 < count)
    (s1 : FS) (first : Nat) (L1 : List Nat) (w : WriteVars) (L2 : List Nat) (j2 : Nat)
    (hcase : (e.first_db_idx ≠ FAT_EOC ∧ s1 = s ∧ first = e.first_db_idx ∧ L1 = L) ∨
      (e.first_db_idx = FAT_EOC ∧ find_empty_FAT_entry s = some first ∧ L1 = [first] ∧
        s1 = head_state s h.fd_num.toNat e first))
    (hw : WInv s1 data h.offset size0 count first L1 w L2 j2)
    (hex : w.count = 0 ∨ (find_empty_FAT_entry w.s = none ∧ w.curr_idx = FAT_EOC))
    (b : Nat) (LB : List Nat) (hLB : IsWalk s.fat_array b LB) (hdisj : ∀ x ∈ LB, x ∉ L)
    (hnew : BLOCK_SIZE * L.length < h.offset + count →
      (s.fat_array[0]? = some 0 ∧ h.offset + count ≤ BLOCK_SIZE * (L.length + 1)) ∨
      ∀ x ∈ LB, s.fat_array[x]? ≠ some 0) :
    ∀ x ∈ LB, x ∉ L2 ∧ w.s.fat_array[x]? = s.fat_array[x]? ∧
      w.s.disk.data_blocks (x + s.sblock.data_start_idx)
        = s.disk.data_blocks (x + s.sblock.data_start_idx) := by
  obtain ⟨hlenL2, _⟩ := winv_exit hw hex
  have htotal := hw.total
  have hempty : e.first_db_idx = FAT_EOC → L = [] ∧ size0 = 0 := by
    intro hf
    rw [hf] at hchain
    have hLnil := isWalk_eoc _ _ hchain
    rw [hLnil] at hlen
    exact ⟨hLnil, ceil_zero size0 hlen.symm⟩
  have hL2 : ∀ x ∈ L2, x ∈ L ∨ s.fat_array[x]? = some 0 := by
    intro x hx
    rcases hcase with ⟨_, hs, _, hL1⟩ | ⟨_, hfe, hL1, hs⟩
    · subst hs hL1
      by_cases hx1 : x ∈ L1
      · exact Or.inl hx1
      · exact Or.inr (hw.fresh x hx hx1)
    · subst hL1
      obtain ⟨hidx0, _⟩ := find_empty_some s first hM.fat_len hfe
      by_cases hx1 : x ∈ [first]
      · have : x = first := by simpa using hx1
        rw [this]
        exact Or.inr hidx0
      · have hf := hw.fresh x hx hx1
        have hne : first ≠ x := fun e1 => hx1 (by simp [e1])
        rw [hs] at hf
        simp only [head_state, List.getElem?_set] at hf
        rw [if_neg hne] at hf
        exact Or.inr hf
  have hframe : ∀ x, x ∉ L2 → w.s.fat_array[x]? = s.fat_array[x]? := by
    intro x hx
    rw [hw.frame x hx]
    rcases hcase with ⟨_, hs, _, _⟩ | ⟨_, _, hL1, hs⟩
    · rw [hs]
    · have hne : first ≠ x := by
        intro e1
        apply hx
        apply hw.pre.subset
        rw [hL1, e1]
        exact List.mem_singleton_self x
      rw [hs]
      simp only [head_state, List.getElem?_set]
      rw [if_neg hne]
  have hs1 : s1.sblock = s.sblock ∧ s1.disk.data_blocks = s.disk.data_blocks := by
    rcases hcase with ⟨_, hs, _, _⟩ | ⟨_, _, _, hs⟩
    · rw [hs]
      exact ⟨rfl, rfl⟩
    · rw [hs]
      exact ⟨rfl, rfl⟩
  have hother : ∀ x ∈ LB, x ∉ L2 := by
    intro x hx hx2
    have hxL : x ∉ L := hdisj x hx
    rcases hL2 x hx2 with hin | hzero
    · exact hxL hin
    · by_cases hneed : BLOCK_SIZE * L.length < h.offset + count
      · rcases hnew hneed with ⟨h00, hone⟩ | huse
        · have hx0 : x ≠ 0 := by
            intro e1
            rw [e1] at hx
            exact isWalk_not_self _ _ _ hLB 0 h00 hx
          rcases hcase with ⟨hnf, hs, _, hL1⟩ | ⟨hf, hfe, hL1, hs⟩
          · subst hs hL1
            rcases hw.mode with ⟨_, _, hs0, _⟩ | ⟨hLL, _, _, _⟩ | ⟨hLL, _, _, _⟩
            · exact hs0 h00
            · rw [hLL] at hx2
              exact hxL hx2
            · rw [hLL] at hx2
              rcases List.mem_append.1 hx2 with h1 | h1
              · exact hxL h1
              · exact hx0 (by simpa using h1)
          · obtain ⟨_, hmin⟩ := find_empty_some s first hM.fat_len hfe
            have hfirst0 : first = 0 := by
              by_contra hne0
              exact hmin 0 (Nat.pos_of_ne_zero hne0) h00
            obtain ⟨hLnil, hsize⟩ := hempty hf
            rw [hLnil] at hone
            have hle : L2.length ≤ L1.length := by
              rw [hlenL2, hL1, hsize]
              simp only [List.length_singleton, List.length_nil] at hone ⊢
              unfold BLOCK_SIZE at *
              omega
            rw [prefix_eq_of_length_le L1 L2 hw.pre hle, hL1, hfirst0] at hx2
            exact hx0 (by simpa using hx2)
        · exact huse x hx hzero
      · rcases hcase with ⟨_, _, _, hL1⟩ | ⟨hf, hfe, hL1, _⟩
        · have hle : L2.length ≤ L1.length := by
            rw [hlenL2, hL1]
            rw [hlen] at hneed ⊢
            unfold BLOCK_SIZE at *
            omega
          rw [prefix_eq_of_length_le L1 L2 hw.pre hle, hL1] at hx2
          exact hxL hx2
        · rw [(hempty hf).1] at hneed
          simp only [List.length_nil] at hneed
          omega
  intro x hx
  have hx2 := hother x hx
  refine ⟨hx2, hframe x hx2, ?_⟩
  funext t
  rw [← hs1.2]
  apply hw.untouched
  rintro g hg ⟨hb, _⟩
  rw [hs1.1] at hb
  have hlo := hw.len_lo
  have hi : (h.offset + g) / BLOCK_SIZE < L2.length := by
    have h1 : w.offset ≤ max size0 w.offset := Nat.le_max_right _ _
    unfold BLOCK_SIZE at *
    omega
  have hxe : x = L2.getD ((h.offset + g) / BLOCK_SIZE) 0 := by omega
  rw [List.getD_eq_getElem _ _ hi] at hxe
  exact hx2 (hxe ▸ List.getElem_mem hi)

/-- The state after the loop of `fs_write` satisfies the chain-length
invariant over walks when the state before the call did, the walk written to
is apart from the walks of the other live entries, and, in case a block is
needed, FAT entry 0 is free and one block is enough, or no FAT entry of a walk
holds 0. -/
theorem walk_inv_finish (s : FS) (fd : Int) (data : List Nat) (count : Nat) (h : FDEntry)
    (e : RootDirEntry) (L : List Nat) (hM : Mounted s) (hinv : WalkInv s)
    (he : root_dir_at s h.fd_num = some e) (hlive : e.name.headD 0 ≠ 0)
    (hchain : IsWalk s.fat_array e.first_db_idx L)
    (hlen : L.length = (e.size + (BLOCK_SIZE - 1)) / BLOCK_SIZE)
    (hap : WalksApart s h.fd_num.toNat) (hc : 0 < count)
    (hnew : BLOCK_SIZE * L.length < h.offset + count →
      (s.fat_array[0]? = some 0 ∧ h.offset + count ≤ BLOCK_SIZE * (L.length + 1)) ∨
      WalksInUse s)
    (s1 : FS) (first : Nat) (L1 : List Nat) (w : WriteVars) (L2 : List Nat) (j2 : Nat)
    (hcase : (e.first_db_idx ≠ FAT_EOC ∧ s1 = s ∧ first = e.first_db_idx ∧ L1 = L) ∨
      (e.first_db_idx = FAT_EOC ∧ find_empty_FAT_entry s = some first ∧ L1 = [first] ∧
        s1 = head_state s h.fd_num.toNat e first))
    (hw : WInv s1 data h.offset e.size count first L1 w L2 j2)
    (hex : w.count = 0 ∨ (find_empty_FAT_entry w.s = none ∧ w.curr_idx = FAT_EOC)) :
    WalkInv (write_finish w fd h h.fd_num.toNat e).2 := by
  obtain ⟨hiA, hgetA, _⟩ := root_dir_at_some s h.fd_num e he
  obtain ⟨hrd, hfat, _, _⟩ := write_finish_root_dir w fd h h.fd_num.toNat e
  obtain ⟨hlenL2, hbound⟩ := winv_exit hw hex
  have hiAlen : h.fd_num.toNat < s.root_dir.length := (List.getElem?_eq_some_iff.1 hgetA).1
  -- the directory the loop ran on
  have hs1rd : s1.root_dir = s.root_dir ∨
      s1.root_dir = s.root_dir.set h.fd_num.toNat { e with first_db_idx := first } := by
    rcases hcase with ⟨_, rfl, _, _⟩ | ⟨_, _, _, rfl⟩
    · exact Or.inl rfl
    · exact Or.inr rfl
  have hs1len : s1.root_dir.length = s.root_dir.length := by
    rcases hs1rd with h1 | h1
    · rw [h1]
    · rw [h1]; simp
  have hs1other : ∀ i, i ≠ h.fd_num.toNat → s1.root_dir[i]? = s.root_dir[i]? := by
    intro i hi
    rcases hs1rd with h1 | h1
    · rw [h1]
    · rw [h1, List.getElem?_set, if_neg (Ne.symm hi)]
  have hs1A : ∃ eA, s1.root_dir[h.fd_num.toNat]? = some eA ∧ eA.first_db_idx = first ∧
      eA.name = e.name := by
    rcases hcase with ⟨_, rfl, rfl, _⟩ | ⟨_, _, _, rfl⟩
    · exact ⟨e, hgetA, rfl, rfl⟩
    · refine ⟨{ e with first_db_idx := first }, ?_, rfl, rfl⟩
      simp [head_state, List.getElem?_set, hiAlen]
  intro i e2 hi hget hlive2
  rw [hrd, hw.root_dir_eq.1] at hget
  rw [hfat]
  by_cases hiA2 : i = h.fd_num.toNat
  · subst hiA2
    obtain ⟨eA, hgA, hfA, hnA⟩ := hs1A
    rw [List.getElem?_set, if_pos rfl, if_pos (by rw [hs1len]; exact hiAlen)] at hget
    have hgetD : s1.root_dir.getD h.fd_num.toNat e = eA := by
      rw [List.getD_eq_getElem?_getD, hgA]; rfl
    rw [hgetD] at hget
    have he2 := Option.some.inj hget
    subst he2
    simp only
    have hns : (if w.offset > e.size then w.offset else e.size) % 2 ^ 32
        = Max.max e.size w.offset := by
      have : (if w.offset > e.size then w.offset else e.size) = Max.max e.size w.offset := by
        by_cases hc : w.offset > e.size
        · rw [if_pos hc]; omega
        · rw [if_neg hc]; omega
      rw [this]
      exact Nat.mod_eq_of_lt hbound
    rw [hns, hfA]
    have hL2pos : 0 < L2.length :=
      List.length_pos.2 (isWalk_ne_nil _ _ _ hw.chain hw.first_ne)
    refine ⟨?_, L2, hw.chain, hlenL2⟩
    constructor
    · intro h0
      exfalso
      rw [h0] at hlenL2
      unfold BLOCK_SIZE at hlenL2
      omega
    · intro h0
      exact absurd h0 hw.first_ne
  · rw [List.getElem?_set, if_neg (Ne.symm hiA2), hs1other i hiA2] at hget
    obtain ⟨hiff, LB, hchB, hlenB⟩ := hinv i e2 hi hget hlive2
    refine ⟨hiff, LB, ?_, hlenB⟩
    apply isWalk_congr _ _ _ _ hchB
    intro x hx
    refine (write_keeps_others s data count h e L e.size hM hchain hlen hc s1 first L1 w L2 j2
      hcase hw hex e2.first_db_idx LB hchB
      (hap e L i e2 LB hgetA hlive hchain hi hiA2 hget hlive2 hchB) ?_ x hx).2.1
    intro hneed
    rcases hnew hneed with h1 | huse
    · exact Or.inl h1
    · exact Or.inr (huse i e2 LB hi hget hlive2 hchB)

/-- `fs_write` keeps the chain-length invariant over walks on a mounted
volume, when the handle is sound, the walk of its file is apart from the walks
of the other live entries, fewer than `2 ^ 31` bytes are asked for, and, in
case the write needs a new block, either FAT entry 0 is free and one block is
enough, or no FAT entry of a walk holds 0 and FAT entry 0 is in use unless the
file is empty. -/
theorem fs_write_walk_inv (s : FS) (fd : Int) (buf : Option (List Nat)) (n fuel : Nat)
    (hM : Mounted s) (hinv : WalkInv s) (hh : HandleOK s fd)
    (hap : ∀ h, s.fd_table[fd.toNat]? = some h → WalksApart s h.fd_num.toNat)
    (hnew : ∀ h e, s.fd_table[fd.toNat]? = some h → root_dir_at s h.fd_num = some e →
      BLOCK_SIZE * ((e.size + (BLOCK_SIZE - 1)) / BLOCK_SIZE) < h.offset + n →
      (s.fat_array[0]? = some 0 ∧
        h.offset + n ≤ BLOCK_SIZE * ((e.size + (BLOCK_SIZE - 1)) / BLOCK_SIZE + 1)) ∨
      (WalksInUse s ∧ (e.size ≠ 0 → s.fat_array[0]? ≠ some 0)))
    (hn : n < 2 ^ 31) (hfuel : n ≤ fuel) :
    ∃ r s2, fs_write s fd buf n fuel = .done (r, s2) ∧ WalkInv s2 := by
  cases buf with
  | none => exact ⟨-1, s, rfl, hinv⟩
  | some data =>
    by_cases hopen : is_open s fd = true
    · by_cases hn0 : n = 0
      · subst hn0
        exact ⟨0, s, fs_write_zero s fd data fuel hM.mounted hopen, hinv⟩
      · obtain ⟨h, e, hhh, he, hlive, hoff⟩ := hh
        obtain ⟨hiA, hgetA, _⟩ := root_dir_at_some s h.fd_num e he
        obtain ⟨hiff, L, hch, hlen⟩ := hinv _ e hiA hgetA hlive
        have hz : e.first_db_idx ≠ FAT_EOC →
            ((∀ x ∈ L, s.fat_array[x]? ≠ some 0) ∧ s.fat_array[0]? ≠ some 0) ∨
            (h.offset + n ≤ BLOCK_SIZE * (L.length + 1) ∧
              (h.offset + n ≤ BLOCK_SIZE * L.length ∨ s.fat_array[0]? = some 0)) := by
          intro hne
          rcases Nat.lt_or_ge (BLOCK_SIZE * L.length) (h.offset + n) with hext | hin
          · rw [hlen] at hext
            rcases hnew h e hhh he hext with ⟨h00, hone⟩ | ⟨huse, h0⟩
            · rw [← hlen] at hone
              exact Or.inr ⟨hone, Or.inr h00⟩
            · exact Or.inl ⟨huse _ e L hiA hgetA hlive hch, h0 (fun h1 => hne (hiff.1 h1))⟩
          · exact Or.inr ⟨by unfold BLOCK_SIZE at *; omega, Or.inl hin⟩
        have hnew2 : BLOCK_SIZE * L.length < h.offset + n →
            (s.fat_array[0]? = some 0 ∧ h.offset + n ≤ BLOCK_SIZE * (L.length + 1)) ∨
            WalksInUse s := by
          intro hext
          rw [hlen] at hext ⊢
          rcases hnew h e hhh he hext with h1 | ⟨huse, _⟩
          · exact Or.inl h1
          · exact Or.inr huse
        rcases fs_write_run s fd data n fuel h e L hM hopen hhh he hch hlen hoff
            hz (Nat.pos_of_ne_zero hn0) hn hfuel with
          ⟨_, _, hres⟩ | ⟨s1, first, L1, w, L2, j2, hcase, _, hw, hex, hres⟩
        · exact ⟨0, s, hres, hinv⟩
        · refine ⟨_, _, hres, ?_⟩
          exact walk_inv_finish s fd data n h e L hM hinv he hlive hch hlen (hap h hhh)
            (Nat.pos_of_ne_zero hn0) hnew2 s1 first L1 w L2 j2 hcase hw hex
    · refine ⟨-1, s, fs_write_closed s fd _ n fuel ?_, hinv⟩
      simpa using hopen

/-- C5 (amended): on a mounted volume (directory block and data region inside
the block store, one 16-bit FAT entry per data block), where the chain of an
entry is the walk the code follows in the FAT from its first block to
`FAT_EOC`: if every live directory entry has size 0 exactly when its first
block is `FAT_EOC` and a chain of `ceil(size / 4096)` blocks, the handle refers
to a live entry with offset at most its size, the chain of that entry shares
no block with the chain of another live entry, and, in case the write needs a
new block (`offset + n` exceeds `4096 * ceil(size / 4096)`), either FAT entry 0
is free and one new block is enough, or no FAT entry of the chain of a live
entry holds 0 and FAT entry 0 is in use unless the file is empty, then the same
invariant holds after `fs_create(name)` and after `fs_write(fd, buf, n)` for
every `n < 2 ^ 31`, short writes included, and the write returns. Moreover,
when no FAT entry of a chain holds 0 before, none does after `fs_create`, and
none does after `fs_write` when FAT entry 0 is in use in case the write extends
a file that is not empty past its last block. In particular writing 5000 bytes
through the handle when its file is empty and two FAT entries are free returns
5000, takes exactly 2 entries and sets the size to 5000. -/
theorem chain_invariant_preserved (s : FS) (name : List Nat) (fd : Int)
    (buf : Option (List Nat)) (n fuel : Nat)
    (hM : Mounted s) (hinv : WalkInv s) (hh : HandleOK s fd)
    (hap : ∀ h, s.fd_table[fd.toNat]? = some h → WalksApart s h.fd_num.toNat)
    (hnew : ∀ h e, s.fd_table[fd.toNat]? = some h → root_dir_at s h.fd_num = some e →
      BLOCK_SIZE * ((e.size + (BLOCK_SIZE - 1)) / BLOCK_SIZE) < h.offset + n →
      (s.fat_array[0]? = some 0 ∧
        h.offset + n ≤ BLOCK_SIZE * ((e.size + (BLOCK_SIZE - 1)) / BLOCK_SIZE + 1)) ∨
      (WalksInUse s ∧ (e.size ≠ 0 → s.fat_array[0]? ≠ some 0)))
    (hn : n < 2 ^ 31) (hfuel : n ≤ fuel) :
    WalkInv (fs_create s name).2 ∧
    (∃ r s2, fs_write s fd buf n fuel = .done (r, s2) ∧ WalkInv s2) ∧
    (WalksInUse s →
      WalksInUse (fs_create s name).2 ∧
      ((∀ h e, s.fd_table[fd.toNat]? = some h → root_dir_at s h.fd_num = some e →
          e.size ≠ 0 →
          BLOCK_SIZE * ((e.size + (BLOCK_SIZE - 1)) / BLOCK_SIZE) < h.offset + n →
          s.fat_array[0]? ≠ some 0) →
        ∀ r s2, fs_write s fd buf n fuel = .done (r, s2) → WalksInUse s2)) ∧
    (∀ h e data, is_open s fd = true → s.fd_table[fd.toNat]? = some h →
      root_dir_at s h.fd_num = some e → e.size = 0 → 2 ≤ zero_count s → 5000 ≤ fuel →
      ∃ s2 first, fs_write s fd (some data) 5000 fuel = .done (5000, s2) ∧
        root_dir_at s2 h.fd_num = some { e with first_db_idx := first, size := 5000 } ∧
        zero_count s2 + 2 = zero_count s) := by
  refine ⟨fs_create_walk_inv s name hinv,
    fs_write_walk_inv s fd buf n fuel hM hinv hh hap hnew hn hfuel, ?_, ?_⟩
  · intro huse
    have hci : ChainInv s := (chainInv_iff s).2 ⟨hinv, huse⟩
    refine ⟨((chainInv_iff _).1 (fs_create_chain_inv s name hci)).2, ?_⟩
    intro hfat0 r s2 hres
    have hap2 : ∀ h, s.fd_table[fd.toNat]? = some h → ChainsApart s h.fd_num.toNat := by
      intro h hfd
      obtain ⟨h2, e2, hfd2, he2, hlive2, _⟩ := hh
      rw [hfd] at hfd2
      cases hfd2
      obtain ⟨_, hgetA, _⟩ := root_dir_at_some s h.fd_num e2 he2
      exact chainsApart_of_walks s _ e2 hgetA hlive2 (hap h hfd)
    obtain ⟨r2, s3, hres2, hci2⟩ :=
      fs_write_chain_inv s fd buf n fuel hM hci hh hfat0 hap2 hn hfuel
    rw [hres] at hres2
    cases hres2
    exact ((chainInv_iff _).1 hci2).2
  · intro h e data hopen hfd he hsize hfree hfuel2
    obtain ⟨hlive, hoff⟩ := handle_ok_unique s fd h e hh hfd he
    obtain ⟨hiA, hgetA, _⟩ := root_dir_at_some s h.fd_num e he
    have hfirst : e.first_db_idx = FAT_EOC := ((hinv _ e hiA hgetA hlive).1).1 hsize
    rw [zero_count_eq s hM.fat_len] at hfree
    obtain ⟨s2, L, first, hwr, hM2, _, hrd2, _, _, hlen2, hz2, _, _⟩ :=
      fs_write_fresh s fd data 5000 fuel h e hM hopen hfd (by omega) he hsize hfirst
        (by decide) (by unfold BLOCK_SIZE; omega) hfuel2
    refine ⟨s2, first, hwr, hrd2, ?_⟩
    rw [zero_count_eq s2 hM2.fat_len, zero_count_eq s hM.fat_len]
    have : (5000 + (BLOCK_SIZE - 1)) / BLOCK_SIZE = 2 := by decide
    omega

set_option maxRecDepth 1000000 in
/-- The statement of `chain_invariant_preserved` at four volumes: at
`vol_two`, where 4000 bytes are appended to the 5000 bytes of `"a"` and no FAT
entry of a chain holds 0; at `vol_fat0`, where FAT entry 0 is free and one byte
is appended to the 4096 bytes of `"a"`, for which one new block is enough; at
`vol_fat0_b`, where FAT entry 0 is free and 5000 bytes are written to the empty
file `"b"`; and at `vol_linked0_seek100`, where the chain of `"a"` runs
through block 0, so that FAT entry 1 holds 0, and 3 bytes are written inside
the first block. -/
theorem chain_invariant_preserved_witness :
    (WalkInv (fs_create vol_two [99]).2 ∧
      ∃ r s2, fs_write vol_two 0 (some (List.replicate 4000 9)) 4000 4000 = .done (r, s2) ∧
        WalkInv s2) ∧
    (vol_fat0.fat_array[0]? = some 0 ∧
      ∃ r s2, fs_write vol_fat0 0 (some [9]) 1 1 = .done (r, s2) ∧ WalkInv s2) ∧
    (vol_fat0_b.fat_array[0]? = some 0 ∧
      ∃ r s2, fs_write vol_fat0_b 0 (some (List.replicate 5000 9)) 5000 5000 = .done (r, s2) ∧
        WalkInv s2) ∧
    (vol_linked0_seek100.fat_array[1]? = some 0 ∧
      ∃ r s2, fs_write vol_linked0_seek100 0 (some [1, 2, 3]) 3 3 = .done (r, s2) ∧
        WalkInv s2) :=
  have h1 := chain_invariant_preserved vol_two [99] 0 (some (List.replicate 4000 9)) 4000 4000
    ⟨by decide, by decide, by decide, by decide, by decide, by decide, by decide, by decide⟩
    ((walk_inv_check_iff vol_two).1 (by decide))
    ⟨⟨0, 5000⟩, file_entry 97 5000 1, by decide, by decide, by decide, by decide⟩
    (fun h hh => by
      have h1 : vol_two.fd_table[(0 : Int).toNat]? = some ⟨0, 5000⟩ := by decide
      rw [h1] at hh
      cases hh
      exact walks_apart_of_check vol_two _ (by decide))
    (fun _ _ _ _ _ => Or.inr
      ⟨((chainInv_iff _).1 ((chain_inv_check_iff vol_two).1 (by decide))).2,
        fun _ => by decide⟩)
    (by decide) (by decide)
  have h2 := chain_invariant_preserved vol_fat0 [99] 0 (some [9]) 1 1
    ⟨by decide, by decide, by decide, by decide, by decide, by decide, by decide, by decide⟩
    ((walk_inv_check_iff vol_fat0).1 (by decide))
    ⟨⟨0, 4096⟩, file_entry 97 4096 1, by decide, by decide, by decide, by decide⟩
    (fun h hh => by
      have h1 : vol_fat0.fd_table[(0 : Int).toNat]? = some ⟨0, 4096⟩ := by decide
      rw [h1] at hh
      cases hh
      exact walks_apart_of_check vol_fat0 _ (by decide))
    (fun h e hh he _ => by
      have h1 : vol_fat0.fd_table[(0 : Int).toNat]? = some ⟨0, 4096⟩ := by decide
      rw [h1] at hh
      cases hh
      have h3 : root_dir_at vol_fat0 0 = some (file_entry 97 4096 1) := by decide
      rw [h3] at he
      cases he
      exact Or.inl ⟨by decide, by decide⟩)
    (by decide) (by decide)
  have h3 := chain_invariant_preserved vol_fat0_b [99] 0 (some (List.replicate 5000 9)) 5000 5000
    ⟨by decide, by decide, by decide, by decide, by decide, by decide, by decide, by decide⟩
    ((walk_inv_check_iff vol_fat0_b).1 (by decide))
    ⟨⟨1, 0⟩, file_entry 98 0 FAT_EOC, by decide, by decide, by decide, by decide⟩
    (fun h hh => by
      have h1 : vol_fat0_b.fd_table[(0 : Int).toNat]? = some ⟨1, 0⟩ := by decide
      rw [h1] at hh
      cases hh
      exact walks_apart_of_check vol_fat0_b _ (by decide))
    (fun h e hh he _ => by
      have h1 : vol_fat0_b.fd_table[(0 : Int).toNat]? = some ⟨1, 0⟩ := by decide
      rw [h1] at hh
      cases hh
      have h3 : root_dir_at vol_fat0_b 1 = some (file_entry 98 0 FAT_EOC) := by decide
      rw [h3] at he
      cases he
      exact Or.inr ⟨((chainInv_iff _).1 ((chain_inv_check_iff vol_fat0_b).1 (by decide))).2,
        fun hsz => absurd rfl hsz⟩)
    (by decide) (by decide)
  have h4 := chain_invariant_preserved vol_linked0_seek100 [99] 0 (some [1, 2, 3]) 3 3
    ⟨by decide, by decide, by decide, by decide, by decide, by decide, by decide, by decide⟩
    ((walk_inv_check_iff vol_linked0_seek100).1 (by decide))
    ⟨⟨0, 100⟩, file_entry 97 8192 1, by decide, by decide, by decide, by decide⟩
    (fun h hh => by
      have h1 : vol_linked0_seek100.fd_table[(0 : Int).toNat]? = some ⟨0, 100⟩ := by decide
      rw [h1] at hh
      cases hh
      exact walks_apart_of_check vol_linked0_seek100 _ (by decide))
    (fun h e hh he hext => by
      have h1 : vol_linked0_seek100.fd_table[(0 : Int).toNat]? = some ⟨0, 100⟩ := by decide
      rw [h1] at hh
      cases hh
      have h3 : root_dir_at vol_linked0_seek100 0 = some (file_entry 97 8192 1) := by decide
      rw [h3] at he
      cases he
      exact absurd hext (by decide))
    (by decide) (by decide)
  ⟨⟨h1.1, h1.2.1⟩, ⟨by decide, h2.2.1⟩, ⟨by decide, h3.2.1⟩, ⟨by decide, h4.2.1⟩⟩

set_option maxRecDepth 1000000 in
/-- C5 as stated fails in four ways, each at a state where every live entry
satisfies the invariant and the handle refers to a live file with its offset
at most the size; in (1) to (3) no FAT entry of a chain holds 0 before the
call, and afterwards the invariant fails even for the walks the code follows.
(1) Two entries share block 1: appending one byte to `"a"` lengthens the chain
of `"b"` too. (2) FAT entry 0 is free and two new blocks are needed: appending
5000 bytes links block 0 after block 1, which makes entry 1 read as free, and
the next allocation takes block 1 again. (3) A request of `2 ^ 32` bytes is
seen as 0 by the `int` arithmetic of `min`: all free blocks are allocated,
nothing is written and the size stays 0. (4) A chain has a FAT entry that
holds 0 and a block is needed. On the volume `vol_linked0` FAT entry 0 is in
use, the file `"a"` (8192 bytes) has the 2 blocks 1, 0, with FAT entry 1
holding 0, and the file `"b"` is empty, with handle 1 at offset 0; the
invariant holds for the walks, which share no block. Writing one byte through
handle 1 returns 1 and takes block 1, the first FAT entry that holds 0:
afterwards following the FAT from the first block of `"a"` visits the one
block 1, for a size of 8192. -/
theorem chain_invariant_not_preserved :
    (ChainInv vol_crossed ∧ HandleOK vol_crossed 0 ∧
      (fs_write vol_crossed 0 (some [9]) 1 1).map (fun r => r.1) = .done 1 ∧
      ¬ WalkInv (fs_write vol_crossed 0 (some [9]) 1 1).state) ∧
    (ChainInv vol_fat0 ∧ HandleOK vol_fat0 0 ∧
      (fs_write vol_fat0 0 (some (List.replicate 5000 9)) 5000 5000).map (fun r => r.1)
        = .done 5000 ∧
      ¬ WalkInv (fs_write vol_fat0 0 (some (List.replicate 5000 9)) 5000 5000).state) ∧
    (ChainInv vol_a ∧ HandleOK vol_a 0 ∧
      (fs_write vol_a 0 (some [9]) (2 ^ 32) 8).map (fun r => r.1) = .done 0 ∧
      ¬ WalkInv (fs_write vol_a 0 (some [9]) (2 ^ 32) 8).state) ∧
    (vol_linked0.root_dir =
        [file_entry 97 8192 1, file_entry 98 0 FAT_EOC] ++ List.replicate 126 empty_entry ∧
      IsWalk vol_linked0.fat_array 1 [1, 0] ∧ vol_linked0.fat_array[0]? = some FAT_EOC ∧
      WalkInv vol_linked0 ∧ WalksApart vol_linked0 1 ∧ HandleOK vol_linked0 1 ∧
      (fs_write vol_linked0 1 (some [9]) 1 1).map (fun r => (r.1, r.2.root_dir.take 2))
        = .done (1, [file_entry 97 8192 1, file_entry 98 1 1]) ∧
      IsWalk (fs_write vol_linked0 1 (some [9]) 1 1).state.fat_array 1 [1] ∧
      ¬ WalkInv (fs_write vol_linked0 1 (some [9]) 1 1).state) := by
  refine ⟨⟨?_, ?_, ?_, ?_⟩, ⟨?_, ?_, ?_, ?_⟩, ⟨?_, ?_, ?_, ?_⟩,
    ⟨by decide, ⟨rfl, by decide, 0, by decide, rfl, by decide, FAT_EOC, by decide, rfl⟩,
      by decide, (walk_inv_check_iff _).1 (by decide),
      walks_apart_of_check _ _ (by decide),
      ⟨⟨1, 0⟩, file_entry 98 0 FAT_EOC, by decide, by decide, by decide, by decide⟩,
      by decide, ⟨rfl, by decide, FAT_EOC, by decide, rfl⟩,
      fun h => absurd ((walk_inv_check_iff _).2 h) (by decide)⟩⟩
  · exact (chain_inv_check_iff _).1 (by decide)
  · exact ⟨⟨0, 4096⟩, file_entry 97 4096 1, by decide, by decide, by decide, by decide⟩
  · decide
  · exact fun h => absurd ((walk_inv_check_iff _).2 h) (by decide)
  · exact (chain_inv_check_iff _).1 (by decide)
  · exact ⟨⟨0, 4096⟩, file_entry 97 4096 1, by decide, by decide, by decide, by decide⟩
  · decide
  · exact fun h => absurd ((walk_inv_check_iff _).2 h) (by decide)
  · exact (chain_inv_check_iff _).1 (by decide)
  · exact ⟨⟨0, 0⟩, file_entry 97 0 FAT_EOC, by decide, by decide, by decide, by decide⟩
  · decide
  · exact fun h => absurd ((walk_inv_check_iff _).2 h) (by decide)

/-- C1: on a mounted volume whose directory block is in step with the mirror,
for every byte string `data` and every handle at offset 0 on an empty file,
when at least `ceil(len(data) / 4096)` FAT entries are free,
`fs_write(fd, data, len(data))` returns `len(data)`, the following
`fs_lseek(fd, 0)` returns 0 and `fs_read(fd, buf, len(data))` returns
`len(data)` and stores exactly `data`. -/
theorem write_read_round_trip (s : FS) (fd : Int) (data : List Nat) (fuel : Nat)
    (h : FDEntry) (e : RootDirEntry) (hM : Mounted s)
    (hsync : s.disk.dir_blocks s.sblock.rd_start_idx = s.root_dir)
    (hopen : is_open s fd = true) (hh : s.fd_table[fd.toNat]? = some h) (h0 : h.offset = 0)
    (he : root_dir_at s h.fd_num = some e) (hsize : e.size = 0)
    (hfirst : e.first_db_idx = FAT_EOC)
    (hfree : (data.length + (BLOCK_SIZE - 1)) / BLOCK_SIZE ≤ zero_count s)
    (hfuel : data.length ≤ fuel) :
    ∃ s1 s2 s3,
      fs_write s fd (some data) data.length fuel = .done ((data.length : Int), s1) ∧
      fs_lseek s1 fd 0 = .done (0, s2) ∧
      fs_read s2 fd false data.length = .done ((data.length : Int), data, s3) :=
  round_trip_aux s fd data fuel h e hM hsync hopen hh h0 he hsize hfirst hfree hfuel

set_option maxRecDepth 1000000 in
/-- The statement of `write_read_round_trip` at the volume `vol_a` and the
bytes `1, 2, 3`. -/
theorem write_read_round_trip_witness :
    ∃ s1 s2 s3,
      fs_write vol_a 0 (some [1, 2, 3]) 3 3 = .done (3, s1) ∧
      fs_lseek s1 0 0 = .done (0, s2) ∧
      fs_read s2 0 false 3 = .done (3, [1, 2, 3], s3) :=
  write_read_round_trip vol_a 0 [1, 2, 3] 3 ⟨0, 0⟩ (file_entry 97 0 FAT_EOC)
    ⟨by decide, by decide, by decide, by decide, by decide, by decide, by decide, by decide⟩
    (by decide) (by decide) (by decide) rfl (by decide) rfl rfl (by decide) (by decide)

/-! ## `fs_lseek` -/

theorem reload_root_dir_synced (s : FS) (hM : Mounted s)
    (hsync : s.disk.dir_blocks s.sblock.rd_start_idx = s.root_dir) : reload_root_dir s = s := by
  unfold reload_root_dir
  rw [block_read_dir_ok s.disk _ hM.opened hM.rd_in, hsync]

theorem fs_lseek_beyond (s : FS) (fd : Int) (off : Nat) (h : FDEntry) (e : RootDirEntry)
    (hM : Mounted s) (hsync : s.disk.dir_blocks s.sblock.rd_start_idx = s.root_dir)
    (hopen : is_open s fd = true) (hh : s.fd_table[fd.toNat]? = some h)
    (he : root_dir_at s h.fd_num = some e) (hoff : e.size < off) :
    fs_lseek s fd off = .done (-1, s) := by
  unfold fs_lseek
  rw [guard_open s fd hM.mounted hopen]
  simp only [Bool.false_eq_true, if_false]
  rw [reload_root_dir_synced s hM hsync, hh]
  simp only
  rw [he]
  simp only
  rw [if_pos (by omega)]

/-- C11: on a mounted volume whose directory block holds the directory mirror,
for an open handle `fd` on a file of size `e.size`: `fs_lseek(fd, off)` returns
0 and sets the handle's offset to `off` (nothing else changes) for every
`off <= size`, in particular for `off = size`; for every `off > size`, in
particular for `size + 1`, it returns -1 and leaves the state, and so the
handle's offset, unchanged. -/
theorem fs_lseek_bounds (s : FS) (fd : Int) (h : FDEntry) (e : RootDirEntry)
    (hM : Mounted s) (hsync : s.disk.dir_blocks s.sblock.rd_start_idx = s.root_dir)
    (hopen : is_open s fd = true) (hh : s.fd_table[fd.toNat]? = some h)
    (he : root_dir_at s h.fd_num = some e) :
    (∀ off, off ≤ e.size →
      fs_lseek s fd off =
        .done (0, { s with fd_table := s.fd_table.set fd.toNat { h with offset := off } }) ∧
      offset_of (fs_lseek s fd off).state fd.toNat = some off) ∧
    (∀ off, e.size < off →
      fs_lseek s fd off = .done (-1, s) ∧
      offset_of (fs_lseek s fd off).state fd.toNat = some h.offset) ∧
    (fs_lseek s fd e.size).map (fun r => r.1) = .done 0 ∧
    (fs_lseek s fd (e.size + 1)).map (fun r => r.1) = .done (-1) := by
  have hok : ∀ off, off ≤ e.size → fs_lseek s fd off =
      .done (0, { s with fd_table := s.fd_table.set fd.toNat { h with offset := off } }) :=
    fun off hoff => fs_lseek_ok s fd off h e hM.mounted hopen hh
      (Or.inl (by rw [block_read_dir_ok s.disk _ hM.opened hM.rd_in, hsync])) he hoff
  have hlt : fd.toNat < s.fd_table.length := by
    rcases Nat.lt_or_ge fd.toNat s.fd_table.length with hl | hl
    · exact hl
    · rw [List.getElem?_eq_none hl] at hh
      cases hh
  refine ⟨?_, ?_, ?_, ?_⟩
  · intro off hoff
    refine ⟨hok off hoff, ?_⟩
    rw [hok off hoff]
    simp [Outcome.state, offset_of, List.getElem?_set, hlt]
  · intro off hoff
    have hb := fs_lseek_beyond s fd off h e hM hsync hopen hh he hoff
    refine ⟨hb, ?_⟩
    rw [hb]
    simp [Outcome.state, offset_of, hh]
  · rw [hok e.size (Nat.le_refl _)]
    rfl
  · rw [fs_lseek_beyond s fd (e.size + 1) h e hM hsync hopen hh he (Nat.lt_succ_self _)]
    rfl

set_option maxRecDepth 1000000 in
/-- The statement of `fs_lseek_bounds` at the volume `vol_two`, whose handle 0
is open on the 5000-byte file `"a"`: seeking to 5000 succeeds, seeking to 5001
fails. -/
theorem fs_lseek_bounds_witness :
    (fs_lseek vol_two 0 5000).map (fun r => r.1) = .done 0 ∧
    (fs_lseek vol_two 0 5001).map (fun r => r.1) = .done (-1) :=
  (fs_lseek_bounds vol_two 0 ⟨0, 5000⟩ (file_entry 97 5000 1)
    ⟨by decide, by decide, by decide, by decide, by decide, by decide, by decide, by decide⟩
    (by decide) (by decide) (by decide) (by decide)).2.2

/-! ## What a call of `fs_write` has done -/

theorem set_same {α : Type} (l : List α) (i : Nat) (a : α) (h : l[i]? = some a) :
    l.set i a = l := by
  apply List.ext_getElem?
  intro j
  rw [List.getElem?_set]
  split
  · rename_i hij
    subst hij
    rw [if_pos (List.getElem?_eq_some_iff.1 h).1, h]
  · rfl

theorem entry_eta (e : RootDirEntry) (first size : Nat) (h1 : first = e.first_db_idx)
    (h2 : size = e.size) : ({ e with first_db_idx := first, size := size } : RootDirEntry) = e := by
  subst h1 h2
  rfl

/-- On a mounted volume, for an open handle whose file has
`ceil(size / BLOCK_SIZE)` blocks on the walk from its first block and whose
offset is at most the size, `fs_write` of `count` bytes (`0 < count < 2 ^ 31`)
returns some `m`, and `WriteDone` describes the state it leaves. When the file
is not empty, either no FAT entry of the file holds 0 and FAT entry 0 is in
use, or one more block is enough and FAT entry 0 is free in case it is
needed. -/
theorem fs_write_done (s : FS) (fd : Int) (data : List Nat) (count fuel : Nat) (h : FDEntry)
    (e : RootDirEntry) (L : List Nat) (hM : Mounted s) (hopen : is_open s fd = true)
    (hh : s.fd_table[fd.toNat]? = some h) (he : root_dir_at s h.fd_num = some e)
    (hchain : IsWalk s.fat_array e.first_db_idx L)
    (hlen : L.length = (e.size + (BLOCK_SIZE - 1)) / BLOCK_SIZE)
    (hoff : h.offset ≤ e.size)
    (hz : e.first_db_idx ≠ FAT_EOC →
      ((∀ x ∈ L, s.fat_array[x]? ≠ some 0) ∧ s.fat_array[0]? ≠ some 0) ∨
      (h.offset + count ≤ BLOCK_SIZE * (L.length + 1) ∧
        (h.offset + count ≤ BLOCK_SIZE * L.length ∨ s.fat_array[0]? = some 0)))
    (hc : 0 < count) (hsmall : count < 2 ^ 31) (hfuel : count ≤ fuel) :
    ∃ (m : Nat) (s2 : FS) (first : Nat) (L2 : List Nat),
      fs_write s fd (some data) count fuel = .done ((m : Int), s2) ∧
      WriteDone s fd data count h e L m s2 first L2 := by
  obtain ⟨hiA, hgetA, hnonneg⟩ := root_dir_at_some s h.fd_num e he
  have hiAlen : h.fd_num.toNat < s.root_dir.length := (List.getElem?_eq_some_iff.1 hgetA).1
  have hfdlen : fd.toNat < s.fd_table.length := (List.getElem?_eq_some_iff.1 hh).1
  have hrun := fs_write_run s fd data count fuel h e L hM hopen hh he hchain hlen hoff hz hc
    hsmall hfuel
  rcases hrun with ⟨hfirst, hfe, hres⟩ | ⟨s1, first, L1, w, L2, j2, hcase, hM1, hw, hex, hres⟩
  · -- the file is empty and the FAT is full
    rw [hfirst] at hchain
    have hL : L = [] := isWalk_eoc _ _ hchain
    subst hL
    have hsize : e.size = 0 := ceil_zero e.size (by rw [← hlen]; rfl)
    have hp : h.offset = 0 := by omega
    have hzero := (find_empty_none s hM.fat_len).1 hfe
    refine ⟨0, s, e.first_db_idx, [], by simpa using hres, ?_⟩
    constructor
    · exact hM
    · omega
    · rw [Nat.add_zero]
      have : ({ h with offset := h.offset } : FDEntry) = h := rfl
      rw [this, set_same _ _ _ hh]
    · rw [he, entry_eta e _ _ rfl (by rw [hsize, hp]; rfl)]
    · intro i _; rfl
    · rfl
    · intro _; rfl
    · rw [hfirst]; rfl
    · rw [hsize, hp]; simp [BLOCK_SIZE]
    · exact List.prefix_refl _
    · intro _ _
      exact ⟨fun x hx => absurd hx (List.not_mem_nil _), rfl⟩
    · right
      exact ⟨hzero, by rw [hp]; rfl, rfl⟩
    · intro x _; rfl
    · intro g hg; omega
    · intro b t _; rfl
    · left; rfl
  · -- the loop has run
    obtain ⟨hlenL2, hbound⟩ := winv_exit hw hex
    obtain ⟨wopen, wbc⟩ := hw.disk_geo
    have wsb := hw.sblock_eq
    have wrd : w.s.sblock.rd_start_idx < w.s.disk.block_count := by
      rw [wsb, wbc]; exact hM1.rd_in
    obtain ⟨f1, f2, f3, f4, f5, f6⟩ :=
      write_finish_state w fd h h.fd_num.toNat e wopen wrd
    obtain ⟨g1, g2, g3, g4⟩ := write_finish_root_dir w fd h h.fd_num.toNat e
    have hbase := hw.base
    have htotal := hw.total
    have hns : (if w.offset > e.size then w.offset else e.size) % 2 ^ 32
        = Max.max e.size (h.offset + (w.offset - h.offset)) := by
      rw [Nat.mod_eq_of_lt (by split <;> omega)]
      split <;> omega
    have hmaxeq : Max.max e.size (h.offset + (w.offset - h.offset)) = Max.max e.size w.offset := by
      omega
    -- facts that depend on whether the first block was allocated
    have hs1 : s1.sblock = s.sblock ∧ s1.fd_table = s.fd_table ∧
        s1.disk.data_blocks = s.disk.data_blocks ∧
        (∀ i, i ≠ h.fd_num.toNat → s1.root_dir[i]? = s.root_dir[i]?) ∧
        s1.root_dir.getD h.fd_num.toNat e = { e with first_db_idx := first } ∧
        s1.root_dir.length = s.root_dir.length ∧
        (e.first_db_idx ≠ FAT_EOC → first = e.first_db_idx) ∧ L <+: L1 ∧
        s1.fat_array.count 0 + L1.length = s.fat_array.count 0 + L.length ∧
        (∀ x, x ∉ L1 → s1.fat_array[x]? = s.fat_array[x]?) := by
      rcases hcase with ⟨hne, h1, h2, h3⟩ | ⟨hfirst, hfe, hL1, h1⟩
      · subst h1 h2 h3
        refine ⟨rfl, rfl, rfl, fun _ _ => rfl, ?_, rfl, fun _ => rfl, List.prefix_refl _, rfl,
          fun _ _ => rfl⟩
        rw [List.getD_eq_getElem?_getD, hgetA]
        rfl
      · rw [hfirst] at hchain
        have hL : L = [] := isWalk_eoc _ _ hchain
        obtain ⟨_, _, _, _, hz1⟩ := head_state_facts s h.fd_num.toNat e first hM hfe
        have hidx := (List.getElem?_eq_some_iff.1 (find_empty_some s first hM.fat_len hfe).1).1
        subst hL hL1 h1
        refine ⟨rfl, rfl, rfl, ?_, ?_, ?_, fun hne => absurd hfirst hne, List.nil_prefix,
          ?_, ?_⟩
        · intro i hi
          show (s.root_dir.set _ _)[i]? = _
          rw [List.getElem?_set, if_neg (Ne.symm hi)]
        · show (s.root_dir.set _ _).getD _ _ = _
          rw [List.getD_eq_getElem?_getD, List.getElem?_set, if_pos rfl, if_pos hiAlen]
          rfl
        · show (s.root_dir.set _ _).length = _
          rw [List.length_set]
        · simp only [List.length_singleton, List.length_nil]
          omega
        · intro x hx
          show (s.fat_array.set _ _)[x]? = _
          rw [List.getElem?_set, if_neg]
          intro hfx
          exact hx (by rw [hfx]; simp)
    obtain ⟨a1, a2, a3, a4, a5, a6, a7, a8, a9, a10⟩ := hs1
    have hL1sub : ∀ x, x ∈ L1 → x ∈ L2 := fun x hx => hw.pre.subset hx
    refine ⟨w.offset - h.offset, (write_finish w fd h h.fd_num.toNat e).2, first, L2, ?_, ?_⟩
    · rw [hres]
      have : (write_finish w fd h h.fd_num.toNat e).1 = ((w.offset - h.offset : Nat) : Int) := by
        rw [g4, hw.amt]
        omega
      rw [← this]
    constructor
    · constructor
      · rw [f1, hw.rest]; exact hM1.mounted
      · exact f3
      · rw [f2, wsb]; exact hM1.layout_fat
      · rw [f2, wsb]; exact hM1.layout_dir
      · rw [f2, f4, wsb, wbc]; exact hM1.rd_in
      · rw [f2, f4, wsb, wbc]; exact hM1.data_in
      · rw [g2, f2, wsb, hw.len_eq]; exact hM1.fat_len
      · rw [f2, wsb]; exact hM1.fat_16
    · omega
    · rw [g3, hw.root_dir_eq.2, a2]
      congr 2
      omega
    · unfold root_dir_at
      rw [if_pos ⟨hnonneg, by unfold FS_FILE_MAX_COUNT at *; omega⟩, g1, hw.root_dir_eq.1, a5,
        hns, List.getElem?_set, if_pos rfl, if_pos (by rw [a6]; exact hiAlen)]
    · intro i hi
      rw [g1, hw.root_dir_eq.1, List.getElem?_set, if_neg (Ne.symm hi)]
      exact a4 i hi
    · rw [f2, wsb, a1]
    · exact a7
    · rw [g2]; exact hw.chain
    · rw [hmaxeq]; exact hlenL2
    · exact a8.trans hw.pre
    · intro hin hz1
      obtain ⟨hin2, _, hwz⟩ := run_to_chain s data count h e L hM hin hz1 s1 first L1 w L2 j2
        hcase hw
      rw [g2]
      exact ⟨hin2, by omega⟩
    · rcases hex with hc0 | ⟨hfull, hcur⟩
      · left; omega
      · rcases Nat.eq_zero_or_pos w.count with hc0 | hcpos
        · left; omega
        · right
          obtain ⟨hzero, hoffeq, hwz⟩ := hw.short hcpos hfull hcur
          rw [g2]
          exact ⟨hzero, by omega, by omega⟩
    · intro x hx
      rw [g2, hw.frame x hx]
      exact a10 x (fun hx1 => hx (hL1sub x hx1))
    · intro g hg
      have := hw.written g (by omega)
      rw [f5, ← a1]
      exact this
    · intro b t hbt
      rw [f5, ← a3]
      apply hw.untouched
      intro g hg
      rw [a1]
      exact hbt g (by omega)
    · right
      rw [f2]
      exact f6

/-- The statement of `fs_write_done` for a file with a chain of entries in
use, where FAT entry 0 is in use or no block is needed: the blocks of the file
are a chain of entries in use afterwards, and every block added took one of
the entries that held 0. -/
theorem fs_write_done_chain (s : FS) (fd : Int) (data : List Nat) (count fuel : Nat)
    (h : FDEntry) (e : RootDirEntry) (L : List Nat) (hM : Mounted s)
    (hopen : is_open s fd = true)
    (hh : s.fd_table[fd.toNat]? = some h) (he : root_dir_at s h.fd_num = some e)
    (hchain : IsChain s.fat_array e.first_db_idx L)
    (hlen : L.length = (e.size + (BLOCK_SIZE - 1)) / BLOCK_SIZE)
    (hoff : h.offset ≤ e.size)
    (hz : e.first_db_idx ≠ FAT_EOC →
      s.fat_array[0]? ≠ some 0 ∨ h.offset + count ≤ BLOCK_SIZE * L.length)
    (hc : 0 < count) (hsmall : count < 2 ^ 31) (hfuel : count ≤ fuel) :
    ∃ (m : Nat) (s2 : FS) (first : Nat) (L2 : List Nat),
      fs_write s fd (some data) count fuel = .done ((m : Int), s2) ∧
      WriteDone s fd data count h e L m s2 first L2 ∧
      IsChain s2.fat_array first L2 ∧
      s2.fat_array.count 0 + L2.length = s.fat_array.count 0 + L.length := by
  have hin := isChain_inuse _ _ _ hchain
  have hz2 : e.first_db_idx ≠ FAT_EOC →
      ((∀ x ∈ L, s.fat_array[x]? ≠ some 0) ∧ s.fat_array[0]? ≠ some 0) ∨
      (h.offset + count ≤ BLOCK_SIZE * (L.length + 1) ∧
        (h.offset + count ≤ BLOCK_SIZE * L.length ∨ s.fat_array[0]? = some 0)) := by
    intro hne
    rcases hz hne with h1 | h1
    · exact Or.inl ⟨hin, h1⟩
    · exact Or.inr ⟨by unfold BLOCK_SIZE at *; omega, Or.inl h1⟩
  obtain ⟨m, s2, first, L2, hres, hd⟩ := fs_write_done s fd data count fuel h e L hM hopen hh
    he (isChain_isWalk _ _ _ hchain) hlen hoff hz2 hc hsmall hfuel
  obtain ⟨hin2, hzeros⟩ := hd.inuse hin hz
  exact ⟨m, s2, first, L2, hres, hd, isChain_of_walk _ _ _ hd.chain hin2, hzeros⟩

/-! ## Short writes -/

theorem map_getD_range_take (data : List Nat) (n : Nat) (hn : n ≤ data.length) :
    (List.range n).map (fun g => data.getD g 0) = data.take n := by
  have h1 := map_getD_range (data.take n)
  rw [List.length_take, Nat.min_eq_left hn] at h1
  rw [← h1]
  apply List.map_congr_left
  intro g hg
  have hg2 : g < n := List.mem_range.1 hg
  rw [List.getD_eq_getElem?_getD, List.getD_eq_getElem?_getD, List.getElem?_take_of_lt hg2]

/-- Short writes of requests below `2 ^ 31` bytes, where the `int` arithmetic
of `fs_write` is exact: on a mounted volume with exactly `k` zero FAT entries,
for an empty file with a handle at offset 0 and every `data` with
`k * 4096 < len(data) < 2 ^ 31`, `fs_write(fd, data, len(data))` returns
`k * 4096` (0 when `k = 0`), the size of the file becomes `k * 4096`, and the
following `fs_lseek(fd, 0)` and `fs_read(fd, buf, k * 4096)` return exactly the
first `k * 4096` bytes of `data`. -/
theorem short_write_when_full (s : FS) (fd : Int) (data : List Nat) (fuel : Nat)
    (h : FDEntry) (e : RootDirEntry) (k : Nat) (hM : Mounted s)
    (hsync : s.disk.dir_blocks s.sblock.rd_start_idx = s.root_dir)
    (hopen : is_open s fd = true) (hh : s.fd_table[fd.toNat]? = some h) (h0 : h.offset = 0)
    (he : root_dir_at s h.fd_num = some e) (hsize : e.size = 0)
    (hfirst : e.first_db_idx = FAT_EOC) (hk : zero_count s = k)
    (hmore : k * BLOCK_SIZE < data.length) (hsmall : data.length < 2 ^ 31)
    (hfuel : data.length ≤ fuel) :
    ∃ s1 s2 s3 e1,
      fs_write s fd (some data) data.length fuel = .done (((k * BLOCK_SIZE : Nat) : Int), s1) ∧
      root_dir_at s1 h.fd_num = some e1 ∧ e1.size = k * BLOCK_SIZE ∧
      fs_lseek s1 fd 0 = .done (0, s2) ∧
      fs_read s2 fd false (k * BLOCK_SIZE)
        = .done (((k * BLOCK_SIZE : Nat) : Int), data.take (k * BLOCK_SIZE), s3) := by
  rw [zero_count_eq s hM.fat_len] at hk
  obtain ⟨m, s1, first, L2, hres, hd, hdch, hdz⟩ := fs_write_done_chain s fd data data.length fuel h e []
    hM hopen hh he (by rw [hfirst]; rfl) (by rw [hsize]; rfl) (by omega)
    (fun hne => absurd hfirst hne) (by omega) hsmall hfuel
  have hm : m = k * BLOCK_SIZE ∧ L2.length = k := by
    have h1 := hdz
    have h2 := hd.length
    have h3 := hd.short
    rw [hsize, h0] at h2
    rw [h0] at h3
    simp only [List.length_nil] at h1
    unfold BLOCK_SIZE at *
    omega
  obtain ⟨hmk, hL2⟩ := hm
  subst hmk
  have hv := is_open_valid s fd hopen
  have hfdlen : fd.toNat < s.fd_table.length := (List.getElem?_eq_some_iff.1 hh).1
  have hh1 : s1.fd_table[fd.toNat]? = some { h with offset := h.offset + k * BLOCK_SIZE } := by
    rw [hd.fd_table, List.getElem?_set, if_pos rfl, if_pos hfdlen]
  have hopen1 : is_open s1 fd = true :=
    is_open_of_entry s1 fd _ hv hh1 (is_open_entry s fd h hopen hh)
  have hsync1 : s1.disk.dir_blocks s1.sblock.rd_start_idx = s1.root_dir := by
    rcases hd.synced with heq | hs
    · rw [heq]; exact hsync
    · exact hs
  have hsz1 : Max.max e.size (h.offset + k * BLOCK_SIZE) = k * BLOCK_SIZE := by omega
  have hent := hd.entry
  have hlen1 := hd.length
  rw [hsz1] at hent hlen1
  have hkb : k * BLOCK_SIZE < 2 ^ 31 := by omega
  obtain ⟨s2, s3, hseek, hread⟩ := seek_read_all s1 fd (k * BLOCK_SIZE) _ _ L2 hd.mounted hopen1
    hh1 hent rfl hdch hlen1 hsync1 hkb
  refine ⟨s1, s2, s3, _, hres, hent, rfl, hseek, ?_⟩
  rw [hread]
  have hbytes : chain_bytes s1 L2 (k * BLOCK_SIZE) = data.take (k * BLOCK_SIZE) := by
    rw [← map_getD_range_take data _ (by omega)]
    unfold chain_bytes
    apply List.map_congr_left
    intro g hg
    have hg2 : g < k * BLOCK_SIZE := List.mem_range.1 hg
    have := hd.written g hg2
    rw [h0, Nat.zero_add] at this
    rw [hd.sblock]
    exact this
  rw [hbytes]

set_option maxRecDepth 1000000 in
/-- The statement of `short_write_when_full` at the volume `vol_a`, which has
7 free FAT entries, and a buffer of 28673 bytes. -/
theorem short_write_when_full_witness :
    ∃ s1 s2 s3 e1,
      fs_write vol_a 0 (some (List.replicate 28673 5)) (List.replicate 28673 5).length 28673
        = .done (((7 * BLOCK_SIZE : Nat) : Int), s1) ∧
      root_dir_at s1 0 = some e1 ∧ e1.size = 7 * BLOCK_SIZE ∧
      fs_lseek s1 0 0 = .done (0, s2) ∧
      fs_read s2 0 false (7 * BLOCK_SIZE)
        = .done (((7 * BLOCK_SIZE : Nat) : Int),
            (List.replicate 28673 5).take (7 * BLOCK_SIZE), s3) :=
  short_write_when_full vol_a 0 (List.replicate 28673 5) 28673 ⟨0, 0⟩ (file_entry 97 0 FAT_EOC) 7
    ⟨by decide, by decide, by decide, by decide, by decide, by decide, by decide, by decide⟩
    (by decide) (by decide) (by decide) rfl (by decide) rfl rfl (by decide)
    (by rw [List.length_replicate]; decide) (by rw [List.length_replicate]; decide)
    (by rw [List.length_replicate])

set_option maxRecDepth 1000000 in
/-- C12 (short write when space runs out) is not what the code does for a
buffer of `2 ^ 32` bytes: on the volume `vol_a` with 7 free FAT entries and the
empty file `"a"` open at offset 0, the `size_t` count is narrowed to `int` by
`min(int, int)` and seen as 0 bytes; the call allocates the 7 free blocks,
writes nothing and returns 0, not `7 * 4096`, and the size of the file stays
0. -/
theorem short_write_count_truncated :
    (List.replicate (2 ^ 32) 0).length = 2 ^ 32 ∧
    zero_count vol_a = 7 ∧ offset_of vol_a 0 = some 0 ∧
    (root_dir_at vol_a 0).map (fun e => (e.size, e.first_db_idx)) = some (0, FAT_EOC) ∧
    (fs_write vol_a 0 (some (List.replicate (2 ^ 32) 0)) (2 ^ 32) (2 ^ 32)).map
      (fun r => (r.1, (root_dir_at r.2 0).map (fun e => e.size), zero_count r.2))
      = .done (0, some 0, 0) := by
  refine ⟨List.length_replicate _ _, by decide, by decide, by decide, by decide⟩

/-! ## `fs_write` on an arbitrary state: what a call that returns has done -/

theorem toInt32_le (n : Nat) : toInt32 n ≤ (n : Int) := by
  unfold toInt32
  have := Nat.mod_le n (2 ^ 32)
  split <;> omega

theorem min_le_left (a b : Int) : min a b ≤ a := by
  unfold min
  split <;> omega

theorem min_le_right (a b : Int) : min a b ≤ b := by
  unfold min
  split <;> omega

theorem block_read_data_some (d : Disk) (i : Nat) (blk : Nat → Nat)
    (h : block_read_data d i = some blk) :
    d.opened = true ∧ i < d.block_count ∧ blk = d.data_blocks i := by
  unfold block_read_data at h
  split at h
  · rename_i hc
    simp only [Bool.and_eq_true, decide_eq_true_eq] at hc
    exact ⟨hc.1, hc.2, (Option.some.inj h).symm⟩
  · cases h

/-- The allocation step of the `while` body, when it does not `break`: either
the current block is not `FAT_EOC` and nothing happens, or the first free
entry is linked after `prev_idx` and becomes the current block. -/
theorem write_alloc_some (w w1 : WriteVars) (h : write_alloc w = .done (some w1)) :
    (w.curr_idx ≠ FAT_EOC ∧ w1 = w) ∨
    (w.curr_idx = FAT_EOC ∧ ∃ idx, find_empty_FAT_entry w.s = some idx ∧
      w.prev_idx < w.s.fat_array.length ∧
      w1 = { w with
        s := { w.s with fat_array := (w.s.fat_array.set w.prev_idx idx).set idx FAT_EOC }
        curr_idx := idx }) := by
  unfold write_alloc at h
  split at h
  · rename_i hcur
    right
    refine ⟨hcur, ?_⟩
    split at h
    · cases h
    · rename_i idx hfe
      split at h
      · rename_i hlt
        refine ⟨idx, hfe, hlt, ?_⟩
        cases h
        rfl
      · cases h
  · rename_i hcur
    left
    cases h
    exact ⟨hcur, rfl⟩

/-- The rest of the `while` body, when it does not `break`: `n` bytes of the
buffer, the minimum of the `int` value of `count` and of what is left of the
block, are copied into the current block, which is written back. -/
theorem write_block_some (buf : List Nat) (w w2 : WriteVars)
    (h : write_block buf w = .done (some w2)) :
    ∃ (n nxt : Nat), w.s.disk.opened = true ∧
      w.curr_idx + w.s.sblock.data_start_idx < w.s.disk.block_count ∧
      ((n : Nat) : Int) = min (toInt32 w.count) ((BLOCK_SIZE : Int) - w.offset_in_block) ∧
      n ≤ w.count ∧ w.offset_in_block + n ≤ BLOCK_SIZE ∧
      w.s.fat_array[w.curr_idx]? = some nxt ∧
      w2 = { s := { w.s with
               disk := put_data w.s.disk (w.curr_idx + w.s.sblock.data_start_idx)
                 (memcpy_into (w.s.disk.data_blocks (w.curr_idx + w.s.sblock.data_start_idx))
                   w.offset_in_block buf w.amt_written.toNat n) }
             count := w.count - n
             offset := w.offset + n
             offset_in_block := 0
             amt_written := w.amt_written + ((n : Nat) : Int)
             prev_idx := w.curr_idx
             curr_idx := nxt } := by
  unfold write_block at h
  split at h
  · cases h
  · rename_i blk hrd
    obtain ⟨hopen, hin, hblk⟩ := block_read_data_some _ _ _ hrd
    simp only at h
    split at h
    · cases h
    · rename_i hneg
      have hnn : 0 ≤ min (toInt32 w.count) ((BLOCK_SIZE : Int) - w.offset_in_block) := by omega
      rw [block_write_data_put _ _ _ hopen hin] at h
      simp only at h
      split at h
      · cases h
      · rename_i nxt hnxt
        refine ⟨(min (toInt32 w.count) ((BLOCK_SIZE : Int) - w.offset_in_block)).toNat, nxt,
          hopen, hin, Int.toNat_of_nonneg hnn, ?_, ?_, hnxt, ?_⟩
        · have h1 := min_le_left (toInt32 w.count) ((BLOCK_SIZE : Int) - w.offset_in_block)
          have h2 := toInt32_le w.count
          omega
        · have h1 := min_le_right (toInt32 w.count) ((BLOCK_SIZE : Int) - w.offset_in_block)
          omega
        · cases h
          rw [Int.toNat_of_nonneg hnn, hblk]

/-- A property of the loop variables that the allocation step and the block
step keep is kept by the whole `while` loop of `fs_write`. -/
theorem write_loop_preserves (buf : List Nat) (P : WriteVars → Prop)
    (halloc : ∀ w w1, P w → write_alloc w = .done (some w1) → P w1)
    (hblock : ∀ w w2, P w → write_block buf w = .done (some w2) → P w2) (fuel : Nat) :
    ∀ (w w2 : WriteVars), P w → write_loop buf fuel w = .done w2 → P w2 := by
  induction fuel with
  | zero =>
    intro w w2 hP hl
    unfold write_loop at hl
    split at hl
    · cases hl; exact hP
    · cases hl
  | succ fuel ih =>
    intro w w2 hP hl
    unfold write_loop at hl
    split at hl
    · cases hl; exact hP
    · unfold write_iter at hl
      cases ha : write_alloc w with
      | fault => rw [ha] at hl; cases hl
      | diverge => rw [ha] at hl; cases hl
      | done o =>
        rw [ha] at hl
        cases o with
        | none =>
          simp only at hl
          cases hl
          exact hP
        | some w1 =>
          have hP1 := halloc w w1 hP ha
          simp only at hl
          cases hb : write_block buf w1 with
          | fault => rw [hb] at hl; cases hl
          | diverge => rw [hb] at hl; cases hl
          | done o2 =>
            rw [hb] at hl
            cases o2 with
            | none =>
              simp only at hl
              cases hl
              exact hP1
            | some w3 =>
              simp only at hl
              exact ih w3 w2 (hblock w1 w3 hP1 hb) hl

/-- The `while` loop of `fs_write` changes, of the engine state, only the FAT
mirror and the data blocks of the store; the bytes counted in `amt_written`
are the distance the offset has moved, and they are taken from `count`. -/
theorem write_loop_frame (buf : List Nat) (fuel : Nat) (w w2 : WriteVars)
    (hl : write_loop buf fuel w = .done w2) :
    w2.s = { w.s with fat_array := w2.s.fat_array
                      disk := { w.s.disk with data_blocks := w2.s.disk.data_blocks } } ∧
    w2.s.fat_array.length = w.s.fat_array.length ∧
    w2.amt_written - w.amt_written = (w2.offset : Int) - (w.offset : Int) ∧
    w.offset ≤ w2.offset ∧ w2.offset + w2.count = w.offset + w.count := by
  refine write_loop_preserves buf (fun v =>
    v.s = { w.s with fat_array := v.s.fat_array
                     disk := { w.s.disk with data_blocks := v.s.disk.data_blocks } } ∧
    v.s.fat_array.length = w.s.fat_array.length ∧
    v.amt_written - w.amt_written = (v.offset : Int) - (w.offset : Int) ∧
    w.offset ≤ v.offset ∧ v.offset + v.count = w.offset + w.count) ?_ ?_ fuel w w2 ?_ hl
  · intro v v1 hP ha
    rcases write_alloc_some v v1 ha with ⟨_, h1⟩ | ⟨_, idx, _, _, h1⟩
    · rw [h1]; exact hP
    · obtain ⟨p1, p2, p3, p4, p5⟩ := hP
      rw [h1]
      refine ⟨?_, ?_, p3, p4, p5⟩
      · simp only
        rw [p1]
      · simp only [List.length_set]
        exact p2
  · intro v v2 hP hb
    obtain ⟨n, nxt, _, _, _, hn, _, _, h2⟩ := write_block_some buf v v2 hb
    obtain ⟨p1, p2, p3, p4, p5⟩ := hP
    rw [h2]
    refine ⟨?_, p2, ?_, ?_, ?_⟩
    · simp only
      rw [p1]
      rfl
    · simp only
      omega
    · simp only
      omega
    · simp only
      omega
  · exact ⟨rfl, rfl, by omega, Nat.le_refl _, rfl⟩

theorem block_write_dir_some (d : Disk) (i : Nat) (dir : List RootDirEntry) (d2 : Disk)
    (h : block_write_dir d i dir = some d2) :
    d.opened = true ∧ i < d.block_count ∧ d2 = put_dir d i dir := by
  unfold block_write_dir at h
  split at h
  · rename_i hc
    simp only [Bool.and_eq_true, decide_eq_true_eq] at hc
    exact ⟨hc.1, hc.2, (Option.some.inj h).symm⟩
  · cases h

theorem block_write_dir_none (d : Disk) (i : Nat) (dir : List RootDirEntry)
    (h : block_write_dir d i dir = none) : ¬ (d.opened = true ∧ i < d.block_count) := by
  unfold block_write_dir at h
  split at h
  · cases h
  · rename_i hc
    simp only [Bool.and_eq_true, decide_eq_true_eq] at hc
    exact hc

/-- The first-write step of `fs_write`, when the call goes on: either the file
has a first block already and nothing happens, or the first free FAT entry
becomes the first block, and the directory is written to the store. -/
theorem write_head_inr (s : FS) (i : Nat) (e : RootDirEntry) (s1 : FS) (first : Nat)
    (h : write_head s i e = .inr (s1, first)) :
    (e.first_db_idx ≠ FAT_EOC ∧ s1 = s ∧ first = e.first_db_idx) ∨
    (e.first_db_idx = FAT_EOC ∧ find_empty_FAT_entry s = some first ∧
      s.disk.opened = true ∧ s.sblock.rd_start_idx < s.disk.block_count ∧
      s1 = head_state s i e first) := by
  unfold write_head at h
  split at h
  · rename_i hfirst
    right
    split at h
    · cases h
    · rename_i idx hfe
      simp only at h
      split at h
      · cases h
      · rename_i d hbw
        obtain ⟨h1, h2, h3⟩ := block_write_dir_some _ _ _ _ hbw
        cases h
        refine ⟨hfirst, hfe, h1, h2, ?_⟩
        rw [h3]
        rfl
  · rename_i hfirst
    left
    cases h
    exact ⟨hfirst, rfl, rfl⟩

/-- The first-write step of `fs_write`, when the call returns at once: it
returns 0, with the state unchanged when the FAT is full, or with the first
block allocated in the mirrors when the directory block could not be
written. -/
theorem write_head_inl (s : FS) (i : Nat) (e : RootDirEntry) (r : Int) (s2 : FS)
    (h : write_head s i e = .inl (r, s2)) :
    r = 0 ∧ e.first_db_idx = FAT_EOC ∧
    ((find_empty_FAT_entry s = none ∧ s2 = s) ∨
      ∃ idx, find_empty_FAT_entry s = some idx ∧
        ¬ (s.disk.opened = true ∧ s.sblock.rd_start_idx < s.disk.block_count) ∧
        s2 = { s with root_dir := s.root_dir.set i { e with first_db_idx := idx }
                      fat_array := s.fat_array.set idx FAT_EOC }) := by
  unfold write_head at h
  split at h
  · rename_i hfirst
    split at h
    · rename_i hfe
      cases h
      exact ⟨rfl, hfirst, Or.inl ⟨hfe, rfl⟩⟩
    · rename_i idx hfe
      simp only at h
      split at h
      · rename_i hbw
        cases h
        exact ⟨rfl, hfirst, Or.inr ⟨idx, hfe, block_write_dir_none _ _ _ hbw, rfl⟩⟩
      · cases h
  · cases h

/-- The ways in which `fs_write` returns: an error, a request of 0 bytes, a
return from the first-write step, or a run of the loop followed by the final
update. -/
theorem fs_write_cases (s : FS) (fd : Int) (data : List Nat) (count fuel : Nat) (r : Int)
    (s2 : FS) (hres : fs_write s fd (some data) count fuel = .done (r, s2)) :
    (r = -1 ∧ s2 = s ∧ ¬ (s.is_mounted = true ∧ is_open s fd = true)) ∨
    (s.is_mounted = true ∧ is_open s fd = true ∧
      ((r = 0 ∧ s2 = s ∧ count = 0) ∨
      ∃ h e, 0 < count ∧ s.fd_table[fd.toNat]? = some h ∧ root_dir_at s h.fd_num = some e ∧
        (write_head s h.fd_num.toNat e = .inl (r, s2) ∨
          ∃ s1 first prev curr w,
            write_head s h.fd_num.toNat e = .inr (s1, first) ∧
            write_walk s1.fat_array (h.offset / BLOCK_SIZE) first first = .done (prev, curr) ∧
            write_loop data fuel ⟨s1, count, h.offset, intra_block h.offset, 0, prev, curr⟩
              = .done w ∧
            (r, s2) = write_finish w fd h h.fd_num.toNat e))) := by
  unfold fs_write at hres
  simp only at hres
  split at hres
  · rename_i hg
    left
    cases hres
    refine ⟨rfl, rfl, ?_⟩
    rintro ⟨hm, ho⟩
    rw [guard_open s fd hm ho] at hg
    cases hg
  · rename_i hg
    have hmo : s.is_mounted = true ∧ is_open s fd = true := by
      simp only [Bool.or_eq_true, Bool.not_eq_true', not_or, Bool.not_eq_false] at hg
      exact ⟨hg.1.1, hg.2⟩
    right
    refine ⟨hmo.1, hmo.2, ?_⟩
    split at hres
    · rename_i hc
      left
      cases hres
      exact ⟨rfl, rfl, hc⟩
    · rename_i hc
      right
      split at hres
      · cases hres
      · rename_i h hh
        split at hres
        · cases hres
        · rename_i e he
          refine ⟨h, e, Nat.pos_of_ne_zero hc, hh, he, ?_⟩
          split at hres
          · rename_i r0 hhead
            left
            cases hres
            exact hhead
          · rename_i s1 first hhead
            right
            split at hres
            · cases hres
            · cases hres
            · rename_i prev curr hwalk
              split at hres
              · cases hres
              · cases hres
              · rename_i w hloop
                cases hres
                exact ⟨s1, first, prev, curr, w, hhead, hwalk, hloop, rfl⟩

/-! ## The handle's offset and the size after `fs_write` -/

theorem head_state_entry (s : FS) (i : Nat) (e : RootDirEntry) (idx : Nat)
    (hi : i < s.root_dir.length) :
    (head_state s i e idx).fd_table = s.fd_table ∧
    (head_state s i e idx).root_dir.length = s.root_dir.length ∧
    (head_state s i e idx).root_dir[i]? = some { e with first_db_idx := idx } := by
  refine ⟨rfl, ?_, ?_⟩
  · show (s.root_dir.set _ _).length = _
    rw [List.length_set]
  · show (s.root_dir.set _ _)[i]? = _
    rw [List.getElem?_set, if_pos rfl, if_pos hi]

/-- C13: for an open handle with offset `p <= old_size` on a file of a mounted
volume and every write request, if `fs_write` returns `w >= 0` (and the new end
`p + w` fits the 32-bit size field) then `w` is at most the count requested,
the handle's offset is `p + w` afterwards and the size of the file is
`max(old_size, p + w)`; a request of 0 bytes returns 0 and changes nothing.
The call does return such a `w` when the volume is well formed: the file has a
FAT chain of `ceil(size / 4096)` blocks, FAT entry 0 is in use when the file is
not empty, and the request is below `2 ^ 31` bytes. -/
theorem write_advances_offset (s : FS) (fd : Int) (data : List Nat) (count fuel : Nat)
    (h : FDEntry) (e : RootDirEntry)
    (hm : s.is_mounted = true) (hopen : is_open s fd = true)
    (hh : s.fd_table[fd.toNat]? = some h) (he : root_dir_at s h.fd_num = some e)
    (hoff : h.offset ≤ e.size) (hsz : e.size < 2 ^ 32) :
    (∀ w s2, fs_write s fd (some data) count fuel = .done (w, s2) → 0 ≤ w →
      h.offset + w.toNat < 2 ^ 32 →
      w ≤ (count : Int) ∧ offset_of s2 fd.toNat = some (h.offset + w.toNat) ∧
      (root_dir_at s2 h.fd_num).map (fun e2 => e2.size)
        = some (Max.max e.size (h.offset + w.toNat))) ∧
    fs_write s fd (some data) 0 fuel = .done (0, s) ∧
    (∀ L, Mounted s → IsChain s.fat_array e.first_db_idx L →
      L.length = (e.size + (BLOCK_SIZE - 1)) / BLOCK_SIZE →
      (e.first_db_idx ≠ FAT_EOC → s.fat_array[0]? ≠ some 0) → count < 2 ^ 31 → count ≤ fuel →
      ∃ w s2, fs_write s fd (some data) count fuel = .done (w, s2) ∧ 0 ≤ w ∧
        h.offset + w.toNat < 2 ^ 32) := by
  obtain ⟨hiA, hgetA, hnonneg⟩ := root_dir_at_some s h.fd_num e he
  have hiAlen : h.fd_num.toNat < s.root_dir.length := (List.getElem?_eq_some_iff.1 hgetA).1
  have hfdlen : fd.toNat < s.fd_table.length := (List.getElem?_eq_some_iff.1 hh).1
  have hrange : 0 ≤ h.fd_num ∧ h.fd_num < (FS_FILE_MAX_COUNT : Int) :=
    ⟨hnonneg, by unfold FS_FILE_MAX_COUNT at *; omega⟩
  have hmax0 : Max.max e.size (h.offset + 0) = e.size := by omega
  refine ⟨?_, fs_write_zero s fd data fuel hm hopen, ?_⟩
  · intro r s2 hres hr hfit
    rcases fs_write_cases s fd data count fuel r s2 hres with ⟨h1, _, _⟩ |
      ⟨_, _, ⟨h1, h2, h3⟩ | ⟨h', e', hc, hh', he', hrest⟩⟩
    · omega
    · subst h1 h2
      refine ⟨by omega, ?_, ?_⟩
      · simp [offset_of, hh]
      · rw [he]
        simp only [Option.map_some', Int.toNat_zero]
        rw [hmax0]
    · rw [hh] at hh'
      cases hh'
      rw [he] at he'
      cases he'
      rcases hrest with hhead | ⟨s1, first, prev, curr, w, hhead, _, hloop, hfin⟩
      · obtain ⟨h1, _, h2⟩ := write_head_inl _ _ _ _ _ hhead
        subst h1
        refine ⟨by omega, ?_, ?_⟩
        · rcases h2 with ⟨_, h3⟩ | ⟨idx, _, _, h3⟩
          · rw [h3]; simp [offset_of, hh]
          · rw [h3]; simp [offset_of, hh]
        · rcases h2 with ⟨_, h3⟩ | ⟨idx, _, _, h3⟩
          · rw [h3, he]
            simp only [Option.map_some', Int.toNat_zero]
            rw [hmax0]
          · rw [h3]
            unfold root_dir_at
            rw [if_pos hrange]
            simp only [List.getElem?_set, if_pos hiAlen, if_true, Option.map_some',
              Int.toNat_zero]
            rw [hmax0]
      · -- the loop has run
        have hs1 : s1.fd_table = s.fd_table ∧ s1.root_dir.length = s.root_dir.length ∧
            ∃ e1, s1.root_dir[h.fd_num.toNat]? = some e1 ∧ e1.size = e.size := by
          rcases write_head_inr _ _ _ _ _ hhead with ⟨_, h1, _⟩ | ⟨_, _, _, _, h1⟩
          · rw [h1]
            exact ⟨rfl, rfl, e, hgetA, rfl⟩
          · rw [h1]
            obtain ⟨a1, a2, a3⟩ := head_state_entry s h.fd_num.toNat e first hiAlen
            exact ⟨a1, a2, _, a3, rfl⟩
        obtain ⟨a1, a2, e1, a3, a4⟩ := hs1
        obtain ⟨b1, _, b3, b4, b5⟩ := write_loop_frame data fuel _ w hloop
        simp only at b3 b4 b5
        have hrd : w.s.root_dir = s1.root_dir := by rw [b1]
        have hft : w.s.fd_table = s1.fd_table := by rw [b1]
        obtain ⟨g1, _, g3, g4⟩ := write_finish_root_dir w fd h h.fd_num.toNat e
        have hr1 : r = (write_finish w fd h h.fd_num.toNat e).1 := congrArg Prod.fst hfin
        have hr2 : s2 = (write_finish w fd h h.fd_num.toNat e).2 := congrArg Prod.snd hfin
        rw [g4] at hr1
        have hrn : r.toNat = w.offset - h.offset := by omega
        have hwo : h.offset + r.toNat = w.offset := by omega
        refine ⟨by omega, ?_, ?_⟩
        · rw [hr2, hwo]
          unfold offset_of
          rw [g3, hft, a1, List.getElem?_set, if_pos rfl, if_pos hfdlen]
          rfl
        · rw [hr2, hwo]
          unfold root_dir_at
          rw [if_pos hrange, g1, hrd, List.getElem?_set, if_pos rfl,
            if_pos (by rw [a2]; exact hiAlen)]
          simp only [Option.map_some']
          congr 1
          rw [Nat.mod_eq_of_lt (by split <;> omega)]
          split <;> omega
  · intro L hM hchain hlen hz hsmall hfuel
    rcases Nat.eq_zero_or_pos count with hc | hc
    · subst hc
      exact ⟨0, s, fs_write_zero s fd data fuel hm hopen, by omega, by simp; omega⟩
    · obtain ⟨m, s2, first, L2, hres, hd, _, _⟩ := fs_write_done_chain s fd data count fuel h e L hM hopen hh
        he hchain hlen hoff (fun hf => Or.inl (hz hf)) hc hsmall hfuel
      refine ⟨(m : Int), s2, hres, by omega, ?_⟩
      have h1 := chain_length_le _ _ _ hchain
      have h2 := hM.fat_len
      have h3 := hM.fat_16
      have h4 := hd.le
      simp only [Int.toNat_ofNat]
      unfold BLOCK_SIZE at hlen
      omega

set_option maxRecDepth 1000000 in
/-- The statement of `write_advances_offset` at the volume `vol_two`, whose
handle 0 stands at the end of the 5000-byte file `"a"`, and a request of 3
bytes: the call returns. -/
theorem write_advances_offset_witness :
    ∃ w s2, fs_write vol_two 0 (some [1, 2, 3]) 3 3 = .done (w, s2) ∧ 0 ≤ w ∧
      5000 + w.toNat < 2 ^ 32 :=
  (write_advances_offset vol_two 0 [1, 2, 3] 3 3 ⟨0, 5000⟩ (file_entry 97 5000 1)
    (by decide) (by decide) (by decide) (by decide) (by decide) (by decide)).2.2 [1, 2]
    ⟨by decide, by decide, by decide, by decide, by decide, by decide, by decide, by decide⟩
    ⟨rfl, by decide, 2, by decide, by decide, rfl, by decide, FAT_EOC, by decide, by decide, rfl⟩
    (by decide) (fun _ => by decide) (by decide) (by decide)

/-! ## `fs_mount`: loading the mirrors -/

/-- The loop of `read_FAT_entries` over the positions `i .. i + n - 1` of one
FAT block: only the FAT mirror and `fat_frees` change; the entries it visits,
those below `MAX_FAT_READ_SIZE`, are copied from the block. -/
theorem read_FAT_entries_spec (FAT_buf : List Nat) (offset : Nat) (n : Nat) :
    ∀ (i : Nat) (s : FS),
      (read_FAT_entries FAT_buf offset n i s).2 =
        { s with fat_array := (read_FAT_entries FAT_buf offset n i s).2.fat_array
                 fat_frees := (read_FAT_entries FAT_buf offset n i s).2.fat_frees } ∧
      (read_FAT_entries FAT_buf offset n i s).2.fat_array.length = s.fat_array.length ∧
      (∀ k, (k < i + offset ∨ i + offset + n ≤ k) →
        (read_FAT_entries FAT_buf offset n i s).2.fat_array[k]? = s.fat_array[k]?) ∧
      (∀ k, i + offset ≤ k → k < i + offset + n → (k : Int) < s.MAX_FAT_READ_SIZE →
        k < s.fat_array.length →
        (read_FAT_entries FAT_buf offset n i s).2.fat_array[k]?
          = some (FAT_buf.getD (k - offset) 0)) ∧
      ((read_FAT_entries FAT_buf offset n i s).1 = 0 ∨
        ((read_FAT_entries FAT_buf offset n i s).1 = -1 ∧
          s.MAX_FAT_READ_SIZE ≤ ((i + offset + n : Nat) : Int))) := by
  induction n with
  | zero =>
    intro i s
    refine ⟨rfl, rfl, fun _ _ => rfl, ?_, Or.inl rfl⟩
    intro k h1 h2
    omega
  | succ n ih =>
    intro i s
    unfold read_FAT_entries
    split
    · rename_i hgt
      refine ⟨rfl, rfl, fun _ _ => rfl, ?_, Or.inr ⟨rfl, by omega⟩⟩
      intro k h1 _ h3
      omega
    · rename_i hle
      simp only
      obtain ⟨a1, a2, a3, a4, a5⟩ := ih (i + 1)
        { s with fat_array := s.fat_array.set (i + offset) (FAT_buf.getD i 0)
                 fat_frees := if FAT_buf.getD i 0 = FAT_EOC ∨ FAT_buf.getD i 0 ≠ 0 then
                     (s.fat_frees + 65535) % 65536
                   else s.fat_frees }
      simp only [List.length_set] at a2 a3 a4 a5
      refine ⟨?_, a2, ?_, ?_, ?_⟩
      · rw [a1]
      · intro k hk
        rw [a3 k (by omega), List.getElem?_set, if_neg (by omega)]
      · intro k h1 h2 h3 h4
        rcases Nat.eq_or_lt_of_le h1 with heq | hlt
        · rw [a3 k (by omega), ← heq, List.getElem?_set, if_pos rfl, if_pos (by omega)]
          congr 2
          omega
        · exact a4 k (by omega) (by omega) h3 h4
      · rcases a5 with h0 | ⟨h1, h2⟩
        · exact Or.inl h0
        · have heq : i + 1 + offset + n = i + offset + (n + 1) := by omega
          rw [heq] at h2
          exact Or.inr ⟨h1, h2⟩

/-- The loop of `read_blocks` over the FAT blocks `j + 1 .. j + n`, when the
blocks can be read: only the FAT mirror and `fat_frees` change, and every entry
of the mirror that lies in these blocks is copied from the store. -/
theorem read_blocks_loop_spec (n : Nat) :
    ∀ (j : Nat) (s : FS), s.disk.opened = true → j + n < s.disk.block_count →
      (read_blocks_loop n j s).2 =
        { s with fat_array := (read_blocks_loop n j s).2.fat_array
                 fat_frees := (read_blocks_loop n j s).2.fat_frees } ∧
      (read_blocks_loop n j s).2.fat_array.length = s.fat_array.length ∧
      (∀ k, k < BLOCK_SIZE / 2 * j → (read_blocks_loop n j s).2.fat_array[k]? = s.fat_array[k]?) ∧
      (∀ k, BLOCK_SIZE / 2 * j ≤ k → k < BLOCK_SIZE / 2 * (j + n) →
        (k : Int) < s.MAX_FAT_READ_SIZE → k < s.fat_array.length →
        (read_blocks_loop n j s).2.fat_array[k]?
          = some ((s.disk.fat_blocks (k / (BLOCK_SIZE / 2) + 1)).getD (k % (BLOCK_SIZE / 2)) 0)) := by
  induction n with
  | zero =>
    intro j s _ _
    refine ⟨rfl, rfl, fun _ _ => rfl, ?_⟩
    intro k h1 h2
    simp only [Nat.add_zero] at h2
    omega
  | succ n ih =>
    intro j s hopen hj
    unfold read_blocks_loop
    have hread : block_read_fat s.disk (j + 1) = some (s.disk.fat_blocks (j + 1)) := by
      unfold block_read_fat
      rw [hopen]
      simp only [Bool.true_and, decide_eq_true_eq]
      rw [if_pos (by omega)]
    rw [hread]
    simp only
    obtain ⟨a1, a2, a3, a4, a5⟩ :=
      read_FAT_entries_spec (s.disk.fat_blocks (j + 1)) (BLOCK_SIZE / 2 * j) (BLOCK_SIZE / 2) 0 s
    generalize hr : read_FAT_entries (s.disk.fat_blocks (j + 1)) (BLOCK_SIZE / 2 * j)
      (BLOCK_SIZE / 2) 0 s = res at a1 a2 a3 a4 a5
    obtain ⟨r, s1⟩ := res
    simp only at a1 a2 a3 a4 a5
    have hs1d : s1.disk = s.disk := by rw [a1]
    have hs1m : s1.MAX_FAT_READ_SIZE = s.MAX_FAT_READ_SIZE := by rw [a1]
    have hblock : ∀ k, BLOCK_SIZE / 2 * j ≤ k → k < BLOCK_SIZE / 2 * (j + 1) →
        k / (BLOCK_SIZE / 2) = j ∧ k % (BLOCK_SIZE / 2) = k - BLOCK_SIZE / 2 * j := by
      intro k h1 h2
      unfold BLOCK_SIZE at *
      omega
    split
    · rename_i s1' heq
      cases heq
      obtain ⟨b1, b2, b3, b4⟩ := ih (j + 1) s1 (by rw [hs1d]; exact hopen) (by rw [hs1d]; omega)
      refine ⟨?_, by rw [b2, a2], ?_, ?_⟩
      · rw [b1, a1]
      · intro k hk
        rw [b3 k (by unfold BLOCK_SIZE at *; omega), a3 k (by omega)]
      · intro k h1 h2 h3 h4
        rcases Nat.lt_or_ge k (BLOCK_SIZE / 2 * (j + 1)) with hlt | hge
        · rw [b3 k hlt, a4 k (by omega) (by unfold BLOCK_SIZE at *; omega) h3 h4]
          obtain ⟨c1, c2⟩ := hblock k h1 hlt
          rw [c1, c2]
        · rw [b4 k hge (by unfold BLOCK_SIZE at *; omega) (by rw [hs1m]; exact h3)
            (by rw [a2]; exact h4), hs1d]
    · rename_i r' s1' hne heq
      cases heq
      have hmax : s.MAX_FAT_READ_SIZE ≤ ((0 + BLOCK_SIZE / 2 * j + BLOCK_SIZE / 2 : Nat) : Int) := by
        rcases a5 with h0 | ⟨_, hmax⟩
        · exact absurd h0 hne
        · exact hmax
      refine ⟨a1, a2, fun k hk => a3 k (by omega), ?_⟩
      intro k h1 h2 h3 h4
      have hlt : k < BLOCK_SIZE / 2 * (j + 1) := by
        unfold BLOCK_SIZE at *
        omega
      rw [a4 k (by omega) (by unfold BLOCK_SIZE at *; omega) h3 h4]
      obtain ⟨c1, c2⟩ := hblock k h1 hlt
      rw [c1, c2]

/-- The loop of `read_blocks` changes only the FAT mirror and `fat_frees`, also
when a block cannot be read. -/
theorem read_blocks_loop_frame (n : Nat) :
    ∀ (j : Nat) (s : FS),
      (read_blocks_loop n j s).2 =
        { s with fat_array := (read_blocks_loop n j s).2.fat_array
                 fat_frees := (read_blocks_loop n j s).2.fat_frees } := by
  induction n with
  | zero => intro j s; rfl
  | succ n ih =>
    intro j s
    unfold read_blocks_loop
    split
    · rfl
    · rename_i FAT_buf _
      obtain ⟨a1, _⟩ :=
        read_FAT_entries_spec FAT_buf (BLOCK_SIZE / 2 * j) (BLOCK_SIZE / 2) 0 s
      generalize read_FAT_entries FAT_buf (BLOCK_SIZE / 2 * j) (BLOCK_SIZE / 2) 0 s = res at a1
      obtain ⟨r, s1⟩ := res
      simp only at a1
      split
      · rename_i s1' heq
        cases heq
        rw [ih (j + 1) s1, a1]
      · rename_i r' s1' hne heq
        cases heq
        exact a1

theorem block_read_dir_some (d : Disk) (i : Nat) (dir : List RootDirEntry)
    (h : block_read_dir d i = some dir) :
    d.opened = true ∧ i < d.block_count ∧ dir = d.dir_blocks i := by
  unfold block_read_dir at h
  split at h
  · rename_i hc
    simp only [Bool.and_eq_true, decide_eq_true_eq] at hc
    exact ⟨hc.1, hc.2, (Option.some.inj h).symm⟩
  · cases h

/-- What a successful `fs_mount` has done: the store was found and no other
store was open, its superblock has the signature and the block count of the
store, and the directory block could be read; the engine is mounted on it with
every handle slot unused, and `open_files` is what it was. -/
theorem fs_mount_success (t : FS) (name : List Nat) (image : Option Disk) (s : FS)
    (h : fs_mount t name image = (0, s)) :
    ∃ img, image = some img ∧ t.disk.opened = false ∧
      img.super_block.block_amt = img.block_count ∧
      img.super_block.signature.take 8 = SIGNATURE ∧
      s.is_mounted = true ∧ s.disk_open = true ∧
      s.fd_table = List.replicate FS_OPEN_MAX_COUNT ⟨UNUSED, UNUSED_OFFSET⟩ ∧
      s.open_files = t.open_files ∧ s.sblock = img.super_block ∧
      s.disk = { img with opened := true } ∧
      s.sblock.rd_start_idx < s.disk.block_count ∧
      s.root_dir = img.dir_blocks img.super_block.rd_start_idx := by
  unfold fs_mount at h
  split at h
  · cases h
  · split at h
    · cases h
    · rename_i d hopen
      simp only at h
      have hd : ∃ img, image = some img ∧ t.disk.opened = false ∧ d = { img with opened := true } := by
        unfold block_disk_open at hopen
        split at hopen
        · cases hopen
        · rename_i hno
          split at hopen
          · rename_i img
            exact ⟨img, rfl, by simpa using hno, (Option.some.inj hopen).symm⟩
          · cases hopen
      obtain ⟨img, himg, hclosed, hdimg⟩ := hd
      split at h
      · cases h
      · rename_i sb hsb
        have hsbeq : sb = d.super_block := by
          unfold block_read_super at hsb
          split at hsb
          · exact (Option.some.inj hsb).symm
          · cases hsb
        split at h
        · cases h
        · rename_i hamt
          split at h
          · cases h
          · rename_i hsig
            split at h
            · cases h
            · rename_i dir hdir
              have hfr := read_blocks_loop_frame sb.fat_block_amt 0
                { disk_open := true, root_dir_frees := t.root_dir_frees, is_mounted := t.is_mounted,
                  fat_frees := sb.data_block_amt, MAX_FAT_READ_SIZE := (sb.data_block_amt : Int),
                  fd_table := t.fd_table, open_files := t.open_files, sblock := sb,
                  fat_array := List.replicate sb.data_block_amt 0, root_dir := t.root_dir,
                  disk := d }
              unfold read_blocks at hdir h
              simp only at hdir h
              rw [hfr] at hdir h
              simp only at hdir h
              obtain ⟨h1, h2, h3⟩ := block_read_dir_some _ _ _ hdir
              simp only [block_disk_count, ne_eq, Decidable.not_not] at hamt hsig
              cases h
              subst hsbeq
              subst hdimg
              exact ⟨img, himg, hclosed, hamt, hsig, rfl, rfl, rfl, rfl, rfl, rfl, h2, h3⟩

/-- Mounting a store whose superblock is accepted and whose FAT blocks and
directory block lie inside the store succeeds when no store is open, and
loads every FAT entry that lies in the FAT blocks. -/
theorem fs_mount_loaded (t : FS) (name : List Nat) (img : Disk)
    (hname : (cstr name).length ≠ 0) (hclosed : t.disk.opened = false)
    (hamt : img.super_block.block_amt = img.block_count)
    (hsig : img.super_block.signature.take 8 = SIGNATURE)
    (hfat : img.super_block.fat_block_amt < img.block_count)
    (hrd : img.super_block.rd_start_idx < img.block_count) :
    ∃ s, fs_mount t name (some img) = (0, s) ∧
      s.fat_array.length = img.super_block.data_block_amt ∧
      ∀ k, k < img.super_block.data_block_amt →
        k < BLOCK_SIZE / 2 * img.super_block.fat_block_amt →
        s.fat_array[k]?
          = some ((img.fat_blocks (k / (BLOCK_SIZE / 2) + 1)).getD (k % (BLOCK_SIZE / 2)) 0) := by
  have hopen : block_disk_open t.disk (some img) = some { img with opened := true } := by
    unfold block_disk_open
    rw [hclosed]
    rfl
  have hsuper : block_read_super { img with opened := true } 0 = some img.super_block := by
    unfold block_read_super
    simp only [Bool.true_and, decide_eq_true_eq]
    rw [if_pos (by omega)]
  obtain ⟨b1, b2, b3, b4⟩ := read_blocks_loop_spec img.super_block.fat_block_amt 0
    { disk_open := true, root_dir_frees := t.root_dir_frees, is_mounted := t.is_mounted,
      fat_frees := img.super_block.data_block_amt,
      MAX_FAT_READ_SIZE := (img.super_block.data_block_amt : Int),
      fd_table := t.fd_table, open_files := t.open_files, sblock := img.super_block,
      fat_array := List.replicate img.super_block.data_block_amt 0, root_dir := t.root_dir,
      disk := { img with opened := true } } rfl (by simp only [Nat.zero_add]; exact hfat)
  simp only [List.length_replicate, Nat.zero_add, Nat.mul_zero] at b2 b4
  have hdir : block_read_dir { img with opened := true } img.super_block.rd_start_idx
      = some (img.dir_blocks img.super_block.rd_start_idx) := by
    unfold block_read_dir
    simp only [Bool.true_and, decide_eq_true_eq]
    rw [if_pos hrd]
  unfold fs_mount
  rw [if_neg hname, hopen]
  simp only
  rw [hsuper]
  simp only [block_disk_count, ne_eq]
  rw [if_neg (by rw [hamt]; simp), if_neg (by rw [hsig]; simp)]
  unfold read_blocks
  simp only
  rw [b1]
  simp only
  rw [hdir]
  refine ⟨_, rfl, b2, ?_⟩
  intro k hk1 hk2
  exact b4 k (Nat.zero_le _) hk2 (by exact_mod_cast hk1) hk1

/-! ## Persistence of the mirrors -/

theorem block_write_fat_ok (d : Disk) (i : Nat) (entries : List Nat) (ho : d.opened = true)
    (hi : i < d.block_count) :
    block_write_fat d i entries =
      some { d with fat_blocks := fun j => if j = i then entries else d.fat_blocks j } := by
  unfold block_write_fat
  rw [ho]
  simp only [Bool.true_and, decide_eq_true_eq]
  rw [if_pos hi]

/-- After the loop that writes the FAT back, FAT block `i + 1` holds the
entries of the mirror from `i * BLOCK_SIZE / 2` on. -/
theorem write_fat_blocks_get (fat : List Nat) (n : Nat) (d : Disk) (hopen : d.opened = true)
    (hn : n < d.block_count) :
    ∀ i, i < n →
      (write_fat_blocks fat n d).fat_blocks (i + 1)
        = (fat.drop (i * BLOCK_SIZE / 2)).take (BLOCK_SIZE / 2) := by
  induction n with
  | zero => intro i hi; omega
  | succ n ih =>
    intro i hi
    obtain ⟨f1, f2, _, _, _⟩ := write_fat_blocks_frame fat n d
    unfold write_fat_blocks
    simp only
    rw [block_write_fat_ok _ _ _ (f1.trans hopen) (by rw [f2]; exact hn)]
    simp only
    rcases Nat.eq_or_lt_of_le (Nat.le_of_lt_succ hi) with heq | hlt
    · subst heq
      rw [if_pos rfl]
    · rw [if_neg (by omega)]
      exact ih (by omega) i hlt

/-- After the FAT has been written back, the FAT blocks hold every entry of
the mirror that has room in them. -/
theorem fat_blocks_written (fat : List Nat) (n : Nat) (d : Disk) (hopen : d.opened = true)
    (hn : n < d.block_count) (i : Nat) (hi : i / (BLOCK_SIZE / 2) < n) :
    ((write_fat_blocks fat n d).fat_blocks (i / (BLOCK_SIZE / 2) + 1))[i % (BLOCK_SIZE / 2)]?
      = fat[i]? := by
  rw [write_fat_blocks_get fat n d hopen hn _ hi, List.getElem?_take_of_lt
    (Nat.mod_lt _ (by decide)), List.getElem?_drop]
  congr 1
  have := Nat.div_add_mod i (BLOCK_SIZE / 2)
  unfold BLOCK_SIZE at *
  omega

/-- A state that differs from a mounted, persisted state `s` in the two
mirrors and in the blocks of the store that hold them, and whose store holds
the new mirrors, is mounted and persisted. -/
theorem persisted_of_update (s s2 : FS) (hM : Mounted s) (hP : Persisted s)
    (h1 : s2.is_mounted = true) (h2 : s2.sblock = s.sblock)
    (h3 : s2.fat_array.length = s.fat_array.length)
    (h4 : s2.disk.opened = true) (h5 : s2.disk.block_count = s.disk.block_count)
    (h6 : s2.disk.super_block = s.disk.super_block)
    (h7 : s2.disk.dir_blocks s.sblock.rd_start_idx = s2.root_dir)
    (h8 : ∀ i, i < s.sblock.data_block_amt →
      (s2.disk.fat_blocks (i / (BLOCK_SIZE / 2) + 1))[i % (BLOCK_SIZE / 2)]? = s2.fat_array[i]?) :
    Mounted s2 ∧ Persisted s2 := by
  constructor
  · constructor
    · exact h1
    · exact h4
    · rw [h2]; exact hM.layout_fat
    · rw [h2]; exact hM.layout_dir
    · rw [h2, h5]; exact hM.rd_in
    · rw [h2, h5]; exact hM.data_in
    · rw [h2, h3]; exact hM.fat_len
    · rw [h2]; exact hM.fat_16
  · constructor
    · rw [h6, h2]; exact hP.super
    · rw [h2]; exact hP.sig
    · rw [h2, h5]; exact hP.total
    · rw [h2]; exact hP.fat_fits
    · rw [h2]; exact h7
    · rw [h2]; exact h8

/-- The persisted FAT blocks have room for every entry of the mirror. -/
theorem persisted_room (s : FS) (hP : Persisted s) (i : Nat) (hi : i < s.sblock.data_block_amt) :
    i / (BLOCK_SIZE / 2) < s.sblock.fat_block_amt := by
  have := hP.fat_fits
  rw [Nat.div_lt_iff_lt_mul (by decide)]
  omega

theorem fs_create_persisted (s : FS) (f : List Nat) (hM : Mounted s) (hP : Persisted s)
    (h : (fs_create s f).1 = 0) :
    Mounted (fs_create s f).2 ∧ Persisted (fs_create s f).2 := by
  obtain ⟨hm, hv, he, k, d, hk, hd⟩ := fs_create_success s f h
  rw [fs_create_ok s f k d hm hv he hk hd]
  obtain ⟨_, _, hd2⟩ := block_write_dir_some _ _ _ _ hd
  subst hd2
  refine persisted_of_update s _ hM hP hM.mounted rfl rfl hM.opened rfl rfl ?_ ?_
  · show (if s.sblock.rd_start_idx = s.sblock.rd_start_idx then _ else _) = _
    rw [if_pos rfl]
  · intro i hi
    exact hP.fat i hi

/-- The `while` loop of `fs_delete` does not change the length of the FAT
mirror. -/
theorem free_chain_loop_length (fuel : Nat) :
    ∀ (fat : List Nat) (a b c : Nat) (fat2 : List Nat) (last frees : Nat),
      free_chain_loop fuel fat a b c = .done (fat2, last, frees) →
      fat2.length = fat.length := by
  induction fuel with
  | zero =>
    intro fat a b c fat2 last frees h
    unfold free_chain_loop at h
    split at h
    · cases h; rfl
    · cases h
  | succ fuel ih =>
    intro fat a b c fat2 last frees h
    unfold free_chain_loop at h
    split at h
    · cases h; rfl
    · simp only at h
      split at h
      · cases h
      · rename_i nn _
        rw [ih _ _ _ _ _ _ _ h, List.length_set]

/-- The end of `fs_delete`: with the new mirrors `R` and `F` written back, the
state is mounted and persisted. -/
theorem delete_tail_persisted (s : FS) (hM : Mounted s) (hP : Persisted s)
    (R : List RootDirEntry) (F : List Nat) (frees : Int) (ff : Nat)
    (hF : F.length = s.fat_array.length) :
    Mounted { s with
        root_dir := R, root_dir_frees := frees, fat_array := F, fat_frees := ff
        disk := write_fat_blocks F s.sblock.fat_block_amt
          (match block_write_dir s.disk s.sblock.rd_start_idx R with
            | some d => d
            | none => s.disk) } ∧
    Persisted { s with
        root_dir := R, root_dir_frees := frees, fat_array := F, fat_frees := ff
        disk := write_fat_blocks F s.sblock.fat_block_amt
          (match block_write_dir s.disk s.sblock.rd_start_idx R with
            | some d => d
            | none => s.disk) } := by
  rw [block_write_dir_ok _ _ _ hM.opened hM.rd_in]
  simp only
  obtain ⟨w1, w2, w3, w4, _⟩ := write_fat_blocks_frame F s.sblock.fat_block_amt
    { s.disk with dir_blocks := fun j => if j = s.sblock.rd_start_idx then R else s.disk.dir_blocks j }
  refine persisted_of_update s _ hM hP hM.mounted rfl hF (w1.trans hM.opened) w2 w3 ?_ ?_
  · exact (congrFun w4 _).trans (if_pos rfl)
  · intro i hi
    exact fat_blocks_written F s.sblock.fat_block_amt
      { s.disk with
        dir_blocks := fun j => if j = s.sblock.rd_start_idx then R else s.disk.dir_blocks j }
      hM.opened (Nat.lt_trans hM.layout_fat hM.rd_in) i (persisted_room s hP i hi)

theorem fs_delete_persisted (s : FS) (f : List Nat) (fuel : Nat) (s2 : FS) (hM : Mounted s)
    (hP : Persisted s) (h : fs_delete s f fuel = .done (0, s2)) :
    Mounted s2 ∧ Persisted s2 := by
  unfold fs_delete at h
  split at h
  · cases h
  · cases h
  · rename_i fd _
    split at h
    · cases h
    · simp only at h
      split at h
      · cases h
      · rename_i next_idx _
        split at h
        · cases h
        · cases h
        · rename_i fat last frees hloop
          have hlen := free_chain_loop_length _ _ _ _ _ _ _ _ hloop
          cases h
          cases hslot : slot_of s f with
          | none =>
            simp only [hslot] at hlen
            exact delete_tail_persisted s hM hP _ _ _ _
              (by rw [List.length_set]; exact hlen)
          | some k =>
            simp only [hslot] at hlen
            exact delete_tail_persisted s hM hP _ _ _ _
              (by rw [List.length_set]; exact hlen)

/-- What the first-write step of `fs_write` leaves as it was. -/
theorem write_head_frame (s : FS) (i : Nat) (e : RootDirEntry) (s1 : FS) (first : Nat)
    (h : write_head s i e = .inr (s1, first)) :
    s1.is_mounted = s.is_mounted ∧ s1.sblock = s.sblock ∧ s1.fd_table = s.fd_table ∧
    s1.fat_array.length = s.fat_array.length ∧ s1.disk.opened = s.disk.opened ∧
    s1.disk.block_count = s.disk.block_count ∧ s1.disk.super_block = s.disk.super_block ∧
    s1.disk.data_blocks = s.disk.data_blocks ∧ s1.disk.fat_blocks = s.disk.fat_blocks ∧
    s1.open_files = s.open_files := by
  rcases write_head_inr s i e s1 first h with ⟨_, h1, _⟩ | ⟨_, _, _, _, h1⟩
  · subst h1
    exact ⟨rfl, rfl, rfl, rfl, rfl, rfl, rfl, rfl, rfl, rfl⟩
  · subst h1
    refine ⟨rfl, rfl, rfl, ?_, rfl, rfl, rfl, rfl, rfl, rfl⟩
    show (s.fat_array.set _ _).length = _
    rw [List.length_set]

theorem fs_write_persisted (s : FS) (fd : Int) (data : List Nat) (n fuel : Nat) (r : Int)
    (s2 : FS) (hM : Mounted s) (hP : Persisted s)
    (hres : fs_write s fd (some data) n fuel = .done (r, s2)) (hr : 0 ≤ r) :
    Mounted s2 ∧ Persisted s2 := by
  rcases fs_write_cases s fd data n fuel r s2 hres with ⟨h1, _, _⟩ |
    ⟨_, _, ⟨_, h2, _⟩ | ⟨h, e, hc, hh, he, hrest⟩⟩
  · omega
  · subst h2
    exact ⟨hM, hP⟩
  · rcases hrest with hhead | ⟨s1, first, prev, curr, w, hhead, _, hloop, hfin⟩
    · obtain ⟨_, _, h2⟩ := write_head_inl _ _ _ _ _ hhead
      rcases h2 with ⟨_, h3⟩ | ⟨idx, _, hno, _⟩
      · subst h3
        exact ⟨hM, hP⟩
      · exact absurd ⟨hM.opened, hM.rd_in⟩ hno
    · obtain ⟨a1, a2, _, a4, a5, a6, a7, _, _, _⟩ := write_head_frame _ _ _ _ _ hhead
      obtain ⟨b1, b2, _, _, _⟩ := write_loop_frame data fuel _ w hloop
      simp only at b1 b2
      have c1 : w.s.is_mounted = s1.is_mounted := by rw [b1]
      have c2 : w.s.sblock = s1.sblock := by rw [b1]
      have c5 : w.s.disk.opened = s1.disk.opened := by rw [b1]
      have c6 : w.s.disk.block_count = s1.disk.block_count := by rw [b1]
      have c7 : w.s.disk.super_block = s1.disk.super_block := by rw [b1]
      have wopen : w.s.disk.opened = true := by rw [c5, a5]; exact hM.opened
      have wrd : w.s.sblock.rd_start_idx < w.s.disk.block_count := by
        rw [c2, a2, c6, a6]; exact hM.rd_in
      obtain ⟨f1, f2, f3, f4, f5, f6⟩ :=
        write_finish_state w fd h h.fd_num.toNat e wopen wrd
      obtain ⟨g1, g2, g3, g4⟩ := write_finish_root_dir w fd h h.fd_num.toNat e
      have hdisk := write_finish_disk w fd h h.fd_num.toNat e wopen wrd
      have hs2 : s2 = (write_finish w fd h h.fd_num.toNat e).2 := congrArg Prod.snd hfin
      obtain ⟨w1, w2, w3, w4, _⟩ := write_fat_blocks_frame w.s.fat_array w.s.sblock.fat_block_amt
        (put_dir w.s.disk w.s.sblock.rd_start_idx (write_finish w fd h h.fd_num.toNat e).2.root_dir)
      rw [hs2]
      refine persisted_of_update s _ hM hP ?_ ?_ ?_ f3 ?_ ?_ ?_ ?_
      · rw [f1, c1, a1]; exact hM.mounted
      · rw [f2, c2, a2]
      · rw [g2, b2, a4]
      · rw [f4, c6, a6]
      · rw [hdisk, w3]
        show w.s.disk.super_block = _
        rw [c7, a7]
      · rw [← a2, ← c2]
        exact f6
      · intro i hi
        rw [hdisk, g2]
        have hfba : w.s.sblock.fat_block_amt = s.sblock.fat_block_amt := by rw [c2, a2]
        rw [hfba]
        refine fat_blocks_written w.s.fat_array s.sblock.fat_block_amt
          (put_dir w.s.disk w.s.sblock.rd_start_idx
            (write_finish w fd h h.fd_num.toNat e).2.root_dir) wopen ?_ i
          (persisted_room s hP i hi)
        show s.sblock.fat_block_amt < w.s.disk.block_count
        rw [c6, a6]
        exact Nat.lt_trans hM.layout_fat hM.rd_in

/-- Mounting the store of a mounted, persisted state again (from any engine
state with no store open; `b` is the flag of the store, which does not matter) succeeds and loads the same directory and the same
FAT. -/
theorem remount_same (s t : FS) (name : List Nat) (b : Bool) (hM : Mounted s)
    (hP : Persisted s) (hname : (cstr name).length ≠ 0) (hclosed : t.disk.opened = false) :
    ∃ s2, fs_mount t name (some { s.disk with opened := b }) = (0, s2) ∧
      s2.root_dir = s.root_dir ∧ s2.fat_array = s.fat_array ∧ s2.sblock = s.sblock := by
  have hsb := hP.super
  obtain ⟨s2, hres, hlen, hfat⟩ := fs_mount_loaded t name { s.disk with opened := b } hname
    hclosed
    (by rw [hsb]; exact hP.total) (by rw [hsb]; exact hP.sig)
    (by rw [hsb]; exact Nat.lt_trans hM.layout_fat hM.rd_in) (by rw [hsb]; exact hM.rd_in)
  obtain ⟨img, himg, _, _, _, _, _, _, _, h9, _, _, h12⟩ := fs_mount_success t name _ s2 hres
  cases himg
  refine ⟨s2, hres, ?_, ?_, ?_⟩
  · rw [h12]
    show s.disk.dir_blocks s.disk.super_block.rd_start_idx = _
    rw [hsb]
    exact hP.dir
  · apply List.ext_getElem?
    intro k
    rcases Nat.lt_or_ge k s.sblock.data_block_amt with hk | hk
    · have hroom := persisted_room s hP k hk
      rw [hfat k (by rw [hsb]; exact hk)
        (by rw [hsb]
            have := hP.fat_fits
            rw [Nat.mul_comm]
            omega)]
      have hp := hP.fat k hk
      have hk2 : k < s.fat_array.length := by rw [hM.fat_len]; exact hk
      rw [List.getElem?_eq_getElem hk2] at hp ⊢
      rw [List.getD_eq_getElem?_getD, hp]
      rfl
    · rw [List.getElem?_eq_none (by rw [hlen, hsb]; exact hk),
        List.getElem?_eq_none (by rw [hM.fat_len]; exact hk)]
  · rw [h9]
    exact hsb

theorem no_handle_open (s : FS) (h : ∀ fd, is_open s fd = false) :
    (List.range FS_OPEN_MAX_COUNT).any (fun i => is_open s (i : Int)) = false := by
  rw [List.any_eq_false]
  intro i _
  rw [h]
  simp

/-- On a mounted engine with the store open and no handle open, `fs_umount`
succeeds: the store is closed, the mirrors and the handle table are cleared. -/
theorem fs_umount_ok (s : FS) (hm : s.is_mounted = true) (ho : s.disk.opened = true)
    (h : ∀ fd, is_open s fd = false) :
    fs_umount s =
      (0, { s with disk := { s.disk with opened := false }
                   fd_table := List.replicate FS_OPEN_MAX_COUNT ⟨-1, UNUSED_OFFSET⟩
                   root_dir := List.replicate FS_FILE_MAX_COUNT empty_entry
                   root_dir_frees := FS_FILE_MAX_COUNT
                   fat_array := []
                   fat_frees := 0
                   sblock := ⟨List.replicate 8 0, 0, 0, 0, 0, 0⟩
                   is_mounted := false }) := by
  unfold fs_umount
  rw [no_handle_open s h, hm]
  simp only [Bool.false_eq_true, if_false, Bool.not_true]
  unfold block_disk_close
  rw [ho]
  simp only [if_true]

/-- A call whose return value is `r` has returned `r` and its state. -/
theorem done_of_map (o : Outcome (Int × FS)) (r : Int)
    (h : o.map (fun x => x.1) = .done r) : o = .done (r, o.state) := by
  cases o with
  | done a =>
    obtain ⟨r2, s2⟩ := a
    simp only [Outcome.map, Outcome.done.injEq] at h
    subst h
    rfl
  | fault => cases h
  | diverge => cases h

/-- C14: on a mounted volume whose store holds the mirrors (`Persisted`), the
store holds the mirrors again after every `fs_create`, `fs_delete` and
`fs_write` that returns successfully: the directory block equals the directory
mirror and the FAT blocks `1 .. fat_block_amt` hold the entries
`0 .. data_block_amt - 1` of the FAT mirror. Hence mounting the store again,
after `fs_umount` or from any engine state with no store open, loads the same
directory and the same FAT. -/
theorem mirrors_persisted (s : FS) (hM : Mounted s) (hP : Persisted s) :
    (∀ f, (fs_create s f).1 = 0 → Mounted (fs_create s f).2 ∧ Persisted (fs_create s f).2) ∧
    (∀ f fuel s2, fs_delete s f fuel = .done (0, s2) → Mounted s2 ∧ Persisted s2) ∧
    (∀ fd data n fuel r s2, fs_write s fd (some data) n fuel = .done (r, s2) → 0 ≤ r →
      Mounted s2 ∧ Persisted s2) ∧
    (∀ t name b, (cstr name).length ≠ 0 → t.disk.opened = false →
      ∃ s2, fs_mount t name (some { s.disk with opened := b }) = (0, s2) ∧
        s2.root_dir = s.root_dir ∧ s2.fat_array = s.fat_array) ∧
    (∀ name, (cstr name).length ≠ 0 → (∀ fd, is_open s fd = false) →
      ∃ s2, (fs_umount s).1 = 0 ∧
        fs_mount (fs_umount s).2 name (some (fs_umount s).2.disk) = (0, s2) ∧
        s2.root_dir = s.root_dir ∧ s2.fat_array = s.fat_array) := by
  refine ⟨fun f h => fs_create_persisted s f hM hP h,
    fun f fuel s2 h => fs_delete_persisted s f fuel s2 hM hP h,
    fun fd data n fuel r s2 h hr => fs_write_persisted s fd data n fuel r s2 hM hP h hr, ?_, ?_⟩
  · intro t name b hname hclosed
    obtain ⟨s2, h1, h2, h3, _⟩ := remount_same s t name b hM hP hname hclosed
    exact ⟨s2, h1, h2, h3⟩
  · intro name hname hnone
    have hu := fs_umount_ok s hM.mounted hM.opened hnone
    have hd : (fs_umount s).2.disk = { s.disk with opened := false } := by rw [hu]
    obtain ⟨s2, h1, h2, h3, _⟩ := remount_same s (fs_umount s).2 name false hM hP hname
      (by rw [hd])
    refine ⟨s2, by rw [hu], ?_, h2, h3⟩
    rw [hd]
    exact h1

set_option maxRecDepth 1000000 in
/-- The statement of `mirrors_persisted` at the volume `vol_two`: the store
holds the mirrors after `fs_create("c")`, and after 4000 more bytes were
written to `"a"`. -/
theorem mirrors_persisted_witness :
    Persisted (fs_create vol_two [99]).2 ∧
    Persisted (fs_write vol_two 0 (some (List.replicate 4000 9)) 4000 4000).state :=
  have h := mirrors_persisted vol_two
    ⟨by decide, by decide, by decide, by decide, by decide, by decide, by decide, by decide⟩
    ⟨by decide, by decide, by decide, by decide, by decide, by decide⟩
  ⟨(h.1 [99] (by decide)).2,
    (h.2.2.1 0 (List.replicate 4000 9) 4000 4000 4000
      (fs_write vol_two 0 (some (List.replicate 4000 9)) 4000 4000).state
      (done_of_map _ _ (by decide)) (by decide)).2⟩

/-! ## `fs_mount` on a store it rejects -/

set_option maxRecDepth 100000 in
/-- C15 (the code departs from the claim): `fs_mount` sets `disk_open` and
reads the superblock into `sblock` before it validates them, and returns -1
on a wrong signature or block count without undoing either. From the start
state, where `fs_info` fails, a mount of a store with the signature
`"ECS150FX"`, or of a store of 11 blocks that announces 12, returns -1 and
leaves the engine unmounted, but with `disk_open` set, the rejected superblock
in `sblock` and the store open; `fs_info` then returns 0 and prints the
rejected geometry. -/
theorem fs_mount_fails_open :
    (boot.is_mounted = false ∧ boot.disk_open = false ∧ fs_info boot = (-1, [])) ∧
    ((fs_mount boot [100] (some bad_signature_image)).1 = -1 ∧
      (fs_mount boot [100] (some bad_signature_image)).2.is_mounted = false ∧
      (fs_mount boot [100] (some bad_signature_image)).2.disk_open = true ∧
      (fs_mount boot [100] (some bad_signature_image)).2.sblock
        = bad_signature_image.super_block ∧
      (fs_mount boot [100] (some bad_signature_image)).2.sblock ≠ boot.sblock ∧
      (fs_mount boot [100] (some bad_signature_image)).2.disk.opened = true ∧
      fs_info (fs_mount boot [100] (some bad_signature_image)).2
        = (0, [11, 1, 2, 3, 8, 0, 8, 128, 128])) ∧
    ((fs_mount boot [100] (some bad_count_image)).1 = -1 ∧
      (fs_mount boot [100] (some bad_count_image)).2.is_mounted = false ∧
      (fs_mount boot [100] (some bad_count_image)).2.disk_open = true ∧
      (fs_mount boot [100] (some bad_count_image)).2.sblock = bad_count_image.super_block ∧
      fs_info (fs_mount boot [100] (some bad_count_image)).2
        = (0, [12, 1, 2, 3, 8, 0, 8, 128, 128])) := by
  decide

/-! ## `fs_umount` -/

theorem valid_fd_iff (fd : Int) : valid_fd fd = true ↔ 0 ≤ fd ∧ fd < (FS_OPEN_MAX_COUNT : Int) := by
  unfold valid_fd
  split <;> simp <;> omega

theorem is_open_invalid (s : FS) (fd : Int) (h : valid_fd fd = false) : is_open s fd = false := by
  unfold is_open
  rw [h]
  rfl

/-- No handle slot in use means that `is_open` is false for every `int`. -/
theorem no_open_of_slots (s : FS)
    (h : ∀ i, i < FS_OPEN_MAX_COUNT → is_open s (i : Int) = false) (fd : Int) :
    is_open s fd = false := by
  cases hv : valid_fd fd with
  | false => exact is_open_invalid s fd hv
  | true =>
    obtain ⟨h1, h2⟩ := (valid_fd_iff fd).1 hv
    have := h fd.toNat (by omega)
    rw [Int.toNat_of_nonneg h1] at this
    exact this

theorem some_handle_open (s : FS) (i : Nat) (hi : i < FS_OPEN_MAX_COUNT)
    (h : is_open s (i : Int) = true) :
    (List.range FS_OPEN_MAX_COUNT).any (fun i => is_open s (i : Int)) = true := by
  rw [List.any_eq_true]
  exact ⟨i, List.mem_range.2 hi, h⟩

/-- On an engine that is not mounted (with a zeroed superblock), every call
that works on files fails and changes nothing. -/
theorem unmounted_calls_fail (u : FS) (hm : u.is_mounted = false)
    (hrd : u.sblock.rd_start_idx = 0) (f : List Nat) (fd : Int) (off n fuel : Nat)
    (buf : Option (List Nat)) (buf_is_null : Bool) :
    fs_create u f = (-1, u) ∧ fs_delete u f fuel = .done (-1, u) ∧ fs_ls u = (-1, []) ∧
    fs_open u f = (-1, u) ∧ fs_close u fd = (-1, u) ∧ fs_stat u fd = .done (-1, u) ∧
    fs_lseek u fd off = .done (-1, u) ∧ fs_read u fd buf_is_null n = .done (-1, [], u) ∧
    fs_write u fd buf n fuel = .done (-1, u) := by
  refine ⟨?_, ?_, ?_, ?_, ?_, ?_, ?_, ?_, ?_⟩
  · unfold fs_create
    rw [hm]
    rfl
  · unfold fs_delete
    rw [hrd]
    unfold delete_fd_scan
    simp only
    rw [hm]
    rfl
  · unfold fs_ls
    rw [hm]
    rfl
  · unfold fs_open
    rw [hm]
    rfl
  · unfold fs_close
    rw [hm]
    rfl
  · unfold fs_stat
    rw [hm]
    rfl
  · unfold fs_lseek
    rw [hm]
    rfl
  · unfold fs_read
    rw [hm]
    rfl
  · unfold fs_write
    cases buf with
    | none => rfl
    | some data =>
      simp only
      rw [hm]
      rfl

/-- C16: on a mounted volume with the store open, `fs_umount` returns -1 and
leaves the whole engine state unchanged when some handle slot is in use; when
no slot is in use it returns 0, after which the engine is unmounted, the store
is closed, every handle slot is unused, the directory mirror consists of 128
empty records with `root_dir_frees = 128`, and every later `fs_create`,
`fs_delete`, `fs_ls`, `fs_open`, `fs_close`, `fs_stat`, `fs_lseek`, `fs_read`
and `fs_write` returns -1 and changes nothing. -/
theorem fs_umount_contract (s : FS) (hm : s.is_mounted = true) (ho : s.disk.opened = true) :
    ((∃ i, i < FS_OPEN_MAX_COUNT ∧ is_open s (i : Int) = true) → fs_umount s = (-1, s)) ∧
    ((∀ i, i < FS_OPEN_MAX_COUNT → is_open s (i : Int) = false) →
      (fs_umount s).1 = 0 ∧ (fs_umount s).2.is_mounted = false ∧
      (fs_umount s).2.disk.opened = false ∧
      (∀ i, i < FS_OPEN_MAX_COUNT → fd_num_of (fs_umount s).2 i = some UNUSED) ∧
      (∀ fd, is_open (fs_umount s).2 fd = false) ∧
      (fs_umount s).2.root_dir = List.replicate FS_FILE_MAX_COUNT empty_entry ∧
      (∀ e ∈ (fs_umount s).2.root_dir, slot_is_empty e = true) ∧
      (fs_umount s).2.root_dir_frees = 128 ∧
      ∀ (f : List Nat) (fd : Int) (off n fuel : Nat) (buf : Option (List Nat))
        (buf_is_null : Bool),
        fs_create (fs_umount s).2 f = (-1, (fs_umount s).2) ∧
        fs_delete (fs_umount s).2 f fuel = .done (-1, (fs_umount s).2) ∧
        fs_ls (fs_umount s).2 = (-1, []) ∧
        fs_open (fs_umount s).2 f = (-1, (fs_umount s).2) ∧
        fs_close (fs_umount s).2 fd = (-1, (fs_umount s).2) ∧
        fs_stat (fs_umount s).2 fd = .done (-1, (fs_umount s).2) ∧
        fs_lseek (fs_umount s).2 fd off = .done (-1, (fs_umount s).2) ∧
        fs_read (fs_umount s).2 fd buf_is_null n = .done (-1, [], (fs_umount s).2) ∧
        fs_write (fs_umount s).2 fd buf n fuel = .done (-1, (fs_umount s).2)) := by
  constructor
  · rintro ⟨i, hi, hopen⟩
    unfold fs_umount
    rw [some_handle_open s i hi hopen]
    rfl
  · intro hnone
    have hu := fs_umount_ok s hm ho (no_open_of_slots s hnone)
    have hslots : ∀ i, i < FS_OPEN_MAX_COUNT → fd_num_of (fs_umount s).2 i = some UNUSED := by
      intro i hi
      rw [hu]
      unfold fd_num_of
      simp only
      rw [List.getElem?_replicate, if_pos hi]
      rfl
    refine ⟨by rw [hu], by rw [hu], by rw [hu], hslots, ?_, by rw [hu], ?_, by rw [hu]; rfl, ?_⟩
    · apply no_open_of_slots
      intro i hi
      have h1 := hslots i hi
      unfold fd_num_of at h1
      unfold is_open
      have hv : valid_fd (i : Int) = true := (valid_fd_iff _).2 ⟨by omega, by omega⟩
      rw [hv]
      simp only [Bool.not_true, Bool.false_eq_true, if_false, Int.toNat_ofNat]
      cases hg : (fs_umount s).2.fd_table[i]? with
      | none => rfl
      | some e =>
        rw [hg] at h1
        simp only [Option.map_some', Option.some.injEq] at h1
        simp [h1]
    · rw [hu]
      intro e he
      rw [List.eq_of_mem_replicate he]
      rfl
    · intro f fd off n fuel buf buf_is_null
      exact unmounted_calls_fail _ (by rw [hu]) (by rw [hu]) f fd off n fuel buf buf_is_null

set_option maxRecDepth 1000000 in
/-- The statement of `fs_umount_contract` at the volume `vol_a`, where handle 0
is open and `fs_umount` is refused, and at the same volume after
`fs_close(0)`, where it succeeds. -/
theorem fs_umount_contract_witness :
    fs_umount vol_a = (-1, vol_a) ∧
    (fs_umount (fs_close vol_a 0).2).1 = 0 ∧
    (fs_umount (fs_close vol_a 0).2).2.is_mounted = false :=
  ⟨(fs_umount_contract vol_a (by decide) (by decide)).1 ⟨0, by decide, by decide⟩,
    ((fs_umount_contract (fs_close vol_a 0).2 (by decide) (by decide)).2 (by decide)).1,
    ((fs_umount_contract (fs_close vol_a 0).2 (by decide) (by decide)).2 (by decide)).2.1⟩

/-! ## The handle table: `fs_open` and `fs_close` -/

/-- What a failed `fs_mount` leaves as it was. -/
theorem fs_mount_failure (s : FS) (name : List Nat) (image : Option Disk)
    (h : (fs_mount s name image).1 ≠ 0) :
    (fs_mount s name image).2.is_mounted = s.is_mounted ∧
    (fs_mount s name image).2.open_files = s.open_files ∧
    (fs_mount s name image).2.fd_table = s.fd_table ∧
    (s.disk.opened = true → (fs_mount s name image).2.disk = s.disk) := by
  unfold fs_mount at h ⊢
  split
  · exact ⟨rfl, rfl, rfl, fun _ => rfl⟩
  · rename_i hname
    rw [if_neg hname] at h
    split
    · exact ⟨rfl, rfl, rfl, fun _ => rfl⟩
    · rename_i d hopen
      have hclosed : ¬ s.disk.opened = true := by
        unfold block_disk_open at hopen
        split at hopen
        · cases hopen
        · rename_i hno
          exact hno
      rw [hopen] at h
      simp only at h ⊢
      split
      · exact ⟨rfl, rfl, rfl, fun ho => absurd ho hclosed⟩
      · rename_i sb hsb
        rw [hsb] at h
        simp only at h ⊢
        split
        · exact ⟨rfl, rfl, rfl, fun ho => absurd ho hclosed⟩
        · rename_i hamt
          rw [if_neg hamt] at h
          split
          · exact ⟨rfl, rfl, rfl, fun ho => absurd ho hclosed⟩
          · rename_i hsig
            rw [if_neg hsig] at h
            have hfr := read_blocks_loop_frame sb.fat_block_amt 0
              { disk_open := true, root_dir_frees := s.root_dir_frees,
                is_mounted := s.is_mounted,
                fat_frees := sb.data_block_amt, MAX_FAT_READ_SIZE := (sb.data_block_amt : Int),
                fd_table := s.fd_table, open_files := s.open_files, sblock := sb,
                fat_array := List.replicate sb.data_block_amt 0, root_dir := s.root_dir,
                disk := d }
            unfold read_blocks at h ⊢
            simp only at h ⊢
            rw [hfr] at h ⊢
            simp only at h ⊢
            split
            · exact ⟨rfl, rfl, rfl, fun ho => absurd ho hclosed⟩
            · rename_i dir hdir
              rw [hdir] at h
              exact absurd rfl h

theorem countP_set {α : Type} (p : α → Bool) (l : List α) (i : Nat) (a b : α)
    (h : l[i]? = some b) :
    (l.set i a).countP p + (if p b then 1 else 0) = l.countP p + (if p a then 1 else 0) := by
  induction l generalizing i with
  | nil => cases h
  | cons x l ih =>
    cases i with
    | zero =>
      simp only [List.getElem?_cons_zero, Option.some.injEq] at h
      subst h
      simp only [List.set_cons_zero, List.countP_cons]
      omega
    | succ i =>
      simp only [List.getElem?_cons_succ] at h
      have := ih i h
      simp only [List.set_cons_succ, List.countP_cons]
      omega

/-- A table of `n` slots of which none is unused has `n` slots in use. -/
theorem countP_all {α : Type} (p : α → Bool) (l : List α) (h : ∀ a ∈ l, p a = true) :
    l.countP p = l.length := by
  induction l with
  | nil => rfl
  | cons x l ih =>
    rw [List.countP_cons, ih (fun a ha => h a (List.mem_cons_of_mem _ ha)),
      h x (List.mem_cons_self _ _)]
    simp

theorem countP_none {α : Type} (p : α → Bool) (l : List α) (h : ∀ a ∈ l, p a = false) :
    l.countP p = 0 := by
  induction l with
  | nil => rfl
  | cons x l ih =>
    rw [List.countP_cons, ih (fun a ha => h a (List.mem_cons_of_mem _ ha)),
      h x (List.mem_cons_self _ _)]
    simp

/-- `is_open` on a slot number reads the `fd_num` of that slot. -/
theorem is_open_slot (s : FS) (i : Nat) (hi : i < FS_OPEN_MAX_COUNT) (e : FDEntry)
    (h : s.fd_table[i]? = some e) : is_open s (i : Int) = (e.fd_num != UNUSED) := by
  unfold is_open
  have hv : valid_fd (i : Int) = true := (valid_fd_iff _).2 ⟨by omega, by omega⟩
  rw [hv]
  simp only [Bool.not_true, Bool.false_eq_true, if_false, Int.toNat_ofNat]
  rw [h]

/-- Every slot is in use exactly when the count of used slots is the length of
the table. -/
theorem all_used_iff (s : FS) (hlen : s.fd_table.length = FS_OPEN_MAX_COUNT) :
    (∀ i, i < FS_OPEN_MAX_COUNT → is_open s (i : Int) = true) ↔
      used_slots s = FS_OPEN_MAX_COUNT := by
  unfold used_slots
  rw [← hlen, List.countP_eq_length]
  constructor
  · intro h a ha
    obtain ⟨i, hget⟩ := List.mem_iff_getElem?.1 ha
    have hi := (List.getElem?_eq_some_iff.1 hget).1
    have := h i (by omega)
    rw [is_open_slot s i (by omega) a hget] at this
    exact this
  · intro h i hi
    have hi2 : i < s.fd_table.length := hi
    rw [is_open_slot s i (by omega) _ (List.getElem?_eq_getElem hi2)]
    exact h _ (List.getElem_mem _)

theorem used_slots_le (s : FS) : used_slots s ≤ s.fd_table.length := List.countP_le_length _

/-- The result of `fs_close` when it succeeds. -/
theorem fs_close_cases (s : FS) (fd : Int) :
    fs_close s fd = (-1, s) ∨
    (s.is_mounted = true ∧ is_open s fd = true ∧
      fs_close s fd = (0, { s with fd_table := s.fd_table.set fd.toNat ⟨UNUSED, UNUSED_OFFSET⟩
                                   open_files := s.open_files - 1 })) := by
  unfold fs_close
  split
  · exact Or.inl rfl
  · rename_i hg
    simp only [Bool.or_eq_true, Bool.not_eq_true', not_or, Bool.not_eq_false] at hg
    exact Or.inr ⟨hg.1.1, hg.2, rfl⟩

/-- The ways in which `fs_open` returns: a failed guard, the first unused slot
claimed, or (when no slot is unused although `open_files` is not 32) only the
counter advanced. -/
theorem fs_open_cases (s : FS) (f : List Nat) :
    fs_open s f = (-1, s) ∨
    (s.is_mounted = true ∧ s.open_files ≠ (FS_OPEN_MAX_COUNT : Int) ∧
      ((∃ i, first_index (fun e => e.fd_num == UNUSED) (s.fd_table.take FS_OPEN_MAX_COUNT) = some i ∧
          fs_open s f = ((i : Int),
            { s with fd_table := s.fd_table.set i
                       ⟨((match slot_of s f with | some k => k | none => 0 : Nat) : Int), 0⟩
                     open_files := s.open_files + 1 })) ∨
        (first_index (fun e => e.fd_num == UNUSED) (s.fd_table.take FS_OPEN_MAX_COUNT) = none ∧
          fs_open s f = (0, { s with open_files := s.open_files + 1 })))) := by
  unfold fs_open
  split
  · exact Or.inl rfl
  · rename_i hg
    simp only [Bool.or_eq_true, Bool.not_eq_true', not_or, Bool.not_eq_false, beq_iff_eq] at hg
    right
    refine ⟨hg.1.1.1, hg.2, ?_⟩
    simp only
    split
    · rename_i i hfi
      exact Or.inl ⟨i, hfi, rfl⟩
    · rename_i hfi
      exact Or.inr ⟨hfi, rfl⟩

/-- With the table of 32 slots and one of them unused, the search of `fs_open`
finds the lowest unused slot. -/
theorem first_unused (s : FS) (hlen : s.fd_table.length = FS_OPEN_MAX_COUNT)
    (hlt : used_slots s ≠ FS_OPEN_MAX_COUNT) :
    ∃ i a, first_index (fun e => e.fd_num == UNUSED) (s.fd_table.take FS_OPEN_MAX_COUNT) = some i ∧
      i < FS_OPEN_MAX_COUNT ∧ s.fd_table[i]? = some a ∧ a.fd_num = UNUSED ∧
      is_open s (i : Int) = false ∧ ∀ j, j < i → is_open s (j : Int) = true := by
  have htake : s.fd_table.take FS_OPEN_MAX_COUNT = s.fd_table := by
    rw [← hlen, List.take_length]
  rw [htake]
  cases hfi : first_index (fun e => e.fd_num == UNUSED) s.fd_table with
  | none =>
    exfalso
    apply hlt
    rw [← hlen]
    unfold used_slots
    rw [List.countP_eq_length]
    intro a ha
    have := (first_index_none _ _).1 hfi a ha
    simp only [beq_eq_false_iff_ne, ne_eq] at this
    simp [this]
  | some i =>
    obtain ⟨⟨a, hget, hp⟩, hbefore⟩ := (first_index_some _ _ _).1 hfi
    have hi : i < FS_OPEN_MAX_COUNT := by
      rw [← hlen]; exact (List.getElem?_eq_some_iff.1 hget).1
    simp only [beq_iff_eq] at hp
    refine ⟨i, a, rfl, hi, hget, hp, ?_, ?_⟩
    · rw [is_open_slot s i hi a hget, hp]
      rfl
    · intro j hj
      have hj2 : j < s.fd_table.length := by omega
      rw [is_open_slot s j (by omega) _ (List.getElem?_eq_getElem hj2)]
      have := hbefore j hj _ (List.getElem?_eq_getElem hj2)
      simp only [beq_eq_false_iff_ne, ne_eq] at this
      simp [this]

/-- The bookkeeping of the handle table holds in every state reached by
`fs_mount`, `fs_umount`, `fs_open` and `fs_close`. -/
theorem reached_counted (s : FS) (h : Reached s) : SlotsCounted s := by
  induction h with
  | start => exact ⟨fun h => absurd h Bool.false_ne_true, fun _ => rfl⟩
  | mount s name image _ ih =>
    by_cases h0 : (fs_mount s name image).1 = 0
    · have hres : fs_mount s name image = (0, (fs_mount s name image).2) := Prod.ext h0 rfl
      obtain ⟨img, _, hclosed, _, _, hm, _, hft, hof, _, hd, _, _⟩ :=
        fs_mount_success s name image _ hres
      have hnm : s.is_mounted = false := by
        cases hsm : s.is_mounted with
        | false => rfl
        | true =>
          have := (ih.1 hsm).1
          rw [hclosed] at this
          cases this
      refine ⟨fun _ => ⟨by rw [hd], by rw [hft, List.length_replicate], ?_⟩, fun h => ?_⟩
      · rw [hof, ih.2 hnm]
        unfold used_slots
        rw [hft, countP_none]
        · rfl
        · intro a ha
          rw [List.eq_of_mem_replicate ha]
          rfl
      · rw [hm] at h
        cases h
    · obtain ⟨f1, f2, f3, f4⟩ := fs_mount_failure s name image h0
      refine ⟨fun h => ?_, fun h => ?_⟩
      · rw [f1] at h
        obtain ⟨a1, a2, a3⟩ := ih.1 h
        refine ⟨by rw [f4 a1]; exact a1, by rw [f3]; exact a2, ?_⟩
        rw [f2, a3]
        unfold used_slots
        rw [f3]
      · rw [f1] at h
        rw [f2]
        exact ih.2 h
  | umount s _ ih =>
    unfold fs_umount
    split
    · exact ih
    · rename_i hany
      split
      · exact ih
      · rename_i hm
        split
        · exact ih
        · refine ⟨fun h => absurd h Bool.false_ne_true, fun _ => ?_⟩
          simp only [Bool.not_eq_true', Bool.not_eq_false] at hm
          obtain ⟨_, a2, a3⟩ := ih.1 hm
          show s.open_files = 0
          rw [a3]
          unfold used_slots
          rw [countP_none]
          · rfl
          · intro a ha
            obtain ⟨i, hget⟩ := List.mem_iff_getElem?.1 ha
            have hi : i < FS_OPEN_MAX_COUNT := by
              rw [← a2]; exact (List.getElem?_eq_some_iff.1 hget).1
            have hio : is_open s (i : Int) = false := by
              cases hc : is_open s (i : Int) with
              | false => rfl
              | true => exact absurd (some_handle_open s i hi hc) hany
            rw [is_open_slot s i hi a hget] at hio
            exact hio
  | opened s f _ ih =>
    rcases fs_open_cases s f with h1 | ⟨hm, hne, ⟨i, hfi, h1⟩ | ⟨hfi, h1⟩⟩
    · rw [h1]; exact ih
    · obtain ⟨a1, a2, a3⟩ := ih.1 hm
      have hne2 : used_slots s ≠ FS_OPEN_MAX_COUNT := by
        intro h
        apply hne
        rw [a3, h]
      obtain ⟨i2, a, hfi2, hi, hget, hp, _, _⟩ := first_unused s a2 hne2
      rw [hfi] at hfi2
      cases hfi2
      rw [h1]
      refine ⟨fun _ => ⟨a1, by simp only [List.length_set]; exact a2, ?_⟩, fun h => ?_⟩
      · have hc := countP_set (fun e : FDEntry => e.fd_num != UNUSED) s.fd_table i
          ⟨((match slot_of s f with | some k => k | none => 0 : Nat) : Int), 0⟩ a hget
        have hpa : (a.fd_num != UNUSED) = false := by rw [hp]; rfl
        have hpn : ((((match slot_of s f with | some k => k | none => 0 : Nat) : Int))
            != UNUSED) = true := by
          simp only [bne_iff_ne, ne_eq]
          unfold UNUSED
          omega
        simp only [hpa, hpn, Bool.false_eq_true, if_false, if_true, Nat.add_zero] at hc
        show s.open_files + 1 = _
        unfold used_slots
        simp only
        rw [hc, a3]
        unfold used_slots
        omega
      · rw [hm] at h
        cases h
    · exfalso
      obtain ⟨_, a2, a3⟩ := ih.1 hm
      have hne2 : used_slots s ≠ FS_OPEN_MAX_COUNT := by
        intro h
        apply hne
        rw [a3, h]
      obtain ⟨i2, _, hfi2, _⟩ := first_unused s a2 hne2
      rw [hfi] at hfi2
      cases hfi2
  | closed s fd _ ih =>
    rcases fs_close_cases s fd with h1 | ⟨hm, hopen, h1⟩
    · rw [h1]; exact ih
    · obtain ⟨a1, a2, a3⟩ := ih.1 hm
      obtain ⟨hv, e, hget, hne⟩ := (is_open_iff s fd).1 hopen
      rw [h1]
      refine ⟨fun _ => ⟨a1, by simp only [List.length_set]; exact a2, ?_⟩, fun h => ?_⟩
      · have hc := countP_set (fun e : FDEntry => e.fd_num != UNUSED) s.fd_table fd.toNat
          ⟨UNUSED, UNUSED_OFFSET⟩ e hget
        have hpe : (e.fd_num != UNUSED) = true := by simp [hne]
        have hpn : ((UNUSED : Int) != UNUSED) = false := by simp
        simp only [hpe, hpn, Bool.false_eq_true, if_false, if_true, Nat.add_zero] at hc
        show s.open_files - 1 = _
        unfold used_slots
        simp only
        rw [a3]
        unfold used_slots
        omega
      · rw [hm] at h
        cases h

/-- The file that exists has a first matching directory slot. -/
theorem slot_of_exists (s : FS) (f : List Nat) (hex : file_exists s f = true) :
    ∃ k, slot_of s f = some k := by
  unfold slot_of
  cases hfi : first_index (fun e => name_matches e f) (s.root_dir.take FS_FILE_MAX_COUNT) with
  | some k => exact ⟨k, rfl⟩
  | none =>
    exfalso
    unfold file_exists at hex
    rw [List.any_eq_true] at hex
    obtain ⟨a, ha, hp⟩ := hex
    have := (first_index_none _ _).1 hfi a ha
    rw [hp] at this
    cases this

/-- The result of `fs_open` on a mounted engine for a valid name that exists,
when `open_files` is not 32 and the search finds the unused slot `i`. -/
theorem fs_open_ok (s : FS) (f : List Nat) (i k : Nat) (hm : s.is_mounted = true)
    (hv : valid_filename_len f = true) (hex : file_exists s f = true)
    (hne : s.open_files ≠ (FS_OPEN_MAX_COUNT : Int)) (hk : slot_of s f = some k)
    (hfi : first_index (fun e => e.fd_num == UNUSED) (s.fd_table.take FS_OPEN_MAX_COUNT)
      = some i) :
    fs_open s f =
      ((i : Int),
        { s with
          fd_table := s.fd_table.set i ⟨(k : Int), 0⟩
          open_files := s.open_files + 1 }) := by
  unfold fs_open
  rw [hm, hv, hex]
  have hb : (s.open_files == (FS_OPEN_MAX_COUNT : Int)) = false := by
    simp only [beq_eq_false_iff_ne, ne_eq]
    exact hne
  rw [hb]
  simp only [Bool.not_true, Bool.or_self, Bool.false_eq_true, if_false]
  rw [hfi, hk]

/-- C17: in every state reached from the start of the program by `fs_mount`,
`fs_umount`, `fs_open` and `fs_close` in which the engine is mounted, for every
valid name of an existing file: `fs_open(name)` returns -1 and changes nothing
when all 32 handle slots are in use; otherwise it returns the lowest-index
unused slot `i`, which now holds the directory index `k` of the file with
offset 0, every other slot being unchanged, and opening the same file again
does not return `i`. -/
theorem fs_open_slots (s : FS) (name : List Nat) (hr : Reached s) (hm : s.is_mounted = true)
    (hv : valid_filename_len name = true) (hex : file_exists s name = true) :
    ((∀ i, i < FS_OPEN_MAX_COUNT → is_open s (i : Int) = true) → fs_open s name = (-1, s)) ∧
    ((∃ i, i < FS_OPEN_MAX_COUNT ∧ is_open s (i : Int) = false) →
      ∃ i k, i < FS_OPEN_MAX_COUNT ∧ is_open s (i : Int) = false ∧
        (∀ j, j < i → is_open s (j : Int) = true) ∧
        slot_of s name = some k ∧
        fs_open s name =
          ((i : Int),
            { s with
              fd_table := s.fd_table.set i ⟨(k : Int), 0⟩
              open_files := s.open_files + 1 }) ∧
        (∀ j, j ≠ i → (fs_open s name).2.fd_table[j]? = s.fd_table[j]?) ∧
        (fs_open s name).2.fd_table[i]? = some ⟨(k : Int), 0⟩ ∧
        (fs_open (fs_open s name).2 name).1 ≠ (i : Int)) := by
  obtain ⟨a1, a2, a3⟩ := (reached_counted s hr).1 hm
  constructor
  · intro hall
    have hfull := (all_used_iff s a2).1 hall
    rcases fs_open_cases s name with h1 | ⟨_, hne, _⟩
    · exact h1
    · exfalso
      apply hne
      rw [a3, hfull]
  · rintro ⟨i0, hi0, hun⟩
    have hne2 : used_slots s ≠ FS_OPEN_MAX_COUNT := by
      intro hfull
      have := (all_used_iff s a2).2 hfull i0 hi0
      rw [hun] at this
      cases this
    have hne : s.open_files ≠ (FS_OPEN_MAX_COUNT : Int) := by
      rw [a3]
      exact_mod_cast hne2
    obtain ⟨i, a, hfi, hi, hget, hp, hclosed, hbefore⟩ := first_unused s a2 hne2
    obtain ⟨k, hk⟩ := slot_of_exists s name hex
    have hres := fs_open_ok s name i k hm hv hex hne hk hfi
    have hilen : i < s.fd_table.length := by rw [a2]; exact hi
    refine ⟨i, k, hi, hclosed, hbefore, hk, hres, ?_, ?_, ?_⟩
    · intro j hj
      rw [hres]
      simp only
      rw [List.getElem?_set, if_neg (Ne.symm hj)]
    · rw [hres]
      simp only
      rw [List.getElem?_set, if_pos rfl, if_pos hilen]
    · -- the second call
      have hr1 : Reached (fs_open s name).2 := Reached.opened s name hr
      have hget1 : (fs_open s name).2.fd_table[i]? = some ⟨(k : Int), 0⟩ := by
        rw [hres]
        simp only
        rw [List.getElem?_set, if_pos rfl, if_pos hilen]
      rcases fs_open_cases (fs_open s name).2 name with h1 | ⟨hm1, hne1, ⟨i2, hfi2, h1⟩ | ⟨hfi2, _⟩⟩
      · rw [h1]
        simp only
        omega
      · rw [h1]
        simp only
        intro heq
        have hii : i2 = i := by exact_mod_cast heq
        subst hii
        obtain ⟨⟨b, hgetb, hpb⟩, _⟩ := (first_index_some _ _ _).1 hfi2
        rw [List.getElem?_take_of_lt hi, hget1] at hgetb
        cases hgetb
        simp only [beq_iff_eq] at hpb
        unfold UNUSED at hpb
        omega
      · exfalso
        obtain ⟨_, b2, b3⟩ := (reached_counted _ hr1).1 hm1
        have hne3 : used_slots (fs_open s name).2 ≠ FS_OPEN_MAX_COUNT := by
          intro h
          apply hne1
          rw [b3, h]
        obtain ⟨i3, _, hfi3, _⟩ := first_unused _ b2 hne3
        rw [hfi2] at hfi3
        cases hfi3

set_option maxRecDepth 1000000 in
/-- The statement of `fs_open_slots` at the volume `vol_one_file`, mounted at
the start of the program, and its file `"a"`: no slot is in use, so slot 0 is
returned and bound to directory index 0. -/
theorem fs_open_slots_witness :
    ∃ i k, i < FS_OPEN_MAX_COUNT ∧ is_open vol_one_file (i : Int) = false ∧
      (∀ j, j < i → is_open vol_one_file (j : Int) = true) ∧
      slot_of vol_one_file [97] = some k ∧
      fs_open vol_one_file [97] =
        ((i : Int),
          { vol_one_file with
            fd_table := vol_one_file.fd_table.set i ⟨(k : Int), 0⟩
            open_files := vol_one_file.open_files + 1 }) ∧
      (∀ j, j ≠ i → (fs_open vol_one_file [97]).2.fd_table[j]? = vol_one_file.fd_table[j]?) ∧
      (fs_open vol_one_file [97]).2.fd_table[i]? = some ⟨(k : Int), 0⟩ ∧
      (fs_open (fs_open vol_one_file [97]).2 [97]).1 ≠ (i : Int) :=
  (fs_open_slots vol_one_file [97] (Reached.mount boot [100] (some one_file_image) Reached.start)
    (by decide) (by decide) (by decide)).2 ⟨0, by decide, by decide⟩

/-! ## The handle's offset after `fs_read` -/

set_option maxRecDepth 100000 in
/-- C18 (the code departs from the claim): `fs_read` ends with
`fd_table[fd].offset += offset`, where `offset` is the old offset plus the
bytes read. After `fs_mount`, `fs_create("a")`, `fs_open("a")` and a write of
two bytes, the handle is at offset 2 of a file of size 2; a read of one byte
returns 0 bytes and leaves the handle at offset 4. After `fs_lseek(fd, 1)`
instead, a read of one byte returns 1 byte and leaves the handle at offset 3.
In both states the size of the file is still 2. -/
theorem offset_exceeds_size_after_read :
    (offset_of vol_a_two_bytes 0 = some 2 ∧
      (fs_stat vol_a_two_bytes 0).map (fun r => r.1) = .done 2) ∧
    (fs_read vol_a_two_bytes 0 false 1).map
      (fun r => (r.1, offset_of r.2.2 0, (fs_stat r.2.2 0).map (fun q => q.1)))
      = .done (0, some 4, .done 2) ∧
    (fs_read vol_a_seek1 0 false 1).map
      (fun r => (r.1, offset_of r.2.2 0, (fs_stat r.2.2 0).map (fun q => q.1)))
      = .done (1, some 3, .done 2) := by
  decide

/-! ## Overwriting a part of a file -/

/-- A list that agrees with `old` outside the positions `p .. p + len(data) - 1`
and with `data` there is `old` with `data` spliced in at `p`. -/
theorem splice_eq (old data new : List Nat) (p : Nat) (hp : p ≤ old.length)
    (hlen : new.length = Max.max old.length (p + data.length))
    (h1 : ∀ g, g < p → new[g]? = old[g]?)
    (h2 : ∀ g, g < data.length → new[p + g]? = data[g]?)
    (h3 : ∀ g, p + data.length ≤ g → g < old.length → new[g]? = old[g]?) :
    new = old.take p ++ data ++ old.drop (p + data.length) := by
  have htl : (old.take p).length = p := by rw [List.length_take]; omega
  apply List.ext_getElem?
  intro g
  rcases Nat.lt_or_ge g p with hg | hg
  · rw [List.getElem?_append_left (by rw [List.length_append, htl]; omega),
      List.getElem?_append_left (by rw [htl]; exact hg), List.getElem?_take_of_lt hg]
    exact h1 g hg
  · rcases Nat.lt_or_ge g (p + data.length) with hg2 | hg2
    · rw [List.getElem?_append_left (by rw [List.length_append, htl]; omega),
        List.getElem?_append_right (by rw [htl]; exact hg), htl]
      have := h2 (g - p) (by omega)
      rw [← this]
      congr 1
      omega
    · rw [List.getElem?_append_right (by rw [List.length_append, htl]; omega),
        List.length_append, htl, List.getElem?_drop]
      have hidx : p + data.length + (g - (p + data.length)) = g := by omega
      rw [hidx]
      rcases Nat.lt_or_ge g old.length with hg3 | hg3
      · exact h3 g hg2 hg3
      · rw [List.getElem?_eq_none hg3, List.getElem?_eq_none (by omega)]

theorem chain_bytes_length (s : FS) (R : List Nat) (n : Nat) : (chain_bytes s R n).length = n := by
  unfold chain_bytes
  rw [List.length_map, List.length_range]

theorem chain_bytes_get (s : FS) (R : List Nat) (n g : Nat) (hg : g < n) :
    (chain_bytes s R n)[g]? =
      some (s.disk.data_blocks (R.getD (g / BLOCK_SIZE) 0 + s.sblock.data_start_idx)
        (g % BLOCK_SIZE)) := by
  unfold chain_bytes
  rw [List.getElem?_map, List.getElem?_range hg]
  rfl

theorem prefix_getD (L L2 : List Nat) (hpre : L <+: L2) (i : Nat) (hi : i < L.length) :
    L2.getD i 0 = L.getD i 0 := by
  obtain ⟨t, ht⟩ := hpre
  rw [← ht, List.getD_eq_getElem?_getD, List.getD_eq_getElem?_getD,
    List.getElem?_append_left hi]

/-- The bytes of the file after a write that was completed: the old bytes with
the data spliced in at the handle's offset. -/
theorem write_done_contents (s : FS) (fd : Int) (data : List Nat) (h : FDEntry)
    (e : RootDirEntry) (L : List Nat) (s2 : FS) (first : Nat) (L2 : List Nat)
    (hlen : L.length = (e.size + (BLOCK_SIZE - 1)) / BLOCK_SIZE) (hoff : h.offset ≤ e.size)
    (hd : WriteDone s fd data data.length h e L data.length s2 first L2) :
    chain_bytes s2 L2 (Max.max e.size (h.offset + data.length)) =
      (chain_bytes s L e.size).take h.offset ++ data ++
        (chain_bytes s L e.size).drop (h.offset + data.length) := by
  have hnd := isWalk_nodup _ _ _ hd.chain
  have hlen2 := hd.length
  -- a position outside the written range keeps its byte
  have hkeep : ∀ g, g < e.size → (g < h.offset ∨ h.offset + data.length ≤ g) →
      (chain_bytes s2 L2 (Max.max e.size (h.offset + data.length)))[g]?
        = (chain_bytes s L e.size)[g]? := by
    intro g hg hout
    rw [chain_bytes_get _ _ _ _ (by omega), chain_bytes_get _ _ _ _ hg]
    have hgL : g / BLOCK_SIZE < L.length := by
      rw [hlen]
      unfold BLOCK_SIZE
      omega
    rw [hd.sblock, prefix_getD L L2 hd.pre _ hgL]
    congr 1
    rw [← prefix_getD L L2 hd.pre _ hgL]
    apply hd.untouched
    rintro g2 hg2 ⟨hb, ht⟩
    have hi1 : g / BLOCK_SIZE < L2.length := Nat.lt_of_lt_of_le hgL hd.pre.length_le
    have hi2 : (h.offset + g2) / BLOCK_SIZE < L2.length := by
      rw [hlen2]
      unfold BLOCK_SIZE
      omega
    have hidx := nodup_getD_inj L2 hnd _ _ hi1 hi2 0 0 (by omega)
    have h1 := Nat.div_add_mod g BLOCK_SIZE
    have h2 := Nat.div_add_mod (h.offset + g2) BLOCK_SIZE
    rw [hidx, ht] at h1
    omega
  apply splice_eq
  · rw [chain_bytes_length]; exact hoff
  · rw [chain_bytes_length, chain_bytes_length]
  · intro g hg
    exact hkeep g (by omega) (Or.inl hg)
  · intro g hg
    rw [chain_bytes_get _ _ _ _ (by omega), hd.sblock, hd.written g hg,
      List.getD_eq_getElem?_getD, List.getElem?_eq_getElem hg]
    rfl
  · intro g hg1 hg2
    rw [chain_bytes_length] at hg2
    exact hkeep g hg2 (Or.inr hg1)

/-- More fuel does not change the result of the `while` loop of `fs_write`. -/
theorem write_loop_mono (buf : List Nat) (fuel : Nat) :
    ∀ (w w2 : WriteVars), write_loop buf fuel w = .done w2 →
      ∀ k, write_loop buf (fuel + k) w = .done w2 := by
  induction fuel with
  | zero =>
    intro w w2 h k
    unfold write_loop at h
    split at h
    · rename_i hc
      cases h
      cases k with
      | zero => unfold write_loop; rw [if_pos hc]
      | succ k =>
        rw [Nat.zero_add]
        unfold write_loop
        rw [if_pos hc]
    · cases h
  | succ fuel ih =>
    intro w w2 h k
    have hk : fuel + 1 + k = (fuel + k) + 1 := by omega
    rw [hk]
    unfold write_loop at h ⊢
    split at h
    · rename_i hc
      rw [if_pos hc]
      exact h
    · rename_i hc
      rw [if_neg hc]
      cases hi : write_iter buf w with
      | fault => rw [hi] at h; cases h
      | diverge => rw [hi] at h; cases h
      | done p =>
        obtain ⟨w1, b⟩ := p
        rw [hi] at h
        cases b with
        | false => exact h
        | true =>
          simp only at h ⊢
          exact ih w1 w2 h k

/-- More fuel does not change the result of a call of `fs_write` that
returns. -/
theorem fs_write_mono (s : FS) (fd : Int) (buf : Option (List Nat)) (n fuel k : Nat)
    (x : Int × FS) (h : fs_write s fd buf n fuel = .done x) :
    fs_write s fd buf n (fuel + k) = .done x := by
  unfold fs_write at h ⊢
  cases buf with
  | none => exact h
  | some data =>
    simp only at h ⊢
    by_cases hg : (!s.is_mounted || !valid_fd fd || !is_open s fd) = true
    · rw [if_pos hg] at h ⊢
      exact h
    · rw [if_neg hg] at h ⊢
      by_cases hc : n = 0
      · rw [if_pos hc] at h ⊢
        exact h
      · rw [if_neg hc] at h ⊢
        cases hh : s.fd_table[fd.toNat]? with
        | none => rw [hh] at h; cases h
        | some hd =>
          rw [hh] at h
          simp only at h ⊢
          cases he : root_dir_at s hd.fd_num with
          | none => rw [he] at h; cases h
          | some e =>
            rw [he] at h
            simp only at h ⊢
            cases hhead : write_head s hd.fd_num.toNat e with
            | inl r =>
              rw [hhead] at h
              exact h
            | inr p =>
              obtain ⟨s1, first⟩ := p
              rw [hhead] at h
              simp only at h ⊢
              cases hwalk : write_walk s1.fat_array (hd.offset / BLOCK_SIZE) first first with
              | fault => rw [hwalk] at h; cases h
              | diverge => rw [hwalk] at h; cases h
              | done q =>
                obtain ⟨prev, curr⟩ := q
                rw [hwalk] at h
                simp only at h ⊢
                cases hloop : write_loop data fuel
                    ⟨s1, n, hd.offset, intra_block hd.offset, 0, prev, curr⟩ with
                | fault => rw [hloop] at h; cases h
                | diverge => rw [hloop] at h; cases h
                | done w =>
                  rw [hloop] at h
                  rw [write_loop_mono data fuel _ w hloop k]
                  exact h

/-- A request of `2 ^ 31` bytes or more is never written in full: the `int`
value of `count` that reaches `min` stays below `2 ^ 31`, so `count` never
reaches 0. -/
theorem fs_write_full_small (s : FS) (fd : Int) (data : List Nat) (n fuel : Nat) (s2 : FS)
    (h : fs_write s fd (some data) n fuel = .done ((n : Int), s2)) : n < 2 ^ 31 := by
  by_contra hn
  rcases fs_write_cases s fd data n fuel _ s2 h with ⟨h1, _, _⟩ |
    ⟨_, _, ⟨_, _, h3⟩ | ⟨hd, e, hc, hh, he, hrest⟩⟩
  · omega
  · omega
  · rcases hrest with hhead | ⟨s1, first, prev, curr, w, hhead, _, hloop, hfin⟩
    · obtain ⟨h1, _, _⟩ := write_head_inl _ _ _ _ _ hhead
      omega
    · obtain ⟨_, _, b3, b4, b5⟩ := write_loop_frame data fuel _ w hloop
      simp only at b3 b4 b5
      have hQ : 2 ^ 31 ≤ w.count := by
        refine write_loop_preserves data (fun v => 2 ^ 31 ≤ v.count) ?_ ?_ fuel _ w ?_ hloop
        · intro v v1 hP ha
          rcases write_alloc_some v v1 ha with ⟨_, h1⟩ | ⟨_, idx, _, _, h1⟩
          · rw [h1]; exact hP
          · rw [h1]; exact hP
        · intro v v2 hP hb
          obtain ⟨m, nxt, _, _, hm, _, _, _, h2⟩ := write_block_some data v v2 hb
          rw [h2]
          simp only
          have h1 := min_le_left (toInt32 v.count) ((BLOCK_SIZE : Int) - v.offset_in_block)
          have h3 : toInt32 v.count = ((v.count % 2 ^ 32 : Nat) : Int) ∨
              toInt32 v.count < 0 := by
            unfold toInt32
            split
            · exact Or.inl rfl
            · right
              have := Nat.mod_lt v.count (show 0 < 2 ^ 32 by decide)
              omega
          simp only at hP
          rcases h3 with h3 | h3
          · have h4 : m ≤ v.count % 2 ^ 32 := by omega
            by_cases h5 : v.count % 2 ^ 32 < 2 ^ 31
            · omega
            · exfalso
              have : toInt32 v.count < 0 := by
                unfold toInt32
                rw [if_neg h5]
                have := Nat.mod_lt v.count (show 0 < 2 ^ 32 by decide)
                omega
              omega
          · omega
        · simp only
          omega
      obtain ⟨_, _, _, g4⟩ := write_finish_root_dir w fd hd hd.fd_num.toNat e
      have hr1 : (n : Int) = (write_finish w fd hd hd.fd_num.toNat e).1 := congrArg Prod.fst hfin
      rw [g4] at hr1
      omega

/-- C19 (as amended): on a mounted volume, for a file with contents `old`
whose chain `L`, the walk the code follows in the FAT from its first block to
`FAT_EOC`, has `ceil(size / 4096)` blocks, a handle at offset `p <= size` and
every `data`, where, in case the write needs a new block (`p + len(data)`
exceeds `4096 * ceil(size / 4096)`), either FAT entry 0 is free and one new
block is enough, or no FAT entry of the chain holds 0 and FAT entry 0 is in use
unless the file is empty: when `fs_write(fd, data, len(data))` returns
`len(data)`, the file is well-formed again: its size is
`max(size, p + len(data))` and its chain has that many bytes' worth of blocks;
its contents are `old[0 .. p)`, then `data`, then `old[p + len(data) .. size)`;
every byte of every data block other than the `len(data)` positions written is
unchanged; and no FAT entry of the chain holds 0 afterwards when none did
before and FAT entry 0 was in use in case the write extended a file that is not
empty past its last block. The write is completed whenever the request is
below `2 ^ 31` bytes and the chain with the free FAT entries has room for
it. -/
theorem overwrite_keeps_other_bytes (s : FS) (fd : Int) (data : List Nat) (h : FDEntry)
    (e : RootDirEntry) (L : List Nat) (hM : Mounted s) (hopen : is_open s fd = true)
    (hh : s.fd_table[fd.toNat]? = some h) (he : root_dir_at s h.fd_num = some e)
    (hchain : IsWalk s.fat_array e.first_db_idx L)
    (hlen : L.length = (e.size + (BLOCK_SIZE - 1)) / BLOCK_SIZE)
    (hoff : h.offset ≤ e.size)
    (hnew : BLOCK_SIZE * L.length < h.offset + data.length →
      (s.fat_array[0]? = some 0 ∧ h.offset + data.length ≤ BLOCK_SIZE * (L.length + 1)) ∨
      ((∀ x ∈ L, s.fat_array[x]? ≠ some 0) ∧ (e.size ≠ 0 → s.fat_array[0]? ≠ some 0))) :
    (∀ fuel s2,
      fs_write s fd (some data) data.length fuel = .done ((data.length : Int), s2) →
      ∃ e2 L2, root_dir_at s2 h.fd_num = some e2 ∧
        e2.size = Max.max e.size (h.offset + data.length) ∧
        IsWalk s2.fat_array e2.first_db_idx L2 ∧
        L2.length = (e2.size + (BLOCK_SIZE - 1)) / BLOCK_SIZE ∧
        chain_bytes s2 L2 e2.size =
          (chain_bytes s L e.size).take h.offset ++ data ++
            (chain_bytes s L e.size).drop (h.offset + data.length) ∧
        (∀ b t,
          (∀ g, g < data.length →
            ¬ (b = L2.getD ((h.offset + g) / BLOCK_SIZE) 0 + s.sblock.data_start_idx ∧
                t = (h.offset + g) % BLOCK_SIZE)) →
          s2.disk.data_blocks b t = s.disk.data_blocks b t) ∧
        ((∀ x ∈ L, s.fat_array[x]? ≠ some 0) →
          (e.size ≠ 0 → BLOCK_SIZE * L.length < h.offset + data.length →
            s.fat_array[0]? ≠ some 0) →
          ∀ x ∈ L2, s2.fat_array[x]? ≠ some 0)) ∧
    (∀ fuel, data.length < 2 ^ 31 → data.length ≤ fuel →
      (Max.max e.size (h.offset + data.length) + (BLOCK_SIZE - 1)) / BLOCK_SIZE
        ≤ L.length + zero_count s →
      ∃ s2, fs_write s fd (some data) data.length fuel = .done ((data.length : Int), s2)) := by
  have hsize : e.first_db_idx ≠ FAT_EOC → e.size ≠ 0 := by
    intro hne h0
    have hnil := List.length_pos.2 (isWalk_ne_nil _ _ _ hchain hne)
    rw [hlen, h0] at hnil
    revert hnil
    decide
  have hz0 : e.first_db_idx ≠ FAT_EOC →
      ((∀ x ∈ L, s.fat_array[x]? ≠ some 0) ∧ s.fat_array[0]? ≠ some 0) ∨
      (h.offset + data.length ≤ BLOCK_SIZE * (L.length + 1) ∧
        (h.offset + data.length ≤ BLOCK_SIZE * L.length ∨ s.fat_array[0]? = some 0)) := by
    intro hne
    rcases Nat.lt_or_ge (BLOCK_SIZE * L.length) (h.offset + data.length) with hext | hin
    · rcases hnew hext with ⟨h00, hone⟩ | ⟨huse, h0⟩
      · exact Or.inr ⟨hone, Or.inr h00⟩
      · exact Or.inl ⟨huse, h0 (hsize hne)⟩
    · exact Or.inr ⟨by unfold BLOCK_SIZE at *; omega, Or.inl hin⟩
  constructor
  · intro fuel s2 hres
    rcases Nat.eq_zero_or_pos data.length with hn | hn
    · have hdata : data = [] := List.length_eq_zero.1 hn
      subst hdata
      have hz := fs_write_zero s fd [] fuel hM.mounted hopen
      simp only [List.length_nil] at hres hz
      rw [hz] at hres
      simp only [Outcome.done.injEq, Prod.mk.injEq] at hres
      obtain ⟨_, hs2⟩ := hres
      subst hs2
      refine ⟨e, L, he, by simp only [List.length_nil]; omega, hchain, hlen, ?_,
        fun _ _ _ => rfl, fun hin _ => hin⟩
      simp only [List.append_nil, List.length_nil, Nat.add_zero, List.take_append_drop]
    · have hsmall := fs_write_full_small s fd data data.length fuel s2 hres
      have hres2 := fs_write_mono s fd (some data) data.length fuel data.length _ hres
      obtain ⟨m, s2', first, L2, hres3, hd⟩ := fs_write_done s fd data data.length
        (fuel + data.length) h e L hM hopen hh he hchain hlen hoff hz0 hn hsmall
        (by omega)
      rw [hres2] at hres3
      simp only [Outcome.done.injEq, Prod.mk.injEq] at hres3
      obtain ⟨hm, hs2⟩ := hres3
      have hm2 : m = data.length := by exact_mod_cast hm.symm
      subst hs2
      subst hm2
      refine ⟨_, L2, hd.entry, rfl, hd.chain, hd.length, ?_, hd.untouched, ?_⟩
      · exact write_done_contents s fd data h e L s2 first L2 hlen hoff hd
      · intro hin hfat0
        refine (hd.inuse hin ?_).1
        intro hne
        rcases Nat.lt_or_ge (BLOCK_SIZE * L.length) (h.offset + data.length) with hext | hin2
        · exact Or.inl (hfat0 (hsize hne) hext)
        · exact Or.inr hin2
  · intro fuel hsmall hfuel hroom
    rcases Nat.eq_zero_or_pos data.length with hn | hn
    · rw [hn]
      exact ⟨s, fs_write_zero s fd data fuel hM.mounted hopen⟩
    · obtain ⟨m, s2, first, L2, hres, hd⟩ := fs_write_done s fd data data.length fuel h e L hM
        hopen hh he hchain hlen hoff hz0 hn hsmall hfuel
      have hm : m = data.length := by
        rcases hd.short with h1 | ⟨h1, h2, h3⟩
        · exact h1
        · have h4 := hd.le
          rw [zero_count_eq s hM.fat_len] at hroom
          unfold BLOCK_SIZE at *
          omega
      rw [hm] at hres
      exact ⟨s2, hres⟩

set_option maxRecDepth 1000000 in
/-- The statement of `overwrite_keeps_other_bytes` at four volumes, where the
write is completed: at `vol_two_seek100` and at `vol_fat0_seek100`, where FAT
entry 0 is free, 3 bytes are written at offset 100 inside the first block of
the file `"a"`; at `vol_fat0`, where FAT entry 0 is free, one byte is
appended to the 4096 bytes of `"a"`, for which one new block is enough; and at
`vol_linked0_seek100`, where the chain of `"a"` runs through block 0, so that
FAT entry 1 holds 0, 3 bytes are written at offset 100. -/
theorem overwrite_keeps_other_bytes_witness :
    (∃ s2, fs_write vol_two_seek100 0 (some [1, 2, 3]) ([1, 2, 3] : List Nat).length 3
      = .done ((([1, 2, 3] : List Nat).length : Int), s2)) ∧
    (vol_fat0_seek100.fat_array[0]? = some 0 ∧
      ∃ s2, fs_write vol_fat0_seek100 0 (some [1, 2, 3]) ([1, 2, 3] : List Nat).length 3
        = .done ((([1, 2, 3] : List Nat).length : Int), s2)) ∧
    (vol_fat0.fat_array[0]? = some 0 ∧
      ∃ s2, fs_write vol_fat0 0 (some [9]) ([9] : List Nat).length 1
        = .done ((([9] : List Nat).length : Int), s2)) ∧
    (vol_linked0_seek100.fat_array[1]? = some 0 ∧
      ∃ s2, fs_write vol_linked0_seek100 0 (some [1, 2, 3]) ([1, 2, 3] : List Nat).length 3
        = .done ((([1, 2, 3] : List Nat).length : Int), s2)) :=
  ⟨(overwrite_keeps_other_bytes vol_two_seek100 0 [1, 2, 3] ⟨0, 100⟩ (file_entry 97 5000 1)
      [1, 2]
      ⟨by decide, by decide, by decide, by decide, by decide, by decide, by decide, by decide⟩
      (by decide) (by decide) (by decide)
      ⟨rfl, by decide, 2, by decide, rfl, by decide, FAT_EOC, by decide, rfl⟩
      (by decide) (by decide) (fun hext => absurd hext (by decide))).2 3 (by decide)
      (by decide) (by decide),
    ⟨by decide,
    (overwrite_keeps_other_bytes vol_fat0_seek100 0 [1, 2, 3] ⟨0, 100⟩ (file_entry 97 4096 1)
      [1]
      ⟨by decide, by decide, by decide, by decide, by decide, by decide, by decide, by decide⟩
      (by decide) (by decide) (by decide)
      ⟨rfl, by decide, FAT_EOC, by decide, rfl⟩
      (by decide) (by decide) (fun hext => absurd hext (by decide))).2 3 (by decide)
      (by decide) (by decide)⟩,
    ⟨by decide,
    (overwrite_keeps_other_bytes vol_fat0 0 [9] ⟨0, 4096⟩ (file_entry 97 4096 1)
      [1]
      ⟨by decide, by decide, by decide, by decide, by decide, by decide, by decide, by decide⟩
      (by decide) (by decide) (by decide)
      ⟨rfl, by decide, FAT_EOC, by decide, rfl⟩
      (by decide) (by decide) (fun _ => Or.inl ⟨by decide, by decide⟩)).2 1 (by decide)
      (by decide) (by decide)⟩,
    ⟨by decide,
    (overwrite_keeps_other_bytes vol_linked0_seek100 0 [1, 2, 3] ⟨0, 100⟩
      (file_entry 97 8192 1) [1, 0]
      ⟨by decide, by decide, by decide, by decide, by decide, by decide, by decide, by decide⟩
      (by decide) (by decide) (by decide)
      ⟨rfl, by decide, 0, by decide, rfl, by decide, FAT_EOC, by decide, rfl⟩
      (by decide) (by decide) (fun hext => absurd hext (by decide))).2 3 (by decide)
      (by decide) (by decide)⟩⟩

set_option maxRecDepth 1000000 in
/-- C19 as stated fails in two ways. (1) FAT entry 0 is free and the write
needs two new blocks. On the volume `vol_fat0` the file `"a"` has 4096 bytes in
block 1, all of them 0, every live entry satisfies the chain invariant, and
handle 0 stands at offset 4096. Writing 5000 bytes `9` is completed (the call
returns 5000), yet the first byte of the file, which lies before the handle's
offset, reads `9` afterwards: the extension links block 0, which makes entry 1
read as free, and the next allocation takes block 1 again and overwrites the
old contents. (2) The chain of the file has a FAT entry that holds 0 and the
write needs a new block. On the volume `vol_linked0` FAT entry 0 is in use,
the file `"a"` of 8192 bytes has the 2 blocks 1, 0, with FAT entry 1 holding
0, and handle 0 stands at offset 8192. Writing one byte `9` is completed (the
call returns 1), yet the first byte of the file reads `9` afterwards instead
of 0: the allocation takes block 1, the first FAT entry that holds 0. -/
theorem overwrite_changes_old_bytes :
    (ChainInv vol_fat0 ∧ offset_of vol_fat0 0 = some 4096 ∧
      (fs_stat vol_fat0 0).map (fun r => r.1) = .done 4096 ∧
      (fs_read (fs_lseek vol_fat0 0 0).state 0 false 1).map (fun r => (r.1, r.2.1))
        = .done (1, [0]) ∧
      (fs_write vol_fat0 0 (some (List.replicate 5000 9)) 5000 5000).map (fun r => r.1)
        = .done 5000 ∧
      (fs_read
          (fs_lseek (fs_write vol_fat0 0 (some (List.replicate 5000 9)) 5000 5000).state
            0 0).state
          0 false 1).map (fun r => (r.1, r.2.1))
        = .done (1, [9])) ∧
    (IsWalk vol_linked0.fat_array 1 [1, 0] ∧ vol_linked0.fat_array[0]? = some FAT_EOC ∧
      vol_linked0.root_dir[0]? = some (file_entry 97 8192 1) ∧
      fd_num_of vol_linked0 0 = some 0 ∧ offset_of vol_linked0 0 = some 8192 ∧
      (fs_read (fs_lseek vol_linked0 0 0).state 0 false 1).map (fun r => (r.1, r.2.1))
        = .done (1, [0]) ∧
      (fs_write vol_linked0 0 (some [9]) 1 1).map (fun r => r.1) = .done 1 ∧
      (fs_read (fs_lseek (fs_write vol_linked0 0 (some [9]) 1 1).state 0 0).state
          0 false 1).map (fun r => (r.1, r.2.1))
        = .done (1, [9])) := by
  refine ⟨⟨(chain_inv_check_iff _).1 (by decide), by decide, by decide, by decide, by decide,
    by decide⟩,
    ⟨⟨rfl, by decide, 0, by decide, rfl, by decide, FAT_EOC, by decide, rfl⟩, by decide,
      by decide, by decide, by decide, by decide, by decide, by decide⟩⟩

/-! ## Writes are confined to the file written -/

/-- A walk that starts at `FAT_EOC` or inside a set of blocks that is closed
under following FAT entries stays inside the set. -/
theorem walk_within (fat : List Nat) (S : Nat → Prop)
    (hcl : ∀ y v, S y → fat[y]? = some v → v = FAT_EOC ∨ S v) (l : List Nat) :
    ∀ b, IsWalk fat b l → (b = FAT_EOC ∨ S b) → ∀ x ∈ l, S x := by
  induction l with
  | nil => intro b _ _ x hx; cases hx
  | cons c l ih =>
    intro b hb hS x hx
    obtain ⟨hbc, hc, v, hv, hr⟩ := hb
    have hSc : S c := by
      rcases hS with h1 | h1
      · rw [hbc] at h1; exact absurd h1 hc
      · rw [← hbc]; exact h1
    rcases List.mem_cons.1 hx with hxc | hxl
    · rw [hxc]; exact hSc
    · exact ih v hr (hcl c v hSc hv) x hxl

theorem usable_lt (s1 : FS) (LA : List Nat) (first : Nat)
    (hchain : IsWalk s1.fat_array first LA) (y : Nat) (hy : Usable s1 LA y) :
    y < s1.fat_array.length := by
  rcases hy with hm | hz
  · obtain ⟨_, v, hv⟩ := isWalk_mem _ _ _ hchain y hm
    exact (List.getElem?_eq_some_iff.1 hv).1
  · exact (List.getElem?_eq_some_iff.1 hz).1

theorem iso_alloc {s1 : FS} {first : Nat} {LA : List Nat} (w w1 : WriteVars)
    (h : Iso s1 first LA w) (ha : write_alloc w = .done (some w1)) : Iso s1 first LA w1 := by
  rcases write_alloc_some w w1 ha with ⟨_, h1⟩ | ⟨hcur, idx, hfe, hprev, h1⟩
  · rw [h1]; exact h
  · have hsb : w.s.sblock = s1.sblock := by rw [h.rest]
    have hlenw : w.s.fat_array.length = w.s.sblock.data_block_amt := by
      rw [hsb, h.len_eq, h.geo]
    obtain ⟨hz, _⟩ := find_empty_some w.s idx hlenw hfe
    have hidx : idx < w.s.fat_array.length := (List.getElem?_eq_some_iff.1 hz).1
    have huse : Usable s1 LA idx := by
      rcases h.fat idx with hsame | ⟨hu, _⟩
      · right
        rw [← hsame]
        exact hz
      · exact hu
    rw [h1]
    constructor
    · exact h.chain
    · exact h.geo
    · exact h.small
    · simp only
      rw [h.rest]
    · simp only [List.length_set]
      exact h.len_eq
    · intro y
      simp only
      by_cases hy1 : y = idx
      · right
        subst hy1
        refine ⟨huse, FAT_EOC, ?_, Or.inl rfl⟩
        rw [List.getElem?_set, if_pos rfl, if_pos (by rw [List.length_set]; exact hidx)]
      · rw [List.getElem?_set, if_neg (Ne.symm hy1)]
        by_cases hy2 : y = w.prev_idx
        · right
          subst hy2
          refine ⟨h.prev, idx, ?_, Or.inr huse⟩
          rw [List.getElem?_set, if_pos rfl, if_pos hprev]
        · rw [List.getElem?_set, if_neg (Ne.symm hy2)]
          exact h.fat y
    · exact h.data
    · exact h.prev
    · right; right
      refine ⟨huse, ?_⟩
      simp only
      rw [List.getElem?_set, if_pos rfl, if_pos (by rw [List.length_set]; exact hidx)]

theorem iso_block {s1 : FS} {first : Nat} {LA : List Nat} (buf : List Nat) (w w2 : WriteVars)
    (h : Iso s1 first LA w) (hb : write_block buf w = .done (some w2)) :
    Iso s1 first LA w2 := by
  obtain ⟨n, nxt, _, _, _, _, _, hnxt, h2⟩ := write_block_some buf w w2 hb
  have hcurlt : w.curr_idx < w.s.fat_array.length := (List.getElem?_eq_some_iff.1 hnxt).1
  have hsb : w.s.sblock = s1.sblock := by rw [h.rest]
  -- the current block is usable, and its FAT entry leads to a good place
  have hcur : Usable s1 LA w.curr_idx ∧
      (nxt = FAT_EOC ∨ (w.s.fat_array = s1.fat_array ∧ nxt ∈ LA)) := by
    rcases h.curr with hc | ⟨hsame, hmem⟩ | ⟨hu, hv⟩
    · exfalso
      have h3 := h.small
      have h4 := h.len_eq
      rw [hc] at hcurlt
      unfold FAT_EOC at hcurlt
      omega
    · refine ⟨Or.inl hmem, ?_⟩
      obtain ⟨v, hv, hv2⟩ := isWalk_step _ _ _ h.chain _ hmem
      rw [hsame, hv] at hnxt
      cases hnxt
      rcases hv2 with hv2 | hv2
      · exact Or.inl hv2
      · exact Or.inr ⟨hsame, hv2⟩
    · refine ⟨hu, Or.inl ?_⟩
      rw [hv] at hnxt
      exact (Option.some.inj hnxt).symm
  rw [h2]
  constructor
  · exact h.chain
  · exact h.geo
  · exact h.small
  · simp only
    rw [h.rest]
    rfl
  · exact h.len_eq
  · exact h.fat
  · intro b
    simp only
    by_cases hbb : b = w.curr_idx + w.s.sblock.data_start_idx
    · right
      exact ⟨w.curr_idx, hcur.1, by rw [hbb, hsb]⟩
    · rcases h.data b with hd | hd
      · left
        show (put_data w.s.disk _ _).data_blocks b = _
        unfold put_data
        simp only
        rw [if_neg hbb]
        exact hd
      · exact Or.inr hd
  · exact hcur.1
  · rcases hcur.2 with hn | ⟨hsame, hmem⟩
    · exact Or.inl hn
    · exact Or.inr (Or.inl ⟨hsame, hmem⟩)

/-- The `while` loop of `fs_write` keeps the confinement invariant. -/
theorem iso_loop {s1 : FS} {first : Nat} {LA : List Nat} (buf : List Nat) (fuel : Nat)
    (w w2 : WriteVars) (h : Iso s1 first LA w) (hl : write_loop buf fuel w = .done w2) :
    Iso s1 first LA w2 :=
  write_loop_preserves buf (Iso s1 first LA) (fun v v1 hv ha => iso_alloc v v1 hv ha)
    (fun v v2 hv hb => iso_block buf v v2 hv hb) fuel w w2 h hl

/-- The state in which the loop of `fs_write` starts, seen from the state `s`
of the call: the file has the walk `LA1` in it, and what is usable in it was
usable in `s`. -/
theorem write_head_usable (s : FS) (h : FDEntry) (e : RootDirEntry) (L : List Nat) (s1 : FS)
    (first : Nat) (hM : Mounted s) (he : root_dir_at s h.fd_num = some e)
    (hchain : IsWalk s.fat_array e.first_db_idx L)
    (hhead : write_head s h.fd_num.toNat e = .inr (s1, first)) :
    ∃ LA1, IsWalk s1.fat_array first LA1 ∧ Mounted s1 ∧ first ∈ LA1 ∧
      L.length ≤ LA1.length ∧
      (∀ y, Usable s1 LA1 y → Usable s L y) ∧
      (∀ x, ¬ Usable s L x → s1.fat_array[x]? = s.fat_array[x]?) ∧
      s1.disk.data_blocks = s.disk.data_blocks ∧ s1.sblock = s.sblock ∧
      (∀ i, i ≠ h.fd_num.toNat → s1.root_dir[i]? = s.root_dir[i]?) ∧
      s1.root_dir.length = s.root_dir.length ∧
      (s1.root_dir.getD h.fd_num.toNat e).first_db_idx = first := by
  obtain ⟨hiA, hgetA, _⟩ := root_dir_at_some s h.fd_num e he
  have hiAlen : h.fd_num.toNat < s.root_dir.length := (List.getElem?_eq_some_iff.1 hgetA).1
  rcases write_head_inr _ _ _ _ _ hhead with ⟨hne, h1, h2⟩ | ⟨hfirst, hfe, _, _, h1⟩
  · subst h1 h2
    refine ⟨L, hchain, hM, isWalk_first_mem _ _ _ hchain hne, Nat.le_refl _, fun _ hy => hy,
      fun _ _ => rfl, rfl, rfl, fun _ _ => rfl, rfl, ?_⟩
    rw [List.getD_eq_getElem?_getD, hgetA]
    rfl
  · rw [hfirst] at hchain
    have hL : L = [] := isWalk_eoc _ _ hchain
    subst hL
    obtain ⟨hM1, _, hch1, _, _⟩ := head_state_facts s h.fd_num.toNat e first hM hfe
    obtain ⟨hz, _⟩ := find_empty_some s first hM.fat_len hfe
    subst h1
    have hfat : ∀ x, x ≠ first →
        (head_state s h.fd_num.toNat e first).fat_array[x]? = s.fat_array[x]? := by
      intro x hx
      show (s.fat_array.set _ _)[x]? = _
      rw [List.getElem?_set, if_neg (Ne.symm hx)]
    refine ⟨[first], isChain_isWalk _ _ _ hch1, hM1, List.mem_singleton.2 rfl, Nat.zero_le _,
      ?_, ?_, rfl, rfl, ?_, ?_, ?_⟩
    · intro y hy
      right
      rcases hy with hmem | hz1
      · rw [List.mem_singleton.1 hmem]
        exact hz
      · by_cases hyf : y = first
        · rw [hyf]; exact hz
        · rw [← hfat y hyf]
          exact hz1
    · intro x hx
      apply hfat
      intro hxf
      exact hx (Or.inr (by rw [hxf]; exact hz))
    · intro i hi
      show (s.root_dir.set _ _)[i]? = _
      rw [List.getElem?_set, if_neg (Ne.symm hi)]
    · show (s.root_dir.set _ _).length = _
      rw [List.length_set]
    · show ((s.root_dir.set _ _).getD _ _).first_db_idx = _
      rw [List.getD_eq_getElem?_getD, List.getElem?_set, if_pos rfl, if_pos hiAlen]
      rfl

/-- The walk of `fs_write` to the starting block, when it is started on a
block of the file and returns: both variables end on blocks of the file, or
`curr_idx` at `FAT_EOC`. -/
theorem write_walk_stays (fat : List Nat) (b : Nat) (l : List Nat) (h : IsWalk fat b l)
    (hlen : fat.length ≤ 65535) (k : Nat) : ∀ (prev curr p c : Nat), prev ∈ l →
      (curr = FAT_EOC ∨ curr ∈ l) → write_walk fat k prev curr = .done (p, c) →
      p ∈ l ∧ (c = FAT_EOC ∨ c ∈ l) := by
  induction k with
  | zero =>
    intro prev curr p c hp hc hw
    unfold write_walk at hw
    simp only [Outcome.done.injEq, Prod.mk.injEq] at hw
    rw [← hw.1, ← hw.2]
    exact ⟨hp, hc⟩
  | succ k ih =>
    intro prev curr p c hp hc hw
    unfold write_walk at hw
    rcases hc with hc | hc
    · have hnone : fat[curr]? = none := by
        apply List.getElem?_eq_none
        rw [hc]
        unfold FAT_EOC
        omega
      rw [hnone] at hw
      cases hw
    · obtain ⟨v, hv, hcase⟩ := isWalk_step fat l b h curr hc
      rw [hv] at hw
      exact ih curr v p c hc hcase hw

/-- The walk of `fs_write` to the starting block returns when the file has at
least as many blocks as the walk has steps. -/
theorem write_walk_returns (fat : List Nat) (l : List Nat) :
    ∀ (b k prev : Nat), IsWalk fat b l → k ≤ l.length →
      ∃ p c, write_walk fat k prev b = .done (p, c) := by
  induction l with
  | nil =>
    intro b k prev _ hk
    have hk0 : k = 0 := by simpa using hk
    subst hk0
    exact ⟨prev, b, rfl⟩
  | cons c l ih =>
    intro b k prev h hk
    cases k with
    | zero => exact ⟨prev, b, rfl⟩
    | succ k =>
      obtain ⟨hb, _, v, hv, hr⟩ := h
      unfold write_walk
      rw [hb, hv]
      exact ih v k c hr (by simpa using hk)

/-- The confinement invariant holds when the loop of `fs_write` is entered. -/
theorem iso_init (s1 : FS) (first : Nat) (LA : List Nat) (n p : Nat) (prev curr : Nat)
    (hM : Mounted s1) (hchain : IsWalk s1.fat_array first LA) (hmem : first ∈ LA)
    (hwalk : write_walk s1.fat_array (p / BLOCK_SIZE) first first = .done (prev, curr)) :
    Iso s1 first LA ⟨s1, n, p, intra_block p, 0, prev, curr⟩ := by
  have h16 : s1.fat_array.length ≤ 65535 := by rw [hM.fat_len]; exact hM.fat_16
  obtain ⟨hprev, hcurr⟩ := write_walk_stays _ _ _ hchain h16 _ first first prev curr hmem
    (Or.inr hmem) hwalk
  constructor
  · exact hchain
  · exact hM.fat_len
  · exact h16
  · rfl
  · rfl
  · intro y; exact Or.inl rfl
  · intro b; exact Or.inl rfl
  · exact Or.inl hprev
  · rcases hcurr with hc | hc
    · exact Or.inl hc
    · exact Or.inr (Or.inl ⟨rfl, hc⟩)

theorem confined_refl (s : FS) (h : FDEntry) (L : List Nat) : Confined s h L s :=
  ⟨rfl, fun _ _ => rfl, fun _ _ => ⟨rfl, rfl⟩⟩

/-- A call of `fs_write` that returns changes nothing but the entry written
to, blocks of its file and blocks that were free. -/
theorem fs_write_confined (s : FS) (fd : Int) (data : List Nat) (count fuel : Nat) (h : FDEntry)
    (e : RootDirEntry) (L : List Nat) (r : Int) (s2 : FS) (hM : Mounted s)
    (hh : s.fd_table[fd.toNat]? = some h) (he : root_dir_at s h.fd_num = some e)
    (hchain : IsWalk s.fat_array e.first_db_idx L)
    (hres : fs_write s fd (some data) count fuel = .done (r, s2)) :
    Confined s h L s2 := by
  rcases fs_write_cases s fd data count fuel r s2 hres with
    ⟨_, hs, _⟩ | ⟨_, _, ⟨_, hs, _⟩ | ⟨h2, e2, _, hh2, he2, hcase⟩⟩
  · rw [hs]; exact confined_refl s h L
  · rw [hs]; exact confined_refl s h L
  · rw [hh] at hh2
    cases hh2
    rw [he] at he2
    cases he2
    rcases hcase with hinl | ⟨s1, first, prev, curr, w, hhead, hwalk, hloop, hfin⟩
    · obtain ⟨_, _, ⟨_, hs⟩ | ⟨idx, _, hno, _⟩⟩ := write_head_inl _ _ _ _ _ hinl
      · rw [hs]; exact confined_refl s h L
      · exact absurd ⟨hM.opened, hM.rd_in⟩ hno
    · obtain ⟨LA1, hch1, hM1, hmem, _, hU, hF, hdata, hsb, hoth, _, _⟩ :=
        write_head_usable s h e L s1 first hM he hchain hhead
      have iso0 := iso_init s1 first LA1 count h.offset prev curr hM1 hch1 hmem hwalk
      have iso := iso_loop data fuel _ w iso0 hloop
      have hs2 : s2 = (write_finish w fd h h.fd_num.toNat e).2 := congrArg Prod.snd hfin
      have hwrd : w.s.root_dir = s1.root_dir := by rw [iso.rest]
      have hwsb : w.s.sblock = s1.sblock := by rw [iso.rest]
      have hwop : w.s.disk.opened = true := by rw [iso.rest]; exact hM1.opened
      have hwbc : w.s.sblock.rd_start_idx < w.s.disk.block_count := by
        rw [iso.rest]; exact hM1.rd_in
      obtain ⟨f1, f2, _, _⟩ := write_finish_root_dir w fd h h.fd_num.toNat e
      obtain ⟨_, g2, _, _, g5, _⟩ := write_finish_state w fd h h.fd_num.toNat e hwop hwbc
      rw [← hs2] at f1 f2 g2 g5
      refine ⟨?_, ?_, ?_⟩
      · rw [g2, hwsb, hsb]
      · intro i hi
        rw [f1, List.getElem?_set, if_neg (Ne.symm hi), hwrd]
        exact hoth i hi
      · intro x hx
        constructor
        · rw [f2]
          rcases iso.fat x with hl | ⟨hux, _⟩
          · rw [hl]; exact hF x hx
          · exact absurd (hU x hux) hx
        · rw [g5]
          rcases iso.data (x + s.sblock.data_start_idx) with hl | ⟨y, huy, hxy⟩
          · rw [hl, hdata]
          · rw [hsb] at hxy
            have hyx : y = x := by omega
            rw [hyx] at huy
            exact absurd (hU x huy) hx

theorem own_alloc {s1 : FS} {first : Nat} {LA A : List Nat} (w w1 : WriteVars)
    (h : Iso s1 first LA w) (hO : Own s1 LA A w) (ha : write_alloc w = .done (some w1)) :
    ∃ A1, Own s1 LA A1 w1 := by
  rcases write_alloc_some w w1 ha with ⟨_, h1⟩ | ⟨_, idx, hfe, hprev, h1⟩
  · rw [h1]; exact ⟨A, hO⟩
  · have hsb : w.s.sblock = s1.sblock := by rw [h.rest]
    have hlenw : w.s.fat_array.length = w.s.sblock.data_block_amt := by
      rw [hsb, h.len_eq, h.geo]
    obtain ⟨hidx0, _⟩ := find_empty_some w.s idx hlenw hfe
    have hidx : idx < w.s.fat_array.length := (List.getElem?_eq_some_iff.1 hidx0).1
    refine ⟨idx :: A, ?_⟩
    rw [h1]
    constructor
    · intro y hy
      rcases List.mem_cons.1 hy with hyi | hyA
      · rw [hyi]
        rcases h.fat idx with hl | ⟨hu, _⟩
        · right
          rw [← hl]
          exact hidx0
        · exact hu
      · exact hO.sub y hyA
    · intro y hy
      show ∃ v, ((w.s.fat_array.set w.prev_idx idx).set idx FAT_EOC)[y]? = some v ∧ _
      by_cases hyi : y = idx
      · refine ⟨FAT_EOC, ?_, Or.inl rfl⟩
        rw [hyi, List.getElem?_set, if_pos rfl, if_pos (by rw [List.length_set]; exact hidx)]
      · by_cases hyp : y = w.prev_idx
        · refine ⟨idx, ?_, Or.inr (Or.inr (List.mem_cons_self _ _))⟩
          rw [List.getElem?_set, if_neg (Ne.symm hyi), hyp, List.getElem?_set, if_pos rfl,
            if_pos hprev]
        · have hy2 : y ∈ LA ∨ y ∈ A := by
            rcases hy with hy | hy
            · exact Or.inl hy
            · rcases List.mem_cons.1 hy with hy | hy
              · exact absurd hy hyi
              · exact Or.inr hy
          obtain ⟨v, hv, hcase⟩ := hO.closed y hy2
          refine ⟨v, ?_, ?_⟩
          · rw [List.getElem?_set, if_neg (Ne.symm hyi), List.getElem?_set,
              if_neg (Ne.symm hyp)]
            exact hv
          · rcases hcase with hc | hc | hc
            · exact Or.inl hc
            · exact Or.inr (Or.inl hc)
            · exact Or.inr (Or.inr (List.mem_cons_of_mem _ hc))
    · show w.prev_idx ∈ LA ∨ w.prev_idx ∈ idx :: A
      rcases hO.prev with hp | hp
      · exact Or.inl hp
      · exact Or.inr (List.mem_cons_of_mem _ hp)
    · exact Or.inr (Or.inr (List.mem_cons_self _ _))

theorem own_block {s1 : FS} {first : Nat} {LA A : List Nat} (buf : List Nat)
    (w w2 : WriteVars) (h : Iso s1 first LA w) (hO : Own s1 LA A w)
    (hb : write_block buf w = .done (some w2)) : Own s1 LA A w2 := by
  obtain ⟨n, nxt, _, _, _, _, _, hnxt, h2⟩ := write_block_some buf w w2 hb
  have hcne : w.curr_idx ≠ FAT_EOC := by
    intro hc
    have hlt : w.curr_idx < w.s.fat_array.length := (List.getElem?_eq_some_iff.1 hnxt).1
    have h1 := h.small
    have h3 := h.len_eq
    rw [hc] at hlt
    unfold FAT_EOC at hlt
    omega
  have hcm : w.curr_idx ∈ LA ∨ w.curr_idx ∈ A := by
    rcases hO.curr with hc | hc
    · exact absurd hc hcne
    · exact hc
  rw [h2]
  constructor
  · exact hO.sub
  · exact hO.closed
  · exact hcm
  · show nxt = FAT_EOC ∨ nxt ∈ LA ∨ nxt ∈ A
    obtain ⟨v, hv, hcase⟩ := hO.closed _ hcm
    rw [hnxt] at hv
    cases hv
    exact hcase

/-- The loop of `fs_write` keeps the confinement invariant together with the
set of blocks it has allocated. -/
theorem own_loop {s1 : FS} {first : Nat} {LA : List Nat} (buf : List Nat) (fuel : Nat)
    (w w2 : WriteVars) (h : Iso s1 first LA w) (hO : ∃ A, Own s1 LA A w)
    (hl : write_loop buf fuel w = .done w2) :
    Iso s1 first LA w2 ∧ ∃ A, Own s1 LA A w2 :=
  write_loop_preserves buf (fun v => Iso s1 first LA v ∧ ∃ A, Own s1 LA A v)
    (fun v v1 hv ha =>
      match hv with
      | ⟨hi, _, hA⟩ => ⟨iso_alloc v v1 hi ha, own_alloc v v1 hi hA ha⟩)
    (fun v v2 hv hb =>
      match hv with
      | ⟨hi, A, hA⟩ => ⟨iso_block buf v v2 hi hb, A, own_block buf v v2 hi hA hb⟩)
    fuel w w2 ⟨h, hO⟩ hl

theorem own_init (s1 : FS) (first : Nat) (LA : List Nat) (n p : Nat) (prev curr : Nat)
    (hM : Mounted s1) (hchain : IsWalk s1.fat_array first LA) (hmem : first ∈ LA)
    (hwalk : write_walk s1.fat_array (p / BLOCK_SIZE) first first = .done (prev, curr)) :
    Own s1 LA [] ⟨s1, n, p, intra_block p, 0, prev, curr⟩ := by
  have h16 : s1.fat_array.length ≤ 65535 := by rw [hM.fat_len]; exact hM.fat_16
  obtain ⟨hprev, hcurr⟩ := write_walk_stays _ _ _ hchain h16 _ first first prev curr hmem
    (Or.inr hmem) hwalk
  constructor
  · intro y hy; cases hy
  · intro y hy
    rcases hy with hy | hy
    · obtain ⟨v, hv, hcase⟩ := isWalk_step _ _ _ hchain y hy
      refine ⟨v, hv, ?_⟩
      rcases hcase with hc | hc
      · exact Or.inl hc
      · exact Or.inr (Or.inl hc)
    · cases hy
  · exact Or.inl hprev
  · rcases hcurr with hc | hc
    · exact Or.inl hc
    · exact Or.inr (Or.inl hc)

theorem owned_refl (s : FS) (h : FDEntry) (e : RootDirEntry) (L : List Nat)
    (he : root_dir_at s h.fd_num = some e) (hchain : IsWalk s.fat_array e.first_db_idx L) :
    Owned s h L s := by
  obtain ⟨_, hgetA, _⟩ := root_dir_at_some s h.fd_num e he
  refine ⟨fun y => y ∈ L, fun y hy => Or.inl hy, ?_, ?_⟩
  · intro y v hy hv
    obtain ⟨v2, hv2, hcase⟩ := isWalk_step _ _ _ hchain y hy
    rw [hv] at hv2
    cases hv2
    exact hcase
  · intro e2 hget
    rw [hgetA] at hget
    cases hget
    by_cases hf : e.first_db_idx = FAT_EOC
    · exact Or.inl hf
    · exact Or.inr (isWalk_first_mem _ _ _ hchain hf)

/-- After a call of `fs_write` that returns, every block reached from the
first block of the entry written to was a block of its file or free
before the call. -/
theorem fs_write_owned (s : FS) (fd : Int) (data : List Nat) (count fuel : Nat) (h : FDEntry)
    (e : RootDirEntry) (L : List Nat) (r : Int) (s2 : FS) (hM : Mounted s)
    (hh : s.fd_table[fd.toNat]? = some h) (he : root_dir_at s h.fd_num = some e)
    (hchain : IsWalk s.fat_array e.first_db_idx L)
    (hres : fs_write s fd (some data) count fuel = .done (r, s2)) :
    Owned s h L s2 := by
  obtain ⟨hiA, hgetA, _⟩ := root_dir_at_some s h.fd_num e he
  have hiAlen : h.fd_num.toNat < s.root_dir.length := (List.getElem?_eq_some_iff.1 hgetA).1
  rcases fs_write_cases s fd data count fuel r s2 hres with
    ⟨_, hs, _⟩ | ⟨_, _, ⟨_, hs, _⟩ | ⟨h2, e2, _, hh2, he2, hcase⟩⟩
  · rw [hs]; exact owned_refl s h e L he hchain
  · rw [hs]; exact owned_refl s h e L he hchain
  · rw [hh] at hh2
    cases hh2
    rw [he] at he2
    cases he2
    rcases hcase with hinl | ⟨s1, first, prev, curr, w, hhead, hwalk, hloop, hfin⟩
    · obtain ⟨_, _, ⟨_, hs⟩ | ⟨idx, _, hno, _⟩⟩ := write_head_inl _ _ _ _ _ hinl
      · rw [hs]; exact owned_refl s h e L he hchain
      · exact absurd ⟨hM.opened, hM.rd_in⟩ hno
    · obtain ⟨LA1, hch1, hM1, hmem, _, hU, _, _, _, _, hlen, hfirstE⟩ :=
        write_head_usable s h e L s1 first hM he hchain hhead
      have iso0 := iso_init s1 first LA1 count h.offset prev curr hM1 hch1 hmem hwalk
      have own0 := own_init s1 first LA1 count h.offset prev curr hM1 hch1 hmem hwalk
      obtain ⟨iso, A, hO⟩ := own_loop data fuel _ w iso0 ⟨[], own0⟩ hloop
      have hs2 : s2 = (write_finish w fd h h.fd_num.toNat e).2 := congrArg Prod.snd hfin
      have hwrd : w.s.root_dir = s1.root_dir := by rw [iso.rest]
      obtain ⟨f1, f2, _, _⟩ := write_finish_root_dir w fd h h.fd_num.toNat e
      rw [← hs2] at f1 f2
      have hlt : h.fd_num.toNat < w.s.root_dir.length := by
        rw [hwrd, hlen]
        exact hiAlen
      refine ⟨fun y => y ∈ LA1 ∨ y ∈ A, ?_, ?_, ?_⟩
      · intro y hy
        rcases hy with hy | hy
        · exact hU y (Or.inl hy)
        · exact hU y (hO.sub y hy)
      · intro y v hy hv
        rw [f2] at hv
        obtain ⟨v2, hv2, hcase2⟩ := hO.closed y hy
        rw [hv] at hv2
        cases hv2
        exact hcase2
      · intro e2 hget
        rw [f1, List.getElem?_set, if_pos rfl, if_pos hlt] at hget
        cases hget
        right
        left
        show (w.s.root_dir.getD _ _).first_db_idx ∈ LA1
        rw [hwrd, hfirstE]
        exact hmem

/-- The allocation step of the loop of `fs_write` does not fault in a state
that satisfies the confinement invariant. -/
theorem iso_alloc_total {s1 : FS} {first : Nat} {LA : List Nat} (w : WriteVars)
    (h : Iso s1 first LA w) : ∃ o, write_alloc w = .done o := by
  have hprev : w.prev_idx < w.s.fat_array.length := by
    rw [h.len_eq]
    exact usable_lt s1 LA first h.chain _ h.prev
  unfold write_alloc
  by_cases hc : w.curr_idx = FAT_EOC
  · rw [if_pos hc]
    cases hfe : find_empty_FAT_entry w.s with
    | none => exact ⟨_, rfl⟩
    | some idx =>
      simp only
      rw [if_pos hprev]
      exact ⟨_, rfl⟩
  · rw [if_neg hc]
    exact ⟨_, rfl⟩

/-- The block on which the loop of `fs_write` stands has a FAT entry. -/
theorem iso_curr_some {s1 : FS} {first : Nat} {LA : List Nat} (w : WriteVars)
    (h : Iso s1 first LA w) (hc : w.curr_idx ≠ FAT_EOC) :
    ∃ nxt, w.s.fat_array[w.curr_idx]? = some nxt := by
  rcases h.curr with h1 | ⟨hfat, hm⟩ | ⟨_, hv⟩
  · exact absurd h1 hc
  · obtain ⟨_, v, hv⟩ := isWalk_mem _ _ _ h.chain _ hm
    rw [hfat]
    exact ⟨v, hv⟩
  · exact ⟨_, hv⟩

/-- The loop of `fs_write` returns when fewer than `2 ^ 31` bytes are left to
write and the fuel covers them: every pass writes at least one byte. -/
theorem iso_loop_returns {s1 : FS} {first : Nat} {LA : List Nat} (buf : List Nat)
    (hM : Mounted s1) (fuel : Nat) :
    ∀ (w : WriteVars), Iso s1 first LA w → w.count < 2 ^ 31 →
      w.offset_in_block < BLOCK_SIZE → w.count ≤ fuel →
      ∃ w2, write_loop buf fuel w = .done w2 := by
  induction fuel with
  | zero =>
    intro w _ _ _ hf
    unfold write_loop
    rw [if_pos (by omega)]
    exact ⟨w, rfl⟩
  | succ fuel ih =>
    intro w h hsmall hoib hf
    unfold write_loop
    by_cases hc0 : w.count = 0
    · rw [if_pos hc0]
      exact ⟨w, rfl⟩
    · rw [if_neg hc0]
      unfold write_iter
      obtain ⟨o, ha⟩ := iso_alloc_total w h
      rw [ha]
      cases o with
      | none => exact ⟨w, rfl⟩
      | some w1 =>
        simp only
        have h1 := iso_alloc w w1 h ha
        have hw1 : w1.count = w.count ∧ w1.offset_in_block = w.offset_in_block ∧
            w1.curr_idx ≠ FAT_EOC := by
          rcases write_alloc_some w w1 ha with ⟨hne, e1⟩ | ⟨_, idx, hfe, _, e1⟩
          · rw [e1]; exact ⟨rfl, rfl, hne⟩
          · have hsb : w.s.sblock = s1.sblock := by rw [h.rest]
            have hlenw : w.s.fat_array.length = w.s.sblock.data_block_amt := by
              rw [hsb, h.len_eq, h.geo]
            obtain ⟨hidx0, _⟩ := find_empty_some w.s idx hlenw hfe
            have hidx : idx < w.s.fat_array.length := (List.getElem?_eq_some_iff.1 hidx0).1
            rw [e1]
            refine ⟨rfl, rfl, ?_⟩
            show idx ≠ FAT_EOC
            have := h.len_eq
            have := h.small
            unfold FAT_EOC
            omega
        obtain ⟨hcnt, hoib1, hcne⟩ := hw1
        obtain ⟨nxt, hnxt⟩ := iso_curr_some w1 h1 hcne
        have hlt : w1.curr_idx < s1.fat_array.length := by
          rw [← h1.len_eq]
          exact (List.getElem?_eq_some_iff.1 hnxt).1
        have hopen : w1.s.disk.opened = true := by rw [h1.rest]; exact hM.opened
        have hin : w1.curr_idx + w1.s.sblock.data_start_idx < w1.s.disk.block_count := by
          have e1 : w1.s.sblock = s1.sblock := by rw [h1.rest]
          have e2 : w1.s.disk.block_count = s1.disk.block_count := by rw [h1.rest]
          rw [e1, e2]
          have := hM.data_in
          have := hM.fat_len
          omega
        have hb := write_block_eq buf w1 nxt hopen hin (by rw [hcnt]; exact hsmall)
          (by rw [hoib1]; exact hoib) hnxt
        rw [hb]
        simp only
        have h2 := iso_block buf w1 _ h1 hb
        apply ih _ h2
        · show w1.count - _ < 2 ^ 31
          omega
        · show 0 < BLOCK_SIZE
          decide
        · show w1.count - Min.min w1.count (BLOCK_SIZE - w1.offset_in_block) ≤ fuel
          have hmin : 1 ≤ Min.min w1.count (BLOCK_SIZE - w1.offset_in_block) := by
            rw [hcnt, hoib1]
            apply Nat.le_min.2
            constructor
            · omega
            · omega
          omega

/-- On a mounted volume `fs_write` returns when the file of the handle has at
least as many blocks as the walk to the handle's offset has steps, fewer than
`2 ^ 31` bytes are asked for and the fuel covers them. -/
theorem fs_write_returns (s : FS) (fd : Int) (data : List Nat) (count fuel : Nat) (h : FDEntry)
    (e : RootDirEntry) (L : List Nat) (hM : Mounted s) (hopen : is_open s fd = true)
    (hh : s.fd_table[fd.toNat]? = some h) (he : root_dir_at s h.fd_num = some e)
    (hchain : IsWalk s.fat_array e.first_db_idx L)
    (hreach : h.offset / BLOCK_SIZE ≤ L.length)
    (hsmall : count < 2 ^ 31) (hfuel : count ≤ fuel) :
    ∃ r s2, fs_write s fd (some data) count fuel = .done (r, s2) := by
  rcases Nat.eq_zero_or_pos count with hc0 | hc
  · rw [hc0]
    exact ⟨0, s, fs_write_zero s fd data fuel hM.mounted hopen⟩
  have hv := is_open_valid s fd hopen
  have hpre : fs_write s fd (some data) count fuel =
      match write_head s h.fd_num.toNat e with
      | .inl r => .done r
      | .inr (s1, first_db_idx) =>
        match write_walk s1.fat_array (h.offset / BLOCK_SIZE) first_db_idx first_db_idx with
        | .fault => .fault
        | .diverge => .diverge
        | .done (prev_idx, curr_idx) =>
          match write_loop data fuel
              ⟨s1, count, h.offset, intra_block h.offset, 0, prev_idx, curr_idx⟩ with
          | .fault => .fault
          | .diverge => .diverge
          | .done w => .done (write_finish w fd h h.fd_num.toNat e) := by
    unfold fs_write
    simp only [hM.mounted, hv, hopen, Bool.not_true, Bool.or_self, Bool.false_eq_true, if_false]
    rw [if_neg (by omega), hh]
    simp only
    rw [he]
    try rfl
  rw [hpre]
  cases hhead : write_head s h.fd_num.toNat e with
  | inl r => exact ⟨r.1, r.2, rfl⟩
  | inr p =>
    obtain ⟨s1, first⟩ := p
    simp only
    obtain ⟨LA1, hch1, hM1, hmem, hlen1, _, _, _, _, _, _, _⟩ :=
      write_head_usable s h e L s1 first hM he hchain hhead
    obtain ⟨prev, curr, hw⟩ := write_walk_returns s1.fat_array LA1 first (h.offset / BLOCK_SIZE)
      first hch1 (Nat.le_trans hreach hlen1)
    rw [hw]
    simp only
    have iso0 := iso_init s1 first LA1 count h.offset _ _ hM1 hch1 hmem hw
    have hoib : intra_block h.offset < BLOCK_SIZE := by
      rw [intra_block_eq]
      exact Nat.mod_lt _ (by decide)
    obtain ⟨w2, hl⟩ := iso_loop_returns data hM1 fuel _ iso0 hsmall hoib hfuel
    rw [hl]
    exact ⟨_, _, rfl⟩

theorem chains_disjoint_of_check (s : FS) (h : chains_disjoint_check s = true) :
    ChainsDisjoint s := by
  intro i j ei ej Li Lj hi hj hij hei hej hli _ hci hcj x hx
  unfold chains_disjoint_check at h
  rw [List.all_eq_true] at h
  exact chains_apart_of_check s j (h j (List.mem_range.2 hj)) ej Lj i ei Li hej hcj hi hij hei
    hli hci x hx

theorem hasChains_of_check (s : FS) (h : has_chains_check s = true) : HasChains s := by
  intro i e hi hget hlive
  unfold has_chains_check at h
  rw [List.all_eq_true] at h
  have hmem : e ∈ s.root_dir.take FS_FILE_MAX_COUNT := by
    apply List.mem_iff_getElem?.2
    exact ⟨i, by rw [List.getElem?_take_of_lt hi]; exact hget⟩
  have := h e hmem
  simp only [Bool.or_eq_true, beq_iff_eq] at this
  rcases this with h0 | h1
  · exact absurd h0 hlive
  · obtain ⟨l, hl⟩ := Option.isSome_iff_exists.1 h1
    exact ⟨l, chain_of_sound _ _ _ l hl⟩

theorem walksDisjoint_chains (s : FS) (h : WalksDisjoint s) : ChainsDisjoint s :=
  fun i j ei ej Li Lj hi hj hij hei hej hli hlj hci hcj =>
    h i j ei ej Li Lj hi hj hij hei hej hli hlj (isChain_isWalk _ _ _ hci)
      (isChain_isWalk _ _ _ hcj)

/-- The blocks of the chain of another live entry are neither blocks of the
file written to nor free. -/
theorem other_chain_not_usable (s : FS) (iA : Nat) (eA : RootDirEntry) (LA : List Nat)
    (hdis : WalksDisjoint s) (hiA : iA < FS_FILE_MAX_COUNT) (hgetA : s.root_dir[iA]? = some eA)
    (hliveA : eA.name.headD 0 ≠ 0) (hLA : IsWalk s.fat_array eA.first_db_idx LA)
    (iB : Nat) (eB : RootDirEntry) (LB : List Nat) (hiB : iB < FS_FILE_MAX_COUNT)
    (hne : iB ≠ iA) (hgetB : s.root_dir[iB]? = some eB) (hliveB : eB.name.headD 0 ≠ 0)
    (hLB : IsChain s.fat_array eB.first_db_idx LB) : ∀ x ∈ LB, ¬ Usable s LA x := by
  intro x hx hU
  rcases hU with hmem | hz
  · exact hdis iB iA eB eA LB LA hiB hiA hne hgetB hgetA hliveB hliveA
      (isChain_isWalk _ _ _ hLB) hLA x hx hmem
  · obtain ⟨_, v, hv, hv0⟩ := isChain_mem _ _ _ hLB x hx
    rw [hv] at hz
    exact hv0 (Option.some.inj hz)

/-- A state confined to the blocks of `A` and the free blocks keeps the other
live entries, their chains and their data blocks. -/
theorem confined_keeps_others (s : FS) (h : FDEntry) (eA : RootDirEntry) (LA : List Nat)
    (s2 : FS) (heA : root_dir_at s h.fd_num = some eA) (hlive : eA.name.headD 0 ≠ 0)
    (hLA : IsWalk s.fat_array eA.first_db_idx LA) (hdis : WalksDisjoint s)
    (hc : Confined s h LA s2) :
    ∀ iB eB LB, iB < FS_FILE_MAX_COUNT → iB ≠ h.fd_num.toNat →
      s.root_dir[iB]? = some eB → eB.name.headD 0 ≠ 0 →
      IsChain s.fat_array eB.first_db_idx LB →
      s2.root_dir[iB]? = some eB ∧ IsChain s2.fat_array eB.first_db_idx LB ∧
      ∀ x ∈ LB, s2.fat_array[x]? = s.fat_array[x]? ∧
        s2.disk.data_blocks (x + s2.sblock.data_start_idx)
          = s.disk.data_blocks (x + s.sblock.data_start_idx) := by
  obtain ⟨hiA, hgetA, _⟩ := root_dir_at_some s h.fd_num eA heA
  obtain ⟨hsb, hoth, hkeep⟩ := hc
  intro iB eB LB hiB hne hgetB hliveB hLB
  have hnu := other_chain_not_usable s h.fd_num.toNat eA LA hdis hiA hgetA hlive hLA iB eB LB
    hiB hne hgetB hliveB hLB
  refine ⟨by rw [hoth iB hne]; exact hgetB,
    isChain_congr _ _ _ _ hLB (fun x hx => (hkeep x (hnu x hx)).1), fun x hx => ?_⟩
  rw [hsb]
  exact hkeep x (hnu x hx)

/-- After a call of `fs_write` confined to the blocks of `A` and the free
blocks, the walks of the FAT from the first blocks of distinct live entries
share no block. -/
theorem owned_walks_disjoint (s : FS) (h : FDEntry) (eA : RootDirEntry) (LA : List Nat)
    (s2 : FS) (heA : root_dir_at s h.fd_num = some eA) (hlive : eA.name.headD 0 ≠ 0)
    (hLA : IsWalk s.fat_array eA.first_db_idx LA)
    (hch : OthersInUse s h.fd_num.toNat) (hdis : WalksDisjoint s) (hc : Confined s h LA s2)
    (ho : Owned s h LA s2) : WalksDisjoint s2 := by
  obtain ⟨hiA, hgetA, _⟩ := root_dir_at_some s h.fd_num eA heA
  obtain ⟨_, hoth, hkeep⟩ := hc
  obtain ⟨S, hSU, hScl, hSf⟩ := ho
  have hother : ∀ k ek Wk, k < FS_FILE_MAX_COUNT → k ≠ h.fd_num.toNat →
      s2.root_dir[k]? = some ek → ek.name.headD 0 ≠ 0 →
      IsWalk s2.fat_array ek.first_db_idx Wk →
      s.root_dir[k]? = some ek ∧ IsChain s.fat_array ek.first_db_idx Wk ∧
        ∀ x ∈ Wk, ¬ Usable s LA x := by
    intro k ek Wk hk hne hget hl hWk
    rw [hoth k hne] at hget
    obtain ⟨L, hL⟩ := hch k ek hk hne hget hl
    have hnu := other_chain_not_usable s h.fd_num.toNat eA LA hdis hiA hgetA hlive hLA k ek L
      hk hne hget hl hL
    have hL2 : IsChain s2.fat_array ek.first_db_idx L :=
      isChain_congr _ _ _ _ hL (fun x hx => (hkeep x (hnu x hx)).1)
    have hWL : Wk = L := isWalk_unique _ _ _ _ hWk (isChain_isWalk _ _ _ hL2)
    rw [hWL]
    exact ⟨hget, hL, hnu⟩
  have hown : ∀ ek Wk, s2.root_dir[h.fd_num.toNat]? = some ek →
      IsWalk s2.fat_array ek.first_db_idx Wk → ∀ x ∈ Wk, Usable s LA x :=
    fun ek Wk hget hWk x hx =>
      hSU x (walk_within s2.fat_array S hScl Wk _ hWk (hSf ek hget) x hx)
  intro i j ei ej Wi Wj hi hj hij hei hej hli hlj hwi hwj x hxi hxj
  by_cases hiAeq : i = h.fd_num.toNat
  · have hjA : j ≠ h.fd_num.toNat := fun hjeq => hij (hiAeq.trans hjeq.symm)
    rw [hiAeq] at hei
    obtain ⟨_, _, hnu⟩ := hother j ej Wj hj hjA hej hlj hwj
    exact hnu x hxj (hown ei Wi hei hwi x hxi)
  · obtain ⟨hgi, hLi, hnui⟩ := hother i ei Wi hi hiAeq hei hli hwi
    by_cases hjAeq : j = h.fd_num.toNat
    · rw [hjAeq] at hej
      exact hnui x hxi (hown ej Wj hej hwj x hxj)
    · obtain ⟨hgj, hLj, _⟩ := hother j ej Wj hj hjAeq hej hlj hwj
      exact hdis i j ei ej Wi Wj hi hj hij hgi hgj hli hlj (isChain_isWalk _ _ _ hLi)
        (isChain_isWalk _ _ _ hLj) x hxi hxj

/-- Writes that take no block but block 0 are isolated: when fewer than
`2 ^ 31` bytes are asked for and either the blocks of the file cover the
write, or FAT entry 0 is free, the offset lies within the blocks of the file
and one more block covers the write, a call of `fs_write` that returns leaves
every other live entry that has a walk as it was, and the walks of distinct
live entries share no block afterwards. -/
theorem write_isolated_short (s : FS) (fd : Int) (data : List Nat) (count : Nat) (h : FDEntry)
    (eA : RootDirEntry) (LA : List Nat) (hM : Mounted s) (hopen : is_open s fd = true)
    (hh : s.fd_table[fd.toNat]? = some h) (heA : root_dir_at s h.fd_num = some eA)
    (hlive : eA.name.headD 0 ≠ 0) (hLA : IsWalk s.fat_array eA.first_db_idx LA)
    (hwalks : OthersWalk s h.fd_num.toNat) (hdis : WalksDisjoint s)
    (hsmall : count < 2 ^ 31)
    (hE : h.offset + count ≤ BLOCK_SIZE * LA.length ∨
      (s.fat_array[0]? = some 0 ∧ h.offset ≤ BLOCK_SIZE * LA.length ∧
        h.offset + count ≤ BLOCK_SIZE * (LA.length + 1)))
    (fuel : Nat) (r : Int) (s2 : FS)
    (hres : fs_write s fd (some data) count fuel = .done (r, s2)) :
    (∀ iB eB LB, iB < FS_FILE_MAX_COUNT → iB ≠ h.fd_num.toNat →
      s.root_dir[iB]? = some eB → eB.name.headD 0 ≠ 0 →
      IsWalk s.fat_array eB.first_db_idx LB →
      s2.root_dir[iB]? = some eB ∧ IsWalk s2.fat_array eB.first_db_idx LB ∧
      ∀ x ∈ LB, s2.fat_array[x]? = s.fat_array[x]? ∧
        s2.disk.data_blocks (x + s2.sblock.data_start_idx)
          = s.disk.data_blocks (x + s.sblock.data_start_idx)) ∧
    WalksDisjoint s2 := by
  obtain ⟨hiA, hgetA, _⟩ := root_dir_at_some s h.fd_num eA heA
  have hiAlen : h.fd_num.toNat < s.root_dir.length := (List.getElem?_eq_some_iff.1 hgetA).1
  have hsame : (∀ iB eB LB, iB < FS_FILE_MAX_COUNT → iB ≠ h.fd_num.toNat →
      s.root_dir[iB]? = some eB → eB.name.headD 0 ≠ 0 →
      IsWalk s.fat_array eB.first_db_idx LB →
      s.root_dir[iB]? = some eB ∧ IsWalk s.fat_array eB.first_db_idx LB ∧
      ∀ x ∈ LB, s.fat_array[x]? = s.fat_array[x]? ∧
        s.disk.data_blocks (x + s.sblock.data_start_idx)
          = s.disk.data_blocks (x + s.sblock.data_start_idx)) ∧
      WalksDisjoint s :=
    ⟨fun _ _ _ _ _ hget _ hLB => ⟨hget, hLB, fun _ _ => ⟨rfl, rfl⟩⟩, hdis⟩
  rcases Nat.eq_zero_or_pos count with hc0 | hc
  · subst hc0
    have hz := fs_write_zero s fd data fuel hM.mounted hopen
    rw [hz] at hres
    cases hres
    exact hsame
  · have hres2 := fs_write_mono s fd (some data) count fuel count _ hres
    have hk : LA.length = (BLOCK_SIZE * LA.length + (BLOCK_SIZE - 1)) / BLOCK_SIZE := by
      unfold BLOCK_SIZE
      omega
    have hoff : h.offset ≤ BLOCK_SIZE * LA.length := by
      rcases hE with h1 | ⟨_, h1, _⟩
      · omega
      · exact h1
    have hone : h.offset + count ≤ BLOCK_SIZE * (LA.length + 1) := by
      rcases hE with h1 | ⟨_, _, h1⟩
      · unfold BLOCK_SIZE at *
        omega
      · exact h1
    have hfree : BLOCK_SIZE * LA.length < h.offset + count → s.fat_array[0]? = some 0 := by
      intro hneed
      rcases hE with h1 | ⟨h1, _, _⟩
      · omega
      · exact h1
    have hz : eA.first_db_idx ≠ FAT_EOC →
        ((∀ x ∈ LA, s.fat_array[x]? ≠ some 0) ∧ s.fat_array[0]? ≠ some 0) ∨
        (h.offset + count ≤ BLOCK_SIZE * (LA.length + 1) ∧
          (h.offset + count ≤ BLOCK_SIZE * LA.length ∨ s.fat_array[0]? = some 0)) := by
      intro _
      refine Or.inr ⟨hone, ?_⟩
      rcases Nat.lt_or_ge (BLOCK_SIZE * LA.length) (h.offset + count) with h1 | h1
      · exact Or.inr (hfree h1)
      · exact Or.inl h1
    rcases fs_write_run_sized s fd data count (fuel + count) h eA LA (BLOCK_SIZE * LA.length)
        hM hopen hh heA hLA hk hoff hz hc hsmall (by omega) with
      ⟨_, _, hr⟩ | ⟨s1, first, L1, w, L2, j2, hcase, hM1, hw, hex, hr⟩
    · rw [hres2] at hr
      cases hr
      exact hsame
    · rw [hres2] at hr
      have hs2 : s2 = (write_finish w fd h h.fd_num.toNat eA).2 :=
        congrArg Prod.snd (Outcome.done.inj hr)
      obtain ⟨wopen, wbc⟩ := hw.disk_geo
      have wsb := hw.sblock_eq
      have wrd : w.s.sblock.rd_start_idx < w.s.disk.block_count := by
        rw [wsb, wbc]; exact hM1.rd_in
      obtain ⟨_, f2, _, _, f5, _⟩ := write_finish_state w fd h h.fd_num.toNat eA wopen wrd
      obtain ⟨g1, g2, _, _⟩ := write_finish_root_dir w fd h h.fd_num.toNat eA
      rw [← hs2] at f2 f5 g1 g2
      have hs1 : s1.sblock = s.sblock ∧
          (∀ i, i ≠ h.fd_num.toNat → s1.root_dir[i]? = s.root_dir[i]?) ∧
          (s1.root_dir.getD h.fd_num.toNat eA).first_db_idx = first ∧
          (s1.root_dir.getD h.fd_num.toNat eA).name = eA.name ∧
          s1.root_dir.length = s.root_dir.length := by
        rcases hcase with ⟨_, h1, h2, _⟩ | ⟨_, _, _, h1⟩
        · subst h1 h2
          refine ⟨rfl, fun _ _ => rfl, ?_, ?_, rfl⟩
          · rw [List.getD_eq_getElem?_getD, hgetA]
            rfl
          · rw [List.getD_eq_getElem?_getD, hgetA]
            rfl
        · subst h1
          refine ⟨rfl, ?_, ?_, ?_, ?_⟩
          · intro i hi
            show (s.root_dir.set _ _)[i]? = _
            rw [List.getElem?_set, if_neg (Ne.symm hi)]
          · show ((s.root_dir.set _ _).getD _ _).first_db_idx = _
            rw [List.getD_eq_getElem?_getD, List.getElem?_set, if_pos rfl, if_pos hiAlen]
            rfl
          · show ((s.root_dir.set _ _).getD _ _).name = _
            rw [List.getD_eq_getElem?_getD, List.getElem?_set, if_pos rfl, if_pos hiAlen]
            rfl
          · show (s.root_dir.set _ _).length = _
            rw [List.length_set]
      obtain ⟨a1, a2, a3, a4, a5⟩ := hs1
      -- the blocks of the other live entries
      have hkeep : ∀ iB eB LB, iB < FS_FILE_MAX_COUNT → iB ≠ h.fd_num.toNat →
          s.root_dir[iB]? = some eB → eB.name.headD 0 ≠ 0 →
          IsWalk s.fat_array eB.first_db_idx LB →
          ∀ x ∈ LB, x ∉ L2 ∧ s2.fat_array[x]? = s.fat_array[x]? ∧
            s2.disk.data_blocks (x + s2.sblock.data_start_idx)
              = s.disk.data_blocks (x + s.sblock.data_start_idx) := by
        intro iB eB LB hiB hne hget hl hLB x hx
        have hd : ∀ y ∈ LB, y ∉ LA :=
          hdis iB h.fd_num.toNat eB eA LB LA hiB hiA hne hget hgetA hl hlive hLB hLA
        obtain ⟨k1, k2, k3⟩ := write_keeps_others s data count h eA LA (BLOCK_SIZE * LA.length)
          hM hLA hk hc s1 first L1 w L2 j2 hcase hw hex eB.first_db_idx LB hLB hd
          (fun hneed => Or.inl ⟨hfree hneed, hone⟩) x hx
        refine ⟨k1, by rw [g2]; exact k2, ?_⟩
        rw [f5, f2, wsb, a1]
        exact k3
      have hrd : ∀ i, i ≠ h.fd_num.toNat → s2.root_dir[i]? = s.root_dir[i]? := by
        intro i hi
        rw [g1, hw.root_dir_eq.1, List.getElem?_set, if_neg (Ne.symm hi)]
        exact a2 i hi
      have hwalk2 : ∀ iB eB LB, iB < FS_FILE_MAX_COUNT → iB ≠ h.fd_num.toNat →
          s.root_dir[iB]? = some eB → eB.name.headD 0 ≠ 0 →
          IsWalk s.fat_array eB.first_db_idx LB → IsWalk s2.fat_array eB.first_db_idx LB :=
        fun iB eB LB hiB hne hget hl hLB =>
          isWalk_congr _ _ _ _ hLB (fun x hx => (hkeep iB eB LB hiB hne hget hl hLB x hx).2.1)
      refine ⟨fun iB eB LB hiB hne hget hl hLB =>
        ⟨by rw [hrd iB hne]; exact hget, hwalk2 iB eB LB hiB hne hget hl hLB,
          fun x hx => (hkeep iB eB LB hiB hne hget hl hLB x hx).2⟩, ?_⟩
      -- the walks after the call
      have hother : ∀ k ek Wk, k < FS_FILE_MAX_COUNT → k ≠ h.fd_num.toNat →
          s2.root_dir[k]? = some ek → ek.name.headD 0 ≠ 0 →
          IsWalk s2.fat_array ek.first_db_idx Wk →
          s.root_dir[k]? = some ek ∧ IsWalk s.fat_array ek.first_db_idx Wk ∧
            ∀ x ∈ Wk, x ∉ L2 := by
        intro k ek Wk hk hne hget hl hWk
        rw [hrd k hne] at hget
        obtain ⟨LB, hLB⟩ := hwalks k ek hk hne hget hl
        have hWL : Wk = LB :=
          isWalk_unique _ _ _ _ hWk (hwalk2 k ek LB hk hne hget hl hLB)
        rw [hWL]
        exact ⟨hget, hLB, fun x hx => (hkeep k ek LB hk hne hget hl hLB x hx).1⟩
      have hown : ∀ ek Wk, s2.root_dir[h.fd_num.toNat]? = some ek →
          IsWalk s2.fat_array ek.first_db_idx Wk → Wk = L2 := by
        intro ek Wk hget hWk
        rw [g1, hw.root_dir_eq.1, List.getElem?_set, if_pos rfl,
          if_pos (by rw [a5]; exact hiAlen)] at hget
        have hek := Option.some.inj hget
        rw [← hek] at hWk
        simp only at hWk
        rw [a3, g2] at hWk
        exact isWalk_unique _ _ _ _ hWk hw.chain
      intro i j ei ej Wi Wj hi hj hij hei hej hli hlj hwi hwj x hxi hxj
      by_cases hiAeq : i = h.fd_num.toNat
      · have hjA : j ≠ h.fd_num.toNat := fun hjeq => hij (hiAeq.trans hjeq.symm)
        rw [hiAeq] at hei
        obtain ⟨_, _, hnu⟩ := hother j ej Wj hj hjA hej hlj hwj
        rw [hown ei Wi hei hwi] at hxi
        exact hnu x hxj hxi
      · obtain ⟨hgi, hLi, hnui⟩ := hother i ei Wi hi hiAeq hei hli hwi
        by_cases hjAeq : j = h.fd_num.toNat
        · rw [hjAeq] at hej
          rw [hown ej Wj hej hwj] at hxj
          exact hnui x hxi hxj
        · obtain ⟨hgj, hLj, _⟩ := hother j ej Wj hj hjAeq hej hlj hwj
          exact hdis i j ei ej Wi Wj hi hj hij hgi hgj hli hlj hLi hLj x hxi hxj

theorem othersNoZero_of_check (s : FS) (iA : Nat) (h : others_no_zero_check s iA = true) :
    OthersNoZero s iA := by
  intro i e L hi hne hg hlive hw x hx
  unfold others_no_zero_check at h
  rw [List.all_eq_true] at h
  have := h i (List.mem_range.2 hi)
  rw [hg] at this
  simp only at this
  rw [walk_of_complete _ _ _ L hw (walk_length_le _ _ _ hw)] at this
  simp only [Bool.or_eq_true, beq_iff_eq, List.all_eq_true, bne_iff_ne, ne_eq] at this
  rcases this with h1 | h1 | h1
  · exact absurd h1 hne
  · exact absurd h1 hlive
  · exact h1 x hx

theorem othersWalk_of_check (s : FS) (iA : Nat) (h : walks_check s = true) :
    OthersWalk s iA := by
  intro i e hi _ hget hlive
  unfold walks_check at h
  rw [List.all_eq_true] at h
  have hmem : e ∈ s.root_dir.take FS_FILE_MAX_COUNT := by
    apply List.mem_iff_getElem?.2
    exact ⟨i, by rw [List.getElem?_take_of_lt hi]; exact hget⟩
  have := h e hmem
  simp only [Bool.or_eq_true, beq_iff_eq] at this
  rcases this with h0 | h1
  · exact absurd h0 hlive
  · obtain ⟨l, hl⟩ := Option.isSome_iff_exists.1 h1
    exact ⟨l, walk_of_sound _ _ _ l hl⟩

theorem walksDisjoint_of_check (s : FS) (h : walks_disjoint_check s = true) :
    WalksDisjoint s := by
  intro i j ei ej Wi Wj hi hj hij hei hej hli hlj hwi hwj x hx
  unfold walks_disjoint_check at h
  rw [List.all_eq_true] at h
  exact walks_apart_of_check s j (h j (List.mem_range.2 hj)) ej Wj i ei Wi hej hlj hwj hi hij hei
    hli hwi x hx

/-- C20 (amended): writes are isolated between files, the chain of an entry
being the walk the code follows in the FAT from its first block. In a mounted
state where following the FAT from the first block of every live directory
entry ends at `FAT_EOC` (a walk, which has no repetition; `hLA` for the entry
written to, `OthersWalk` for the others), the walks of distinct live entries
are pairwise disjoint (`WalksDisjoint`), and handle `fd` refers to a live
entry `eA` whose blocks `LA` reach the block of the handle's offset (there are
at least `offset / 4096` of them, as there are with offset at most the size
and `ceil(size / 4096)` blocks), and where either no FAT entry of the chain of
a live entry other than `eA` holds 0 (`OthersNoZero`), or the write takes no
block but block 0: `count < 2 ^ 31` and either the blocks of `eA` cover the
write (`offset + count <= 4096 * len(LA)`), or FAT entry 0 is free, the offset
lies within the blocks (`offset <= 4096 * len(LA)`) and one more block covers
the write:
(1) every call `fs_write(fd, data, count)` that returns leaves every other live
entry `eB` as it was, that is its directory entry (name, size, first block),
the FAT entries of its chain, which is still its chain, and the contents of
its data blocks; and afterwards the walks of distinct live entries are again
pairwise disjoint, in particular their chains of entries in use are
(`ChainsDisjoint`);
(2) the call returns when `count < 2 ^ 31` and the fuel covers `count`. -/
theorem write_isolated (s : FS) (fd : Int) (data : List Nat) (count : Nat) (h : FDEntry)
    (eA : RootDirEntry) (LA : List Nat) (hM : Mounted s) (hopen : is_open s fd = true)
    (hh : s.fd_table[fd.toNat]? = some h) (heA : root_dir_at s h.fd_num = some eA)
    (hlive : eA.name.headD 0 ≠ 0) (hLA : IsWalk s.fat_array eA.first_db_idx LA)
    (hreach : h.offset / BLOCK_SIZE ≤ LA.length)
    (hwalks : OthersWalk s h.fd_num.toNat) (hdis : WalksDisjoint s)
    (hch : OthersNoZero s h.fd_num.toNat ∨
      (count < 2 ^ 31 ∧
        (h.offset + count ≤ BLOCK_SIZE * LA.length ∨
          (s.fat_array[0]? = some 0 ∧ h.offset ≤ BLOCK_SIZE * LA.length ∧
            h.offset + count ≤ BLOCK_SIZE * (LA.length + 1))))) :
    (∀ fuel r s2, fs_write s fd (some data) count fuel = .done (r, s2) →
      (∀ iB eB LB, iB < FS_FILE_MAX_COUNT → iB ≠ h.fd_num.toNat →
        s.root_dir[iB]? = some eB → eB.name.headD 0 ≠ 0 →
        IsWalk s.fat_array eB.first_db_idx LB →
        s2.root_dir[iB]? = some eB ∧ IsWalk s2.fat_array eB.first_db_idx LB ∧
        ∀ x ∈ LB, s2.fat_array[x]? = s.fat_array[x]? ∧
          s2.disk.data_blocks (x + s2.sblock.data_start_idx)
            = s.disk.data_blocks (x + s.sblock.data_start_idx)) ∧
      WalksDisjoint s2 ∧ ChainsDisjoint s2) ∧
    (∀ fuel, count < 2 ^ 31 → count ≤ fuel →
      ∃ r s2, fs_write s fd (some data) count fuel = .done (r, s2)) := by
  constructor
  · intro fuel r s2 hres
    rcases hch with hnz | ⟨hsmall, hE⟩
    · have hch2 : OthersInUse s h.fd_num.toNat := by
        intro i e hi hne hget hl
        obtain ⟨L, hL⟩ := hwalks i e hi hne hget hl
        exact ⟨L, isChain_of_walk _ _ _ hL (hnz i e L hi hne hget hl hL)⟩
      have hc := fs_write_confined s fd data count fuel h eA LA r s2 hM hh heA hLA hres
      have ho := fs_write_owned s fd data count fuel h eA LA r s2 hM hh heA hLA hres
      have hw := owned_walks_disjoint s h eA LA s2 heA hlive hLA hch2 hdis hc ho
      refine ⟨?_, hw, walksDisjoint_chains s2 hw⟩
      intro iB eB LB hiB hne hget hl hLB
      have hcB : IsChain s.fat_array eB.first_db_idx LB :=
        isChain_of_walk _ _ _ hLB (hnz iB eB LB hiB hne hget hl hLB)
      obtain ⟨k1, k2, k3⟩ := confined_keeps_others s h eA LA s2 heA hlive hLA hdis hc iB eB LB
        hiB hne hget hl hcB
      exact ⟨k1, isChain_isWalk _ _ _ k2, k3⟩
    · obtain ⟨k1, hw⟩ := write_isolated_short s fd data count h eA LA hM hopen hh heA hlive hLA
        hwalks hdis hsmall hE fuel r s2 hres
      exact ⟨k1, hw, walksDisjoint_chains s2 hw⟩
  · intro fuel hsmall hfuel
    exact fs_write_returns s fd data count fuel h eA LA hM hopen hh heA hLA hreach hsmall hfuel

set_option maxRecDepth 1000000 in
/-- The statement of `write_isolated` at three volumes. At `vol_two`, 3 bytes
are appended to the file `"a"` (blocks 1 and 2) through handle 0: the call
returns, the entry of the file `"b"` and its chain, block 3, are as before, and
the walks of the FAT are disjoint. At `vol_linked0`, where the file `"a"`
written to has the blocks 1, 0 with FAT entry 1 holding 0, one byte is
appended through handle 0: the call returns and the entry of the empty file
`"b"` is as before. At `vol_linked0_ab`, where the chain 1, 0 of the other
file `"a"` holds a 0 entry, 3 bytes are written through handle 1 inside the
block 2 of the file `"b"`: the call returns, and the entry of `"a"`, its chain
and the FAT entry of block 1 are as before. -/
theorem write_isolated_witness :
    (∃ r s2, fs_write vol_two 0 (some [1, 2, 3]) 3 3 = .done (r, s2) ∧
      WalksDisjoint s2 ∧ ChainsDisjoint s2 ∧
      s2.root_dir[1]? = some (file_entry 98 100 3) ∧ IsWalk s2.fat_array 3 [3] ∧
      s2.disk.data_blocks (3 + s2.sblock.data_start_idx)
        = vol_two.disk.data_blocks (3 + vol_two.sblock.data_start_idx)) ∧
    (∃ r s2, fs_write vol_linked0 0 (some [9]) 1 1 = .done (r, s2) ∧
      WalksDisjoint s2 ∧ s2.root_dir[1]? = some (file_entry 98 0 FAT_EOC)) ∧
    (vol_linked0_ab.fat_array[1]? = some 0 ∧
      ∃ r s2, fs_write vol_linked0_ab 1 (some [1, 2, 3]) 3 3 = .done (r, s2) ∧
        WalksDisjoint s2 ∧ s2.root_dir[0]? = some (file_entry 97 8192 1) ∧
        IsWalk s2.fat_array 1 [1, 0] ∧ s2.fat_array[1]? = some 0) :=
  have hw := write_isolated vol_two 0 [1, 2, 3] 3 ⟨0, 5000⟩ (file_entry 97 5000 1) [1, 2]
    ⟨by decide, by decide, by decide, by decide, by decide, by decide, by decide, by decide⟩
    (by decide) (by decide) (by decide) (by decide)
    ⟨rfl, by decide, 2, by decide, rfl, by decide, FAT_EOC, by decide, rfl⟩
    (by decide)
    (othersWalk_of_check vol_two _ (by decide))
    (walksDisjoint_of_check vol_two (by decide))
    (Or.inl (othersNoZero_of_check vol_two _ (by decide)))
  have hw2 := write_isolated vol_linked0 0 [9] 1 ⟨0, 8192⟩ (file_entry 97 8192 1) [1, 0]
    ⟨by decide, by decide, by decide, by decide, by decide, by decide, by decide, by decide⟩
    (by decide) (by decide) (by decide) (by decide)
    ⟨rfl, by decide, 0, by decide, rfl, by decide, FAT_EOC, by decide, rfl⟩
    (by decide)
    (othersWalk_of_check vol_linked0 _ (by decide))
    (walksDisjoint_of_check vol_linked0 (by decide))
    (Or.inl (othersNoZero_of_check vol_linked0 _ (by decide)))
  have hw3 := write_isolated vol_linked0_ab 1 [1, 2, 3] 3 ⟨1, 0⟩ (file_entry 98 100 2) [2]
    ⟨by decide, by decide, by decide, by decide, by decide, by decide, by decide, by decide⟩
    (by decide) (by decide) (by decide) (by decide)
    ⟨rfl, by decide, FAT_EOC, by decide, rfl⟩
    (by decide)
    (othersWalk_of_check vol_linked0_ab _ (by decide))
    (walksDisjoint_of_check vol_linked0_ab (by decide))
    (Or.inr ⟨by decide, Or.inl (by decide)⟩)
  have hret := hw.2 3 (by decide) (by decide)
  have hret2 := hw2.2 1 (by decide) (by decide)
  have hret3 := hw3.2 3 (by decide) (by decide)
  match hret, hret2, hret3 with
  | ⟨r, s2, hres⟩, ⟨r2, t2, hres2⟩, ⟨r3, t3, hres3⟩ =>
    have hB := (hw.1 3 r s2 hres).1 1 (file_entry 98 100 3) [3] (by decide) (by decide)
      (by decide) (by decide) ⟨rfl, by decide, FAT_EOC, by decide, rfl⟩
    have hB2 := (hw2.1 1 r2 t2 hres2).1 1 (file_entry 98 0 FAT_EOC) [] (by decide) (by decide)
      (by decide) (by decide) rfl
    have hB3 := (hw3.1 3 r3 t3 hres3).1 0 (file_entry 97 8192 1) [1, 0] (by decide) (by decide)
      (by decide) (by decide)
      ⟨rfl, by decide, 0, by decide, rfl, by decide, FAT_EOC, by decide, rfl⟩
    ⟨⟨r, s2, hres, (hw.1 3 r s2 hres).2.1, (hw.1 3 r s2 hres).2.2, hB.1, hB.2.1,
      (hB.2.2 3 (List.mem_singleton.2 rfl)).2⟩,
      ⟨r2, t2, hres2, (hw2.1 1 r2 t2 hres2).2.1, hB2.1⟩,
      ⟨by decide, r3, t3, hres3, (hw3.1 3 r3 t3 hres3).2.1, hB3.1, hB3.2.1,
        ((hB3.2.2 1 (List.mem_cons_self _ _)).1).trans (by decide)⟩⟩

set_option maxRecDepth 1000000 in
/-- C20 as stated fails in three ways. (1) The chain of another entry has a
FAT entry that holds 0 and the write needs a block. On the mounted volume
`vol_linked0` the file `"a"` (slot 0, 8192 bytes) has the blocks 1, 0: FAT
entry 1 holds 0 and FAT entry 0 holds `FAT_EOC`, and reading the file from
offset 0 yields 8192 bytes, the first of them 0. The file `"b"` (slot 1) is
empty and handle 1 refers to it at offset 0; every live entry has a walk and
the walks share no block. Writing one byte `9` through handle 1 returns 1 and
takes block 1, the first FAT entry that holds 0: afterwards FAT entry 1 holds
`FAT_EOC`, `"b"` has first block 1, and the first byte of `"a"` reads 9. (2)
The chain of the file written to does not reach the handle's offset. On the
volume `vol_short_chain` every live entry has a chain of entries in use, the
chains are disjoint, and handle 0 refers to `"a"` (size 8192, chain of the
one block 1) at offset 8192; `fs_write` walks two entries from block 1 and
reads `fat_array[FAT_EOC]`, outside the array: the call does not return. (3)
The `int` value of the count is negative. On the volume `vol_two` a write of
`2 ^ 31` bytes hands `memcpy` a negative length: the call does not return. -/
theorem write_changes_other_file :
    ((vol_linked0.root_dir =
        [file_entry 97 8192 1, file_entry 98 0 FAT_EOC] ++ List.replicate 126 empty_entry ∧
      IsWalk vol_linked0.fat_array 1 [1, 0] ∧
      vol_linked0.fat_array.take 3 = [FAT_EOC, 0, 0] ∧
      fd_num_of vol_linked0 1 = some 1 ∧ offset_of vol_linked0 1 = some 0 ∧
      Mounted vol_linked0 ∧ OthersWalk vol_linked0 1 ∧ WalksDisjoint vol_linked0) ∧
    (fs_read (fs_lseek vol_linked0 0 0).state 0 false 8192).map (fun r => (r.1, r.2.1.take 1))
      = .done (8192, [0]) ∧
    (fs_write vol_linked0 1 (some [9]) 1 1).map
        (fun r => (r.1, r.2.root_dir.take 2, r.2.fat_array.take 3))
      = .done (1, [file_entry 97 8192 1, file_entry 98 1 1], [FAT_EOC, FAT_EOC, 0]) ∧
    (fs_read (fs_lseek (fs_write vol_linked0 1 (some [9]) 1 1).state 0 0).state 0 false
        8192).map (fun r => (r.1, r.2.1.take 1))
      = .done (4096, [9])) ∧
    (Mounted vol_short_chain ∧ HasChains vol_short_chain ∧ ChainsDisjoint vol_short_chain ∧
      vol_short_chain.root_dir.take 2 = [file_entry 97 8192 1, file_entry 98 100 2] ∧
      IsChain vol_short_chain.fat_array 1 [1] ∧
      fd_num_of vol_short_chain 0 = some 0 ∧ offset_of vol_short_chain 0 = some 8192 ∧
      (fs_write vol_short_chain 0 (some [9]) 1 1).map (fun r => r.1) = .fault) ∧
    (HasChains vol_two ∧ ChainsDisjoint vol_two ∧
      (fs_write vol_two 0 (some [9]) (2 ^ 31) 1).map (fun r => r.1) = .fault) := by
  refine ⟨⟨⟨by decide, ⟨rfl, by decide, 0, by decide, rfl, by decide, FAT_EOC, by decide, rfl⟩,
    by decide, by decide, by decide,
    ⟨by decide, by decide, by decide, by decide, by decide, by decide, by decide, by decide⟩,
    othersWalk_of_check _ _ (by decide), walksDisjoint_of_check _ (by decide)⟩,
    by decide, by decide, by decide⟩,
    ⟨⟨by decide, by decide, by decide, by decide, by decide, by decide, by decide, by decide⟩,
      hasChains_of_check _ (by decide), chains_disjoint_of_check _ (by decide), by decide,
      ⟨rfl, by decide, FAT_EOC, by decide, by decide, rfl⟩, by decide, by decide, by decide⟩,
    ⟨hasChains_of_check _ (by decide), chains_disjoint_of_check _ (by decide), by decide⟩⟩

end FileSystem
